import Mathlib

/-!
# openHiTLS block-cipher mode engine: a shallow embedding

Embedding of `crypto/modes/src/modes.c`, `crypto/modes/src/modes_cfb.c` and
`crypto/modes/src/asm_aes_ctr.c`.

Conventions of the embedding:
* a `uint8_t` datum is a `UInt8`; buffers are `List UInt8`; a read `p[i]` is `p.getD i 0`
  and a write `p[i] = v` is `p.set i v` (both are only meaningful in bounds, as in C);
* lengths, indices and counters are `Nat`, with an explicit `% 2 ^ w` wherever the C
  arithmetic of width `w` can wrap;
* a function that writes through pointer arguments returns the new values in a tuple,
  the status code first;
* a `for`/`while` loop whose trip count is known on entry is a fold over the index range,
  any other loop is a recursive function.
-/

/-! ## Status codes and enumerations (`crypt_errno.h`, `crypt_algid.h`, `crypt_types.h`) -/

/-- Status codes returned by the mode engine and by the DRBG dispatch. The header giving
their numeric values is not part of the sources at hand; only their being pairwise distinct
is used. `primitive code` stands for a failure code handed up by a block primitive. -/
inductive RetCode where
  | CRYPT_SUCCESS
  | CRYPT_NULL_INPUT
  | CRYPT_INVALID_ARG
  | CRYPT_MEM_ALLOC_FAIL
  | CRYPT_SECUREC_FAIL
  | CRYPT_EAL_BUFF_LEN_NOT_ENOUGH
  | CRYPT_EAL_CIPHER_DATA_ERROR
  | CRYPT_MODE_ERR_INPUT_LEN
  | CRYPT_MODE_BUFF_LEN_NOT_ENOUGH
  | CRYPT_MODES_IVLEN_ERROR
  | CRYPT_MODES_CTRL_TYPE_ERROR
  | CRYPT_MODES_METHODS_NOT_SUPPORT
  | CRYPT_MODES_ERR_FEEDBACKSIZE
  | CRYPT_MODES_FEEDBACKSIZE_NOT_SUPPORT
  | CRYPT_MODES_PADDING_NOT_SUPPORT
  | CRYPT_EAL_ERR_ALGID
  | primitive (code : Nat)
  deriving DecidableEq, Repr

/-- Padding selector `CRYPT_PaddingType`; `CRYPT_PADDING_MAX_COUNT` stands for every
value outside the five schemes and "none" (the `default:` arm of each `switch`). -/
inductive CRYPT_PaddingType where
  | CRYPT_PADDING_NONE
  | CRYPT_PADDING_ZEROS
  | CRYPT_PADDING_ISO7816
  | CRYPT_PADDING_X923
  | CRYPT_PADDING_PKCS5
  | CRYPT_PADDING_PKCS7
  | CRYPT_PADDING_MAX_COUNT
  deriving DecidableEq, Repr

/-- Cipher algorithm identifiers `CRYPT_CIPHER_AlgId` that `modes.c` names;
`CRYPT_CIPHER_MAX` stands for every other value. -/
inductive CRYPT_CIPHER_AlgId where
  | CRYPT_CIPHER_AES128_CBC | CRYPT_CIPHER_AES128_ECB | CRYPT_CIPHER_AES128_CTR
  | CRYPT_CIPHER_AES128_CCM | CRYPT_CIPHER_AES128_GCM | CRYPT_CIPHER_AES128_CFB
  | CRYPT_CIPHER_AES128_OFB
  | CRYPT_CIPHER_AES192_CBC | CRYPT_CIPHER_AES192_ECB | CRYPT_CIPHER_AES192_CTR
  | CRYPT_CIPHER_AES192_CCM | CRYPT_CIPHER_AES192_GCM | CRYPT_CIPHER_AES192_CFB
  | CRYPT_CIPHER_AES192_OFB
  | CRYPT_CIPHER_AES256_CBC | CRYPT_CIPHER_AES256_ECB | CRYPT_CIPHER_AES256_CTR
  | CRYPT_CIPHER_AES256_CCM | CRYPT_CIPHER_AES256_GCM | CRYPT_CIPHER_AES256_CFB
  | CRYPT_CIPHER_AES256_OFB
  | CRYPT_CIPHER_SM4_XTS | CRYPT_CIPHER_SM4_CBC | CRYPT_CIPHER_SM4_ECB
  | CRYPT_CIPHER_SM4_CTR | CRYPT_CIPHER_SM4_GCM | CRYPT_CIPHER_SM4_CFB
  | CRYPT_CIPHER_SM4_OFB
  | CRYPT_CIPHER_CHACHA20_POLY1305
  | CRYPT_CIPHER_MAX
  deriving DecidableEq, Repr

open RetCode CRYPT_PaddingType CRYPT_CIPHER_AlgId

/-! ## C arithmetic and loops -/

/-- Subtraction of two `uint32_t` values: wraps modulo `2 ^ 32`. -/
def sub32 (a b : Nat) : Nat := (a + 2 ^ 32 - b % 2 ^ 32) % 2 ^ 32

/-- Subtraction of two values stored back into a `uint8_t`: wraps modulo `2 ^ 8`. -/
def sub8 (a b : Nat) : Nat := (a + 2 ^ 8 - b % 2 ^ 8) % 2 ^ 8

/-- C truth value of a comparison, as the integer `0` or `1`. -/
def cbool (p : Bool) : Nat := if p then 1 else 0

/-- The loop `for (i = lo; i < hi; i++) s = body(i, s);`. -/
def forLoop {σ : Type} (lo hi : Nat) (body : Nat → σ → σ) (s : σ) : σ :=
  (List.range' lo (hi - lo)).foldl (fun acc i => body i acc) s

/-- The call `memcpy(dst + off, src, src.length)`: overwrites `dst` from index `off`. -/
def memcpyAt (dst : List UInt8) (off : Nat) (src : List UInt8) : List UInt8 :=
  dst.take off ++ src ++ dst.drop (off + src.length)

/-! ## Padding and unpadding (`modes.c`) -/

/-- `IfXts`: membership of the id in the one-element list `XTS_list`. -/
def IfXts (id : CRYPT_CIPHER_AlgId) : Bool :=
  [CRYPT_CIPHER_SM4_XTS].any (fun x => decide (id = x))

/-- The `while (*(p + len) == 0 && len > 0) len--;` loop of `UnPaddingISO7816`. -/
def UnPaddingISO7816.scan (p : List UInt8) : Nat → Nat
  | 0 => 0
  | len + 1 => if p.getD (len + 1) 0 = 0 then UnPaddingISO7816.scan p len else len + 1

/-- `UnPaddingISO7816(pad, padLen, finLen)`: returns the status and the new `*finLen`. -/
def UnPaddingISO7816 (pad : List UInt8) (padLen : Nat) (finLen : Nat) : RetCode × Nat :=
  let len := UnPaddingISO7816.scan pad (sub32 padLen 1)
  let len := if pad.getD len 0 = 0x80 then len else padLen
  if len = padLen then (CRYPT_EAL_CIPHER_DATA_ERROR, finLen)
  else (CRYPT_SUCCESS, len)

/-- The mismatch accumulator `check` of `UnPaddingX923` just before it is tested. -/
def UnPaddingX923.check (pad : List UInt8) (padLen : Nat) : Nat :=
  let len := (pad.getD (sub32 padLen 1) 0).toNat
  let check := 0 ||| cbool (decide (len > padLen))
  let pos := sub32 padLen len
  forLoop 0 (sub32 padLen 1)
    (fun i check => check ||| ((pad.getD i 0).toNat * cbool (decide (i ≥ pos)))) check

/-- `UnPaddingX923(pad, padLen, finLen)`: returns the status and the new `*finLen`. -/
def UnPaddingX923 (pad : List UInt8) (padLen : Nat) (finLen : Nat) : RetCode × Nat :=
  let len := (pad.getD (sub32 padLen 1) 0).toNat
  if UnPaddingX923.check pad padLen ≠ 0 then (CRYPT_EAL_CIPHER_DATA_ERROR, finLen)
  else (CRYPT_SUCCESS, sub32 padLen len)

/-- The mismatch accumulator `check` of `UnPaddingPkcs` just before it is tested. -/
def UnPaddingPkcs.check (pad : List UInt8) (padLen : Nat) : Nat :=
  let len := (pad.getD (sub32 padLen 1) 0).toNat
  let check := 0 ||| cbool (decide (len = 0) || decide (len > padLen))
  let pos := sub32 padLen len
  forLoop 0 padLen
    (fun i check => check ||| (((pad.getD i 0).toNat ^^^ len) * cbool (decide (i ≥ pos)))) check

/-- `UnPaddingPkcs(pad, padLen, finLen)`: returns the status and the new `*finLen`. -/
def UnPaddingPkcs (pad : List UInt8) (padLen : Nat) (finLen : Nat) : RetCode × Nat :=
  let len := (pad.getD (sub32 padLen 1) 0).toNat
  if UnPaddingPkcs.check pad padLen ≠ 0 then (CRYPT_EAL_CIPHER_DATA_ERROR, finLen)
  else (CRYPT_SUCCESS, sub32 padLen len)

/-- `Mode_BlockUnPadding(padding, pad, padLen, dataLen)`: returns the status and the new
`*dataLen`. The `default:` arm keeps `ret = 0`, which is `CRYPT_SUCCESS`. -/
def Mode_BlockUnPadding (padding : CRYPT_PaddingType) (pad : List UInt8) (padLen : Nat)
    (dataLen : Nat) : RetCode × Nat :=
  let len := dataLen
  match padding with
  | CRYPT_PADDING_ISO7816 => UnPaddingISO7816 pad padLen len
  | CRYPT_PADDING_X923 => UnPaddingX923 pad padLen len
  | CRYPT_PADDING_PKCS5 => UnPaddingPkcs pad padLen len
  | CRYPT_PADDING_PKCS7 => UnPaddingPkcs pad padLen len
  | _ => (CRYPT_SUCCESS, len)

/-- `MODES_BlockPadding(algId, padding, blockSize, data, dataLen)`: returns the status,
the new contents of `data` and the new `*dataLen`. `pad[i]` is `data[tempLen + i]`. -/
def MODES_BlockPadding (algId : CRYPT_CIPHER_AlgId) (padding : CRYPT_PaddingType)
    (blockSize : Nat) (data : List UInt8) (dataLen : Nat) :
    RetCode × List UInt8 × Nat :=
  let tempLen := dataLen
  let padLen := sub8 blockSize tempLen
  let dataLen := (dataLen + padLen) % 2 ^ 8
  match padding with
  | CRYPT_PADDING_NONE =>
    if tempLen % blockSize ≠ 0 then
      (if IfXts algId then CRYPT_SUCCESS else CRYPT_MODE_ERR_INPUT_LEN, data, tempLen)
    else (CRYPT_SUCCESS, data, tempLen)
  | CRYPT_PADDING_ZEROS =>
    (CRYPT_SUCCESS, forLoop 0 padLen (fun i d => d.set (tempLen + i) 0x00) data, dataLen)
  | CRYPT_PADDING_ISO7816 =>
    let data := data.set (tempLen + 0) 0x80
    (CRYPT_SUCCESS, forLoop 1 padLen (fun i d => d.set (tempLen + i) 0x00) data, dataLen)
  | CRYPT_PADDING_X923 =>
    let data := forLoop 0 (padLen - 1) (fun i d => d.set (tempLen + i) 0x00) data
    (CRYPT_SUCCESS, data.set (tempLen + padLen - 1) (UInt8.ofNat padLen), dataLen)
  | CRYPT_PADDING_PKCS5 =>
    (CRYPT_SUCCESS,
      forLoop 0 padLen (fun i d => d.set (tempLen + i) (UInt8.ofNat padLen)) data, dataLen)
  | CRYPT_PADDING_PKCS7 =>
    (CRYPT_SUCCESS,
      forLoop 0 padLen (fun i d => d.set (tempLen + i) (UInt8.ofNat padLen)) data, dataLen)
  | CRYPT_PADDING_MAX_COUNT => (CRYPT_INVALID_ARG, data, tempLen)

/-! ## Contexts (`modes_local.h`, `crypt_local_types.h`) -/

/-- Symmetric primitive identifiers `CRYPT_SYM_AlgId` named by the method tables. -/
inductive CRYPT_SYM_AlgId where
  | CRYPT_SYM_AES128 | CRYPT_SYM_AES192 | CRYPT_SYM_AES256
  | CRYPT_SYM_CHACHA20 | CRYPT_SYM_SM4 | CRYPT_SYM_MAX
  deriving DecidableEq, Repr

open CRYPT_SYM_AlgId

/-- Method table `EAL_SymMethod` of a block primitive. A primitive key context is the raw
bytes of the `ctxSize`-byte allocation; `encryptBlock ctx in` stands for
`encryptBlock(ctx, in, out, len)` with `len = in.length` and yields the status and the
`len` bytes written to `out`. -/
structure EAL_SymMethod where
  setEncryptKey : List UInt8 → List UInt8 → RetCode × List UInt8
  setDecryptKey : List UInt8 → List UInt8 → RetCode × List UInt8
  encryptBlock : List UInt8 → List UInt8 → RetCode × List UInt8
  decryptBlock : List UInt8 → List UInt8 → RetCode × List UInt8
  cipherDeInitCtx : List UInt8 → List UInt8
  blockSize : Nat
  ctxSize : Nat
  algId : CRYPT_SYM_AlgId

/-- Context `MODES_CipherCommonCtx`: key context, method table, IV register `iv`, scratch
buffer `buf`, and the `uint8_t` fields `blockSize` and `offset`. -/
structure MODES_CipherCommonCtx where
  ciphCtx : List UInt8
  ciphMeth : EAL_SymMethod
  iv : List UInt8
  buf : List UInt8
  blockSize : Nat
  offset : Nat

/-- Context `MODES_CipherCtx`: the common context, the algorithm id, the cache `data`
(a buffer of `EAL_MAX_BLOCK_LENGTH` bytes) with its length `dataLen` (`uint8_t`), the
padding selector and the direction flag. -/
structure MODES_CipherCtx where
  commonCtx : MODES_CipherCommonCtx
  algId : CRYPT_CIPHER_AlgId
  data : List UInt8
  dataLen : Nat
  pad : CRYPT_PaddingType
  enc : Bool

/-- The `blockUpdate` argument of the generic engine, called as
`blockUpdate(&ctx->commonCtx, in, out, len)` with `len = in.length`: it yields the status,
the common context it leaves behind and the bytes it wrote to `out`. -/
abbrev BlockUpdate :=
  MODES_CipherCommonCtx → List UInt8 → RetCode × MODES_CipherCommonCtx × List UInt8

/-! ## The generic streaming engine (`modes.c`)

Output pointers are non-NULL in the embedding. Each function returns, after the status and
the context, the bytes it stored at `out[0 ..]` and the value it leaves in `*outLen`. -/

/-- `MODE_CheckUpdateParam(blockSize, cacheLen, inLen, outLen)` with `*outLen = outLen`;
the sum `inLen + cacheLen` is a `uint32_t` sum. -/
def MODE_CheckUpdateParam (blockSize cacheLen inLen outLen : Nat) : RetCode :=
  if (inLen + cacheLen) % 2 ^ 32 < inLen then CRYPT_EAL_BUFF_LEN_NOT_ENOUGH
  else if outLen < (inLen + cacheLen) % 2 ^ 32 / blockSize * blockSize then
    CRYPT_EAL_BUFF_LEN_NOT_ENOUGH
  else CRYPT_SUCCESS

/-- The first part of `MODES_CipherUpdateCache`: fill the cache from the leading input
bytes. Returns the context and the input that remains (`*in`, `*inLen`). -/
def MODES_CipherUpdateCache.fill (ctx : MODES_CipherCtx) (inp : List UInt8) :
    MODES_CipherCtx × List UInt8 :=
  let blockSize := ctx.commonCtx.blockSize
  if ctx.dataLen > 0 then
    let padding := sub8 blockSize ctx.dataLen
    let padding := if inp.length > padding then padding else inp.length % 2 ^ 8
    if padding ≠ 0 then
      ({ ctx with data := memcpyAt ctx.data ctx.dataLen (inp.take padding),
                  dataLen := (ctx.dataLen + padding) % 2 ^ 8 }, inp.drop padding)
    else (ctx, inp)
  else (ctx, inp)

/-- The tail of `MODES_CipherUpdateCache` after the block transform returned `r` on the
cached block: the error return, or `dataLen = 0`, `*outLen = blockSize`. -/
def MODES_CipherUpdateCache.finish (ctx : MODES_CipherCtx) (inp : List UInt8) (outLen : Nat)
    (r : RetCode × MODES_CipherCommonCtx × List UInt8) :
    RetCode × MODES_CipherCtx × List UInt8 × List UInt8 × Nat :=
  if r.1 ≠ CRYPT_SUCCESS then (r.1, { ctx with commonCtx := r.2.1 }, inp, r.2.2, outLen)
  else
    (CRYPT_SUCCESS, { ctx with commonCtx := r.2.1, dataLen := 0 }, inp, r.2.2,
      ctx.commonCtx.blockSize)

/-- `MODES_CipherUpdateCache(ctx, blockUpdate, &in, &inLen, &out, outLen)`: returns the
status, the context, the input that remains, the bytes written to `out` and `*outLen`. -/
def MODES_CipherUpdateCache (ctx : MODES_CipherCtx) (blockUpdate : BlockUpdate)
    (inp : List UInt8) (outLen : Nat) :
    RetCode × MODES_CipherCtx × List UInt8 × List UInt8 × Nat :=
  let blockSize := ctx.commonCtx.blockSize
  let filled := MODES_CipherUpdateCache.fill ctx inp
  let ctx := filled.1
  let inp := filled.2
  if ctx.dataLen ≠ blockSize then (CRYPT_SUCCESS, ctx, inp, [], outLen)
  else if ctx.enc then
    MODES_CipherUpdateCache.finish ctx inp outLen
      (blockUpdate ctx.commonCtx (ctx.data.take blockSize))
  else if inp.length = 0 ∧ ctx.pad ≠ CRYPT_PADDING_NONE then
    (CRYPT_SUCCESS, ctx, inp, [], 0)
  else
    MODES_CipherUpdateCache.finish ctx inp outLen
      (blockUpdate ctx.commonCtx (ctx.data.take blockSize))

/-- The block-aligned part of `MODES_CipherUpdate` (from `uint8_t left = ...` to the test
of `ret`): returns the status, the common context, the bytes written, `left` and `len`. -/
def MODES_CipherUpdate.blocks (modeCtx : MODES_CipherCtx) (blockUpdate : BlockUpdate)
    (tmpIn : List UInt8) : RetCode × MODES_CipherCommonCtx × List UInt8 × Nat × Nat :=
  let blockSize := modeCtx.commonCtx.blockSize
  let left := tmpIn.length % blockSize % 2 ^ 8
  let len := tmpIn.length - left
  if len > 0 then
    if modeCtx.enc then
      let r := blockUpdate modeCtx.commonCtx (tmpIn.take len)
      (r.1, r.2.1, r.2.2, left, len)
    else
      let defer := modeCtx.pad ≠ CRYPT_PADDING_NONE ∧ left = 0
      let left := if defer then blockSize else left
      let len := if defer then sub32 len blockSize else len
      if len > 0 then
        let r := blockUpdate modeCtx.commonCtx (tmpIn.take len)
        (r.1, r.2.1, r.2.2, left, len)
      else (CRYPT_SUCCESS, modeCtx.commonCtx, [], left, len)
  else (CRYPT_SUCCESS, modeCtx.commonCtx, [], left, len)

/-- The part of `MODES_CipherUpdate` after the cache has been dealt with (from
`uint8_t left = ...` to the end), entered with `tmpLen = tmpIn.length > 0`, the bytes `out`
written so far and the current `*outLen`. -/
def MODES_CipherUpdate.rest (modeCtx : MODES_CipherCtx) (blockUpdate : BlockUpdate)
    (tmpIn : List UInt8) (out : List UInt8) (outLen : Nat) :
    RetCode × MODES_CipherCtx × List UInt8 × Nat :=
  let b := MODES_CipherUpdate.blocks modeCtx blockUpdate tmpIn
  let left := b.2.2.2.1
  let len := b.2.2.2.2
  let modeCtx := { modeCtx with commonCtx := b.2.1 }
  if b.1 ≠ CRYPT_SUCCESS then (b.1, modeCtx, out ++ b.2.2.1, outLen)
  else
    let modeCtx :=
      if left > 0 then
        { modeCtx with data := memcpyAt modeCtx.data 0 ((tmpIn.drop len).take left),
                       dataLen := left }
      else modeCtx
    (CRYPT_SUCCESS, modeCtx, out ++ b.2.2.1, (outLen + len) % 2 ^ 32)

/-- `MODES_CipherUpdate(modeCtx, blockUpdate, in, inLen, out, outLen)` with
`inLen = inp.length` and the capacity `*outLen = outLen`: returns the status, the context,
the bytes written to `out` and the value left in `*outLen`. -/
def MODES_CipherUpdate (modeCtx : MODES_CipherCtx) (blockUpdate : BlockUpdate)
    (inp : List UInt8) (outLen : Nat) : RetCode × MODES_CipherCtx × List UInt8 × Nat :=
  if MODE_CheckUpdateParam modeCtx.commonCtx.blockSize modeCtx.dataLen inp.length outLen
      ≠ CRYPT_SUCCESS then
    (MODE_CheckUpdateParam modeCtx.commonCtx.blockSize modeCtx.dataLen inp.length outLen,
      modeCtx, [], outLen)
  else
    let c := MODES_CipherUpdateCache modeCtx blockUpdate inp 0
    if c.1 ≠ CRYPT_SUCCESS then (c.1, c.2.1, c.2.2.2.1, c.2.2.2.2)
    else if c.2.2.1.length = 0 then (CRYPT_SUCCESS, c.2.1, c.2.2.2.1, c.2.2.2.2)
    else MODES_CipherUpdate.rest c.2.1 blockUpdate c.2.2.1 c.2.2.2.1 c.2.2.2.2

/-- `MODES_CipherFinal(modeCtx, blockUpdate, out, outLen)` with the capacity
`*outLen = outLen`: returns the status, the context, the bytes written to `out` and the
value left in `*outLen`. -/
def MODES_CipherFinal (modeCtx : MODES_CipherCtx) (blockUpdate : BlockUpdate)
    (outLen : Nat) : RetCode × MODES_CipherCtx × List UInt8 × Nat :=
  if modeCtx.pad ≠ CRYPT_PADDING_NONE ∧ outLen < modeCtx.commonCtx.blockSize then
    (CRYPT_EAL_BUFF_LEN_NOT_ENOUGH, modeCtx, [], outLen)
  else if modeCtx.enc then
    let p := MODES_BlockPadding modeCtx.algId modeCtx.pad modeCtx.commonCtx.blockSize
      modeCtx.data modeCtx.dataLen
    let modeCtx := { modeCtx with data := p.2.1, dataLen := p.2.2 }
    if p.1 ≠ CRYPT_SUCCESS then (p.1, modeCtx, [], outLen)
    else if modeCtx.dataLen = 0 then (CRYPT_SUCCESS, modeCtx, [], modeCtx.dataLen)
    else
      let r := blockUpdate modeCtx.commonCtx (modeCtx.data.take modeCtx.dataLen)
      if r.1 ≠ CRYPT_SUCCESS then (r.1, { modeCtx with commonCtx := r.2.1 }, r.2.2, outLen)
      else (r.1, { modeCtx with commonCtx := r.2.1 }, r.2.2, modeCtx.dataLen)
  else
    if modeCtx.dataLen = 0 then (CRYPT_SUCCESS, modeCtx, [], modeCtx.dataLen)
    else
      let r := blockUpdate modeCtx.commonCtx (modeCtx.data.take modeCtx.dataLen)
      if r.1 ≠ CRYPT_SUCCESS then (r.1, { modeCtx with commonCtx := r.2.1 }, r.2.2, outLen)
      else
        let u := Mode_BlockUnPadding modeCtx.pad r.2.2 modeCtx.dataLen outLen
        (u.1, { modeCtx with commonCtx := r.2.1 }, r.2.2, u.2)

/-- A run of `MODES_CipherUpdate` calls, one per chunk, each with its own capacity; it
stops at the first call that fails. Returns the last status, the context (`ctx` itself
for an empty run) and the concatenation of the bytes written by the calls. -/
def updateChunks (blockUpdate : BlockUpdate) :
    MODES_CipherCtx → List (List UInt8 × Nat) → RetCode × MODES_CipherCtx × List UInt8
  | ctx, [] => (CRYPT_SUCCESS, ctx, [])
  | ctx, chunk :: rest =>
    let u := MODES_CipherUpdate ctx blockUpdate chunk.1 chunk.2
    if u.1 ≠ CRYPT_SUCCESS then (u.1, u.2.1, u.2.2.1)
    else
      let r := updateChunks blockUpdate u.2.1 rest
      (r.1, r.2.1, u.2.2.1 ++ r.2.2)

/-! ## CFB mode (`modes_cfb.c`) -/

/-- Context `MODES_CipherCFBCtx`: the common context and the `uint8_t` feedback width in
bits. -/
structure MODES_CipherCFBCtx where
  modeCtx : MODES_CipherCommonCtx
  feedbackBits : Nat

/-- Context `MODES_CFB_Ctx`: algorithm id, the CFB context and the direction flag. -/
structure MODES_CFB_Ctx where
  algId : CRYPT_CIPHER_AlgId
  cfbCtx : MODES_CipherCFBCtx
  enc : Bool

/-- The call `ctx->modeCtx.ciphMeth->encryptBlock(ctx->modeCtx.ciphCtx, ctx->modeCtx.iv, tmp,
blockSize)` of the CFB functions: the status and the block written to `tmp`. -/
def cfbEncryptIv (ctx : MODES_CipherCFBCtx) : RetCode × List UInt8 :=
  ctx.modeCtx.ciphMeth.encryptBlock ctx.modeCtx.ciphCtx
    (ctx.modeCtx.iv.take ctx.modeCtx.blockSize)

/-- The first loop of `MODES_CFB_BytesEncrypt` (`enc = true`) and of `MODES_CFB_BytesDecrypt`
(`enc = false`), `while (left > 0 && ctx->modeCtx.offset > 0)`: it uses up the keystream
bytes left in the IV register. Returns the context, the input that remains and the bytes
written. The two functions differ in the byte stored back at `iv[offset]`: the output byte
on encrypt, the input byte on decrypt. -/
def CFB_Bytes.drain (enc : Bool) (ctx : MODES_CipherCFBCtx) :
    List UInt8 → MODES_CipherCFBCtx × List UInt8 × List UInt8
  | [] => (ctx, [], [])
  | x :: rest =>
    if ctx.modeCtx.offset > 0 then
      let o := ctx.modeCtx.iv.getD ctx.modeCtx.offset 0 ^^^ x
      let ctx1 := { ctx with modeCtx := { ctx.modeCtx with
        iv := ctx.modeCtx.iv.set ctx.modeCtx.offset (if enc then o else x),
        offset := (ctx.modeCtx.offset + 1) % ctx.modeCtx.blockSize % 2 ^ 8 } }
      ((CFB_Bytes.drain enc ctx1 rest).1, (CFB_Bytes.drain enc ctx1 rest).2.1,
        o :: (CFB_Bytes.drain enc ctx1 rest).2.2)
    else (ctx, x :: rest, [])

/-- The loop `for (k = 0; k < n; k++) { output[k] = input[k] ^ tmp[k]; iv[i + k] = ...; }`
of the second loop of the CFB byte functions: returns the IV register and the bytes
written. The byte stored in the register is `output[k]` on encrypt and `input[k]` on
decrypt. -/
def CFB_Bytes.xorLoop (enc : Bool) (n i : Nat) (input tmp iv : List UInt8) :
    List UInt8 × List UInt8 :=
  forLoop 0 n
    (fun k s =>
      (s.1.set (i + k) (if enc then input.getD k 0 ^^^ tmp.getD k 0 else input.getD k 0),
        s.2 ++ [input.getD k 0 ^^^ tmp.getD k 0]))
    (iv, [])

/-- One pass through the body of the second loop `while (left > 0)` of
`MODES_CFB_BytesEncrypt` (`enc = true`) and `MODES_CFB_BytesDecrypt` (`enc = false`), entered
with `left = input.length > 0`: returns the status, the context, the bytes written in this
pass and the input that remains. `UPDATE_VALUES(left, input, output, feedbackBytes)` moves
the three cursors on by `feedbackBytes`. -/
def CFB_Bytes.segment (enc : Bool) (ctx : MODES_CipherCFBCtx) (input : List UInt8) :
    RetCode × MODES_CipherCFBCtx × List UInt8 × List UInt8 :=
  let blockSize := ctx.modeCtx.blockSize
  let feedbackBytes := ctx.feedbackBits >>> 3
  let left := input.length
  let r := cfbEncryptIv ctx
  let tmp := memcpyAt ctx.modeCtx.buf 0 r.2
  if r.1 ≠ CRYPT_SUCCESS then
    (r.1, { ctx with modeCtx := { ctx.modeCtx with buf := tmp } }, [], input)
  else
    let moved := sub32 blockSize feedbackBytes
    let iv :=
      if moved > 0 then
        memcpyAt ctx.modeCtx.iv 0 ((ctx.modeCtx.iv.drop feedbackBytes).take moved)
      else ctx.modeCtx.iv
    let i := if moved > 0 then moved else 0
    if left ≥ feedbackBytes then
      let s := CFB_Bytes.xorLoop enc (blockSize - i) i input tmp iv
      (CRYPT_SUCCESS, { ctx with modeCtx := { ctx.modeCtx with iv := s.1, buf := tmp } },
        s.2, input.drop feedbackBytes)
    else
      let s := CFB_Bytes.xorLoop enc left i input tmp iv
      let iv := forLoop 0 (blockSize - (i + left))
        (fun j v => v.set (i + left + j) (tmp.getD (left + j) 0)) s.1
      (CRYPT_SUCCESS,
        { ctx with modeCtx := { ctx.modeCtx with
            iv := iv, buf := tmp, offset := (moved + left) % 2 ^ 32 % 2 ^ 8 } },
        s.2, [])

/-- The second loop `while (left > 0)` of the CFB byte functions, with `fuel` bounding the
number of passes: `none` when the fuel runs out before `left` reaches zero. -/
def CFB_Bytes.loop (enc : Bool) :
    Nat → MODES_CipherCFBCtx → List UInt8 → Option (RetCode × MODES_CipherCFBCtx × List UInt8)
  | _, ctx, [] => some (CRYPT_SUCCESS, ctx, [])
  | 0, _, _ :: _ => none
  | fuel + 1, ctx, x :: rest =>
    let s := CFB_Bytes.segment enc ctx (x :: rest)
    if s.1 ≠ CRYPT_SUCCESS then some (s.1, s.2.1, s.2.2.1)
    else
      match CFB_Bytes.loop enc fuel s.2.1 s.2.2.2 with
      | none => none
      | some r => some (r.1, r.2.1, s.2.2.1 ++ r.2.2)

/-- The common body of the two byte functions: the first loop, then the second loop with
one unit of fuel per input byte. Returns the status, the context and the bytes written. -/
def CFB_Bytes (enc : Bool) (ctx : MODES_CipherCFBCtx) (inp : List UInt8) :
    Option (RetCode × MODES_CipherCFBCtx × List UInt8) :=
  let d := CFB_Bytes.drain enc ctx inp
  match CFB_Bytes.loop enc d.2.1.length d.1 d.2.1 with
  | none => none
  | some r => some (r.1, r.2.1, d.2.2 ++ r.2.2)

/-- `MODES_CFB_BytesEncrypt(ctx, in, out, len)` with `len = inp.length`. -/
def MODES_CFB_BytesEncrypt (ctx : MODES_CipherCFBCtx) (inp : List UInt8) :
    Option (RetCode × MODES_CipherCFBCtx × List UInt8) :=
  CFB_Bytes true ctx inp

/-- `MODES_CFB_BytesDecrypt(ctx, in, out, len)` with `len = inp.length`. -/
def MODES_CFB_BytesDecrypt (ctx : MODES_CipherCFBCtx) (inp : List UInt8) :
    Option (RetCode × MODES_CipherCFBCtx × List UInt8) :=
  CFB_Bytes false ctx inp

/-- `Cfb1Crypt(ctx, in, out, enc)`: CFB with a feedback of one bit, carried in the top bit of
the bytes `*in` and `*out`. The IV is encrypted into `tmp = ctx->modeCtx.buf`, the register
is shifted left by one bit, and the top bit of the ciphertext byte (`*out` on encrypt, `*in`
on decrypt) enters at the low end of the last byte. `o0` is the content of `*out` before the
call; returns the status, the context and the byte `*out`. -/
def Cfb1Crypt (ctx : MODES_CipherCFBCtx) (inByte o0 : UInt8) (enc : Bool) :
    RetCode × MODES_CipherCFBCtx × UInt8 :=
  let blockSize := ctx.modeCtx.blockSize
  let r := cfbEncryptIv ctx
  let tmp := memcpyAt ctx.modeCtx.buf 0 r.2
  if r.1 ≠ CRYPT_SUCCESS then
    (r.1, { ctx with modeCtx := { ctx.modeCtx with buf := tmp } }, o0)
  else
    let i := sub32 blockSize 1
    let iv := forLoop 0 i
      (fun k v => v.set k ((v.getD k 0 <<< 1) ||| (v.getD (k + 1) 0 >>> 7))) ctx.modeCtx.iv
    let o := tmp.getD 0 0 ^^^ inByte
    let fb := if enc then o else inByte
    (CRYPT_SUCCESS,
      { ctx with modeCtx := { ctx.modeCtx with
          iv := iv.set i ((iv.getD i 0 <<< 1) ||| (fb >>> 7)), buf := tmp } },
      o)

/-- The loop `for (uint32_t i = 0; i < len; i++)` of `MODES_CFB_BitCrypt`, with `n = len - i`
passes to go: bit `7 - i % 8` of `in[i / 8]` is processed by `Cfb1Crypt` and the result is
stored in the same bit of `out[i / 8]`. `t1` is the content of `tmp[1]`. Returns the status,
the context and the buffer `out`. -/
def MODES_CFB_BitCrypt.loop (enc : Bool) (inp : List UInt8) :
    Nat → Nat → MODES_CipherCFBCtx → UInt8 → List UInt8 →
      RetCode × MODES_CipherCFBCtx × List UInt8
  | 0, _, ctx, _, out => (CRYPT_SUCCESS, ctx, out)
  | n + 1, i, ctx, t1, out =>
    let pos := UInt8.ofNat (7 - i % 8)
    let t0 : UInt8 := if (inp.getD (i / 8) 0 &&& (1 <<< pos)) > 0 then 0x80 else 0
    let r := Cfb1Crypt ctx t0 t1 enc
    if r.1 ≠ CRYPT_SUCCESS then (r.1, r.2.1, out)
    else
      let out1 := out.set (i / 8) (out.getD (i / 8) 0 &&& ~~~(1 <<< pos))
      let out2 := out1.set (i / 8) (out1.getD (i / 8) 0 ||| ((r.2.2 >>> 7) <<< pos))
      MODES_CFB_BitCrypt.loop enc inp n (i + 1) r.2.1 r.2.2 out2

/-- `MODES_CFB_BitCrypt(ctx, in, out, len, enc)`: one-bit CFB on `len` bits (`len` is a
`uint32_t`); `out` is the output buffer before the call. -/
def MODES_CFB_BitCrypt (ctx : MODES_CipherCFBCtx) (inp out : List UInt8) (len : Nat)
    (enc : Bool) : RetCode × MODES_CipherCFBCtx × List UInt8 :=
  MODES_CFB_BitCrypt.loop enc inp len 0 ctx 0 out

/-- `CFB_Crypt(ctx, in, out, len, enc)` with `len = inp.length` (a `uint32_t`) and `out` the
output buffer before the call: the switch on `ctx->feedbackBits`. The bit count handed to
`MODES_CFB_BitCrypt` is the `uint32_t` product `len * 8`. Returns the status, the context
and the buffer `out`; `none` when the byte function does not return. -/
def CFB_Crypt (ctx : MODES_CipherCFBCtx) (inp out : List UInt8) (enc : Bool) :
    Option (RetCode × MODES_CipherCFBCtx × List UInt8) :=
  let len := inp.length
  if len = 0 then some (CRYPT_NULL_INPUT, ctx, out)
  else if ctx.feedbackBits = 1 then
    some (MODES_CFB_BitCrypt ctx inp out (len * 8 % 2 ^ 32) enc)
  else if ctx.feedbackBits = 8 ∨ ctx.feedbackBits = 64 ∨ ctx.feedbackBits = 128 then
    match (if enc then MODES_CFB_BytesEncrypt ctx inp else MODES_CFB_BytesDecrypt ctx inp) with
    | none => none
    | some r => some (r.1, r.2.1, memcpyAt out 0 r.2.2)
  else some (CRYPT_MODES_ERR_FEEDBACKSIZE, ctx, out)

/-- `MODES_CFB_Encrypt(ctx, in, out, len)`. -/
def MODES_CFB_Encrypt (ctx : MODES_CipherCFBCtx) (inp out : List UInt8) :
    Option (RetCode × MODES_CipherCFBCtx × List UInt8) :=
  CFB_Crypt ctx inp out true

/-- `MODES_CFB_Decrypt(ctx, in, out, len)`. -/
def MODES_CFB_Decrypt (ctx : MODES_CipherCFBCtx) (inp out : List UInt8) :
    Option (RetCode × MODES_CipherCFBCtx × List UInt8) :=
  CFB_Crypt ctx inp out false

/-! ## Control functions and teardown (`modes.c`, `modes_cfb.c`) -/

/-- Control options of `CRYPT_CipherCtrl` that the mode functions distinguish; `other`
stands for every other value of `opt` (the `default:` arm of each `switch`). -/
inductive CRYPT_CipherCtrl where
  | CRYPT_CTRL_REINIT_STATUS
  | CRYPT_CTRL_GET_IV
  | CRYPT_CTRL_SET_FEEDBACKSIZE
  | CRYPT_CTRL_GET_FEEDBACKSIZE
  | CRYPT_CTRL_GET_BLOCKSIZE
  | other (code : Nat)
  deriving DecidableEq, Repr

open CRYPT_CipherCtrl

/-- The object behind a non-NULL `void *val` of a control call: `bytes` is what a callee
reads or writes through `uint8_t *`, `word` what it reads or writes through `uint32_t *`
or `int32_t *`. A NULL `val` is `none`. -/
structure CtrlVal where
  bytes : List UInt8
  word : Nat

/-- The bounds-checked copy `memcpy_s(dest, destMax, src, count)` of the C library (not part
of the sources at hand): it fails when `count > destMax`, and then clears the `destMax`
bytes of `dest`; otherwise it copies `count` bytes to the start of `dest`. Returns whether
the result is `EOK`, and `dest`. -/
def memcpy_s (dest : List UInt8) (destMax : Nat) (src : List UInt8) (count : Nat) :
    Bool × List UInt8 :=
  if count ≤ destMax then (true, memcpyAt dest 0 (src.take count))
  else (false, memcpyAt dest 0 (List.replicate (min destMax dest.length) 0))

/-- `MODES_SetIv(ctx, val, len)`; `val = none` is a NULL pointer, and
`MODES_MAX_IV_LENGTH` is the length of the buffer `ctx.iv`. -/
def MODES_SetIv (ctx : MODES_CipherCommonCtx) (val : Option (List UInt8)) (len : Nat) :
    RetCode × MODES_CipherCommonCtx :=
  match val with
  | none => (CRYPT_NULL_INPUT, ctx)
  | some v =>
    if len ≠ ctx.blockSize then (CRYPT_MODES_IVLEN_ERROR, ctx)
    else if (memcpy_s ctx.iv ctx.iv.length v len).1 ≠ true then
      (CRYPT_SECUREC_FAIL, { ctx with iv := (memcpy_s ctx.iv ctx.iv.length v len).2 })
    else
      (CRYPT_SUCCESS, { ctx with iv := (memcpy_s ctx.iv ctx.iv.length v len).2, offset := 0 })

/-- `MODES_GetIv(ctx, val, len)`: returns the status and the buffer `val`; `val = none` is a
NULL pointer. -/
def MODES_GetIv (ctx : MODES_CipherCommonCtx) (val : Option (List UInt8)) (len : Nat) :
    RetCode × Option (List UInt8) :=
  match val with
  | none => (CRYPT_NULL_INPUT, none)
  | some v =>
    let ivLen := ctx.blockSize
    if len ≠ ivLen then (CRYPT_MODE_ERR_INPUT_LEN, some v)
    else if (memcpy_s v len ctx.iv ivLen).1 ≠ true then
      (CRYPT_SECUREC_FAIL, some (memcpy_s v len ctx.iv ivLen).2)
    else (CRYPT_SUCCESS, some (memcpy_s v len ctx.iv ivLen).2)

/-- `MODES_Clean(ctx)` for a non-NULL `ctx`: the scratch buffer and the IV register are
cleared, the primitive clears its key context, and the offset is reset. -/
def MODES_Clean (ctx : MODES_CipherCommonCtx) : MODES_CipherCommonCtx :=
  { ctx with buf := List.replicate ctx.buf.length 0, iv := List.replicate ctx.iv.length 0,
             ciphCtx := ctx.ciphMeth.cipherDeInitCtx ctx.ciphCtx, offset := 0 }

/-- `SetFeedbackSize(ctx, val, len)`; `val` is the `uint32_t` behind the pointer, `none` for
NULL, and `sizeof(uint32_t)` is 4. -/
def SetFeedbackSize (ctx : MODES_CipherCFBCtx) (val : Option Nat) (len : Nat) :
    RetCode × MODES_CipherCFBCtx :=
  match val with
  | none => (CRYPT_NULL_INPUT, ctx)
  | some v =>
    if len ≠ 4 then (CRYPT_MODE_ERR_INPUT_LEN, ctx)
    else if ctx.modeCtx.ciphMeth.algId = CRYPT_SYM_SM4 ∧ v ≠ 128 then
      (CRYPT_MODES_FEEDBACKSIZE_NOT_SUPPORT, ctx)
    else if v ≠ 1 ∧ v ≠ 8 ∧ v ≠ 128 then (CRYPT_MODES_ERR_FEEDBACKSIZE, ctx)
    else if v > (ctx.modeCtx.blockSize * 8) % 2 ^ 32 then (CRYPT_MODES_ERR_FEEDBACKSIZE, ctx)
    else (CRYPT_SUCCESS, { ctx with feedbackBits := v % 2 ^ 8 })

/-- `GetFeedbackSize(ctx, val, len)`: returns the status and the `uint32_t` behind `val`. -/
def GetFeedbackSize (ctx : MODES_CipherCFBCtx) (val : Option Nat) (len : Nat) :
    RetCode × Option Nat :=
  match val with
  | none => (CRYPT_NULL_INPUT, none)
  | some v =>
    if len ≠ 4 then (CRYPT_MODE_ERR_INPUT_LEN, some v)
    else (CRYPT_SUCCESS, some ctx.feedbackBits)

/-- `MODES_CFB_Ctrl(modeCtx, opt, val, len)` for a non-NULL `modeCtx`: returns the status,
the context and the object behind `val`. -/
def MODES_CFB_Ctrl (modeCtx : MODES_CFB_Ctx) (opt : CRYPT_CipherCtrl) (val : Option CtrlVal)
    (len : Nat) : RetCode × MODES_CFB_Ctx × Option CtrlVal :=
  match opt with
  | CRYPT_CTRL_REINIT_STATUS =>
    let r := MODES_SetIv modeCtx.cfbCtx.modeCtx (val.map CtrlVal.bytes) len
    (r.1, { modeCtx with cfbCtx := { modeCtx.cfbCtx with modeCtx := r.2 } }, val)
  | CRYPT_CTRL_GET_IV =>
    let r := MODES_GetIv modeCtx.cfbCtx.modeCtx (val.map CtrlVal.bytes) len
    (r.1, modeCtx,
      match val, r.2 with
      | some v, some b => some { v with bytes := b }
      | _, _ => val)
  | CRYPT_CTRL_SET_FEEDBACKSIZE =>
    let r := SetFeedbackSize modeCtx.cfbCtx (val.map CtrlVal.word) len
    (r.1, { modeCtx with cfbCtx := r.2 }, val)
  | CRYPT_CTRL_GET_FEEDBACKSIZE =>
    let r := GetFeedbackSize modeCtx.cfbCtx (val.map CtrlVal.word) len
    (r.1, modeCtx,
      match val, r.2 with
      | some v, some w => some { v with word := w }
      | _, _ => val)
  | CRYPT_CTRL_GET_BLOCKSIZE =>
    match val with
    | none => (CRYPT_INVALID_ARG, modeCtx, none)
    | some v =>
      if len ≠ 4 then (CRYPT_INVALID_ARG, modeCtx, some v)
      else (CRYPT_SUCCESS, modeCtx, some { v with word := 1 })
  | other _ => (CRYPT_MODES_METHODS_NOT_SUPPORT, modeCtx, val)

/-- `MODES_CFB_DeInitCtx(modeCtx)` for a non-NULL `modeCtx`; `blockBits` is a `uint8_t`. -/
def MODES_CFB_DeInitCtx (modeCtx : MODES_CFB_Ctx) : RetCode × MODES_CFB_Ctx :=
  let m := MODES_Clean modeCtx.cfbCtx.modeCtx
  let blockBits := (m.blockSize * 8) % 2 ^ 8
  (CRYPT_SUCCESS,
    { modeCtx with cfbCtx :=
        { modeCtx := m, feedbackBits := if blockBits ≤ 128 then blockBits else 128 } })

/-! ## Dispatch on the algorithm id, context creation and the generic control function
(`modes.c`, `modes_cfb.c`) -/

/-- `MODES_CipherCtrl(ctx, opt, val, len)` for a non-NULL `ctx`: returns the status, the
context and the object behind `val`. -/
def MODES_CipherCtrl (ctx : MODES_CipherCtx) (opt : CRYPT_CipherCtrl) (val : Option CtrlVal)
    (len : Nat) : RetCode × MODES_CipherCtx × Option CtrlVal :=
  match opt with
  | CRYPT_CTRL_REINIT_STATUS =>
    let r := MODES_SetIv ctx.commonCtx (val.map CtrlVal.bytes) len
    (r.1, { ctx with commonCtx := r.2 }, val)
  | CRYPT_CTRL_GET_IV =>
    let r := MODES_GetIv ctx.commonCtx (val.map CtrlVal.bytes) len
    (r.1, ctx,
      match val, r.2 with
      | some v, some b => some { v with bytes := b }
      | _, _ => val)
  | _ => (CRYPT_MODES_CTRL_TYPE_ERROR, ctx, val)

/-- The primitive functions and context sizes that the method tables of `modes.c` name;
their code is not part of the sources at hand. A key-setup function maps the key context
and the key to a status and the new key context, a block function maps the key context and
the input to a status and the output, a clean-up function maps the key context to the
cleared one. -/
structure SymPrimitives where
  CRYPT_AES_SetEncryptKey128 : List UInt8 → List UInt8 → RetCode × List UInt8
  CRYPT_AES_SetDecryptKey128 : List UInt8 → List UInt8 → RetCode × List UInt8
  CRYPT_AES_SetEncryptKey192 : List UInt8 → List UInt8 → RetCode × List UInt8
  CRYPT_AES_SetDecryptKey192 : List UInt8 → List UInt8 → RetCode × List UInt8
  CRYPT_AES_SetEncryptKey256 : List UInt8 → List UInt8 → RetCode × List UInt8
  CRYPT_AES_SetDecryptKey256 : List UInt8 → List UInt8 → RetCode × List UInt8
  CRYPT_AES_Encrypt : List UInt8 → List UInt8 → RetCode × List UInt8
  CRYPT_AES_Decrypt : List UInt8 → List UInt8 → RetCode × List UInt8
  CRYPT_AES_Clean : List UInt8 → List UInt8
  sizeof_CRYPT_AES_Key : Nat
  CRYPT_CHACHA20_SetKey : List UInt8 → List UInt8 → RetCode × List UInt8
  CRYPT_CHACHA20_Update : List UInt8 → List UInt8 → RetCode × List UInt8
  CRYPT_CHACHA20_Clean : List UInt8 → List UInt8
  sizeof_CRYPT_CHACHA20_Ctx : Nat
  CRYPT_SM4_SetKey : List UInt8 → List UInt8 → RetCode × List UInt8
  CRYPT_SM4_Encrypt : List UInt8 → List UInt8 → RetCode × List UInt8
  CRYPT_SM4_Decrypt : List UInt8 → List UInt8 → RetCode × List UInt8
  CRYPT_SM4_Clean : List UInt8 → List UInt8
  sizeof_CRYPT_SM4_Ctx : Nat

/-- The method table `AES128_METHOD`. The entry `cipherCtrl` of the C table (NULL for AES and
SM4) is not used by the functions embedded here and has no field in `EAL_SymMethod`. -/
def AES128_METHOD (p : SymPrimitives) : EAL_SymMethod :=
  { setEncryptKey := p.CRYPT_AES_SetEncryptKey128
    setDecryptKey := p.CRYPT_AES_SetDecryptKey128
    encryptBlock := p.CRYPT_AES_Encrypt
    decryptBlock := p.CRYPT_AES_Decrypt
    cipherDeInitCtx := p.CRYPT_AES_Clean
    blockSize := 16
    ctxSize := p.sizeof_CRYPT_AES_Key
    algId := CRYPT_SYM_AES128 }

/-- The method table `AES192_METHOD`. -/
def AES192_METHOD (p : SymPrimitives) : EAL_SymMethod :=
  { setEncryptKey := p.CRYPT_AES_SetEncryptKey192
    setDecryptKey := p.CRYPT_AES_SetDecryptKey192
    encryptBlock := p.CRYPT_AES_Encrypt
    decryptBlock := p.CRYPT_AES_Decrypt
    cipherDeInitCtx := p.CRYPT_AES_Clean
    blockSize := 16
    ctxSize := p.sizeof_CRYPT_AES_Key
    algId := CRYPT_SYM_AES192 }

/-- The method table `AES256_METHOD`. -/
def AES256_METHOD (p : SymPrimitives) : EAL_SymMethod :=
  { setEncryptKey := p.CRYPT_AES_SetEncryptKey256
    setDecryptKey := p.CRYPT_AES_SetDecryptKey256
    encryptBlock := p.CRYPT_AES_Encrypt
    decryptBlock := p.CRYPT_AES_Decrypt
    cipherDeInitCtx := p.CRYPT_AES_Clean
    blockSize := 16
    ctxSize := p.sizeof_CRYPT_AES_Key
    algId := CRYPT_SYM_AES256 }

/-- The method table `CHACHA20_METHOD` (its `cipherCtrl` entry, `CRYPT_CHACHA20_Ctrl`, is
left out as in `AES128_METHOD`). -/
def CHACHA20_METHOD (p : SymPrimitives) : EAL_SymMethod :=
  { setEncryptKey := p.CRYPT_CHACHA20_SetKey
    setDecryptKey := p.CRYPT_CHACHA20_SetKey
    encryptBlock := p.CRYPT_CHACHA20_Update
    decryptBlock := p.CRYPT_CHACHA20_Update
    cipherDeInitCtx := p.CRYPT_CHACHA20_Clean
    blockSize := 1
    ctxSize := p.sizeof_CRYPT_CHACHA20_Ctx
    algId := CRYPT_SYM_CHACHA20 }

/-- The method table `SM4_METHOD`. -/
def SM4_METHOD (p : SymPrimitives) : EAL_SymMethod :=
  { setEncryptKey := p.CRYPT_SM4_SetKey
    setDecryptKey := p.CRYPT_SM4_SetKey
    encryptBlock := p.CRYPT_SM4_Encrypt
    decryptBlock := p.CRYPT_SM4_Decrypt
    cipherDeInitCtx := p.CRYPT_SM4_Clean
    blockSize := 16
    ctxSize := p.sizeof_CRYPT_SM4_Ctx
    algId := CRYPT_SYM_SM4 }

/-- `MODES_GetSymMethod(algId)`: the address of a method table, `none` for NULL. -/
def MODES_GetSymMethod (p : SymPrimitives) (algId : CRYPT_CIPHER_AlgId) :
    Option EAL_SymMethod :=
  match algId with
  | CRYPT_CIPHER_AES128_CBC | CRYPT_CIPHER_AES128_ECB | CRYPT_CIPHER_AES128_CTR
  | CRYPT_CIPHER_AES128_CCM | CRYPT_CIPHER_AES128_GCM | CRYPT_CIPHER_AES128_CFB
  | CRYPT_CIPHER_AES128_OFB => some (AES128_METHOD p)
  | CRYPT_CIPHER_AES192_CBC | CRYPT_CIPHER_AES192_ECB | CRYPT_CIPHER_AES192_CTR
  | CRYPT_CIPHER_AES192_CCM | CRYPT_CIPHER_AES192_GCM | CRYPT_CIPHER_AES192_CFB
  | CRYPT_CIPHER_AES192_OFB => some (AES192_METHOD p)
  | CRYPT_CIPHER_AES256_CBC | CRYPT_CIPHER_AES256_ECB | CRYPT_CIPHER_AES256_CTR
  | CRYPT_CIPHER_AES256_CCM | CRYPT_CIPHER_AES256_GCM | CRYPT_CIPHER_AES256_CFB
  | CRYPT_CIPHER_AES256_OFB => some (AES256_METHOD p)
  | CRYPT_CIPHER_SM4_XTS | CRYPT_CIPHER_SM4_CBC | CRYPT_CIPHER_SM4_ECB
  | CRYPT_CIPHER_SM4_CTR | CRYPT_CIPHER_SM4_GCM | CRYPT_CIPHER_SM4_CFB
  | CRYPT_CIPHER_SM4_OFB => some (SM4_METHOD p)
  | CRYPT_CIPHER_CHACHA20_POLY1305 => some (CHACHA20_METHOD p)
  | CRYPT_CIPHER_MAX => none

/-- Lengths of the arrays inside the contexts; the macros giving them are not part of the
sources at hand. -/
structure BufferSizes where
  MODES_MAX_IV_LENGTH : Nat
  MODES_MAX_BUF_LENGTH : Nat
  EAL_MAX_BLOCK_LENGTH : Nat

/-- `BSL_SAL_Calloc(1, size)` for a byte buffer (the allocator is not part of the sources at
hand): NULL when the allocation fails (`ok = false`), else `size` zero bytes. -/
def BSL_SAL_Calloc (ok : Bool) (size : Nat) : Option (List UInt8) :=
  if ok then some (List.replicate size 0) else none

/-- `MODE_NewCtxInternal(ctx, method)`: returns the status and the context; `keyOk` tells
whether the allocation of the key context succeeds. -/
def MODE_NewCtxInternal (keyOk : Bool) (ctx : MODES_CipherCtx) (method : EAL_SymMethod) :
    RetCode × MODES_CipherCtx :=
  match BSL_SAL_Calloc keyOk method.ctxSize with
  | none => (CRYPT_MEM_ALLOC_FAIL, ctx)
  | some k =>
    (CRYPT_SUCCESS,
      { ctx with commonCtx :=
          { ctx.commonCtx with ciphCtx := k, blockSize := method.blockSize,
                               ciphMeth := method, offset := 0 } })

/-- `MODES_CipherNewCtx(algId)`: the new context, `none` for NULL. `ctxOk` and `keyOk` tell
whether the two allocations succeed. The zero-filled context that `BSL_SAL_Calloc` hands
back has empty pointers, zero lengths, `enc = false` and the padding selector 0, taken to
be `CRYPT_PADDING_NONE`; its method pointer is set before it is ever read. -/
def MODES_CipherNewCtx (p : SymPrimitives) (sz : BufferSizes) (ctxOk keyOk : Bool)
    (algId : CRYPT_CIPHER_AlgId) : Option MODES_CipherCtx :=
  match MODES_GetSymMethod p algId with
  | none => none
  | some method =>
    if ctxOk = false then none
    else
      let ctx : MODES_CipherCtx :=
        { commonCtx :=
            { ciphCtx := [], ciphMeth := method,
              iv := List.replicate sz.MODES_MAX_IV_LENGTH 0,
              buf := List.replicate sz.MODES_MAX_BUF_LENGTH 0, blockSize := 0, offset := 0 }
          algId := algId
          data := List.replicate sz.EAL_MAX_BLOCK_LENGTH 0
          dataLen := 0
          pad := CRYPT_PADDING_NONE
          enc := false }
      let r := MODE_NewCtxInternal keyOk ctx method
      if r.1 ≠ CRYPT_SUCCESS then none else some r.2

/-- `MODES_CFB_NewCtx(algId)`: the new context, `none` for NULL; `blockBits` is a
`uint8_t`. The allocations are modelled as in `MODES_CipherNewCtx`. -/
def MODES_CFB_NewCtx (p : SymPrimitives) (sz : BufferSizes) (ctxOk keyOk : Bool)
    (algId : CRYPT_CIPHER_AlgId) : Option MODES_CFB_Ctx :=
  match MODES_GetSymMethod p algId with
  | none => none
  | some method =>
    if ctxOk = false then none
    else
      match BSL_SAL_Calloc keyOk method.ctxSize with
      | none => none
      | some k =>
        let blockBits := (method.blockSize * 8) % 2 ^ 8
        some
          { algId := algId
            cfbCtx :=
              { modeCtx :=
                  { ciphCtx := k, ciphMeth := method,
                    iv := List.replicate sz.MODES_MAX_IV_LENGTH 0,
                    buf := List.replicate sz.MODES_MAX_BUF_LENGTH 0,
                    blockSize := method.blockSize, offset := 0 }
                feedbackBits := if blockBits ≤ 128 then blockBits else 128 }
            enc := false }

/-! ## The unpadding checks with their memory reads recorded -/

/-- `UnPaddingX923` with its reads of `pad` recorded: the first component is what
`UnPaddingX923` returns, the second lists the indices `i` of the reads `pad[i]` in the order
in which the C code performs them (the count byte first, then one read per loop pass; the
product `pad[i] * (uint32_t)(i >= pos)` evaluates `pad[i]` in every pass). -/
def UnPaddingX923.traced (pad : List UInt8) (padLen finLen : Nat) :
    (RetCode × Nat) × List Nat :=
  let len := (pad.getD (sub32 padLen 1) 0).toNat
  let check := 0 ||| cbool (decide (len > padLen))
  let pos := sub32 padLen len
  let s := forLoop 0 (sub32 padLen 1)
    (fun i (s : Nat × List Nat) =>
      (s.1 ||| ((pad.getD i 0).toNat * cbool (decide (i ≥ pos))), s.2 ++ [i]))
    (check, [sub32 padLen 1])
  (if s.1 ≠ 0 then (CRYPT_EAL_CIPHER_DATA_ERROR, finLen) else (CRYPT_SUCCESS, sub32 padLen len),
    s.2)

/-- `UnPaddingPkcs` with its reads of `pad` recorded, as in `UnPaddingX923.traced`. -/
def UnPaddingPkcs.traced (pad : List UInt8) (padLen finLen : Nat) :
    (RetCode × Nat) × List Nat :=
  let len := (pad.getD (sub32 padLen 1) 0).toNat
  let check := 0 ||| cbool (decide (len = 0) || decide (len > padLen))
  let pos := sub32 padLen len
  let s := forLoop 0 padLen
    (fun i (s : Nat × List Nat) =>
      (s.1 ||| (((pad.getD i 0).toNat ^^^ len) * cbool (decide (i ≥ pos))), s.2 ++ [i]))
    (check, [sub32 padLen 1])
  (if s.1 ≠ 0 then (CRYPT_EAL_CIPHER_DATA_ERROR, finLen) else (CRYPT_SUCCESS, sub32 padLen len),
    s.2)

/-! ## CTR mode for AES (`asm_aes_ctr.c`) -/

/-- Big-endian value of a byte string. -/
def beValue (l : List UInt8) : Nat :=
  l.foldl (fun a b => a * 256 + b.toNat) 0

/-- Big-endian encoding of `n` modulo `256 ^ len` on `len` bytes. -/
def beBytes : Nat → Nat → List UInt8
  | 0, _ => []
  | len + 1, n => beBytes len (n / 256) ++ [UInt8.ofNat (n % 256)]

/-- Modelled from the spec: the macro `GET_UINT32_BE(p, i)` is not part of the sources at
hand; it loads the 32-bit big-endian value stored in `p[i .. i + 3]` ("the lower 32 bits of
IV" for `i = 12`). -/
def GET_UINT32_BE (p : List UInt8) (i : Nat) : Nat :=
  beValue ((p.drop i).take 4)

/-- The functions that `AES_CTR_EncryptBlock` calls and whose code is not part of the sources
at hand. `MODES_CTR_LastHandle(ctx, in, out, len)` returns the context, the bytes written
and its return value (the number of bytes consumed); `MODES_CTR_RemHandle(ctx, in, out,
left)` returns the context and the bytes written; `CRYPT_AES_CTR_Encrypt(key, in, out,
calLen, iv)` receives the key context, the `calLen` bytes of input and the IV and returns
the bytes written and the IV; `MODE_IncCounter(iv, len)` returns the IV. -/
structure CTR_Helpers where
  MODES_CTR_LastHandle :
    MODES_CipherCommonCtx → List UInt8 → MODES_CipherCommonCtx × List UInt8 × Nat
  MODES_CTR_RemHandle : MODES_CipherCommonCtx → List UInt8 → MODES_CipherCommonCtx × List UInt8
  CRYPT_AES_CTR_Encrypt : List UInt8 → List UInt8 → List UInt8 → List UInt8 × List UInt8
  MODE_IncCounter : List UInt8 → Nat → List UInt8

/-- The loop `while (left >= blockSize)` of `AES_CTR_EncryptBlock` with `left =
input.length`, and `fuel` bounding the number of passes (`none` when it runs out). The batch
is cut at the point where the low 32 bits of the counter wrap, and then the upper bytes are
incremented. Returns the context, the bytes written and the input that remains. -/
def AES_CTR_EncryptBlock.loop (h : CTR_Helpers) :
    Nat → MODES_CipherCommonCtx → List UInt8 →
      Option (MODES_CipherCommonCtx × List UInt8 × List UInt8)
  | fuel, ctx, input =>
    let left := input.length
    let blockSize := ctx.blockSize
    if left ≥ blockSize then
      match fuel with
      | 0 => none
      | fuel + 1 =>
        let blocks := left >>> 4
        let beCtr32 := (GET_UINT32_BE ctx.iv 12 + blocks) % 2 ^ 32
        let wrap := beCtr32 < blocks
        let blocks1 := if wrap then sub32 blocks beCtr32 else blocks
        let beCtr32a := if wrap then 0 else beCtr32
        let calLen := (blocks1 <<< 4) % 2 ^ 32
        let r := h.CRYPT_AES_CTR_Encrypt ctx.ciphCtx (input.take calLen) ctx.iv
        let iv := if beCtr32a = 0 then h.MODE_IncCounter r.2 (sub32 blockSize 4) else r.2
        match AES_CTR_EncryptBlock.loop h fuel { ctx with iv := iv } (input.drop calLen) with
        | none => none
        | some s => some (s.1, r.1 ++ s.2.1, s.2.2)
    else some (ctx, [], input)

/-- `AES_CTR_EncryptBlock(ctx, in, out, len)` with `len = inp.length` and a non-NULL
`ctx->ciphCtx`. Returns the status, the context and the bytes written. -/
def AES_CTR_EncryptBlock (h : CTR_Helpers) (ctx : MODES_CipherCommonCtx) (inp : List UInt8) :
    Option (RetCode × MODES_CipherCommonCtx × List UInt8) :=
  if inp.length = 0 then some (CRYPT_NULL_INPUT, ctx, [])
  else
    let l := h.MODES_CTR_LastHandle ctx inp
    let offset := l.2.2
    let tmpIn := inp.drop offset
    match AES_CTR_EncryptBlock.loop h tmpIn.length l.1 tmpIn with
    | none => none
    | some s =>
      let r := h.MODES_CTR_RemHandle s.1 s.2.2
      some (CRYPT_SUCCESS, r.1, l.2.1 ++ s.2.1 ++ r.2)

/-! ## Initialisation, teardown, padding selector and the stream-mode update
(`modes.c`, `modes_cfb.c`, `asm_aes_ctr.c`, `asm_sm4_ofb_x86_64.c`) -/

/-- `MODES_CipherInitCtx(ctx, setSymKey, keyCtx, key, keyLen, iv, ivLen, enc)` for a
non-NULL `ctx`; `iv = none` is a NULL pointer. `keyCtx` points into the common context of
`ctx` (the callers pass `ctx->commonCtx.ciphCtx`, or `&ctx->commonCtx` as `SM4_OFB_InitCtx`
does), so `setSymKey` maps the common context and the key to a status and the common
context it leaves. The result of `memcpy_s` is discarded, as in the C code. -/
def MODES_CipherInitCtx (ctx : MODES_CipherCtx)
    (setSymKey : MODES_CipherCommonCtx → List UInt8 → RetCode × MODES_CipherCommonCtx)
    (key : List UInt8) (iv : Option (List UInt8)) (ivLen : Nat) (enc : Bool) :
    RetCode × MODES_CipherCtx :=
  match iv with
  | none => (CRYPT_NULL_INPUT, ctx)
  | some v =>
    if ivLen ≠ ctx.commonCtx.blockSize then (CRYPT_MODES_IVLEN_ERROR, ctx)
    else
      let r := setSymKey ctx.commonCtx key
      if r.1 ≠ CRYPT_SUCCESS then (r.1, { ctx with commonCtx := r.2 })
      else
        let c :=
          if ivLen > 0 then { r.2 with iv := (memcpy_s r.2.iv r.2.iv.length v ivLen).2 }
          else r.2
        (r.1, { ctx with commonCtx := c, enc := enc })

/-- `MODES_CFB_InitCtx(modeCtx, key, keyLen, iv, ivLen, enc)` for a non-NULL `modeCtx` and a
non-NULL `iv` (the function tests neither). -/
def MODES_CFB_InitCtx (modeCtx : MODES_CFB_Ctx) (key iv : List UInt8) (ivLen : Nat)
    (enc : Bool) : RetCode × MODES_CFB_Ctx :=
  if ivLen ≠ modeCtx.cfbCtx.modeCtx.blockSize then (CRYPT_MODES_IVLEN_ERROR, modeCtx)
  else
    let r := modeCtx.cfbCtx.modeCtx.ciphMeth.setEncryptKey modeCtx.cfbCtx.modeCtx.ciphCtx key
    let c := { modeCtx.cfbCtx.modeCtx with ciphCtx := r.2 }
    if r.1 ≠ CRYPT_SUCCESS then
      (r.1, { modeCtx with cfbCtx := { modeCtx.cfbCtx with modeCtx := c } })
    else
      (r.1,
        { modeCtx with
          cfbCtx := { modeCtx.cfbCtx with
            modeCtx := { c with iv := (memcpy_s c.iv c.iv.length iv ivLen).2 } }
          enc := enc })

/-- `MODES_CipherDeInitCtx(modeCtx)` for a non-NULL `modeCtx`; `EAL_MAX_BLOCK_LENGTH` is the
length of the cache buffer `data`. -/
def MODES_CipherDeInitCtx (modeCtx : MODES_CipherCtx) : RetCode × MODES_CipherCtx :=
  (CRYPT_SUCCESS,
    { modeCtx with
      data := List.replicate modeCtx.data.length 0
      dataLen := 0
      pad := CRYPT_PADDING_NONE
      commonCtx := MODES_Clean modeCtx.commonCtx })

/-- `MODES_CFB_DeInitCtx(modeCtx)` with its test of the pointer: `none` is NULL. -/
def MODES_CFB_DeInitCtx.checked (modeCtx : Option MODES_CFB_Ctx) :
    RetCode × Option MODES_CFB_Ctx :=
  match modeCtx with
  | none => (CRYPT_NULL_INPUT, none)
  | some c => ((MODES_CFB_DeInitCtx c).1, some (MODES_CFB_DeInitCtx c).2)

/-- `MODES_SetPaddingCheck(pad)` on the `int32_t` value `pad`. The numeric values of the
enumerators `CRYPT_PADDING_NONE` and `CRYPT_PADDING_MAX_COUNT` come from a header that is
not part of the sources at hand; they are the parameters `padNone` and `padMaxCount`. -/
def MODES_SetPaddingCheck (padNone padMaxCount : Int) (pad : Int) : RetCode :=
  if pad ≥ padMaxCount ∨ pad < padNone then CRYPT_MODES_PADDING_NOT_SUPPORT
  else CRYPT_SUCCESS

/-- A process function handed to `MODES_CipherStreamProcess`: `f ctx in out` stands for
`f(ctx, in, out, inLen)` with `inLen = in.length` and yields the status, the context and the
buffer `out`; `none` when the call does not return. -/
abbrev CipherStreamProcess (σ : Type) :=
  σ → List UInt8 → List UInt8 → Option (RetCode × σ × List UInt8)

/-- `MODES_CipherStreamProcess(processFuncs, ctx, in, inLen, out, outLen)` with
`inLen = inp.length`, the buffer `out` and the capacity `*outLen = outLen`: returns the
status, the context, the buffer `out` and the value left in `*outLen`. -/
def MODES_CipherStreamProcess {σ : Type} (processFuncs : CipherStreamProcess σ) (ctx : σ)
    (inp out : List UInt8) (outLen : Nat) : Option (RetCode × σ × List UInt8 × Nat) :=
  if inp.length = 0 then some (CRYPT_SUCCESS, ctx, out, 0)
  else if inp.length > outLen then some (CRYPT_MODE_BUFF_LEN_NOT_ENOUGH, ctx, out, outLen)
  else
    match processFuncs ctx inp out with
    | none => none
    | some r =>
      if r.1 ≠ CRYPT_SUCCESS then some (r.1, r.2.1, r.2.2, outLen)
      else some (CRYPT_SUCCESS, r.2.1, r.2.2, inp.length)

/-- `MODES_CFB_Update(modeCtx, in, inLen, out, outLen)` for a non-NULL `modeCtx`. -/
def MODES_CFB_Update (modeCtx : MODES_CFB_Ctx) (inp out : List UInt8) (outLen : Nat) :
    Option (RetCode × MODES_CFB_Ctx × List UInt8 × Nat) :=
  match MODES_CipherStreamProcess
      (if modeCtx.enc then MODES_CFB_Encrypt else MODES_CFB_Decrypt) modeCtx.cfbCtx inp out
      outLen with
  | none => none
  | some r => some (r.1, { modeCtx with cfbCtx := r.2.1 }, r.2.2.1, r.2.2.2)

/-- `AES_CTR_Update(modeCtx, in, inLen, out, outLen)`; `modeCtx = none` is a NULL pointer.
The bytes that `AES_CTR_EncryptBlock` writes go to the start of `out`. -/
def AES_CTR_Update (h : CTR_Helpers) (modeCtx : Option MODES_CipherCtx)
    (inp out : List UInt8) (outLen : Nat) :
    Option (RetCode × Option MODES_CipherCtx × List UInt8 × Nat) :=
  match modeCtx with
  | none => some (CRYPT_NULL_INPUT, none, out, outLen)
  | some m =>
    match MODES_CipherStreamProcess
        (fun c i o =>
          (AES_CTR_EncryptBlock h c i).map (fun r => (r.1, r.2.1, memcpyAt o 0 r.2.2)))
        m.commonCtx inp out outLen with
    | none => none
    | some r => some (r.1, some { m with commonCtx := r.2.1 }, r.2.2.1, r.2.2.2)

/-- The SM4 OFB routines that `MODE_SM4_OFB_Encrypt` and `MODE_SM4_OFB_Decrypt` call and
whose code is not part of the sources at hand: `f(ciphCtx, in, out, len, iv, &offset)` maps
the key context, the input, the buffer `out`, the IV and the offset to the status, the
buffer `out`, the IV and the offset. -/
structure SM4_OFB_Helpers where
  CRYPT_SM4_OFB_Encrypt : List UInt8 → List UInt8 → List UInt8 → List UInt8 → Nat →
    RetCode × List UInt8 × List UInt8 × Nat
  CRYPT_SM4_OFB_Decrypt : List UInt8 → List UInt8 → List UInt8 → List UInt8 → Nat →
    RetCode × List UInt8 × List UInt8 × Nat

/-- `MODE_SM4_OFB_Encrypt(ctx, in, out, len)` for non-NULL pointers. -/
def MODE_SM4_OFB_Encrypt (h : SM4_OFB_Helpers) : CipherStreamProcess MODES_CipherCommonCtx :=
  fun ctx inp out =>
    let r := h.CRYPT_SM4_OFB_Encrypt ctx.ciphCtx inp out ctx.iv ctx.offset
    some (r.1, { ctx with iv := r.2.2.1, offset := r.2.2.2 }, r.2.1)

/-- `MODE_SM4_OFB_Decrypt(ctx, in, out, len)` for non-NULL pointers. -/
def MODE_SM4_OFB_Decrypt (h : SM4_OFB_Helpers) : CipherStreamProcess MODES_CipherCommonCtx :=
  fun ctx inp out =>
    let r := h.CRYPT_SM4_OFB_Decrypt ctx.ciphCtx inp out ctx.iv ctx.offset
    some (r.1, { ctx with iv := r.2.2.1, offset := r.2.2.2 }, r.2.1)

/-- `SM4_OFB_Update(modeCtx, in, inLen, out, outLen)` for a non-NULL `modeCtx`. -/
def SM4_OFB_Update (h : SM4_OFB_Helpers) (modeCtx : MODES_CipherCtx) (inp out : List UInt8)
    (outLen : Nat) : Option (RetCode × MODES_CipherCtx × List UInt8 × Nat) :=
  match MODES_CipherStreamProcess
      (if modeCtx.enc then MODE_SM4_OFB_Encrypt h else MODE_SM4_OFB_Decrypt h)
      modeCtx.commonCtx inp out outLen with
  | none => none
  | some r => some (r.1, { modeCtx with commonCtx := r.2.1 }, r.2.2.1, r.2.2.2)

/-! ## DRBG dispatch (`eal_rand_method.c`) -/

/-- Random-generator identifiers `CRYPT_RAND_AlgId` that `eal_rand_method.c` names;
`CRYPT_RAND_ALGID_MAX` stands for every other value. -/
inductive CRYPT_RAND_AlgId where
  | CRYPT_RAND_SHA1 | CRYPT_RAND_SHA224 | CRYPT_RAND_SHA256 | CRYPT_RAND_SHA384
  | CRYPT_RAND_SHA512
  | CRYPT_RAND_HMAC_SHA1 | CRYPT_RAND_HMAC_SHA224 | CRYPT_RAND_HMAC_SHA256
  | CRYPT_RAND_HMAC_SHA384 | CRYPT_RAND_HMAC_SHA512
  | CRYPT_RAND_AES128_CTR | CRYPT_RAND_AES192_CTR | CRYPT_RAND_AES256_CTR
  | CRYPT_RAND_AES128_CTR_DF | CRYPT_RAND_AES192_CTR_DF | CRYPT_RAND_AES256_CTR_DF
  | CRYPT_RAND_ALGID_MAX
  deriving DecidableEq, Repr

/-- Hash identifiers `CRYPT_MD_AlgId` that the table names; `CRYPT_MD_MAX` stands for every
other value. -/
inductive CRYPT_MD_AlgId where
  | CRYPT_MD_SHA1 | CRYPT_MD_SHA224 | CRYPT_MD_SHA256 | CRYPT_MD_SHA384 | CRYPT_MD_SHA512
  | CRYPT_MD_MAX
  deriving DecidableEq, Repr

/-- MAC identifiers `CRYPT_MAC_AlgId` that the table names; `CRYPT_MAC_MAX` stands for every
other value. -/
inductive CRYPT_MAC_AlgId where
  | CRYPT_MAC_HMAC_SHA1 | CRYPT_MAC_HMAC_SHA224 | CRYPT_MAC_HMAC_SHA256
  | CRYPT_MAC_HMAC_SHA384 | CRYPT_MAC_HMAC_SHA512
  | CRYPT_MAC_MAX
  deriving DecidableEq, Repr

/-- The kinds of DRBG construction that `GetRequiredMethod` distinguishes; `RAND_TYPE_MAX`
stands for every other value (the `default:` arm). -/
inductive RandType where
  | RAND_TYPE_MD | RAND_TYPE_MAC | RAND_TYPE_AES | RAND_TYPE_AES_DF | RAND_TYPE_MAX
  deriving DecidableEq, Repr

/-- The integer field `depId` of a table entry: an identifier of the hash, the MAC or the
cipher enumeration. -/
inductive DepId where
  | md (id : CRYPT_MD_AlgId)
  | mac (id : CRYPT_MAC_AlgId)
  | cipher (id : CRYPT_CIPHER_AlgId)
  deriving DecidableEq, Repr

open CRYPT_RAND_AlgId CRYPT_MD_AlgId CRYPT_MAC_AlgId RandType

/-- Table entry `DrbgIdMap`. -/
structure DrbgIdMap where
  drbgId : CRYPT_RAND_AlgId
  depId : DepId
  type : RandType
  deriving DecidableEq, Repr

/-- The table `DRBG_METHOD_MAP`, with the hash, HMAC and CTR constructions all built in. -/
def DRBG_METHOD_MAP : List DrbgIdMap :=
  [ { drbgId := CRYPT_RAND_SHA1, depId := DepId.md CRYPT_MD_SHA1, type := RAND_TYPE_MD },
    { drbgId := CRYPT_RAND_SHA224, depId := DepId.md CRYPT_MD_SHA224, type := RAND_TYPE_MD },
    { drbgId := CRYPT_RAND_SHA256, depId := DepId.md CRYPT_MD_SHA256, type := RAND_TYPE_MD },
    { drbgId := CRYPT_RAND_SHA384, depId := DepId.md CRYPT_MD_SHA384, type := RAND_TYPE_MD },
    { drbgId := CRYPT_RAND_SHA512, depId := DepId.md CRYPT_MD_SHA512, type := RAND_TYPE_MD },
    { drbgId := CRYPT_RAND_HMAC_SHA1, depId := DepId.mac CRYPT_MAC_HMAC_SHA1,
      type := RAND_TYPE_MAC },
    { drbgId := CRYPT_RAND_HMAC_SHA224, depId := DepId.mac CRYPT_MAC_HMAC_SHA224,
      type := RAND_TYPE_MAC },
    { drbgId := CRYPT_RAND_HMAC_SHA256, depId := DepId.mac CRYPT_MAC_HMAC_SHA256,
      type := RAND_TYPE_MAC },
    { drbgId := CRYPT_RAND_HMAC_SHA384, depId := DepId.mac CRYPT_MAC_HMAC_SHA384,
      type := RAND_TYPE_MAC },
    { drbgId := CRYPT_RAND_HMAC_SHA512, depId := DepId.mac CRYPT_MAC_HMAC_SHA512,
      type := RAND_TYPE_MAC },
    { drbgId := CRYPT_RAND_AES128_CTR, depId := DepId.cipher CRYPT_CIPHER_AES128_CTR,
      type := RAND_TYPE_AES },
    { drbgId := CRYPT_RAND_AES192_CTR, depId := DepId.cipher CRYPT_CIPHER_AES192_CTR,
      type := RAND_TYPE_AES },
    { drbgId := CRYPT_RAND_AES256_CTR, depId := DepId.cipher CRYPT_CIPHER_AES256_CTR,
      type := RAND_TYPE_AES },
    { drbgId := CRYPT_RAND_AES128_CTR_DF, depId := DepId.cipher CRYPT_CIPHER_AES128_CTR,
      type := RAND_TYPE_AES_DF },
    { drbgId := CRYPT_RAND_AES192_CTR_DF, depId := DepId.cipher CRYPT_CIPHER_AES192_CTR,
      type := RAND_TYPE_AES_DF },
    { drbgId := CRYPT_RAND_AES256_CTR_DF, depId := DepId.cipher CRYPT_CIPHER_AES256_CTR,
      type := RAND_TYPE_AES_DF } ]

/-- The loop of `GetDrbgIdMap` over the entries not yet visited: the first entry whose
`drbgId` is `id`. -/
def GetDrbgIdMap.scan (id : CRYPT_RAND_AlgId) : List DrbgIdMap → Option DrbgIdMap
  | [] => none
  | e :: rest => if e.drbgId = id then some e else GetDrbgIdMap.scan id rest

/-- `GetDrbgIdMap(id)`: the address of a table entry, `none` for NULL. -/
def GetDrbgIdMap (id : CRYPT_RAND_AlgId) : Option DrbgIdMap :=
  GetDrbgIdMap.scan id DRBG_METHOD_MAP

/-- The look-up functions of the hash and MAC layers that `GetRequiredMethod` calls and
whose code is not part of the sources at hand, for method tables of types `MdMethod` and
`MacMethod`: `EAL_MdFindMethod(id)` yields a method table or NULL, `EAL_MacFindMethod(id,
&hmac)` yields the status and the field `hmac.macMethod`. -/
structure RandDeps (MdMethod MacMethod : Type) where
  EAL_MdFindMethod : DepId → Option MdMethod
  EAL_MacFindMethod : DepId → RetCode × Option MacMethod

/-- The pointer `method` of `EAL_RandMethLookup`: a hash, MAC or cipher method table. -/
inductive RandMethodRef (MdMethod MacMethod : Type) where
  | md (m : MdMethod)
  | mac (m : Option MacMethod)
  | sym (m : EAL_SymMethod)

/-- The result record `EAL_RandMethLookup`; `method = none` is a NULL pointer. -/
structure EAL_RandMethLookup (MdMethod MacMethod : Type) where
  type : RandType
  methodId : DepId
  method : Option (RandMethodRef MdMethod MacMethod)

/-- `GetRequiredMethod(map, lu)`: returns the status and `*lu`. The cipher look-up is
`MODES_GetSymMethod`; an entry of a cipher type whose `depId` is not a cipher identifier
does not occur in the table and counts as an identifier that `MODES_GetSymMethod` does not
know. -/
def GetRequiredMethod {MdMethod MacMethod : Type} (d : RandDeps MdMethod MacMethod)
    (p : SymPrimitives) (map : DrbgIdMap) (lu : EAL_RandMethLookup MdMethod MacMethod) :
    RetCode × EAL_RandMethLookup MdMethod MacMethod :=
  match map.type with
  | RAND_TYPE_MD =>
    match d.EAL_MdFindMethod map.depId with
    | none => (CRYPT_EAL_ERR_ALGID, lu)
    | some md =>
      (CRYPT_SUCCESS, { lu with methodId := map.depId, method := some (RandMethodRef.md md) })
  | RAND_TYPE_MAC =>
    if (d.EAL_MacFindMethod map.depId).1 ≠ CRYPT_SUCCESS then (CRYPT_EAL_ERR_ALGID, lu)
    else
      (CRYPT_SUCCESS,
        { lu with methodId := map.depId,
                  method := some (RandMethodRef.mac (d.EAL_MacFindMethod map.depId).2) })
  | RAND_TYPE_AES | RAND_TYPE_AES_DF =>
    match (match map.depId with
        | DepId.cipher id => MODES_GetSymMethod p id
        | _ => none) with
    | none => (CRYPT_EAL_ERR_ALGID, lu)
    | some ciphMeth =>
      (CRYPT_SUCCESS,
        { lu with methodId := map.depId, method := some (RandMethodRef.sym ciphMeth) })
  | RAND_TYPE_MAX => (CRYPT_EAL_ERR_ALGID, lu)

/-- `EAL_RandFindMethod(id, lu)`: returns the status and `*lu`; `lu = none` is a NULL
pointer. -/
def EAL_RandFindMethod {MdMethod MacMethod : Type} (d : RandDeps MdMethod MacMethod)
    (p : SymPrimitives) (id : CRYPT_RAND_AlgId)
    (lu : Option (EAL_RandMethLookup MdMethod MacMethod)) :
    RetCode × Option (EAL_RandMethLookup MdMethod MacMethod) :=
  match lu with
  | none => (CRYPT_NULL_INPUT, none)
  | some l =>
    match GetDrbgIdMap id with
    | none => (CRYPT_EAL_ERR_ALGID, some l)
    | some map =>
      let r := GetRequiredMethod d p map l
      if r.1 ≠ CRYPT_SUCCESS then (r.1, some r.2)
      else (CRYPT_SUCCESS, some { r.2 with type := map.type })

/-! ## Specification-side predicates and functions -/

/-- Validity of PKCS5/PKCS7 padding in the words of the specification: the last byte `L`
of the `padLen`-byte buffer satisfies `1 ≤ L ≤ padLen` and each of the last `L` bytes
equals `L`. -/
def PkcsValid (pad : List UInt8) (padLen : Nat) : Prop :=
  1 ≤ (pad.getD (padLen - 1) 0).toNat ∧ (pad.getD (padLen - 1) 0).toNat ≤ padLen ∧
    ∀ i, i < padLen → padLen - (pad.getD (padLen - 1) 0).toNat ≤ i →
      (pad.getD i 0).toNat = (pad.getD (padLen - 1) 0).toNat

instance (pad : List UInt8) (padLen : Nat) : Decidable (PkcsValid pad padLen) := by
  unfold PkcsValid; infer_instance

/-- Validity of ISO7816 padding in the words of the specification: index `k` of the
`padLen`-byte buffer holds `0x80` and every later byte is `0x00`, so that the byte at `k`
is the last non-zero byte. -/
def Iso7816ValidAt (pad : List UInt8) (padLen k : Nat) : Prop :=
  k < padLen ∧ pad.getD k 0 = 0x80 ∧ ∀ j, j < padLen → k < j → pad.getD j 0 = 0

instance (pad : List UInt8) (padLen k : Nat) : Decidable (Iso7816ValidAt pad padLen k) := by
  unfold Iso7816ValidAt; infer_instance

/-- The `p` pad bytes of each scheme in the words of the specification table. -/
def specPadBytes (padding : CRYPT_PaddingType) (p : Nat) : List UInt8 :=
  match padding with
  | CRYPT_PADDING_ZEROS => List.replicate p 0x00
  | CRYPT_PADDING_ISO7816 => 0x80 :: List.replicate (p - 1) 0x00
  | CRYPT_PADDING_X923 => List.replicate (p - 1) 0x00 ++ [UInt8.ofNat p]
  | CRYPT_PADDING_PKCS5 => List.replicate p (UInt8.ofNat p)
  | CRYPT_PADDING_PKCS7 => List.replicate p (UInt8.ofNat p)
  | _ => []

/-- Whether the engine holds back the last full block: decryption with a padding scheme. -/
def defersLast (ctx : MODES_CipherCtx) : Bool :=
  !ctx.enc && decide (ctx.pad ≠ CRYPT_PADDING_NONE)

/-- Number of bytes the engine has transformed once `L` bytes (cache and input) are held:
all full blocks, or all full blocks but the last one when the last block is held back. -/
def emitLen (bs : Nat) (deferLast : Bool) (L : Nat) : Nat :=
  if deferLast then (L - 1) / bs * bs else L / bs * bs

/-- One call of the block transform on `x`, and no call at all when `x` is empty (the
engine never calls the transform with length zero): the context left and the bytes
written. -/
def applyT (T : BlockUpdate) (c : MODES_CipherCommonCtx) (x : List UInt8) :
    MODES_CipherCommonCtx × List UInt8 :=
  match x with
  | [] => (c, [])
  | _ :: _ => ((T c x).2.1, (T c x).2.2)

/-- A block transform in the sense of the streaming properties: on a context of block
size `bs` and a non-empty block-aligned input it succeeds, keeps the block size, writes as
many bytes as it reads, and its effect on `a ++ b` is its effect on `a` followed by its
effect on `b` from the context left by `a`. -/
def BlockTransformOK (bs : Nat) (T : BlockUpdate) : Prop :=
  ∀ (c : MODES_CipherCommonCtx) (a : List UInt8), c.blockSize = bs → a ≠ [] →
    a.length % bs = 0 →
    (T c a).1 = CRYPT_SUCCESS ∧ (T c a).2.1.blockSize = bs ∧ (T c a).2.2.length = a.length ∧
    ∀ b : List UInt8, b ≠ [] → b.length % bs = 0 →
      (T c (a ++ b)).2.1 = (T (T c a).2.1 b).2.1 ∧
      (T c (a ++ b)).2.2 = (T c a).2.2 ++ (T (T c a).2.1 b).2.2

/-- Well-formedness of an engine context: `1 ≤ blockSize < 256` (a `uint8_t`), the cache
buffer holds at least one block, `dataLen ≤ blockSize`, and `dataLen < blockSize` unless
the last block is held back. -/
def CtxOK (ctx : MODES_CipherCtx) : Prop :=
  1 ≤ ctx.commonCtx.blockSize ∧ ctx.commonCtx.blockSize < 256 ∧
  ctx.commonCtx.blockSize ≤ ctx.data.length ∧ ctx.dataLen ≤ ctx.commonCtx.blockSize ∧
  (defersLast ctx = false → ctx.dataLen < ctx.commonCtx.blockSize)

/-- What a successful `MODES_CipherUpdate` call `u` on `ctx` and `inp` amounts to: with
`all` the cached bytes followed by `inp` and `N = emitLen ..` of its length, the first `N`
bytes of `all` went through the transform in order (as one call), `*outLen = N`, the cache
holds the other bytes of `all`, and nothing else in the context changed. -/
def UpdateResultOK (T : BlockUpdate) (ctx : MODES_CipherCtx) (inp : List UInt8)
    (u : RetCode × MODES_CipherCtx × List UInt8 × Nat) : Prop :=
  u.1 = CRYPT_SUCCESS ∧
  u.2.2.2 = emitLen ctx.commonCtx.blockSize (defersLast ctx)
    (ctx.data.take ctx.dataLen ++ inp).length ∧
  u.2.1.commonCtx = (applyT T ctx.commonCtx ((ctx.data.take ctx.dataLen ++ inp).take
    (emitLen ctx.commonCtx.blockSize (defersLast ctx)
      (ctx.data.take ctx.dataLen ++ inp).length))).1 ∧
  u.2.2.1 = (applyT T ctx.commonCtx ((ctx.data.take ctx.dataLen ++ inp).take
    (emitLen ctx.commonCtx.blockSize (defersLast ctx)
      (ctx.data.take ctx.dataLen ++ inp).length))).2 ∧
  u.2.1.data.take u.2.1.dataLen = (ctx.data.take ctx.dataLen ++ inp).drop
    (emitLen ctx.commonCtx.blockSize (defersLast ctx)
      (ctx.data.take ctx.dataLen ++ inp).length) ∧
  u.2.1.dataLen = (ctx.data.take ctx.dataLen ++ inp).length -
    emitLen ctx.commonCtx.blockSize (defersLast ctx)
      (ctx.data.take ctx.dataLen ++ inp).length ∧
  u.2.1.data.length = ctx.data.length ∧ u.2.1.pad = ctx.pad ∧ u.2.1.enc = ctx.enc ∧
  u.2.1.algId = ctx.algId ∧ u.2.1.commonCtx.blockSize = ctx.commonCtx.blockSize

/-- What a successful run `r` of update calls on `ctx` and the input `inp` fed in total
amounts to; as `UpdateResultOK`, without the `*outLen` of a single call. -/
def RunResultOK (T : BlockUpdate) (ctx : MODES_CipherCtx) (inp : List UInt8)
    (r : RetCode × MODES_CipherCtx × List UInt8) : Prop :=
  r.1 = CRYPT_SUCCESS ∧
  r.2.1.commonCtx = (applyT T ctx.commonCtx ((ctx.data.take ctx.dataLen ++ inp).take
    (emitLen ctx.commonCtx.blockSize (defersLast ctx)
      (ctx.data.take ctx.dataLen ++ inp).length))).1 ∧
  r.2.2 = (applyT T ctx.commonCtx ((ctx.data.take ctx.dataLen ++ inp).take
    (emitLen ctx.commonCtx.blockSize (defersLast ctx)
      (ctx.data.take ctx.dataLen ++ inp).length))).2 ∧
  r.2.1.data.take r.2.1.dataLen = (ctx.data.take ctx.dataLen ++ inp).drop
    (emitLen ctx.commonCtx.blockSize (defersLast ctx)
      (ctx.data.take ctx.dataLen ++ inp).length) ∧
  r.2.1.dataLen = (ctx.data.take ctx.dataLen ++ inp).length -
    emitLen ctx.commonCtx.blockSize (defersLast ctx)
      (ctx.data.take ctx.dataLen ++ inp).length ∧
  r.2.1.data.length = ctx.data.length ∧ r.2.1.pad = ctx.pad ∧ r.2.1.enc = ctx.enc ∧
  r.2.1.algId = ctx.algId ∧ r.2.1.commonCtx.blockSize = ctx.commonCtx.blockSize

/-- The input of a chunked run: the chunks in order. -/
def chunkInput (chunks : List (List UInt8 × Nat)) : List UInt8 :=
  (chunks.map Prod.fst).flatten

/-- Every call of a chunked run is given enough room: the capacity that comes with a chunk
is at least the chunk length plus one block. -/
def CapsOK (bs : Nat) (chunks : List (List UInt8 × Nat)) : Prop :=
  ∀ ch ∈ chunks, ch.1.length + bs ≤ ch.2

/-- The cache block an encrypt `MODES_CipherFinal` hands to the transform, as a function of
the cached bytes: the status of the padding step and the block. -/
def paddedCache (algId : CRYPT_CIPHER_AlgId) (pad : CRYPT_PaddingType) (bs : Nat)
    (cache : List UInt8) : RetCode × List UInt8 :=
  match pad with
  | CRYPT_PADDING_NONE =>
    (if cache.length % bs ≠ 0 then
        (if IfXts algId then CRYPT_SUCCESS else CRYPT_MODE_ERR_INPUT_LEN)
      else CRYPT_SUCCESS, cache)
  | CRYPT_PADDING_MAX_COUNT => (CRYPT_INVALID_ARG, cache)
  | _ => (CRYPT_SUCCESS, cache ++ specPadBytes pad (bs - cache.length))

/-- What the caller sees of `MODES_CipherFinal` (status, bytes written, `*outLen`), as a
function of the common context, the selectors and the cached bytes. -/
def finalView (T : BlockUpdate) (c : MODES_CipherCommonCtx) (algId : CRYPT_CIPHER_AlgId)
    (pad : CRYPT_PaddingType) (enc : Bool) (cache : List UInt8) (cap : Nat) :
    RetCode × List UInt8 × Nat :=
  if pad ≠ CRYPT_PADDING_NONE ∧ cap < c.blockSize then (CRYPT_EAL_BUFF_LEN_NOT_ENOUGH, [], cap)
  else if enc then
    if (paddedCache algId pad c.blockSize cache).1 ≠ CRYPT_SUCCESS then
      ((paddedCache algId pad c.blockSize cache).1, [], cap)
    else if (paddedCache algId pad c.blockSize cache).2.length = 0 then (CRYPT_SUCCESS, [], 0)
    else if (T c (paddedCache algId pad c.blockSize cache).2).1 ≠ CRYPT_SUCCESS then
      ((T c (paddedCache algId pad c.blockSize cache).2).1,
        (T c (paddedCache algId pad c.blockSize cache).2).2.2, cap)
    else
      ((T c (paddedCache algId pad c.blockSize cache).2).1,
        (T c (paddedCache algId pad c.blockSize cache).2).2.2,
        (paddedCache algId pad c.blockSize cache).2.length)
  else if cache.length = 0 then (CRYPT_SUCCESS, [], 0)
  else if (T c cache).1 ≠ CRYPT_SUCCESS then ((T c cache).1, (T c cache).2.2, cap)
  else
    ((Mode_BlockUnPadding pad (T c cache).2.2 cache.length cap).1, (T c cache).2.2,
      (Mode_BlockUnPadding pad (T c cache).2.2 cache.length cap).2)

/-- The per-block decrypt transform `D` inverts the per-block encrypt transform `E`: from
contexts related by `R` (for instance "same chaining value"), decrypting the encryption of
one block gives the block back and leaves the contexts related. -/
def DecryptInverts (bs : Nat) (E D : BlockUpdate)
    (R : MODES_CipherCommonCtx → MODES_CipherCommonCtx → Prop) : Prop :=
  ∀ (ce cd : MODES_CipherCommonCtx) (x : List UInt8), ce.blockSize = bs → cd.blockSize = bs →
    R ce cd → x.length = bs →
    (D cd (E ce x).2.2).2.2 = x ∧ R (E ce x).2.1 (D cd (E ce x).2.2).2.1

instance (bs : Nat) (chunks : List (List UInt8 × Nat)) : Decidable (CapsOK bs chunks) := by
  unfold CapsOK; infer_instance

/-- A block transform that succeeds: on a context of block size `bs` and a non-empty
block-aligned input it returns `CRYPT_SUCCESS`, keeps the block size and writes as many
bytes as it reads. -/
def BlockTransformSucceeds (bs : Nat) (T : BlockUpdate) : Prop :=
  ∀ (c : MODES_CipherCommonCtx) (a : List UInt8), c.blockSize = bs → a ≠ [] →
    a.length % bs = 0 →
    (T c a).1 = CRYPT_SUCCESS ∧ (T c a).2.1.blockSize = bs ∧ (T c a).2.2.length = a.length

/-- What a successful `MODES_CipherUpdate` call `u` on `ctx` and `inp` amounts to as far as
lengths and the cache go: with `all` the cached bytes followed by `inp` and
`N = emitLen ..` of its length, `*outLen = N`, `N` bytes were written, the cache holds the
other bytes of `all`, and the buffer length, the selectors and the block size are as they
were. -/
def UpdateShapeOK (ctx : MODES_CipherCtx) (inp : List UInt8)
    (u : RetCode × MODES_CipherCtx × List UInt8 × Nat) : Prop :=
  u.1 = CRYPT_SUCCESS ∧
  u.2.2.2 = emitLen ctx.commonCtx.blockSize (defersLast ctx) (ctx.dataLen + inp.length) ∧
  u.2.2.1.length = emitLen ctx.commonCtx.blockSize (defersLast ctx)
    (ctx.dataLen + inp.length) ∧
  u.2.1.dataLen = ctx.dataLen + inp.length -
    emitLen ctx.commonCtx.blockSize (defersLast ctx) (ctx.dataLen + inp.length) ∧
  u.2.1.data.take u.2.1.dataLen = (ctx.data.take ctx.dataLen ++ inp).drop
    (emitLen ctx.commonCtx.blockSize (defersLast ctx) (ctx.dataLen + inp.length)) ∧
  u.2.1.data.length = ctx.data.length ∧ u.2.1.pad = ctx.pad ∧ u.2.1.enc = ctx.enc ∧
  u.2.1.algId = ctx.algId ∧ u.2.1.commonCtx.blockSize = ctx.commonCtx.blockSize

/-! ## Concrete instances used to exercise the theorems -/

/-- A toy block transform: XOR of every byte with `k`, context untouched. -/
def xorBlockUpdate (k : UInt8) : BlockUpdate :=
  fun c x => (CRYPT_SUCCESS, c, x.map (fun b => b ^^^ k))

/-- A toy primitive: the identity on blocks of 16 bytes. -/
def demoMethod : EAL_SymMethod :=
  { setEncryptKey := fun c _ => (CRYPT_SUCCESS, c)
    setDecryptKey := fun c _ => (CRYPT_SUCCESS, c)
    encryptBlock := fun _ x => (CRYPT_SUCCESS, x)
    decryptBlock := fun _ x => (CRYPT_SUCCESS, x)
    cipherDeInitCtx := fun c => c
    blockSize := 16
    ctxSize := 0
    algId := CRYPT_SYM_AES128 }

/-- A common context of block size 16 with all-zero registers. -/
def demoCommonCtx : MODES_CipherCommonCtx :=
  { ciphCtx := [], ciphMeth := demoMethod, iv := List.replicate 16 0,
    buf := List.replicate 16 0, blockSize := 16, offset := 0 }

/-- A fresh engine context of block size 16 with a 32-byte cache buffer. -/
def demoCtx (pad : CRYPT_PaddingType) (enc : Bool) : MODES_CipherCtx :=
  { commonCtx := demoCommonCtx, algId := CRYPT_CIPHER_AES128_CBC,
    data := List.replicate 32 0, dataLen := 0, pad := pad, enc := enc }

/-- A 19-byte plaintext. -/
def demoPlain : List UInt8 :=
  [1, 2, 3, 4, 5, 6, 7, 8, 9, 10, 11, 12, 13, 14, 15, 16, 17, 18, 19]

/-- The plaintext `demoPlain` in two chunks, each with its output capacity. -/
def demoPlainChunks : List (List UInt8 × Nat) :=
  [([1, 2, 3, 4, 5], 21), ([6, 7, 8, 9, 10, 11, 12, 13, 14, 15, 16, 17, 18, 19], 30)]

/-- The ciphertext of `demoPlain` under `xorBlockUpdate 0x5A` and X9.23 padding, in three
chunks, each with its output capacity. -/
def demoCipherChunks : List (List UInt8 × Nat) :=
  [([91], 17), ([88, 89, 94, 95, 92, 93, 82, 83, 80, 81, 86, 87, 84, 85, 74, 75, 72], 33),
    ([73, 90, 90, 90, 90, 90, 90, 90, 90, 90, 90, 90, 90, 87], 30)]

/-! ## Reference semantics of the CFB byte functions -/

/-- The IV buffer in the middle of a feedback segment, in the words of the specification:
the old register shifted left by `fb` bytes, the feedback bytes `F` received so far, the
keystream bytes of `tmp` not yet used, and the bytes of the buffer beyond the register. -/
def cfbRegister (iv tmp F : List UInt8) (bs fb : Nat) : List UInt8 :=
  (iv.drop fb).take (bs - fb) ++ F ++ (tmp.drop F.length).take (fb - F.length) ++ iv.drop bs

/-- CFB on one byte: with keystream left in the register (`offset > 0`) the byte is combined
with the keystream byte at `offset` and the feedback byte takes its place; otherwise a new
segment starts: the register is encrypted, shifted, and receives the feedback byte followed
by the unused keystream. The feedback byte is the output on encrypt, the input on decrypt.
Returns the context and the output byte. -/
def cfbByteStep (enc : Bool) (ctx : MODES_CipherCFBCtx) (x : UInt8) :
    MODES_CipherCFBCtx × UInt8 :=
  if ctx.modeCtx.offset > 0 then
    ({ ctx with modeCtx := { ctx.modeCtx with
        iv := ctx.modeCtx.iv.set ctx.modeCtx.offset
          (if enc then ctx.modeCtx.iv.getD ctx.modeCtx.offset 0 ^^^ x else x),
        offset := (ctx.modeCtx.offset + 1) % ctx.modeCtx.blockSize % 2 ^ 8 } },
      ctx.modeCtx.iv.getD ctx.modeCtx.offset 0 ^^^ x)
  else
    ({ ctx with modeCtx := { ctx.modeCtx with
        iv := cfbRegister ctx.modeCtx.iv (cfbEncryptIv ctx).2
          [if enc then x ^^^ (cfbEncryptIv ctx).2.getD 0 0 else x]
          ctx.modeCtx.blockSize (ctx.feedbackBits >>> 3),
        buf := memcpyAt ctx.modeCtx.buf 0 (cfbEncryptIv ctx).2,
        offset := (ctx.modeCtx.blockSize - (ctx.feedbackBits >>> 3) + 1) %
          ctx.modeCtx.blockSize } },
      x ^^^ (cfbEncryptIv ctx).2.getD 0 0)

/-- CFB on a byte string, one byte after the other: the context and the output bytes. -/
def cfbSteps (enc : Bool) : MODES_CipherCFBCtx → List UInt8 → MODES_CipherCFBCtx × List UInt8
  | ctx, [] => (ctx, [])
  | ctx, x :: rest =>
    ((cfbSteps enc (cfbByteStep enc ctx x).1 rest).1,
      (cfbByteStep enc ctx x).2 :: (cfbSteps enc (cfbByteStep enc ctx x).1 rest).2)

/-- Well-formedness of a CFB context for the byte functions: the feedback width is between
one byte and the block size, the block size fits a `uint8_t` and the IV buffer, and the
offset is inside the block. -/
def CfbOK (ctx : MODES_CipherCFBCtx) : Prop :=
  1 ≤ ctx.feedbackBits >>> 3 ∧ ctx.feedbackBits >>> 3 ≤ ctx.modeCtx.blockSize ∧
  ctx.modeCtx.blockSize < 256 ∧ ctx.modeCtx.blockSize ≤ ctx.modeCtx.iv.length ∧
  ctx.modeCtx.offset < ctx.modeCtx.blockSize

/-- The block-encrypt function of the context succeeds on every block and writes one block. -/
def EncryptOK (ctx : MODES_CipherCFBCtx) : Prop :=
  ∀ x : List UInt8, x.length = ctx.modeCtx.blockSize →
    (ctx.modeCtx.ciphMeth.encryptBlock ctx.modeCtx.ciphCtx x).1 = CRYPT_SUCCESS ∧
    (ctx.modeCtx.ciphMeth.encryptBlock ctx.modeCtx.ciphCtx x).2.length = ctx.modeCtx.blockSize

/-- The result of a run of byte steps that starts a segment and stays inside it. -/
def segmentResult (enc : Bool) (ctx : MODES_CipherCFBCtx) (xs : List UInt8) :
    MODES_CipherCFBCtx × List UInt8 :=
  ({ ctx with modeCtx := { ctx.modeCtx with
      iv := cfbRegister ctx.modeCtx.iv (cfbEncryptIv ctx).2
        (if enc then List.zipWith (· ^^^ ·) xs (cfbEncryptIv ctx).2 else xs)
        ctx.modeCtx.blockSize (ctx.feedbackBits >>> 3),
      buf := memcpyAt ctx.modeCtx.buf 0 (cfbEncryptIv ctx).2,
      offset := (ctx.modeCtx.blockSize - (ctx.feedbackBits >>> 3) + xs.length) %
        ctx.modeCtx.blockSize } },
    List.zipWith (· ^^^ ·) xs (cfbEncryptIv ctx).2)

/-- What the byte functions leave untouched, and the bounds they keep. -/
def CfbSame (c1 c2 : MODES_CipherCFBCtx) : Prop :=
  c2.feedbackBits = c1.feedbackBits ∧ c2.modeCtx.blockSize = c1.modeCtx.blockSize ∧
  c2.modeCtx.ciphMeth = c1.modeCtx.ciphMeth ∧ c2.modeCtx.ciphCtx = c1.modeCtx.ciphCtx ∧
  c2.modeCtx.iv.length = c1.modeCtx.iv.length

/-- Successive calls of a CFB byte function `f`, one per chunk, stopping at the first call
that fails; `none` when a call does not return. Returns the last status, the context and
the concatenation of the bytes written. -/
def cfbRun (f : MODES_CipherCFBCtx → List UInt8 →
      Option (RetCode × MODES_CipherCFBCtx × List UInt8)) :
    MODES_CipherCFBCtx → List (List UInt8) →
      Option (RetCode × MODES_CipherCFBCtx × List UInt8)
  | ctx, [] => some (CRYPT_SUCCESS, ctx, [])
  | ctx, chunk :: rest =>
    match f ctx chunk with
    | none => none
    | some r =>
      if r.1 ≠ CRYPT_SUCCESS then some r
      else
        match cfbRun f r.2.1 rest with
        | none => none
        | some r2 => some (r2.1, r2.2.1, r.2.2 ++ r2.2.2)

/-- The textbook CFB shift register in the words of the specification, on a list of
`f`-byte segments: the output segment is the input segment XOR the first `f` bytes of
`E S`, and the next register is the last `b - f` bytes of `S` followed by the ciphertext
segment (the output on encrypt, the input on decrypt). Returns the last register and the
output segments. -/
def cfbTextbook (E : List UInt8 → List UInt8) (enc : Bool) (f : Nat) :
    List UInt8 → List (List UInt8) → List UInt8 × List (List UInt8)
  | S, [] => (S, [])
  | S, I :: rest =>
    ((cfbTextbook E enc f
        (S.drop f ++ (if enc then List.zipWith (· ^^^ ·) I ((E S).take f) else I)) rest).1,
      List.zipWith (· ^^^ ·) I ((E S).take f) ::
        (cfbTextbook E enc f
          (S.drop f ++ (if enc then List.zipWith (· ^^^ ·) I ((E S).take f) else I)) rest).2)

/-! ## Reference semantics of CTR mode -/

/-- The behaviour assumed of the multi-block routine `CRYPT_AES_CTR_Encrypt`, in the words
of the specification: it encrypts consecutive blocks, each with the current IV as counter
block, adding one to the low 32 bits of the IV modulo `2 ^ 32` per block. `E key` is the
block cipher. Returns the bytes written and the IV. -/
def ctrPrimitiveSpec (E : List UInt8 → List UInt8 → List UInt8) (key : List UInt8) :
    List UInt8 → List (List UInt8) → List UInt8 × List UInt8
  | iv, [] => ([], iv)
  | iv, B :: rest =>
    ((List.zipWith (· ^^^ ·) B (E key iv)) ++
        (ctrPrimitiveSpec E key
          (iv.take 12 ++ beBytes 4 ((beValue (iv.drop 12) + 1) % 2 ^ 32)) rest).1,
      (ctrPrimitiveSpec E key
        (iv.take 12 ++ beBytes 4 ((beValue (iv.drop 12) + 1) % 2 ^ 32)) rest).2)

/-- The behaviour assumed of `MODE_IncCounter(iv, 12)`, in the words of the specification:
one is added to the big-endian upper 96 bits. -/
def incUpper96 (iv : List UInt8) : List UInt8 :=
  beBytes 12 ((beValue (iv.take 12) + 1) % 2 ^ 96) ++ iv.drop 12

/-- CTR mode one block at a time with 128-bit big-endian counter arithmetic, in the words of
the specification: block `k` is combined with `E key` of the counter `C + k` modulo
`2 ^ 128`. Returns the output and the counter after the last block. -/
def ctrReference (E : List UInt8 → List UInt8 → List UInt8) (key : List UInt8) :
    Nat → List (List UInt8) → List UInt8 × Nat
  | C, [] => ([], C)
  | C, B :: rest =>
    ((List.zipWith (· ^^^ ·) B (E key (beBytes 16 C))) ++
        (ctrReference E key ((C + 1) % 2 ^ 128) rest).1,
      (ctrReference E key ((C + 1) % 2 ^ 128) rest).2)

/-- The first `n` blocks of 16 bytes of a byte string. -/
def ctrBlocks : Nat → List UInt8 → List (List UInt8)
  | 0, _ => []
  | n + 1, l => l.take 16 :: ctrBlocks n (l.drop 16)

/-- Helper functions that meet the assumptions: nothing is pending at `offset = 0`, nothing
is left after whole blocks, and the primitive and the counter increment are the assumed
ones. -/
def demoCtrHelpers (E : List UInt8 → List UInt8 → List UInt8) : CTR_Helpers :=
  { MODES_CTR_LastHandle := fun c _ => (c, [], 0)
    MODES_CTR_RemHandle := fun c _ => (c, [])
    CRYPT_AES_CTR_Encrypt := fun key inp iv =>
      ctrPrimitiveSpec E key iv (ctrBlocks (inp.length / 16) inp)
    MODE_IncCounter := fun iv _ => incUpper96 iv }

/-- A toy block function: the block reversed and combined with the first key byte. -/
def demoBlock (key x : List UInt8) : List UInt8 :=
  (x.map (fun b => b ^^^ key.getD 0 0)).reverse

/-- A toy primitive for CFB built on `demoBlock`. -/
def demoCfbMethod : EAL_SymMethod :=
  { setEncryptKey := fun c _ => (CRYPT_SUCCESS, c)
    setDecryptKey := fun c _ => (CRYPT_SUCCESS, c)
    encryptBlock := fun key x => (CRYPT_SUCCESS, demoBlock key x)
    decryptBlock := fun key x => (CRYPT_SUCCESS, demoBlock key x)
    cipherDeInitCtx := fun c => c
    blockSize := 16
    ctxSize := 1
    algId := CRYPT_SYM_AES128 }

/-- A CFB context of block size 16 with the given feedback width, a one-byte key context and
the IV `0, 1, ..., 15`. -/
def demoCfbCtx (bits : Nat) : MODES_CipherCFBCtx :=
  { modeCtx :=
      { ciphCtx := [0x3C], ciphMeth := demoCfbMethod,
        iv := [0, 1, 2, 3, 4, 5, 6, 7, 8, 9, 10, 11, 12, 13, 14, 15],
        buf := List.replicate 16 0, blockSize := 16, offset := 0 }
    feedbackBits := bits }

/-- A CTR context of block size 16 whose counter has the low 32 bits `0xFFFFFFFE`. -/
def demoCtrCtx : MODES_CipherCommonCtx :=
  { ciphCtx := [0x3C], ciphMeth := demoCfbMethod,
    iv := [0, 1, 2, 3, 4, 5, 6, 7, 8, 9, 10, 0xFF, 0xFF, 0xFF, 0xFF, 0xFE],
    buf := List.replicate 16 0, blockSize := 16, offset := 0 }

/-- Spec side of the dispatch table: the primitive that the specification assigns to a
cipher id, `none` for an id outside the listed set. -/
def listedPrimitive (algId : CRYPT_CIPHER_AlgId) : Option CRYPT_SYM_AlgId :=
  if algId ∈ [CRYPT_CIPHER_AES128_CBC, CRYPT_CIPHER_AES128_ECB, CRYPT_CIPHER_AES128_CTR,
      CRYPT_CIPHER_AES128_CCM, CRYPT_CIPHER_AES128_GCM, CRYPT_CIPHER_AES128_CFB,
      CRYPT_CIPHER_AES128_OFB] then some CRYPT_SYM_AES128
  else if algId ∈ [CRYPT_CIPHER_AES192_CBC, CRYPT_CIPHER_AES192_ECB, CRYPT_CIPHER_AES192_CTR,
      CRYPT_CIPHER_AES192_CCM, CRYPT_CIPHER_AES192_GCM, CRYPT_CIPHER_AES192_CFB,
      CRYPT_CIPHER_AES192_OFB] then some CRYPT_SYM_AES192
  else if algId ∈ [CRYPT_CIPHER_AES256_CBC, CRYPT_CIPHER_AES256_ECB, CRYPT_CIPHER_AES256_CTR,
      CRYPT_CIPHER_AES256_CCM, CRYPT_CIPHER_AES256_GCM, CRYPT_CIPHER_AES256_CFB,
      CRYPT_CIPHER_AES256_OFB] then some CRYPT_SYM_AES256
  else if algId ∈ [CRYPT_CIPHER_SM4_XTS, CRYPT_CIPHER_SM4_CBC, CRYPT_CIPHER_SM4_ECB,
      CRYPT_CIPHER_SM4_CTR, CRYPT_CIPHER_SM4_GCM, CRYPT_CIPHER_SM4_CFB,
      CRYPT_CIPHER_SM4_OFB] then some CRYPT_SYM_SM4
  else if algId = CRYPT_CIPHER_CHACHA20_POLY1305 then some CRYPT_SYM_CHACHA20
  else none

/-- Spec side of the dispatch table: the block size of a primitive, 1 for ChaCha20 and 16
for AES and SM4. -/
def listedBlockSize (s : CRYPT_SYM_AlgId) : Nat :=
  if s = CRYPT_SYM_CHACHA20 then 1 else 16

/-- Spec side of the CTR batch splitting: the number of blocks handed to the primitive in one
pass, for the low counter `c` and `m` whole blocks of input left. -/
def ctrBatch (c m : Nat) : Nat := min m (2 ^ 32 - c)

/-! ## Reference semantics of 1-bit CFB -/

/-- Bit `i` of a byte string, the most significant bit of each byte first. -/
def bitAt (l : List UInt8) (i : Nat) : Bool :=
  (l.getD (i / 8) 0).toNat.testBit (7 - i % 8)

/-- The most significant bit of a byte. -/
def msb (b : UInt8) : Bool := b.toNat.testBit 7

/-- The register `S` shifted left by one bit across all its bytes, with the lowest bit set to
`c`: the register is a big-endian number, and the shift doubles it, adds `c` and drops the
bit that leaves the register. -/
def shiftInBit (S : List UInt8) (c : Bool) : List UInt8 :=
  beBytes S.length (2 * beValue S + c.toNat)

/-- 1-bit CFB in the words of the specification, for the block function `E`, the register `S`
and the input bits: each output bit is the input bit XOR the top bit of the first byte of
`E S`, and the register is shifted left by one bit and receives the ciphertext bit (the
output bit on encrypt, the input bit on decrypt). Returns the last register and the output
bits. -/
def cfb1Reference (E : List UInt8 → List UInt8) (enc : Bool) :
    List UInt8 → List Bool → List UInt8 × List Bool
  | S, [] => (S, [])
  | S, b :: bits =>
    ((cfb1Reference E enc
        (shiftInBit S (if enc then Bool.xor b (msb ((E S).getD 0 0)) else b)) bits).1,
      Bool.xor b (msb ((E S).getD 0 0)) ::
        (cfb1Reference E enc
          (shiftInBit S (if enc then Bool.xor b (msb ((E S).getD 0 0)) else b)) bits).2)

/-- The one-bit left shift byte by byte: every byte is shifted left by one bit and receives
the top bit of the byte after it, the last byte receives the byte `c` (0 or 1). -/
def shiftBytes : List UInt8 → UInt8 → List UInt8
  | [], _ => []
  | [a], c => [(a <<< 1) ||| c]
  | a :: b :: rest, c => ((a <<< 1) ||| (b >>> 7)) :: shiftBytes (b :: rest) c

/-- A CFB mode context of block size 16 in the middle of a block (offset 5). -/
def demoCfbModeCtx : MODES_CFB_Ctx :=
  { algId := CRYPT_CIPHER_AES128_CFB
    cfbCtx := { demoCfbCtx 128 with
                modeCtx := { (demoCfbCtx 128).modeCtx with offset := 5 } }
    enc := true }

/-- A 16-byte value for the IV register. -/
def demoIvVal : CtrlVal :=
  { bytes := [0xA0, 0xA1, 0xA2, 0xA3, 0xA4, 0xA5, 0xA6, 0xA7,
              0xA8, 0xA9, 0xAA, 0xAB, 0xAC, 0xAD, 0xAE, 0xAF], word := 0 }

/-- A 16-byte block that ends in the pad count 0x00 after fifteen bytes 0xFF. -/
def demoZeroCountBlock : List UInt8 :=
  List.replicate 15 0xFF ++ [0x00]

/-! ## Call sequences and reference functions for the life-cycle properties -/

/-- The process function `f` with a record of its calls: each call that returns appends the
length of the input it was given to the list kept beside the context. -/
def recordCalls {σ : Type} (f : CipherStreamProcess σ) : CipherStreamProcess (σ × List Nat) :=
  fun s i o => (f s.1 i o).map (fun r => (r.1, (r.2.1, s.2 ++ [i.length]), r.2.2))

/-- A call on a CFB context after its creation: a control call or a teardown. -/
inductive CfbCall where
  | ctrl (opt : CRYPT_CipherCtrl) (val : Option CtrlVal) (len : Nat)
  | deinit

/-- The CFB context after a sequence of `MODES_CFB_Ctrl` and `MODES_CFB_DeInitCtx` calls,
whatever their status. -/
def cfbCalls : MODES_CFB_Ctx → List CfbCall → MODES_CFB_Ctx
  | c, [] => c
  | c, CfbCall.ctrl opt val len :: rest => cfbCalls (MODES_CFB_Ctrl c opt val len).2.1 rest
  | c, CfbCall.deinit :: rest => cfbCalls (MODES_CFB_DeInitCtx c).2 rest

/-- The feedback-width facts that every control call and every teardown keeps: block size 16,
the method table of creation, a width of 1, 8 or 128 bits, and 128 bits for SM4. -/
def FeedbackOK (meth : EAL_SymMethod) (c : MODES_CFB_Ctx) : Prop :=
  c.cfbCtx.modeCtx.blockSize = 16 ∧ c.cfbCtx.modeCtx.ciphMeth = meth ∧
  (c.cfbCtx.feedbackBits = 1 ∨ c.cfbCtx.feedbackBits = 8 ∨ c.cfbCtx.feedbackBits = 128) ∧
  (meth.algId = CRYPT_SYM_SM4 → c.cfbCtx.feedbackBits = 128)

/-- Successive calls of the CFB byte functions: a call `(enc, inp)` is
`MODES_CFB_BytesEncrypt` on `inp` when `enc` and `MODES_CFB_BytesDecrypt` otherwise. The run
stops at the first call that fails and is `none` when a call does not return. Returns the
last status, the context, and the ciphertext of the bytes processed by the successful
calls: the output of an encrypt call, the input of a decrypt call. -/
def cfbByteCalls :
    MODES_CipherCFBCtx → List (Bool × List UInt8) →
      Option (RetCode × MODES_CipherCFBCtx × List UInt8)
  | ctx, [] => some (CRYPT_SUCCESS, ctx, [])
  | ctx, call :: rest =>
    match (if call.1 then MODES_CFB_BytesEncrypt ctx call.2
        else MODES_CFB_BytesDecrypt ctx call.2) with
    | none => none
    | some r =>
      if r.1 ≠ CRYPT_SUCCESS then some (r.1, r.2.1, [])
      else
        match cfbByteCalls r.2.1 rest with
        | none => none
        | some r2 => some (r2.1, r2.2.1, (if call.1 then r.2.2 else call.2) ++ r2.2.2)

/-- The register value whose encryption is the keystream of the block in which the
ciphertext `C` ends (of the block that comes next, when `C` ends on a block boundary), for
full-block feedback and block size 16: the initial register `S0` as long as fewer than 16
ciphertext bytes exist, afterwards the last complete ciphertext block. -/
def cfb128BlockInput (S0 C : List UInt8) : List UInt8 :=
  if C.length < 16 then S0
  else (C.take (C.length - C.length % 16)).drop (C.length - C.length % 16 - 16)

/-- The CFB register for full-block feedback (block size 16) in the words of the
specification, once the ciphertext `C` has been produced from the initial register `S0`
with the block function `E`. With `k = C.length % 16` bytes of the current block done, the
register is the `k` ciphertext bytes of the current block followed by the keystream bytes
`k .. 15` of that block; for `k = 0` it is the register from which the next block starts. -/
def cfb128Register (E : List UInt8 → List UInt8) (S0 C : List UInt8) : List UInt8 :=
  if C.length % 16 = 0 then cfb128BlockInput S0 C
  else
    C.drop (C.length - C.length % 16) ++ (E (cfb128BlockInput S0 C)).drop (C.length % 16)

/-- The state of a CFB context `c` after the ciphertext `C`, for full-block feedback: it
has the width, block size, method table, key context and IV buffer length of the context
`ctx0` it started from, its offset is the position inside the block, and its register is
`cfb128Register`. -/
def Cfb128State (E : List UInt8 → List UInt8) (S0 : List UInt8)
    (ctx0 c : MODES_CipherCFBCtx) (C : List UInt8) : Prop :=
  CfbSame ctx0 c ∧ c.modeCtx.offset = C.length % 16 ∧
  c.modeCtx.iv.take 16 = cfb128Register E S0 C

/-- Toy primitives for the method tables: key setup stores the first key byte in a one-byte
key context, the block function of AES and SM4 is `demoBlock`, clean-up clears the key
context. -/
def demoPrimitives : SymPrimitives :=
  { CRYPT_AES_SetEncryptKey128 := fun _ k => (CRYPT_SUCCESS, [k.getD 0 0])
    CRYPT_AES_SetDecryptKey128 := fun _ k => (CRYPT_SUCCESS, [k.getD 0 0])
    CRYPT_AES_SetEncryptKey192 := fun _ k => (CRYPT_SUCCESS, [k.getD 0 0])
    CRYPT_AES_SetDecryptKey192 := fun _ k => (CRYPT_SUCCESS, [k.getD 0 0])
    CRYPT_AES_SetEncryptKey256 := fun _ k => (CRYPT_SUCCESS, [k.getD 0 0])
    CRYPT_AES_SetDecryptKey256 := fun _ k => (CRYPT_SUCCESS, [k.getD 0 0])
    CRYPT_AES_Encrypt := fun key x => (CRYPT_SUCCESS, demoBlock key x)
    CRYPT_AES_Decrypt := fun key x => (CRYPT_SUCCESS, demoBlock key x)
    CRYPT_AES_Clean := fun c => List.replicate c.length 0
    sizeof_CRYPT_AES_Key := 1
    CRYPT_CHACHA20_SetKey := fun _ k => (CRYPT_SUCCESS, [k.getD 0 0])
    CRYPT_CHACHA20_Update := fun key x => (CRYPT_SUCCESS, x.map (fun b => b ^^^ key.getD 0 0))
    CRYPT_CHACHA20_Clean := fun c => List.replicate c.length 0
    sizeof_CRYPT_CHACHA20_Ctx := 1
    CRYPT_SM4_SetKey := fun _ k => (CRYPT_SUCCESS, [k.getD 0 0])
    CRYPT_SM4_Encrypt := fun key x => (CRYPT_SUCCESS, demoBlock key x)
    CRYPT_SM4_Decrypt := fun key x => (CRYPT_SUCCESS, demoBlock key x)
    CRYPT_SM4_Clean := fun c => List.replicate c.length 0
    sizeof_CRYPT_SM4_Ctx := 1 }

/-- Array lengths for the toy contexts: 16-byte IV and scratch buffers, a 32-byte cache. -/
def demoSizes : BufferSizes :=
  { MODES_MAX_IV_LENGTH := 16, MODES_MAX_BUF_LENGTH := 16, EAL_MAX_BLOCK_LENGTH := 32 }

/-- A run that re-initialises a CFB context in the middle of a block: creation,
initialisation with the IV `0, 1, ..., 15`, an update on five bytes, initialisation with the
new IV `iv`, and an update on `msg`. Returns the status of the second initialisation, the
offset it leaves, the status of the last update and the bytes it wrote. -/
def demoReinitRun (iv msg : List UInt8) : Option (RetCode × Nat × RetCode × List UInt8) :=
  (MODES_CFB_NewCtx demoPrimitives demoSizes true true CRYPT_CIPHER_AES128_CFB).bind fun c =>
    (MODES_CFB_Update
      (MODES_CFB_InitCtx c [0x3C] [0, 1, 2, 3, 4, 5, 6, 7, 8, 9, 10, 11, 12, 13, 14, 15] 16
        true).2
      [1, 2, 3, 4, 5] (List.replicate 5 0) 5).bind fun u =>
      (MODES_CFB_Update (MODES_CFB_InitCtx u.2.1 [0x3C] iv 16 true).2 msg
        (List.replicate msg.length 0) msg.length).map fun w =>
        ((MODES_CFB_InitCtx u.2.1 [0x3C] iv 16 true).1,
          (MODES_CFB_InitCtx u.2.1 [0x3C] iv 16 true).2.cfbCtx.modeCtx.offset, w.1,
          w.2.2.1)

/-- The same key, IV and message on a freshly created CFB context: the status of the update
and the bytes it wrote. -/
def demoFreshRun (iv msg : List UInt8) : Option (RetCode × List UInt8) :=
  (MODES_CFB_NewCtx demoPrimitives demoSizes true true CRYPT_CIPHER_AES128_CFB).bind fun c =>
    (MODES_CFB_Update (MODES_CFB_InitCtx c [0x3C] iv 16 true).2 msg
      (List.replicate msg.length 0) msg.length).map fun w => (w.1, w.2.2.1)

/-! ## Lemmas on the C arithmetic and the loops -/

theorem forLoop_empty {σ : Type} (lo hi : Nat) (h : hi ≤ lo) (body : Nat → σ → σ) (s : σ) :
    forLoop lo hi body s = s := by
  unfold forLoop
  have : hi - lo = 0 := by omega
  rw [this]; rfl

theorem forLoop_succ {σ : Type} (lo hi : Nat) (h : lo ≤ hi) (body : Nat → σ → σ) (s : σ) :
    forLoop lo (hi + 1) body s = body hi (forLoop lo hi body s) := by
  unfold forLoop
  have e : hi + 1 - lo = (hi - lo) + 1 := by omega
  have e2 : lo + (hi - lo) = hi := by omega
  rw [e, List.range'_concat, List.foldl_append]
  simp [e2]

theorem lor_eq_zero_iff (a b : Nat) : a ||| b = 0 ↔ a = 0 ∧ b = 0 := by
  constructor
  · intro h
    have hb : ∀ i, (a.testBit i || b.testBit i) = false := by
      intro i
      rw [← Nat.testBit_or, h]
      simp
    constructor
    · apply Nat.eq_of_testBit_eq
      intro i
      have := hb i
      simp only [Bool.or_eq_false_iff] at this
      simp [this.1]
    · apply Nat.eq_of_testBit_eq
      intro i
      have := hb i
      simp only [Bool.or_eq_false_iff] at this
      simp [this.2]
  · rintro ⟨rfl, rfl⟩
    rfl

theorem forLoop_lor_eq_zero (n : Nat) (f : Nat → Nat) (c : Nat) :
    forLoop 0 n (fun i acc => acc ||| f i) c = 0 ↔ c = 0 ∧ ∀ i, i < n → f i = 0 := by
  induction n with
  | zero => simp [forLoop_empty]
  | succ n ih =>
    rw [forLoop_succ 0 n (Nat.zero_le n), lor_eq_zero_iff, ih]
    constructor
    · rintro ⟨⟨hc, hf⟩, hn⟩
      refine ⟨hc, fun i hi => ?_⟩
      rcases Nat.lt_succ_iff_lt_or_eq.mp hi with h | h
      · exact hf i h
      · rw [h]; exact hn
    · rintro ⟨hc, hf⟩
      exact ⟨⟨hc, fun i hi => hf i (Nat.lt_succ_of_lt hi)⟩, hf n (Nat.lt_succ_self n)⟩

theorem sub32_of_le (a b : Nat) (hb : b ≤ a) (ha : a < 2 ^ 32) : sub32 a b = a - b := by
  unfold sub32
  have : b % 2 ^ 32 = b := Nat.mod_eq_of_lt (by omega)
  rw [this]
  omega

theorem sub8_of_le (a b : Nat) (hb : b ≤ a) (ha : a < 2 ^ 8) : sub8 a b = a - b := by
  unfold sub8
  have : b % 2 ^ 8 = b := Nat.mod_eq_of_lt (by omega)
  rw [this]
  omega

theorem sub32_of_lt (a b : Nat) (hb : a < b) (hb2 : b < 2 ^ 32) : sub32 a b = a + 2 ^ 32 - b := by
  unfold sub32
  have : b % 2 ^ 32 = b := Nat.mod_eq_of_lt (by omega)
  rw [this]
  omega

theorem UnPaddingPkcs_check_zero (pad : List UInt8) (padLen : Nat)
    (h1 : 1 ≤ padLen) (h2 : padLen < 2 ^ 32) :
    UnPaddingPkcs.check pad padLen = 0 ↔ PkcsValid pad padLen := by
  unfold UnPaddingPkcs.check PkcsValid
  simp only []
  rw [sub32_of_le padLen 1 h1 h2, forLoop_lor_eq_zero]
  have hL : (pad.getD (padLen - 1) 0).toNat < 256 := UInt8.toNat_lt_size _
  generalize (pad.getD (padLen - 1) 0).toNat = L at hL ⊢
  constructor
  · rintro ⟨hc, hf⟩
    have hc1 : ¬ (L = 0 ∨ L > padLen) := by
      intro hh
      simp [cbool, hh] at hc
    have hL1 : 1 ≤ L := by omega
    have hL2 : L ≤ padLen := by omega
    refine ⟨hL1, hL2, fun i hi2 hi1 => ?_⟩
    have := hf i hi2
    rw [sub32_of_le padLen L hL2 h2] at this
    simp only [cbool, ge_iff_le, hi1, decide_True, if_true, Nat.mul_one] at this
    exact Nat.xor_eq_zero.mp this
  · rintro ⟨hL1, hL2, hf⟩
    constructor
    · have : ¬ (L = 0) := by omega
      have : ¬ (L > padLen) := by omega
      simp [cbool, *]
    · intro i hi
      rw [sub32_of_le padLen L hL2 h2]
      by_cases hpos : padLen - L ≤ i
      · have := hf i hi hpos
        simp only [cbool, ge_iff_le, hpos, decide_True, if_true, Nat.mul_one, this, Nat.xor_self]
      · simp [cbool, hpos]

theorem scan_le (p : List UInt8) (n : Nat) : UnPaddingISO7816.scan p n ≤ n := by
  induction n with
  | zero => simp [UnPaddingISO7816.scan]
  | succ n ih =>
    unfold UnPaddingISO7816.scan
    split
    · omega
    · omega

theorem scan_zeros_after (p : List UInt8) (n : Nat) :
    ∀ j, UnPaddingISO7816.scan p n < j → j ≤ n → p.getD j 0 = 0 := by
  induction n with
  | zero => intro j h1 h2; simp [UnPaddingISO7816.scan] at h1; omega
  | succ n ih =>
    intro j h1 h2
    unfold UnPaddingISO7816.scan at h1
    split at h1
    · rename_i hz
      rcases Nat.lt_or_ge n j with h | h
      · have : j = n + 1 := by omega
        rw [this]; exact hz
      · exact ih j h1 h
    · omega

theorem scan_nonzero (p : List UInt8) (n : Nat) :
    0 < UnPaddingISO7816.scan p n → p.getD (UnPaddingISO7816.scan p n) 0 ≠ 0 := by
  induction n with
  | zero => intro h; simp [UnPaddingISO7816.scan] at h
  | succ n ih =>
    intro h
    unfold UnPaddingISO7816.scan at h ⊢
    split
    · rename_i hz
      rw [if_pos hz] at h
      exact ih h
    · rename_i hz
      exact hz

theorem scan_eq_of_valid (pad : List UInt8) (padLen k : Nat) (h1 : 1 ≤ padLen)
    (hv : Iso7816ValidAt pad padLen k) : UnPaddingISO7816.scan pad (padLen - 1) = k := by
  obtain ⟨hk, h80, hz⟩ := hv
  have hle := scan_le pad (padLen - 1)
  have hza := scan_zeros_after pad (padLen - 1)
  have hnz := scan_nonzero pad (padLen - 1)
  rcases Nat.lt_trichotomy (UnPaddingISO7816.scan pad (padLen - 1)) k with h | h | h
  · have := hza k h (by omega)
    rw [h80] at this
    exact absurd this (by decide)
  · exact h
  · have h0 := hnz (by omega)
    exact absurd (hz _ (by omega) h) h0

theorem UnPaddingISO7816_valid (pad : List UInt8) (padLen finLen k : Nat) (h1 : 1 ≤ padLen)
    (h2 : padLen < 2 ^ 32) (hv : Iso7816ValidAt pad padLen k) :
    UnPaddingISO7816 pad padLen finLen = (CRYPT_SUCCESS, k) := by
  unfold UnPaddingISO7816
  simp only []
  rw [sub32_of_le padLen 1 h1 h2, scan_eq_of_valid pad padLen k h1 hv]
  rw [if_pos hv.2.1, if_neg (by have := hv.1; omega)]

theorem UnPaddingISO7816_invalid (pad : List UInt8) (padLen finLen : Nat) (h1 : 1 ≤ padLen)
    (h2 : padLen < 2 ^ 32) (hv : ¬ ∃ k, Iso7816ValidAt pad padLen k) :
    UnPaddingISO7816 pad padLen finLen = (CRYPT_EAL_CIPHER_DATA_ERROR, finLen) := by
  unfold UnPaddingISO7816
  simp only []
  rw [sub32_of_le padLen 1 h1 h2]
  by_cases h80 : pad.getD (UnPaddingISO7816.scan pad (padLen - 1)) 0 = 0x80
  · exfalso
    apply hv
    refine ⟨UnPaddingISO7816.scan pad (padLen - 1), ?_, h80, ?_⟩
    · have := scan_le pad (padLen - 1); omega
    · intro j hj2 hj1
      exact scan_zeros_after pad (padLen - 1) j hj1 (by omega)
  · rw [if_neg h80, if_pos rfl]

theorem set_fill_step (d : List UInt8) (k m : Nat) (v : UInt8) (h : k + m < d.length) :
    (d.take k ++ List.replicate m v ++ d.drop (k + m)).set (k + m) v =
      d.take k ++ List.replicate (m + 1) v ++ d.drop (k + m + 1) := by
  have hk : (d.take k ++ List.replicate m v).length = k + m := by
    simp [List.length_take]; omega
  rw [List.set_append_right _ _ (by omega)]
  rw [hk, Nat.sub_self]
  have hd : d.drop (k + m) = d[k + m] :: d.drop (k + m + 1) := by
    exact List.drop_eq_getElem_cons h
  rw [hd, List.set_cons_zero, List.replicate_succ']
  simp [List.append_assoc]

theorem forLoop_memset (d : List UInt8) (off lo hi : Nat) (v : UInt8) (hlo : lo ≤ hi)
    (h : off + hi ≤ d.length) :
    forLoop lo hi (fun i acc => acc.set (off + i) v) d =
      d.take (off + lo) ++ List.replicate (hi - lo) v ++ d.drop (off + hi) := by
  induction hi with
  | zero =>
    have : lo = 0 := by omega
    subst this
    simp [forLoop_empty]
  | succ n ih =>
    rcases Nat.eq_or_lt_of_le hlo with he | hlt
    · subst he
      rw [forLoop_empty _ _ (Nat.le_refl _)]
      simp
    · have hle : lo ≤ n := by omega
      rw [forLoop_succ lo n hle, ih hle (by omega)]
      have e1 : off + n = (off + lo) + (n - lo) := by omega
      have e2 : n + 1 - lo = (n - lo) + 1 := by omega
      rw [e2]
      have := set_fill_step d (off + lo) (n - lo) v (by omega)
      rw [← e1] at this
      rw [this]
      rfl

theorem set_eq_splice (d : List UInt8) (k : Nat) (v : UInt8) (h : k < d.length) :
    d.set k v = d.take k ++ [v] ++ d.drop (k + 1) := by
  have := set_fill_step d k 0 v (by omega)
  simpa using this

theorem take_splice (d : List UInt8) (k : Nat) (mid : List UInt8) (rest : List UInt8)
    (h : k ≤ d.length) :
    (d.take k ++ mid ++ rest).take (k + mid.length) = d.take k ++ mid := by
  have hk : (d.take k ++ mid).length = k + mid.length := by
    simp [List.length_take]; omega
  rw [← hk, List.take_left']
  rfl

theorem drop_splice (d : List UInt8) (k : Nat) (mid : List UInt8) (rest : List UInt8)
    (h : k ≤ d.length) :
    (d.take k ++ mid ++ rest).drop (k + mid.length) = rest := by
  have hk : (d.take k ++ mid).length = k + mid.length := by
    simp [List.length_take]; omega
  rw [← hk, List.drop_left']
  rfl

theorem padding_zeros_eq (bs n : Nat) (data : List UInt8) (v : UInt8) (hn : n < bs)
    (hdata : bs ≤ data.length) :
    forLoop 0 (bs - n) (fun i d => d.set (n + i) v) data =
      data.take n ++ List.replicate (bs - n) v ++ data.drop bs := by
  rw [forLoop_memset data n 0 (bs - n) v (Nat.zero_le _) (by omega)]
  have : n + (bs - n) = bs := by omega
  simp [this]

theorem set_after_splice (d : List UInt8) (k : Nat) (mid : List UInt8) (w : UInt8)
    (h : k + mid.length < d.length) :
    (d.take k ++ mid ++ d.drop (k + mid.length)).set (k + mid.length) w =
      d.take k ++ (mid ++ [w]) ++ d.drop (k + mid.length + 1) := by
  have hk : (d.take k ++ mid).length = k + mid.length := by
    simp [List.length_take]; omega
  rw [List.set_append_right _ _ (by omega)]
  rw [hk, Nat.sub_self]
  have hd : d.drop (k + mid.length) = d[k + mid.length] :: d.drop (k + mid.length + 1) := by
    exact List.drop_eq_getElem_cons h
  rw [hd, List.set_cons_zero]
  simp [List.append_assoc]

theorem padding_iso_eq (bs n : Nat) (data : List UInt8) (hn : n < bs)
    (hdata : bs ≤ data.length) :
    forLoop 1 (bs - n) (fun i d => d.set (n + i) 0x00) (data.set (n + 0) 0x80) =
      data.take n ++ (0x80 :: List.replicate (bs - n - 1) 0x00) ++ data.drop bs := by
  have hlen : (data.set (n + 0) 0x80).length = data.length := List.length_set _ _ _
  rw [forLoop_memset _ n 1 (bs - n) 0x00 (by omega) (by rw [hlen]; omega)]
  simp only [Nat.add_zero]
  rw [set_eq_splice data n 0x80 (by omega)]
  have e1 : n + 1 = n + ([0x80] : List UInt8).length := rfl
  rw [e1, take_splice data n [0x80] _ (by omega)]
  have e2 : n + (bs - n) = (n + ([0x80] : List UInt8).length) + (bs - n - 1) := by
    simp; omega
  rw [e2, ← List.drop_drop, drop_splice data n [0x80] _ (by omega)]
  rw [List.drop_drop]
  have e3 : n + 1 + (bs - n - 1) = bs := by omega
  simp [e3]

theorem padding_x923_eq (bs n : Nat) (data : List UInt8) (hn : n < bs)
    (hdata : bs ≤ data.length) :
    (forLoop 0 (bs - n - 1) (fun i d => d.set (n + i) 0x00) data).set (n + (bs - n) - 1)
        (UInt8.ofNat (bs - n)) =
      data.take n ++ (List.replicate (bs - n - 1) 0x00 ++ [UInt8.ofNat (bs - n)]) ++
        data.drop bs := by
  rw [forLoop_memset data n 0 (bs - n - 1) 0x00 (Nat.zero_le _) (by omega)]
  have e1 : n + (bs - n) - 1 = n + (List.replicate (bs - n - 1) (0x00 : UInt8)).length := by
    simp; omega
  have e0 : n + (bs - n - 1) = n + (List.replicate (bs - n - 1) (0x00 : UInt8)).length := by
    simp
  rw [e1, Nat.add_zero, Nat.sub_zero]
  rw [e0, set_after_splice data n _ _ (by simp; omega)]
  have e3 : n + (List.replicate (bs - n - 1) (0x00 : UInt8)).length + 1 = bs := by
    simp; omega
  rw [e3]

theorem MODES_BlockPadding_eq (algId : CRYPT_CIPHER_AlgId) (padding : CRYPT_PaddingType)
    (bs n : Nat) (data : List UInt8)
    (hp1 : padding ≠ CRYPT_PADDING_NONE) (hp2 : padding ≠ CRYPT_PADDING_MAX_COUNT)
    (hbs : bs < 256) (hn : n < bs) (hdata : bs ≤ data.length) :
    MODES_BlockPadding algId padding bs data n =
      (CRYPT_SUCCESS, data.take n ++ specPadBytes padding (bs - n) ++ data.drop bs, bs) := by
  have e1 : sub8 bs n = bs - n := sub8_of_le bs n (by omega) (by omega)
  have e2 : (n + (bs - n)) % 2 ^ 8 = bs := by
    have : n + (bs - n) = bs := by omega
    rw [this]; exact Nat.mod_eq_of_lt (by omega)
  unfold MODES_BlockPadding
  simp only [e1, e2]
  cases padding with
  | CRYPT_PADDING_NONE => exact absurd rfl hp1
  | CRYPT_PADDING_MAX_COUNT => exact absurd rfl hp2
  | CRYPT_PADDING_ZEROS =>
    simp only [specPadBytes]
    rw [padding_zeros_eq bs n data _ hn hdata]
  | CRYPT_PADDING_ISO7816 =>
    simp only [specPadBytes]
    rw [padding_iso_eq bs n data hn hdata]
  | CRYPT_PADDING_X923 =>
    simp only [specPadBytes]
    rw [padding_x923_eq bs n data hn hdata]
  | CRYPT_PADDING_PKCS5 =>
    simp only [specPadBytes]
    rw [padding_zeros_eq bs n data _ hn hdata]
  | CRYPT_PADDING_PKCS7 =>
    simp only [specPadBytes]
    rw [padding_zeros_eq bs n data _ hn hdata]

/-- C10. Padding exactness: for `1 ≤ bs ≤ 32`, a cache of `n < bs` bytes held in a buffer
of at least `bs` bytes, and each of the schemes ZEROS, ISO7816, X923, PKCS5, PKCS7,
`MODES_BlockPadding` returns `CRYPT_SUCCESS`, sets `dataLen = bs`, keeps the first `n`
bytes (and everything from index `bs` on) and writes exactly the `bs - n` pad bytes of the
scheme: `p` bytes `p` (PKCS5/PKCS7), `0x80` then `p - 1` zeros (ISO7816), `p - 1` zeros then
the byte `p` (X923), `p` zeros (ZEROS). In particular the PKCS7 pad of an empty cache with
`bs = 16` is sixteen bytes `0x10` and the ISO7816 pad for `n = 15` is `[0x80]`. -/
theorem C10_MODES_BlockPadding_exact (algId : CRYPT_CIPHER_AlgId)
    (padding : CRYPT_PaddingType) (bs n : Nat) (data : List UInt8)
    (hpad : padding = CRYPT_PADDING_ZEROS ∨ padding = CRYPT_PADDING_ISO7816 ∨
      padding = CRYPT_PADDING_X923 ∨ padding = CRYPT_PADDING_PKCS5 ∨
      padding = CRYPT_PADDING_PKCS7)
    (hbs1 : 1 ≤ bs) (hbs2 : bs ≤ 32) (hn : n < bs) (hdata : bs ≤ data.length) :
    MODES_BlockPadding algId padding bs data n =
        (CRYPT_SUCCESS, data.take n ++ specPadBytes padding (bs - n) ++ data.drop bs, bs) ∧
      (specPadBytes padding (bs - n)).length = bs - n ∧
      specPadBytes CRYPT_PADDING_PKCS7 (16 - 0) = List.replicate 16 0x10 ∧
      specPadBytes CRYPT_PADDING_PKCS5 (16 - 0) = List.replicate 16 0x10 ∧
      specPadBytes CRYPT_PADDING_ISO7816 (16 - 15) = [0x80] := by
  refine ⟨?_, ?_, by decide, by decide, by decide⟩
  · apply MODES_BlockPadding_eq algId padding bs n data _ _ (by omega) hn hdata
    · rcases hpad with h | h | h | h | h <;> rw [h] <;> decide
    · rcases hpad with h | h | h | h | h <;> rw [h] <;> decide
  · rcases hpad with h | h | h | h | h <;> rw [h] <;> simp [specPadBytes] <;> omega

theorem C10_witness :
    (CRYPT_PADDING_X923 = CRYPT_PADDING_ZEROS ∨ CRYPT_PADDING_X923 = CRYPT_PADDING_ISO7816 ∨
      CRYPT_PADDING_X923 = CRYPT_PADDING_X923 ∨ CRYPT_PADDING_X923 = CRYPT_PADDING_PKCS5 ∨
      CRYPT_PADDING_X923 = CRYPT_PADDING_PKCS7) ∧
    1 ≤ 16 ∧ 16 ≤ 32 ∧ 13 < 16 ∧ 16 ≤ (List.replicate 32 (0xAA : UInt8)).length ∧
    MODES_BlockPadding CRYPT_CIPHER_AES128_CBC CRYPT_PADDING_X923 16
        (List.replicate 32 0xAA) 13 =
      (CRYPT_SUCCESS, List.replicate 13 0xAA ++ [0x00, 0x00, 0x03] ++ List.replicate 16 0xAA,
        16) :=
  ⟨by decide, by decide, by decide, by decide, by decide,
    (C10_MODES_BlockPadding_exact CRYPT_CIPHER_AES128_CBC CRYPT_PADDING_X923 16 13
      (List.replicate 32 0xAA) (by decide) (by decide) (by decide) (by decide)
      (by decide)).1⟩

theorem UnPaddingPkcs_valid (pad : List UInt8) (padLen finLen : Nat) (h1 : 1 ≤ padLen)
    (h2 : padLen < 2 ^ 32) (hv : PkcsValid pad padLen) :
    UnPaddingPkcs pad padLen finLen =
      (CRYPT_SUCCESS, padLen - (pad.getD (padLen - 1) 0).toNat) := by
  unfold UnPaddingPkcs
  simp only []
  rw [if_neg (not_not.mpr ((UnPaddingPkcs_check_zero pad padLen h1 h2).mpr hv))]
  rw [sub32_of_le padLen 1 h1 h2, sub32_of_le padLen _ hv.2.1 h2]

theorem UnPaddingPkcs_invalid (pad : List UInt8) (padLen finLen : Nat) (h1 : 1 ≤ padLen)
    (h2 : padLen < 2 ^ 32) (hv : ¬ PkcsValid pad padLen) :
    UnPaddingPkcs pad padLen finLen = (CRYPT_EAL_CIPHER_DATA_ERROR, finLen) := by
  unfold UnPaddingPkcs
  simp only []
  rw [if_pos (fun h => hv ((UnPaddingPkcs_check_zero pad padLen h1 h2).mp h))]

/-- C7. PKCS5/PKCS7 unpadding validation: for a buffer of `padLen` bytes, `1 ≤ padLen ≤ 255`,
with last byte `L`, `UnPaddingPkcs` returns `CRYPT_SUCCESS` if and only if `1 ≤ L ≤ padLen`
and each of the last `L` bytes equals `L` (`PkcsValid`); it then sets `finLen = padLen - L`.
In every other case it returns `CRYPT_EAL_CIPHER_DATA_ERROR` and leaves `finLen` as it
was; a last byte `0x00` or one greater than `padLen` is such a case. -/
theorem C7_UnPaddingPkcs_validation (pad : List UInt8) (padLen finLen : Nat)
    (hlen : pad.length = padLen) (h1 : 1 ≤ padLen) (h2 : padLen ≤ 255) :
    ((UnPaddingPkcs pad padLen finLen).1 = CRYPT_SUCCESS ↔ PkcsValid pad padLen) ∧
    (PkcsValid pad padLen → UnPaddingPkcs pad padLen finLen =
        (CRYPT_SUCCESS, padLen - (pad.getD (padLen - 1) 0).toNat)) ∧
    (¬ PkcsValid pad padLen →
        UnPaddingPkcs pad padLen finLen = (CRYPT_EAL_CIPHER_DATA_ERROR, finLen)) ∧
    ((pad.getD (padLen - 1) 0).toNat = 0 ∨ padLen < (pad.getD (padLen - 1) 0).toNat →
        UnPaddingPkcs pad padLen finLen = (CRYPT_EAL_CIPHER_DATA_ERROR, finLen)) := by
  have hp : padLen < 2 ^ 32 := by
    have : pad.length = padLen := hlen
    omega
  refine ⟨⟨fun h => ?_, fun hv => ?_⟩,
    fun hv => UnPaddingPkcs_valid pad padLen finLen h1 hp hv,
    fun hv => UnPaddingPkcs_invalid pad padLen finLen h1 hp hv, fun hL => ?_⟩
  · by_contra hv
    rw [UnPaddingPkcs_invalid pad padLen finLen h1 hp hv] at h
    simp at h
  · rw [UnPaddingPkcs_valid pad padLen finLen h1 hp hv]
  · apply UnPaddingPkcs_invalid pad padLen finLen h1 hp
    rintro ⟨hv1, hv2, -⟩
    omega

theorem C7_witness :
    ([0x41, 0x03, 0x03, 0x03] : List UInt8).length = 4 ∧ 1 ≤ 4 ∧ 4 ≤ 255 ∧
    UnPaddingPkcs [0x41, 0x03, 0x03, 0x03] 4 99 = (CRYPT_SUCCESS, 1) :=
  ⟨rfl, by decide, by decide,
    (C7_UnPaddingPkcs_validation [0x41, 0x03, 0x03, 0x03] 4 99 rfl (by decide)
      (by decide)).2.1 (by decide)⟩

/-- C8 (evaluation at the failing input). `UnPaddingX923` accepts a block whose final byte
is `0x00`: on sixteen zero bytes it returns `CRYPT_SUCCESS` with `finLen = 16`, because its
`check` only tests `len > padLen` and, unlike `UnPaddingPkcs`, not `len == 0`. -/
theorem C8_UnPaddingX923_accepts_zero_count :
    UnPaddingX923 (List.replicate 16 0x00) 16 99 = (CRYPT_SUCCESS, 16) ∧
    UnPaddingPkcs (List.replicate 16 0x00) 16 99 = (CRYPT_EAL_CIPHER_DATA_ERROR, 99) := by
  decide

/-- C9. ISO7816 unpadding validation: for a buffer of `padLen ≥ 1` bytes,
`UnPaddingISO7816` returns `CRYPT_SUCCESS` if and only if the buffer has a last non-zero
byte and that byte is `0x80` (`Iso7816ValidAt` at its index `k`); `finLen` is then `k`.
Otherwise (all bytes zero, or the last non-zero byte is not `0x80`) it returns
`CRYPT_EAL_CIPHER_DATA_ERROR` and leaves `finLen` as it was. -/
theorem C9_UnPaddingISO7816_validation (pad : List UInt8) (padLen finLen : Nat)
    (hlen : pad.length = padLen) (h1 : 1 ≤ padLen) (h2 : padLen < 2 ^ 32) :
    ((UnPaddingISO7816 pad padLen finLen).1 = CRYPT_SUCCESS ↔
        ∃ k, Iso7816ValidAt pad padLen k) ∧
    (∀ k, Iso7816ValidAt pad padLen k →
        UnPaddingISO7816 pad padLen finLen = (CRYPT_SUCCESS, k)) ∧
    ((¬ ∃ k, Iso7816ValidAt pad padLen k) →
        UnPaddingISO7816 pad padLen finLen = (CRYPT_EAL_CIPHER_DATA_ERROR, finLen)) := by
  have hp : pad.length < 2 ^ 32 := by omega
  rw [hlen] at hp
  refine ⟨⟨fun h => ?_, fun ⟨k, hk⟩ => ?_⟩,
    fun k hk => UnPaddingISO7816_valid pad padLen finLen k h1 hp hk,
    fun hv => UnPaddingISO7816_invalid pad padLen finLen h1 hp hv⟩
  · by_contra hv
    rw [UnPaddingISO7816_invalid pad padLen finLen h1 hp hv] at h
    simp at h
  · rw [UnPaddingISO7816_valid pad padLen finLen k h1 hp hk]

theorem C9_witness :
    ([0x41, 0x80, 0x00, 0x00] : List UInt8).length = 4 ∧ 1 ≤ 4 ∧ 4 < 2 ^ 32 ∧
    UnPaddingISO7816 [0x41, 0x80, 0x00, 0x00] 4 99 = (CRYPT_SUCCESS, 1) :=
  ⟨rfl, by decide, by decide,
    (C9_UnPaddingISO7816_validation [0x41, 0x80, 0x00, 0x00] 4 99 rfl (by decide)
      (by decide)).2.1 1 (by decide)⟩

theorem mod_eq_sub_div_mul (L bs : Nat) : L % bs = L - L / bs * bs := by
  have := Nat.div_add_mod L bs
  have h2 : bs * (L / bs) = L / bs * bs := Nat.mul_comm _ _
  omega

theorem pred_div_mul_of_mod_zero (L bs : Nat) (hbs : 1 ≤ bs) (hL : 0 < L) (hm : L % bs = 0) :
    (L - 1) / bs * bs = L / bs * bs - bs := by
  have hdm := Nat.div_add_mod L bs
  have hq : 1 ≤ L / bs := by
    rcases Nat.eq_zero_or_pos (L / bs) with h | h
    · rw [h] at hdm; omega
    · exact h
  have : (L - 1) / bs = L / bs - 1 := by
    apply Nat.div_eq_of_lt_le
    · rw [Nat.sub_mul]; 
      have h2 : bs * (L / bs) = L / bs * bs := Nat.mul_comm _ _
      omega
    · have h3 : L / bs - 1 + 1 = L / bs := by omega
      rw [h3]
      have h2 : bs * (L / bs) = L / bs * bs := Nat.mul_comm _ _
      omega
  rw [this, Nat.sub_mul]; simp

theorem pred_div_mul_of_mod_pos (L bs : Nat) (hbs : 1 ≤ bs) (hm : 0 < L % bs) :
    (L - 1) / bs * bs = L / bs * bs := by
  have hdm := Nat.div_add_mod L bs
  have hlt := Nat.mod_lt L (show bs > 0 by omega)
  have : (L - 1) / bs = L / bs := by
    apply Nat.div_eq_of_lt_le
    · have h2 : bs * (L / bs) = L / bs * bs := Nat.mul_comm _ _
      omega
    · have h2 : bs * (L / bs) = L / bs * bs := Nat.mul_comm _ _
      rw [Nat.add_mul]
      omega
  rw [this]

theorem applyT_nil (T : BlockUpdate) (c : MODES_CipherCommonCtx) : applyT T c [] = (c, []) := rfl

theorem applyT_of_ne_nil (T : BlockUpdate) (c : MODES_CipherCommonCtx) (x : List UInt8)
    (h : x ≠ []) : applyT T c x = ((T c x).2.1, (T c x).2.2) := by
  cases x with
  | nil => exact absurd rfl h
  | cons a l => rfl

theorem applyT_of_length_pos (T : BlockUpdate) (c : MODES_CipherCommonCtx) (x : List UInt8)
    (h : 0 < x.length) : applyT T c x = ((T c x).2.1, (T c x).2.2) :=
  applyT_of_ne_nil T c x (List.ne_nil_of_length_pos h)

/-- Evaluation of the block-aligned part when `len` bytes go to the transform. -/
theorem T_take_ok (T : BlockUpdate) (bs : Nat) (c : MODES_CipherCommonCtx) (x : List UInt8)
    (n : Nat) (hT : BlockTransformOK bs T) (hc : c.blockSize = bs) (hn : 0 < n)
    (hle : n ≤ x.length) (hmod : n % bs = 0) :
    T c (x.take n) = (CRYPT_SUCCESS, (applyT T c (x.take n)).1, (applyT T c (x.take n)).2) := by
  have hlen : (x.take n).length = n := by simp [List.length_take]; omega
  have hne : x.take n ≠ [] := List.ne_nil_of_length_pos (by omega)
  have h := hT c (x.take n) hc hne (by rw [hlen]; exact hmod)
  rw [applyT_of_ne_nil T c _ hne]
  ext1
  · exact h.1
  · rfl

theorem blocks_spec (T : BlockUpdate) (ctx : MODES_CipherCtx) (tmpIn : List UInt8)
    (hT : BlockTransformOK ctx.commonCtx.blockSize T)
    (hbs1 : 1 ≤ ctx.commonCtx.blockSize) (hbs2 : ctx.commonCtx.blockSize < 256)
    (hne : 0 < tmpIn.length) (hlen : tmpIn.length < 2 ^ 32) :
    MODES_CipherUpdate.blocks ctx T tmpIn =
      (CRYPT_SUCCESS,
        (applyT T ctx.commonCtx
          (tmpIn.take (emitLen ctx.commonCtx.blockSize (defersLast ctx) tmpIn.length))).1,
        (applyT T ctx.commonCtx
          (tmpIn.take (emitLen ctx.commonCtx.blockSize (defersLast ctx) tmpIn.length))).2,
        tmpIn.length - emitLen ctx.commonCtx.blockSize (defersLast ctx) tmpIn.length,
        emitLen ctx.commonCtx.blockSize (defersLast ctx) tmpIn.length) := by
  generalize hbs : ctx.commonCtx.blockSize = bs at *
  generalize hL : tmpIn.length = L at *
  have hmodlt : L % bs < bs := Nat.mod_lt L (by omega)
  have hleft : L % bs % 2 ^ 8 = L % bs := Nat.mod_eq_of_lt (by omega)
  have hmod : L % bs = L - L / bs * bs := mod_eq_sub_div_mul L bs
  have hdle : L / bs * bs ≤ L := Nat.div_mul_le_self L bs
  have hlen0 : L - L % bs = L / bs * bs := by omega
  have hdvd : (L / bs * bs) % bs = 0 := Nat.mul_mod_left _ _
  unfold MODES_CipherUpdate.blocks
  simp only [hbs, hL, hleft, hlen0]
  by_cases hpos : L / bs * bs > 0
  · rw [if_pos hpos]
    by_cases henc : ctx.enc = true
    · have hd : defersLast ctx = false := by simp [defersLast, henc]
      rw [if_pos henc, hd]
      simp only [emitLen, Bool.false_eq_true, if_false]
      rw [T_take_ok T bs ctx.commonCtx tmpIn _ hT hbs hpos (by omega) hdvd, hmod]
    · rw [if_neg henc]
      by_cases hpad : ctx.pad = CRYPT_PADDING_NONE
      · have hd : defersLast ctx = false := by simp [defersLast, hpad]
        have hdefer : ¬ (ctx.pad ≠ CRYPT_PADDING_NONE ∧ L % bs = 0) := fun h => h.1 hpad
        simp only [hd, if_neg hdefer, if_pos hpos, emitLen, Bool.false_eq_true, if_false]
        rw [T_take_ok T bs ctx.commonCtx tmpIn _ hT hbs hpos (by omega) hdvd, hmod]
      · have hd : defersLast ctx = true := by simp [defersLast, henc, hpad]
        by_cases hz : L % bs = 0
        · have hdefer : ctx.pad ≠ CRYPT_PADDING_NONE ∧ L % bs = 0 := ⟨hpad, hz⟩
          have hN : (L - 1) / bs * bs = L / bs * bs - bs :=
            pred_div_mul_of_mod_zero L bs hbs1 hne hz
          have hge : bs ≤ L / bs * bs := by
            rcases Nat.eq_zero_or_pos (L / bs) with h | h
            · rw [h] at hpos; simp at hpos
            · exact Nat.le_mul_of_pos_left bs h
          have hs : sub32 (L / bs * bs) bs = L / bs * bs - bs :=
            sub32_of_le _ _ hge (by omega)
          simp only [hd, if_pos hdefer, emitLen, if_true, hN, hs]
          by_cases hpos2 : L / bs * bs - bs > 0
          · rw [if_pos hpos2]
            have hdvd2 : (L / bs * bs - bs) % bs = 0 := by
              have : L / bs * bs - bs = (L / bs - 1) * bs := by
                rw [Nat.sub_mul]; simp
              rw [this]; exact Nat.mul_mod_left _ _
            rw [T_take_ok T bs ctx.commonCtx tmpIn _ hT hbs hpos2 (by omega) hdvd2]
            have : L - (L / bs * bs - bs) = bs := by omega
            rw [this]
          · rw [if_neg hpos2]
            have h0 : L / bs * bs - bs = 0 := by omega
            have : L - 0 = bs := by omega
            simp only [h0, List.take_zero, applyT_nil, this]
        · have hdefer : ¬ (ctx.pad ≠ CRYPT_PADDING_NONE ∧ L % bs = 0) := fun h => hz h.2
          have hN : (L - 1) / bs * bs = L / bs * bs :=
            pred_div_mul_of_mod_pos L bs hbs1 (by omega)
          simp only [hd, if_neg hdefer, if_pos hpos, emitLen, if_true, hN]
          rw [T_take_ok T bs ctx.commonCtx tmpIn _ hT hbs hpos (by omega) hdvd, hmod]
  · rw [if_neg hpos]
    have h0 : L / bs * bs = 0 := by omega
    have hlt : L < bs := by omega
    have hN : emitLen bs (defersLast ctx) L = 0 := by
      unfold emitLen
      split
      · have : (L - 1) / bs = 0 := Nat.div_eq_of_lt (by omega)
        rw [this]; simp
      · exact h0
    simp only [hN, List.take_zero, applyT_nil, h0, hmod]

theorem emitLen_le (bs : Nat) (d : Bool) (L : Nat) : emitLen bs d L ≤ L := by
  unfold emitLen
  split
  · have := Nat.div_mul_le_self (L - 1) bs
    omega
  · exact Nat.div_mul_le_self L bs

theorem emitLen_mod (bs : Nat) (d : Bool) (L : Nat) : emitLen bs d L % bs = 0 := by
  unfold emitLen
  split <;> exact Nat.mul_mod_left _ _

theorem emitLen_rem_le (bs : Nat) (d : Bool) (L : Nat) (hbs : 1 ≤ bs) :
    L - emitLen bs d L ≤ bs := by
  unfold emitLen
  split
  · have h1 := mod_eq_sub_div_mul (L - 1) bs
    have h2 := Nat.mod_lt (L - 1) (show bs > 0 by omega)
    have h3 := Nat.div_mul_le_self (L - 1) bs
    omega
  · have h1 := mod_eq_sub_div_mul L bs
    have h2 := Nat.mod_lt L (show bs > 0 by omega)
    omega

theorem emitLen_rem_lt (bs : Nat) (L : Nat) (hbs : 1 ≤ bs) :
    L - emitLen bs false L < bs := by
  unfold emitLen
  have h1 := mod_eq_sub_div_mul L bs
  have h2 := Nat.mod_lt L (show bs > 0 by omega)
  simp only [Bool.false_eq_true, if_false]
  omega

theorem emitLen_rem_pos (bs : Nat) (L : Nat) (hL : 0 < L) :
    0 < L - emitLen bs true L := by
  unfold emitLen
  have h3 := Nat.div_mul_le_self (L - 1) bs
  simp only [if_true]
  omega

theorem emitLen_mul_add (bs : Nat) (d : Bool) (q x : Nat) (hbs : 1 ≤ bs)
    (h : d = false ∨ 0 < x) : emitLen bs d (q * bs + x) = q * bs + emitLen bs d x := by
  unfold emitLen
  cases d with
  | false =>
    simp only [Bool.false_eq_true, if_false]
    rw [Nat.add_comm (q * bs) x, Nat.add_mul_div_right x q (by omega), Nat.add_mul]
    omega
  | true =>
    have hx : 0 < x := by
      rcases h with h | h
      · exact absurd h (by decide)
      · exact h
    simp only [if_true]
    have e : q * bs + x - 1 = (x - 1) + q * bs := by omega
    rw [e, Nat.add_mul_div_right (x - 1) q (by omega), Nat.add_mul]
    omega

theorem emitLen_small (bs : Nat) (d : Bool) (L : Nat) (h : L < bs) : emitLen bs d L = 0 := by
  unfold emitLen
  split
  · rw [Nat.div_eq_of_lt (by omega)]; simp
  · rw [Nat.div_eq_of_lt h]; simp

theorem emitLen_block_true (bs : Nat) (hbs : 1 ≤ bs) : emitLen bs true bs = 0 := by
  unfold emitLen
  simp only [if_true]
  rw [Nat.div_eq_of_lt (by omega)]; simp

theorem emitLen_block_false (bs : Nat) (hbs : 1 ≤ bs) : emitLen bs false bs = bs := by
  unfold emitLen
  simp only [Bool.false_eq_true, if_false]
  rw [Nat.div_self (by omega)]; simp

theorem emitLen_compose (bs : Nat) (d : Bool) (L m : Nat) (hbs : 1 ≤ bs) :
    emitLen bs d (L + m) = emitLen bs d L + emitLen bs d (L - emitLen bs d L + m) := by
  have hle := emitLen_le bs d L
  have hmod := emitLen_mod bs d L
  have hq : emitLen bs d L = emitLen bs d L / bs * bs := by
    have := Nat.div_add_mod (emitLen bs d L) bs
    rw [hmod] at this
    have h2 : bs * (emitLen bs d L / bs) = emitLen bs d L / bs * bs := Nat.mul_comm _ _
    omega
  by_cases hz : emitLen bs d L = 0
  · rw [hz]; simp
  · have e : L + m = emitLen bs d L / bs * bs + (L - emitLen bs d L + m) := by omega
    have hcond : d = false ∨ 0 < L - emitLen bs d L + m := by
      cases d with
      | false => exact Or.inl rfl
      | true =>
        right
        have hL : 0 < L := by omega
        have := emitLen_rem_pos bs L hL
        omega
    conv_lhs => rw [e]
    rw [emitLen_mul_add bs d _ _ hbs hcond, ← hq]

theorem applyT_blockSize (T : BlockUpdate) (bs : Nat) (c : MODES_CipherCommonCtx)
    (x : List UInt8) (hT : BlockTransformOK bs T) (hc : c.blockSize = bs)
    (hmod : x.length % bs = 0) : (applyT T c x).1.blockSize = bs := by
  cases x with
  | nil => exact hc
  | cons a l => exact (hT c (a :: l) hc (List.cons_ne_nil _ _) hmod).2.1

theorem applyT_length (T : BlockUpdate) (bs : Nat) (c : MODES_CipherCommonCtx)
    (x : List UInt8) (hT : BlockTransformOK bs T) (hc : c.blockSize = bs)
    (hmod : x.length % bs = 0) : (applyT T c x).2.length = x.length := by
  cases x with
  | nil => rfl
  | cons a l => exact (hT c (a :: l) hc (List.cons_ne_nil _ _) hmod).2.2.1

theorem applyT_append (T : BlockUpdate) (bs : Nat) (c : MODES_CipherCommonCtx)
    (a b : List UInt8) (hT : BlockTransformOK bs T) (hc : c.blockSize = bs)
    (ha : a.length % bs = 0) (hb : b.length % bs = 0) :
    applyT T c (a ++ b) =
      ((applyT T (applyT T c a).1 b).1, (applyT T c a).2 ++ (applyT T (applyT T c a).1 b).2) := by
  cases a with
  | nil => simp [applyT_nil]
  | cons x l =>
    cases b with
    | nil => simp [applyT_nil]
    | cons y m =>
      have h := (hT c (x :: l) hc (List.cons_ne_nil _ _) ha).2.2.2 (y :: m)
        (List.cons_ne_nil _ _) hb
      rw [applyT_of_ne_nil T c (x :: l ++ y :: m) (by simp),
        applyT_of_ne_nil T c (x :: l) (List.cons_ne_nil _ _),
        applyT_of_ne_nil T _ (y :: m) (List.cons_ne_nil _ _)]
      simp only []
      rw [h.1, h.2]

theorem memcpyAt_zero_take (data src : List UInt8) :
    (memcpyAt data 0 src).take src.length = src := by
  unfold memcpyAt
  simp

theorem memcpyAt_length (data src : List UInt8) (off : Nat) (h : off + src.length ≤ data.length) :
    (memcpyAt data off src).length = data.length := by
  unfold memcpyAt
  simp [List.length_take, List.length_drop]
  omega

theorem memcpyAt_take (data src : List UInt8) (off : Nat) (h : off ≤ data.length) :
    (memcpyAt data off src).take (off + src.length) = data.take off ++ src := by
  unfold memcpyAt
  have hk : (data.take off ++ src).length = off + src.length := by
    simp [List.length_take]; omega
  rw [← hk, List.take_left']
  rfl

/-- The part of `MODES_CipherUpdate` after the cache, entered with an empty cache. -/
theorem rest_spec (T : BlockUpdate) (ctx : MODES_CipherCtx) (tmpIn out : List UInt8)
    (outLen : Nat)
    (hT : BlockTransformOK ctx.commonCtx.blockSize T)
    (hbs1 : 1 ≤ ctx.commonCtx.blockSize) (hbs2 : ctx.commonCtx.blockSize < 256)
    (hdata : ctx.commonCtx.blockSize ≤ ctx.data.length) (hd0 : ctx.dataLen = 0)
    (hne : 0 < tmpIn.length) (hlen : outLen + tmpIn.length < 2 ^ 32) :
    (MODES_CipherUpdate.rest ctx T tmpIn out outLen).1 = CRYPT_SUCCESS ∧
    (MODES_CipherUpdate.rest ctx T tmpIn out outLen).2.2.2 =
      outLen + emitLen ctx.commonCtx.blockSize (defersLast ctx) tmpIn.length ∧
    (MODES_CipherUpdate.rest ctx T tmpIn out outLen).2.1.commonCtx =
      (applyT T ctx.commonCtx
        (tmpIn.take (emitLen ctx.commonCtx.blockSize (defersLast ctx) tmpIn.length))).1 ∧
    (MODES_CipherUpdate.rest ctx T tmpIn out outLen).2.2.1 =
      out ++ (applyT T ctx.commonCtx
        (tmpIn.take (emitLen ctx.commonCtx.blockSize (defersLast ctx) tmpIn.length))).2 ∧
    (MODES_CipherUpdate.rest ctx T tmpIn out outLen).2.1.data.take
        (MODES_CipherUpdate.rest ctx T tmpIn out outLen).2.1.dataLen =
      tmpIn.drop (emitLen ctx.commonCtx.blockSize (defersLast ctx) tmpIn.length) ∧
    (MODES_CipherUpdate.rest ctx T tmpIn out outLen).2.1.dataLen =
      tmpIn.length - emitLen ctx.commonCtx.blockSize (defersLast ctx) tmpIn.length ∧
    (MODES_CipherUpdate.rest ctx T tmpIn out outLen).2.1.data.length = ctx.data.length ∧
    (MODES_CipherUpdate.rest ctx T tmpIn out outLen).2.1.pad = ctx.pad ∧
    (MODES_CipherUpdate.rest ctx T tmpIn out outLen).2.1.enc = ctx.enc ∧
    (MODES_CipherUpdate.rest ctx T tmpIn out outLen).2.1.algId = ctx.algId := by
  have hb := blocks_spec T ctx tmpIn hT hbs1 hbs2 hne (by omega)
  have hNle := emitLen_le ctx.commonCtx.blockSize (defersLast ctx) tmpIn.length
  have hrem := emitLen_rem_le ctx.commonCtx.blockSize (defersLast ctx) tmpIn.length hbs1
  generalize hN : emitLen ctx.commonCtx.blockSize (defersLast ctx) tmpIn.length = N at *
  unfold MODES_CipherUpdate.rest
  simp only [hb, ne_eq, not_true_eq_false, if_false]
  have hmodN : (outLen + N) % 2 ^ 32 = outLen + N := Nat.mod_eq_of_lt (by omega)
  by_cases hleft : tmpIn.length - N > 0
  · simp only [if_pos hleft]
    have hsrc : ((tmpIn.drop N).take (tmpIn.length - N)).length = tmpIn.length - N := by
      simp [List.length_take, List.length_drop]
    have hsrc2 : (tmpIn.drop N).take (tmpIn.length - N) = tmpIn.drop N := by
      apply List.take_of_length_le
      simp [List.length_drop]
    refine ⟨trivial, hmodN, trivial, trivial, ?_, trivial, ?_, trivial, trivial, trivial⟩
    · have := memcpyAt_zero_take ctx.data ((tmpIn.drop N).take (tmpIn.length - N))
      rw [hsrc] at this
      rw [this, hsrc2]
    · apply memcpyAt_length
      rw [hsrc]; omega
  · simp only [if_neg hleft]
    have hNeq : N = tmpIn.length := by omega
    refine ⟨trivial, hmodN, trivial, trivial, ?_, ?_, trivial, trivial, trivial, trivial⟩
    · show ctx.data.take ctx.dataLen = tmpIn.drop N
      rw [hd0, hNeq]; simp
    · show ctx.dataLen = tmpIn.length - N
      rw [hd0]; omega

theorem memcpyAt_nil (data : List UInt8) (off : Nat) : memcpyAt data off [] = data := by
  unfold memcpyAt
  simp

theorem fill_spec (ctx : MODES_CipherCtx) (inp : List UInt8)
    (hbs2 : ctx.commonCtx.blockSize < 256) (hd : 0 < ctx.dataLen)
    (hdle : ctx.dataLen ≤ ctx.commonCtx.blockSize) :
    MODES_CipherUpdateCache.fill ctx inp =
      ({ ctx with
          data := memcpyAt ctx.data ctx.dataLen
            (inp.take (min inp.length (ctx.commonCtx.blockSize - ctx.dataLen))),
          dataLen := ctx.dataLen + min inp.length (ctx.commonCtx.blockSize - ctx.dataLen) },
        inp.drop (min inp.length (ctx.commonCtx.blockSize - ctx.dataLen))) := by
  unfold MODES_CipherUpdateCache.fill
  have hs : sub8 ctx.commonCtx.blockSize ctx.dataLen = ctx.commonCtx.blockSize - ctx.dataLen :=
    sub8_of_le _ _ hdle (by omega)
  simp only [hs, if_pos hd]
  by_cases hgt : inp.length > ctx.commonCtx.blockSize - ctx.dataLen
  · have hmin : min inp.length (ctx.commonCtx.blockSize - ctx.dataLen) =
        ctx.commonCtx.blockSize - ctx.dataLen := by omega
    rw [hmin]
    simp only [if_pos hgt]
    by_cases hz : ctx.commonCtx.blockSize - ctx.dataLen = 0
    · rw [hz]
      simp [memcpyAt_nil]
    · have hm : (ctx.dataLen + (ctx.commonCtx.blockSize - ctx.dataLen)) % 2 ^ 8 =
          ctx.dataLen + (ctx.commonCtx.blockSize - ctx.dataLen) := Nat.mod_eq_of_lt (by omega)
      simp only [ne_eq, hz, not_false_eq_true, if_true, hm]
  · have hmin : min inp.length (ctx.commonCtx.blockSize - ctx.dataLen) = inp.length := by omega
    have hm8 : inp.length % 2 ^ 8 = inp.length := Nat.mod_eq_of_lt (by omega)
    rw [hmin]
    simp only [if_neg hgt, hm8]
    by_cases hz : inp.length = 0
    · have : inp = [] := List.eq_nil_of_length_eq_zero hz
      subst this
      simp [memcpyAt_nil]
    · have hm : (ctx.dataLen + inp.length) % 2 ^ 8 = ctx.dataLen + inp.length :=
        Nat.mod_eq_of_lt (by omega)
      simp only [ne_eq, hz, not_false_eq_true, if_true, hm]

theorem check_ok (bs d n cap : Nat) (hlen : n + d < 2 ^ 32) (hcap : (n + d) / bs * bs ≤ cap) :
    MODE_CheckUpdateParam bs d n cap = CRYPT_SUCCESS := by
  unfold MODE_CheckUpdateParam
  have hm : (n + d) % 2 ^ 32 = n + d := Nat.mod_eq_of_lt hlen
  rw [hm, if_neg (by omega), if_neg (by omega)]

theorem update_eq_empty_cache (T : BlockUpdate) (ctx : MODES_CipherCtx) (inp : List UInt8)
    (cap : Nat) (hbs1 : 1 ≤ ctx.commonCtx.blockSize) (hd0 : ctx.dataLen = 0)
    (hlen : inp.length + ctx.dataLen < 2 ^ 32)
    (hcap : (inp.length + ctx.dataLen) / ctx.commonCtx.blockSize * ctx.commonCtx.blockSize
      ≤ cap) :
    MODES_CipherUpdate ctx T inp cap =
      if inp.length = 0 then (CRYPT_SUCCESS, ctx, [], 0)
      else MODES_CipherUpdate.rest ctx T inp [] 0 := by
  unfold MODES_CipherUpdate
  rw [check_ok _ _ _ _ hlen hcap]
  have hfill : MODES_CipherUpdateCache.fill ctx inp = (ctx, inp) := by
    unfold MODES_CipherUpdateCache.fill
    rw [if_neg (by omega)]
  have hc : MODES_CipherUpdateCache ctx T inp 0 = (CRYPT_SUCCESS, ctx, inp, [], 0) := by
    unfold MODES_CipherUpdateCache
    simp only [hfill]
    rw [if_pos (by omega)]
  simp only [hc, ne_eq, not_true_eq_false, if_false]

theorem defersLast_eq_true (ctx : MODES_CipherCtx) :
    defersLast ctx = true ↔ (ctx.enc = false ∧ ctx.pad ≠ CRYPT_PADDING_NONE) := by
  unfold defersLast
  cases ctx.enc <;> simp

/-- `MODES_CipherUpdateCache` on a non-empty cache. -/
theorem cache_eq_nonempty (T : BlockUpdate) (ctx : MODES_CipherCtx) (inp : List UInt8)
    (hT : BlockTransformOK ctx.commonCtx.blockSize T)
    (hbs1 : 1 ≤ ctx.commonCtx.blockSize) (hbs2 : ctx.commonCtx.blockSize < 256)
    (hdata : ctx.commonCtx.blockSize ≤ ctx.data.length)
    (hd : 0 < ctx.dataLen) (hdle : ctx.dataLen ≤ ctx.commonCtx.blockSize) :
    MODES_CipherUpdateCache ctx T inp 0 =
      if ctx.dataLen + inp.length < ctx.commonCtx.blockSize ∨
          (ctx.dataLen + inp.length = ctx.commonCtx.blockSize ∧ defersLast ctx = true) then
        (CRYPT_SUCCESS,
          { ctx with data := memcpyAt ctx.data ctx.dataLen inp,
                     dataLen := ctx.dataLen + inp.length }, [], [], 0)
      else
        (CRYPT_SUCCESS,
          { ctx with
              commonCtx := (T ctx.commonCtx (ctx.data.take ctx.dataLen ++
                inp.take (ctx.commonCtx.blockSize - ctx.dataLen))).2.1,
              data := memcpyAt ctx.data ctx.dataLen
                (inp.take (ctx.commonCtx.blockSize - ctx.dataLen)),
              dataLen := 0 },
          inp.drop (ctx.commonCtx.blockSize - ctx.dataLen),
          (T ctx.commonCtx (ctx.data.take ctx.dataLen ++
                inp.take (ctx.commonCtx.blockSize - ctx.dataLen))).2.2,
          ctx.commonCtx.blockSize) := by
  unfold MODES_CipherUpdateCache
  simp only [fill_spec ctx inp hbs2 hd hdle]
  generalize hbs : ctx.commonCtx.blockSize = bs at *
  generalize hdl : ctx.dataLen = d at *
  by_cases hlt : d + inp.length < bs
  · have hmin : min inp.length (bs - d) = inp.length := by omega
    rw [if_pos (Or.inl hlt)]
    simp only [hmin, List.take_length, List.drop_length]
    rw [if_pos (by omega)]
  · have hmin : min inp.length (bs - d) = bs - d := by omega
    have hfull : d + (bs - d) = bs := by omega
    simp only [hmin, hfull, ne_eq, not_true_eq_false, if_false]
    have hblock : (memcpyAt ctx.data d (inp.take (bs - d))).take bs =
        ctx.data.take d ++ inp.take (bs - d) := by
      have hl : (inp.take (bs - d)).length = bs - d := by
        simp [List.length_take]; omega
      have := memcpyAt_take ctx.data (inp.take (bs - d)) d (by omega)
      rw [hl, hfull] at this
      exact this
    have hblen : (ctx.data.take d ++ inp.take (bs - d)).length = bs := by
      simp [List.length_take]; omega
    have hok := hT ctx.commonCtx (ctx.data.take d ++ inp.take (bs - d)) hbs
      (List.ne_nil_of_length_pos (by omega)) (by rw [hblen]; exact Nat.mod_self bs)
    by_cases hdef : d + inp.length = bs ∧ defersLast ctx = true
    · rw [if_pos (Or.inr hdef)]
      have hk : bs - d = inp.length := by omega
      have hencf := ((defersLast_eq_true ctx).mp hdef.2)
      have hfull2 : d + inp.length = bs := hdef.1
      simp only [hk, List.take_length, List.drop_length, hfull2]
      have hne : ¬ (ctx.enc = true) := by simp [hencf.1]
      simp only [if_neg hne]
      rw [if_pos ⟨rfl, hencf.2⟩]
    · have hn : ¬ (d + inp.length < bs ∨ (d + inp.length = bs ∧ defersLast ctx = true)) := by
        intro h
        rcases h with h | h
        · exact hlt h
        · exact hdef h
      rw [if_neg hn]
      simp only [hblock]
      unfold MODES_CipherUpdateCache.finish
      simp only [hok.1, ne_eq, not_true_eq_false, if_false, hbs]
      by_cases henc : ctx.enc = true
      · simp only [henc, if_true]
      · have hencf : ctx.enc = false := by simpa using henc
        simp only [hencf, Bool.false_eq_true, if_false]
        have : ¬ ((inp.drop (bs - d)).length = 0 ∧ ctx.pad ≠ CRYPT_PADDING_NONE) := by
          rintro ⟨h1, h2⟩
          apply hdef
          constructor
          · simp [List.length_drop] at h1
            omega
          · exact (defersLast_eq_true ctx).mpr ⟨hencf, h2⟩
        rw [if_neg this]

theorem update_spec_empty_cache (T : BlockUpdate) (ctx : MODES_CipherCtx) (inp : List UInt8)
    (cap : Nat) (hT : BlockTransformOK ctx.commonCtx.blockSize T) (hctx : CtxOK ctx)
    (hd0 : ctx.dataLen = 0) (hlen : inp.length + ctx.dataLen < 2 ^ 32)
    (hcap : (inp.length + ctx.dataLen) / ctx.commonCtx.blockSize * ctx.commonCtx.blockSize
      ≤ cap) :
    UpdateResultOK T ctx inp (MODES_CipherUpdate ctx T inp cap) := by
  obtain ⟨hbs1, hbs2, hdata, -, -⟩ := hctx
  rw [update_eq_empty_cache T ctx inp cap hbs1 hd0 hlen hcap]
  unfold UpdateResultOK
  have hall : ctx.data.take ctx.dataLen ++ inp = inp := by rw [hd0]; simp
  rw [hall]
  by_cases hz : inp.length = 0
  · have hnil : inp = [] := List.eq_nil_of_length_eq_zero hz
    subst hnil
    rw [if_pos hz]
    have hN : emitLen ctx.commonCtx.blockSize (defersLast ctx) ([] : List UInt8).length = 0 :=
      emitLen_small _ _ _ (by simp; omega)
    rw [hN]
    simp [applyT_nil, hd0]
  · rw [if_neg hz]
    have h := rest_spec T ctx inp [] 0 hT hbs1 hbs2 hdata hd0 (by omega) (by omega)
    obtain ⟨h1, h2, h3, h4, h5, h6, h7, h8, h9, h10⟩ := h
    refine ⟨h1, ?_, h3, ?_, h5, h6, h7, h8, h9, h10, ?_⟩
    · rw [h2]; simp
    · rw [h4]; simp
    · rw [h3]
      exact applyT_blockSize T _ _ _ hT rfl
        (by
          have hl : (inp.take (emitLen ctx.commonCtx.blockSize (defersLast ctx)
              inp.length)).length =
              emitLen ctx.commonCtx.blockSize (defersLast ctx) inp.length := by
            simp [List.length_take]
            exact emitLen_le _ _ _
          rw [hl]; exact emitLen_mod _ _ _)

theorem update_spec_nonempty_cache (T : BlockUpdate) (ctx : MODES_CipherCtx)
    (inp : List UInt8) (cap : Nat) (hT : BlockTransformOK ctx.commonCtx.blockSize T)
    (hctx : CtxOK ctx) (hd : 0 < ctx.dataLen) (hlen : inp.length + ctx.dataLen < 2 ^ 32)
    (hcap : (inp.length + ctx.dataLen) / ctx.commonCtx.blockSize * ctx.commonCtx.blockSize
      ≤ cap) :
    UpdateResultOK T ctx inp (MODES_CipherUpdate ctx T inp cap) := by
  obtain ⟨hbs1, hbs2, hdata, hdle, hdlt⟩ := hctx
  have hU : MODES_CipherUpdate ctx T inp cap =
      if (MODES_CipherUpdateCache ctx T inp 0).2.2.1.length = 0 then
        (CRYPT_SUCCESS, (MODES_CipherUpdateCache ctx T inp 0).2.1,
          (MODES_CipherUpdateCache ctx T inp 0).2.2.2.1,
          (MODES_CipherUpdateCache ctx T inp 0).2.2.2.2)
      else MODES_CipherUpdate.rest (MODES_CipherUpdateCache ctx T inp 0).2.1 T
          (MODES_CipherUpdateCache ctx T inp 0).2.2.1
          (MODES_CipherUpdateCache ctx T inp 0).2.2.2.1
          (MODES_CipherUpdateCache ctx T inp 0).2.2.2.2 := by
    have hc1 : (MODES_CipherUpdateCache ctx T inp 0).1 = CRYPT_SUCCESS := by
      rw [cache_eq_nonempty T ctx inp hT hbs1 hbs2 hdata hd hdle]
      split <;> rfl
    unfold MODES_CipherUpdate
    rw [check_ok _ _ _ _ hlen hcap]
    simp only [hc1, ne_eq, not_true_eq_false, if_false]
  rw [hU, cache_eq_nonempty T ctx inp hT hbs1 hbs2 hdata hd hdle]
  unfold UpdateResultOK
  generalize hbs : ctx.commonCtx.blockSize = bs at *
  generalize hdl : ctx.dataLen = d at *
  have hcl : (ctx.data.take d).length = d := by
    simp [List.length_take]; omega
  have hall : (ctx.data.take d ++ inp).length = d + inp.length := by
    rw [List.length_append, hcl]
  rw [hall]
  by_cases hcond : d + inp.length < bs ∨ (d + inp.length = bs ∧ defersLast ctx = true)
  · rw [if_pos hcond]
    have hN : emitLen bs (defersLast ctx) (d + inp.length) = 0 := by
      rcases hcond with h | h
      · exact emitLen_small _ _ _ h
      · rw [h.1, h.2]; exact emitLen_block_true bs hbs1
    have hle : d + inp.length ≤ bs := by
      rcases hcond with h | h <;> omega
    rw [hN]
    simp only [List.length_nil, if_true, List.take_zero, applyT_nil, List.drop_zero,
      Nat.sub_zero]
    refine ⟨trivial, trivial, trivial, trivial, ?_, trivial, ?_, trivial, trivial, trivial, hbs⟩
    · exact memcpyAt_take ctx.data inp d (by omega)
    · exact memcpyAt_length ctx.data inp d (by omega)
  · rw [if_neg hcond]
    have hge : bs ≤ d + inp.length := by
      by_contra h
      exact hcond (Or.inl (by omega))
    have hkl : (inp.take (bs - d)).length = bs - d := by
      simp [List.length_take]; omega
    have hblen : (ctx.data.take d ++ inp.take (bs - d)).length = bs := by
      rw [List.length_append, hcl, hkl]; omega
    have hBne : ctx.data.take d ++ inp.take (bs - d) ≠ [] :=
      List.ne_nil_of_length_pos (by omega)
    have hok := hT ctx.commonCtx (ctx.data.take d ++ inp.take (bs - d)) hbs hBne
      (by rw [hblen]; exact Nat.mod_self bs)
    have hsplit : ctx.data.take d ++ inp =
        (ctx.data.take d ++ inp.take (bs - d)) ++ inp.drop (bs - d) := by
      rw [List.append_assoc, List.take_append_drop]
    have hdlen : (inp.drop (bs - d)).length = inp.length - (bs - d) := List.length_drop _ _
    have hml : (memcpyAt ctx.data d (inp.take (bs - d))).length = ctx.data.length :=
      memcpyAt_length _ _ _ (by rw [hkl]; omega)
    simp only []
    by_cases hz : (inp.drop (bs - d)).length = 0
    · rw [if_pos hz]
      have heq : d + inp.length = bs := by omega
      have hdf : defersLast ctx = false := by
        cases h : defersLast ctx with
        | false => rfl
        | true => exact absurd (Or.inr ⟨heq, h⟩) hcond
      have hN : emitLen bs (defersLast ctx) (d + inp.length) = bs := by
        rw [heq, hdf]; exact emitLen_block_false bs hbs1
      have hdnil : inp.drop (bs - d) = [] := List.eq_nil_of_length_eq_zero hz
      have hallB : ctx.data.take d ++ inp = ctx.data.take d ++ inp.take (bs - d) := by
        rw [hsplit, hdnil, List.append_nil]
      rw [hN, hallB]
      have ht : (ctx.data.take d ++ inp.take (bs - d)).take bs =
          ctx.data.take d ++ inp.take (bs - d) := by
        apply List.take_of_length_le; omega
      have hdr : (ctx.data.take d ++ inp.take (bs - d)).drop bs = [] := by
        apply List.drop_of_length_le; omega
      rw [ht, hdr, applyT_of_ne_nil T _ _ hBne]
      simp only [List.take_zero]
      refine ⟨trivial, trivial, trivial, trivial, trivial, ?_, hml, trivial, trivial, trivial,
        hok.2.1⟩
      omega
    · rw [if_neg hz]
      have hmpos : 0 < (inp.drop (bs - d)).length := by omega
      have hcc : (T ctx.commonCtx (ctx.data.take d ++ inp.take (bs - d))).2.1.blockSize = bs :=
        hok.2.1
      have hr := rest_spec T
        { ctx with
            commonCtx := (T ctx.commonCtx (ctx.data.take d ++ inp.take (bs - d))).2.1,
            data := memcpyAt ctx.data d (inp.take (bs - d)),
            dataLen := 0 } (inp.drop (bs - d))
        (T ctx.commonCtx (ctx.data.take d ++ inp.take (bs - d))).2.2 bs
        (by rw [hcc]; exact hT) (by rw [hcc]; exact hbs1) (by rw [hcc]; exact hbs2)
        (by rw [hcc, hml]; exact hdata) rfl hmpos (by rw [hdlen]; omega)
      have hdfl : defersLast { ctx with
            commonCtx := (T ctx.commonCtx (ctx.data.take d ++ inp.take (bs - d))).2.1,
            data := memcpyAt ctx.data d (inp.take (bs - d)),
            dataLen := 0 } = defersLast ctx := rfl
      simp only [hcc, hdfl] at hr
      obtain ⟨h1, h2, h3, h4, h5, h6, h7, h8, h9, h10⟩ := hr
      have hcnd : defersLast ctx = false ∨ 0 < (inp.drop (bs - d)).length := Or.inr hmpos
      have hN : emitLen bs (defersLast ctx) (d + inp.length) =
          bs + emitLen bs (defersLast ctx) (inp.drop (bs - d)).length := by
        have e : d + inp.length = 1 * bs + (inp.drop (bs - d)).length := by
          rw [hdlen]; omega
        rw [e, emitLen_mul_add bs _ 1 _ hbs1 hcnd]
        omega
      generalize hN1 : emitLen bs (defersLast ctx) (inp.drop (bs - d)).length = N1 at *
      have hN1le : N1 ≤ (inp.drop (bs - d)).length := by
        rw [← hN1]; exact emitLen_le _ _ _
      have hN1mod : N1 % bs = 0 := by
        rw [← hN1]; exact emitLen_mod _ _ _
      have htake : (ctx.data.take d ++ inp).take (bs + N1) =
          (ctx.data.take d ++ inp.take (bs - d)) ++ (inp.drop (bs - d)).take N1 := by
        have := @List.take_append _ (ctx.data.take d ++ inp.take (bs - d))
          (inp.drop (bs - d)) N1
        rw [hblen] at this
        rw [hsplit, this]
      have hdrop : (ctx.data.take d ++ inp).drop (bs + N1) = (inp.drop (bs - d)).drop N1 := by
        have := @List.drop_append _ (ctx.data.take d ++ inp.take (bs - d))
          (inp.drop (bs - d)) N1
        rw [hblen] at this
        rw [hsplit, this]
      have htl : ((inp.drop (bs - d)).take N1).length = N1 := by
        rw [List.length_take]; omega
      have happ := applyT_append T bs ctx.commonCtx (ctx.data.take d ++ inp.take (bs - d))
        ((inp.drop (bs - d)).take N1) hT hbs (by rw [hblen]; exact Nat.mod_self bs)
        (by rw [htl]; exact hN1mod)
      rw [applyT_of_ne_nil T _ _ hBne] at happ
      simp only [] at happ
      rw [hN, htake, hdrop, happ]
      refine ⟨h1, ?_, h3, h4, h5, ?_, ?_, h8, h9, h10, ?_⟩
      · rw [h2]
      · rw [h6, hdlen]; omega
      · rw [h7]; exact hml
      · rw [h3]
        exact applyT_blockSize T bs _ _ hT hcc (by rw [htl]; exact hN1mod)

theorem update_spec (T : BlockUpdate) (ctx : MODES_CipherCtx) (inp : List UInt8) (cap : Nat)
    (hT : BlockTransformOK ctx.commonCtx.blockSize T) (hctx : CtxOK ctx)
    (hlen : inp.length + ctx.dataLen < 2 ^ 32)
    (hcap : (inp.length + ctx.dataLen) / ctx.commonCtx.blockSize * ctx.commonCtx.blockSize
      ≤ cap) :
    UpdateResultOK T ctx inp (MODES_CipherUpdate ctx T inp cap) := by
  rcases Nat.eq_zero_or_pos ctx.dataLen with h | h
  · exact update_spec_empty_cache T ctx inp cap hT hctx h hlen hcap
  · exact update_spec_nonempty_cache T ctx inp cap hT hctx h hlen hcap

theorem cache_length (ctx : MODES_CipherCtx) (hctx : CtxOK ctx) :
    (ctx.data.take ctx.dataLen).length = ctx.dataLen := by
  obtain ⟨-, -, hdata, hdle, -⟩ := hctx
  rw [List.length_take]; omega

theorem runResult_of_update (T : BlockUpdate) (ctx : MODES_CipherCtx) (inp : List UInt8)
    (u : RetCode × MODES_CipherCtx × List UInt8 × Nat) (h : UpdateResultOK T ctx inp u) :
    RunResultOK T ctx inp (u.1, u.2.1, u.2.2.1) := by
  obtain ⟨h1, -, h3, h4, h5, h6, h7, h8, h9, h10, h11⟩ := h
  exact ⟨h1, h3, h4, h5, h6, h7, h8, h9, h10, h11⟩

theorem runResult_ctxOK (T : BlockUpdate) (ctx : MODES_CipherCtx) (inp : List UInt8)
    (r : RetCode × MODES_CipherCtx × List UInt8) (hctx : CtxOK ctx)
    (h : RunResultOK T ctx inp r) : CtxOK r.2.1 := by
  obtain ⟨-, -, -, -, h6, h7, h8, h9, -, h11⟩ := h
  obtain ⟨hbs1, hbs2, hdata, hdle, hdlt⟩ := hctx
  have hdf : defersLast r.2.1 = defersLast ctx := by
    unfold defersLast; rw [h8, h9]
  refine ⟨by rw [h11]; exact hbs1, by rw [h11]; exact hbs2, by rw [h11, h7]; exact hdata, ?_, ?_⟩
  · rw [h11, h6]; exact emitLen_rem_le _ _ _ hbs1
  · intro hf
    rw [hdf] at hf
    rw [h11, h6, hf]; exact emitLen_rem_lt _ _ hbs1

theorem runResult_nil (T : BlockUpdate) (ctx : MODES_CipherCtx) (hctx : CtxOK ctx) :
    RunResultOK T ctx [] (CRYPT_SUCCESS, ctx, []) := by
  have hcl := cache_length ctx hctx
  obtain ⟨hbs1, hbs2, hdata, hdle, hdlt⟩ := hctx
  have hN : emitLen ctx.commonCtx.blockSize (defersLast ctx)
      (ctx.data.take ctx.dataLen ++ []).length = 0 := by
    rw [List.append_nil, hcl]
    cases hdf : defersLast ctx with
    | false => exact emitLen_small _ _ _ (hdlt hdf)
    | true =>
      rcases Nat.lt_or_ge ctx.dataLen ctx.commonCtx.blockSize with h | h
      · exact emitLen_small _ _ _ h
      · have : ctx.dataLen = ctx.commonCtx.blockSize := by omega
        rw [this]; exact emitLen_block_true _ hbs1
  unfold RunResultOK
  rw [hN]
  simp [applyT_nil, hcl]

/-- Two runs in sequence are one run on the concatenated input. -/
theorem runResult_append (T : BlockUpdate) (ctx : MODES_CipherCtx) (a b : List UInt8)
    (r1 r2 : RetCode × MODES_CipherCtx × List UInt8)
    (hT : BlockTransformOK ctx.commonCtx.blockSize T) (hctx : CtxOK ctx)
    (h1 : RunResultOK T ctx a r1) (h2 : RunResultOK T r1.2.1 b r2) :
    RunResultOK T ctx (a ++ b) (r2.1, r2.2.1, r1.2.2 ++ r2.2.2) := by
  have hcl := cache_length ctx hctx
  have hctx1 := runResult_ctxOK T ctx a r1 hctx h1
  have hcl1 := cache_length r1.2.1 hctx1
  obtain ⟨hbs1, hbs2, hdata, hdle, hdlt⟩ := hctx
  obtain ⟨a1, a2, a3, a4, a5, a6, a7, a8, a9, a10⟩ := h1
  obtain ⟨b1, b2, b3, b4, b5, b6, b7, b8, b9, b10⟩ := h2
  have hdf : defersLast r1.2.1 = defersLast ctx := by
    unfold defersLast; rw [a7, a8]
  rw [a10, hdf, a4] at b2 b3 b4 b5
  rw [a2] at b2 b3
  generalize hbs : ctx.commonCtx.blockSize = bs at *
  generalize hdl : defersLast ctx = dl at *
  generalize hall : ctx.data.take ctx.dataLen ++ a = all at *
  have hallab : ctx.data.take ctx.dataLen ++ (a ++ b) = all ++ b := by
    rw [← List.append_assoc, hall]
  have hNle : emitLen bs dl all.length ≤ all.length := emitLen_le _ _ _
  have hdl' : (all.drop (emitLen bs dl all.length) ++ b).length =
      all.length - emitLen bs dl all.length + b.length := by
    rw [List.length_append, List.length_drop]
  rw [hdl'] at b2 b3 b4 b5
  have hcomp := emitLen_compose bs dl all.length b.length hbs1
  generalize hN : emitLen bs dl all.length = N at *
  generalize hN2 : emitLen bs dl (all.length - N + b.length) = N2 at *
  have hN2le : N2 ≤ all.length - N + b.length := by rw [← hN2]; exact emitLen_le _ _ _
  have hNmod : N % bs = 0 := by rw [← hN]; exact emitLen_mod _ _ _
  have hN2mod : N2 % bs = 0 := by rw [← hN2]; exact emitLen_mod _ _ _
  have htake : (all ++ b).take (N + N2) = all.take N ++ (all.drop N ++ b).take N2 := by
    have e : all ++ b = all.take N ++ (all.drop N ++ b) := by
      rw [← List.append_assoc, List.take_append_drop]
    have hl : (all.take N).length = N := by rw [List.length_take]; omega
    have := @List.take_append _ (all.take N) (all.drop N ++ b) N2
    rw [hl] at this
    rw [e, this]
  have hdrop : (all ++ b).drop (N + N2) = (all.drop N ++ b).drop N2 := by
    have e : all ++ b = all.take N ++ (all.drop N ++ b) := by
      rw [← List.append_assoc, List.take_append_drop]
    have hl : (all.take N).length = N := by rw [List.length_take]; omega
    have := @List.drop_append _ (all.take N) (all.drop N ++ b) N2
    rw [hl] at this
    rw [e, this]
  have hl1 : (all.take N).length = N := by rw [List.length_take]; omega
  have hl2 : ((all.drop N ++ b).take N2).length = N2 := by
    rw [List.length_take, List.length_append, List.length_drop]; omega
  have happ := applyT_append T bs ctx.commonCtx (all.take N) ((all.drop N ++ b).take N2) hT
    hbs (by rw [hl1]; exact hNmod) (by rw [hl2]; exact hN2mod)
  unfold RunResultOK
  simp only [hallab, hbs, hdl, List.length_append, hcomp, htake, hdrop, happ]
  refine ⟨b1, b2, ?_, b4, ?_, ?_, ?_, ?_, ?_, ?_⟩
  · rw [a3, b3]
  · rw [b5]; omega
  · rw [b6, a6]
  · rw [b7, a7]
  · rw [b8, a8]
  · rw [b9, a9]
  · rw [b10, a10]

theorem chunkInput_cons (ch : List UInt8 × Nat) (rest : List (List UInt8 × Nat)) :
    chunkInput (ch :: rest) = ch.1 ++ chunkInput rest := by
  simp [chunkInput]

theorem updateChunks_spec (T : BlockUpdate) (chunks : List (List UInt8 × Nat)) :
    ∀ (ctx : MODES_CipherCtx), BlockTransformOK ctx.commonCtx.blockSize T → CtxOK ctx →
      (chunkInput chunks).length + ctx.dataLen < 2 ^ 32 →
      CapsOK ctx.commonCtx.blockSize chunks →
      RunResultOK T ctx (chunkInput chunks) (updateChunks T ctx chunks) := by
  induction chunks with
  | nil =>
    intro ctx _ hctx _ _
    exact runResult_nil T ctx hctx
  | cons ch rest ih =>
    intro ctx hT hctx hlen hcaps
    rw [chunkInput_cons] at hlen ⊢
    rw [List.length_append] at hlen
    have hcl := cache_length ctx hctx
    have hcap : (ch.1.length + ctx.dataLen) / ctx.commonCtx.blockSize * ctx.commonCtx.blockSize
        ≤ ch.2 := by
      have h1 := hcaps ch (List.mem_cons_self _ _)
      have h2 := Nat.div_mul_le_self (ch.1.length + ctx.dataLen) ctx.commonCtx.blockSize
      have h3 := hctx.2.2.2.1
      omega
    have hu := update_spec T ctx ch.1 ch.2 hT hctx (by omega) hcap
    have hr1 := runResult_of_update T ctx ch.1 _ hu
    have hctx1 := runResult_ctxOK T ctx ch.1 _ hctx hr1
    have hbs1 : (MODES_CipherUpdate ctx T ch.1 ch.2).2.1.commonCtx.blockSize =
        ctx.commonCtx.blockSize := hr1.2.2.2.2.2.2.2.2.2
    have hd1 : (MODES_CipherUpdate ctx T ch.1 ch.2).2.1.dataLen ≤
        ctx.dataLen + ch.1.length := by
      have := hr1.2.2.2.2.1
      simp only [] at this
      rw [this, List.length_append, hcl]
      omega
    have hr2 := ih (MODES_CipherUpdate ctx T ch.1 ch.2).2.1 (by rw [hbs1]; exact hT) hctx1
      (by omega)
      (by
        rw [hbs1]
        intro c hc
        exact hcaps c (List.mem_cons_of_mem _ hc))
    have happ := runResult_append T ctx ch.1 (chunkInput rest) _ _ hT hctx hr1 hr2
    have hs : (MODES_CipherUpdate ctx T ch.1 ch.2).1 = CRYPT_SUCCESS := hu.1
    have hEq : updateChunks T ctx (ch :: rest) =
        ((updateChunks T (MODES_CipherUpdate ctx T ch.1 ch.2).2.1 rest).1,
          (updateChunks T (MODES_CipherUpdate ctx T ch.1 ch.2).2.1 rest).2.1,
          (MODES_CipherUpdate ctx T ch.1 ch.2).2.2.1 ++
            (updateChunks T (MODES_CipherUpdate ctx T ch.1 ch.2).2.1 rest).2.2) := by
      rw [updateChunks]
      simp only [hs, ne_eq, not_true_eq_false, if_false]
    rw [hEq]
    exact happ

theorem specPadBytes_length (pad : CRYPT_PaddingType) (p : Nat) (hp : 1 ≤ p)
    (h1 : pad ≠ CRYPT_PADDING_NONE) (h2 : pad ≠ CRYPT_PADDING_MAX_COUNT) :
    (specPadBytes pad p).length = p := by
  cases pad <;> simp [specPadBytes] <;> first | omega | exact absurd rfl h1 | exact absurd rfl h2

theorem final_view (T : BlockUpdate) (ctx : MODES_CipherCtx) (cap : Nat) (hctx : CtxOK ctx) :
    ((MODES_CipherFinal ctx T cap).1, (MODES_CipherFinal ctx T cap).2.2.1,
        (MODES_CipherFinal ctx T cap).2.2.2) =
      finalView T ctx.commonCtx ctx.algId ctx.pad ctx.enc (ctx.data.take ctx.dataLen) cap := by
  have hcl := cache_length ctx hctx
  obtain ⟨hbs1, hbs2, hdata, hdle, hdlt⟩ := hctx
  unfold MODES_CipherFinal finalView
  by_cases hbuf : ctx.pad ≠ CRYPT_PADDING_NONE ∧ cap < ctx.commonCtx.blockSize
  · rw [if_pos hbuf, if_pos hbuf]
  · rw [if_neg hbuf, if_neg hbuf]
    by_cases henc : ctx.enc = true
    · rw [if_pos henc, if_pos henc]
      have hlt : ctx.dataLen < ctx.commonCtx.blockSize := hdlt (by simp [defersLast, henc])
      by_cases hnone : ctx.pad = CRYPT_PADDING_NONE
      · have hp : paddedCache ctx.algId ctx.pad ctx.commonCtx.blockSize
            (ctx.data.take ctx.dataLen) =
            (if ctx.dataLen % ctx.commonCtx.blockSize ≠ 0 then
              (if IfXts ctx.algId then CRYPT_SUCCESS else CRYPT_MODE_ERR_INPUT_LEN)
              else CRYPT_SUCCESS, ctx.data.take ctx.dataLen) := by
          rw [hnone]; simp only [paddedCache, hcl]
        have hb : MODES_BlockPadding ctx.algId ctx.pad ctx.commonCtx.blockSize ctx.data
            ctx.dataLen =
            (if ctx.dataLen % ctx.commonCtx.blockSize ≠ 0 then
              (if IfXts ctx.algId then CRYPT_SUCCESS else CRYPT_MODE_ERR_INPUT_LEN)
              else CRYPT_SUCCESS, ctx.data, ctx.dataLen) := by
          rw [hnone]; simp only [ MODES_BlockPadding]
          split <;> rfl
        rw [hp, hb]
        simp only [hcl]
        split_ifs <;> simp_all
      · by_cases hmax : ctx.pad = CRYPT_PADDING_MAX_COUNT
        · have hp : paddedCache ctx.algId ctx.pad ctx.commonCtx.blockSize
              (ctx.data.take ctx.dataLen) = (CRYPT_INVALID_ARG, ctx.data.take ctx.dataLen) := by
            rw [hmax]; simp only [paddedCache]
          have hb : MODES_BlockPadding ctx.algId ctx.pad ctx.commonCtx.blockSize ctx.data
              ctx.dataLen = (CRYPT_INVALID_ARG, ctx.data, ctx.dataLen) := by
            rw [hmax]; simp only [ MODES_BlockPadding]
          rw [hp, hb]
          simp
        · have hb := MODES_BlockPadding_eq ctx.algId ctx.pad ctx.commonCtx.blockSize
            ctx.dataLen ctx.data hnone hmax hbs2 hlt hdata
          have hp : paddedCache ctx.algId ctx.pad ctx.commonCtx.blockSize
              (ctx.data.take ctx.dataLen) =
              (CRYPT_SUCCESS, ctx.data.take ctx.dataLen ++
                specPadBytes ctx.pad (ctx.commonCtx.blockSize - ctx.dataLen)) := by
            cases hpd : ctx.pad <;> simp only [paddedCache, hcl] <;>
              first | exact absurd hpd hnone | exact absurd hpd hmax
          have hpl := specPadBytes_length ctx.pad (ctx.commonCtx.blockSize - ctx.dataLen)
            (by omega) hnone hmax
          have hlen : (ctx.data.take ctx.dataLen ++
              specPadBytes ctx.pad (ctx.commonCtx.blockSize - ctx.dataLen)).length =
              ctx.commonCtx.blockSize := by
            rw [List.length_append, hcl, hpl]; omega
          have htk : (ctx.data.take ctx.dataLen ++
              specPadBytes ctx.pad (ctx.commonCtx.blockSize - ctx.dataLen) ++
              ctx.data.drop ctx.commonCtx.blockSize).take ctx.commonCtx.blockSize =
              ctx.data.take ctx.dataLen ++
                specPadBytes ctx.pad (ctx.commonCtx.blockSize - ctx.dataLen) := by
            have := take_splice ctx.data ctx.dataLen
              (specPadBytes ctx.pad (ctx.commonCtx.blockSize - ctx.dataLen))
              (ctx.data.drop ctx.commonCtx.blockSize) (by omega)
            rw [hpl] at this
            have e : ctx.dataLen + (ctx.commonCtx.blockSize - ctx.dataLen) =
                ctx.commonCtx.blockSize := by omega
            rw [e] at this
            exact this
          rw [hp, hb]
          simp only [htk, hlen, ne_eq, not_true_eq_false, if_false]
          have hne : ¬ (ctx.commonCtx.blockSize = 0) := by omega
          simp only [if_neg hne]
          split_ifs <;> simp_all
    · rw [if_neg henc, if_neg henc]
      simp only [hcl]
      split_ifs <;> simp_all

theorem UnPaddingX923_check_zero (pad : List UInt8) (padLen : Nat)
    (h1 : 1 ≤ padLen) (h2 : padLen < 2 ^ 32) :
    UnPaddingX923.check pad padLen = 0 ↔
      ((pad.getD (padLen - 1) 0).toNat ≤ padLen ∧
        ∀ i, i < padLen - 1 → padLen - (pad.getD (padLen - 1) 0).toNat ≤ i →
          (pad.getD i 0).toNat = 0) := by
  unfold UnPaddingX923.check
  simp only []
  rw [sub32_of_le padLen 1 h1 h2, forLoop_lor_eq_zero]
  have hL : (pad.getD (padLen - 1) 0).toNat < 256 := UInt8.toNat_lt_size _
  generalize (pad.getD (padLen - 1) 0).toNat = L at hL ⊢
  constructor
  · rintro ⟨hc, hf⟩
    have hL2 : L ≤ padLen := by
      by_contra hh
      have : L > padLen := by omega
      simp [cbool, this] at hc
    refine ⟨hL2, fun i hi2 hi1 => ?_⟩
    have := hf i hi2
    rw [sub32_of_le padLen L hL2 h2] at this
    simp only [cbool, ge_iff_le, hi1, decide_True, if_true, Nat.mul_one] at this
    exact this
  · rintro ⟨hL2, hf⟩
    constructor
    · have : ¬ (L > padLen) := by omega
      simp [cbool, this]
    · intro i hi
      rw [sub32_of_le padLen L hL2 h2]
      by_cases hpos : padLen - L ≤ i
      · have := hf i hi hpos
        simp only [cbool, ge_iff_le, hpos, decide_True, if_true, Nat.mul_one, this]
      · simp [cbool, hpos]

theorem UnPaddingX923_valid (pad : List UInt8) (padLen finLen : Nat) (h1 : 1 ≤ padLen)
    (h2 : padLen < 2 ^ 32)
    (hv : (pad.getD (padLen - 1) 0).toNat ≤ padLen ∧
        ∀ i, i < padLen - 1 → padLen - (pad.getD (padLen - 1) 0).toNat ≤ i →
          (pad.getD i 0).toNat = 0) :
    UnPaddingX923 pad padLen finLen =
      (CRYPT_SUCCESS, padLen - (pad.getD (padLen - 1) 0).toNat) := by
  unfold UnPaddingX923
  simp only []
  rw [if_neg (not_not.mpr ((UnPaddingX923_check_zero pad padLen h1 h2).mpr hv))]
  rw [sub32_of_le padLen 1 h1 h2, sub32_of_le padLen _ hv.1 h2]

theorem getD_append_left (a b : List UInt8) (i : Nat) (h : i < a.length) :
    (a ++ b).getD i 0 = a.getD i 0 := by
  rw [List.getD_eq_getElem?_getD, List.getD_eq_getElem?_getD, List.getElem?_append_left h]

theorem getD_append_right (a b : List UInt8) (i : Nat) (h : a.length ≤ i) :
    (a ++ b).getD i 0 = b.getD (i - a.length) 0 := by
  rw [List.getD_eq_getElem?_getD, List.getD_eq_getElem?_getD, List.getElem?_append_right h]

theorem getD_replicate (n i : Nat) (v : UInt8) (h : i < n) :
    (List.replicate n v).getD i 0 = v := by
  rw [List.getD_eq_getElem?_getD, List.getElem?_replicate]
  simp [h]

theorem getD_singleton_zero (v : UInt8) : ([v] : List UInt8).getD 0 0 = v := rfl

theorem toNat_ofNat_small (p : Nat) (h : p < 256) : (UInt8.ofNat p).toNat = p := by
  simp [UInt8.toNat, UInt8.ofNat]
  omega

theorem unpad_pad_pkcs (cache : List UInt8) (bs p cap : Nat) (v : UInt8)
    (hv : v = UInt8.ofNat p) (hp : 1 ≤ p) (hbs : bs < 256) (hlen : cache.length + p = bs) :
    UnPaddingPkcs (cache ++ List.replicate p v) bs cap = (CRYPT_SUCCESS, cache.length) := by
  have hlast : (cache ++ List.replicate p v).getD (bs - 1) 0 = v := by
    rw [getD_append_right _ _ _ (by omega), getD_replicate _ _ _ (by omega)]
  have hvn : v.toNat = p := by rw [hv]; exact toNat_ofNat_small p (by omega)
  have hvalid : PkcsValid (cache ++ List.replicate p v) bs := by
    unfold PkcsValid
    rw [hlast, hvn]
    refine ⟨hp, by omega, fun i hi1 hi2 => ?_⟩
    rw [getD_append_right _ _ _ (by omega), getD_replicate _ _ _ (by omega), hvn]
  rw [UnPaddingPkcs_valid _ bs cap (by omega) (by omega) hvalid, hlast, hvn]
  congr 1
  omega

theorem unpad_pad_x923 (cache : List UInt8) (bs p cap : Nat)
    (hp : 1 ≤ p) (hbs : bs < 256) (hlen : cache.length + p = bs) :
    UnPaddingX923 (cache ++ (List.replicate (p - 1) 0x00 ++ [UInt8.ofNat p])) bs cap =
      (CRYPT_SUCCESS, cache.length) := by
  have hlast : (cache ++ (List.replicate (p - 1) 0x00 ++ [UInt8.ofNat p])).getD (bs - 1) 0 =
      UInt8.ofNat p := by
    rw [getD_append_right _ _ _ (by omega), getD_append_right _ _ _ (by simp; omega)]
    have : bs - 1 - cache.length - (List.replicate (p - 1) (0x00 : UInt8)).length = 0 := by
      simp; omega
    rw [this]; rfl
  have hvn : (UInt8.ofNat p).toNat = p := toNat_ofNat_small p (by omega)
  rw [UnPaddingX923_valid _ bs cap (by omega) (by omega), hlast, hvn]
  · congr 1; omega
  · rw [hlast, hvn]
    refine ⟨by omega, fun i hi1 hi2 => ?_⟩
    rw [getD_append_right _ _ _ (by omega), getD_append_left _ _ _ (by simp; omega),
      getD_replicate _ _ _ (by omega)]
    rfl

theorem unpad_pad_iso7816 (cache : List UInt8) (bs p cap : Nat)
    (hp : 1 ≤ p) (hbs : bs < 256) (hlen : cache.length + p = bs) :
    UnPaddingISO7816 (cache ++ (0x80 :: List.replicate (p - 1) 0x00)) bs cap =
      (CRYPT_SUCCESS, cache.length) := by
  apply UnPaddingISO7816_valid _ bs cap cache.length (by omega) (by omega)
  refine ⟨by omega, ?_, fun j hj1 hj2 => ?_⟩
  · rw [getD_append_right _ _ _ (Nat.le_refl _), Nat.sub_self]; rfl
  · rw [getD_append_right _ _ _ (by omega)]
    have e : j - cache.length = (j - cache.length - 1) + 1 := by omega
    rw [e, List.getD_cons_succ, getD_replicate _ _ _ (by omega)]

/-- Unpadding undoes padding, whatever the cached bytes are. -/
theorem unpad_pad (pad : CRYPT_PaddingType) (cache : List UInt8) (bs cap : Nat)
    (hpad : pad = CRYPT_PADDING_ISO7816 ∨ pad = CRYPT_PADDING_X923 ∨
      pad = CRYPT_PADDING_PKCS5 ∨ pad = CRYPT_PADDING_PKCS7)
    (hbs : bs < 256) (hlt : cache.length < bs) :
    Mode_BlockUnPadding pad (cache ++ specPadBytes pad (bs - cache.length)) bs cap =
      (CRYPT_SUCCESS, cache.length) := by
  rcases hpad with h | h | h | h <;> subst h <;> simp only [Mode_BlockUnPadding, specPadBytes]
  · exact unpad_pad_iso7816 cache bs _ cap (by omega) hbs (by omega)
  · exact unpad_pad_x923 cache bs _ cap (by omega) hbs (by omega)
  · exact unpad_pad_pkcs cache bs _ cap _ rfl (by omega) hbs (by omega)
  · exact unpad_pad_pkcs cache bs _ cap _ rfl (by omega) hbs (by omega)

theorem applyT_inverts (bs : Nat) (E D : BlockUpdate)
    (R : MODES_CipherCommonCtx → MODES_CipherCommonCtx → Prop)
    (hE : BlockTransformOK bs E) (hD : BlockTransformOK bs D) (hinv : DecryptInverts bs E D R)
    (hbs : 1 ≤ bs) :
    ∀ (k : Nat) (Y : List UInt8) (ce cd : MODES_CipherCommonCtx), Y.length = k * bs →
      ce.blockSize = bs → cd.blockSize = bs → R ce cd →
      (applyT D cd (applyT E ce Y).2).2 = Y ∧
        R (applyT E ce Y).1 (applyT D cd (applyT E ce Y).2).1 := by
  intro k
  induction k with
  | zero =>
    intro Y ce cd hY _ _ hR
    have : Y = [] := List.eq_nil_of_length_eq_zero (by simpa using hY)
    subst this
    exact ⟨rfl, hR⟩
  | succ k ih =>
    intro Y ce cd hY hce hcd hR
    have hYlen : Y.length = k * bs + bs := by rw [hY, Nat.add_mul]; simp
    have hxl : (Y.take bs).length = bs := by rw [List.length_take]; omega
    have hyl : (Y.drop bs).length = k * bs := by rw [List.length_drop]; omega
    have hxne : Y.take bs ≠ [] := List.ne_nil_of_length_pos (by omega)
    have hxmod : (Y.take bs).length % bs = 0 := by rw [hxl]; exact Nat.mod_self bs
    have hymod : (Y.drop bs).length % bs = 0 := by rw [hyl]; exact Nat.mul_mod_left _ _
    have hEx := hE ce (Y.take bs) hce hxne hxmod
    have happE := applyT_append E bs ce (Y.take bs) (Y.drop bs) hE hce hxmod hymod
    rw [List.take_append_drop, applyT_of_ne_nil E ce _ hxne] at happE
    simp only [] at happE
    have ho1l : (E ce (Y.take bs)).2.2.length = bs := by rw [hEx.2.2.1, hxl]
    have ho1ne : (E ce (Y.take bs)).2.2 ≠ [] := List.ne_nil_of_length_pos (by omega)
    have ho1mod : (E ce (Y.take bs)).2.2.length % bs = 0 := by rw [ho1l]; exact Nat.mod_self bs
    have ho2l := applyT_length E bs (E ce (Y.take bs)).2.1 (Y.drop bs) hE hEx.2.1 hymod
    have ho2mod : (applyT E (E ce (Y.take bs)).2.1 (Y.drop bs)).2.length % bs = 0 := by
      rw [ho2l]; exact hymod
    have hDx := hD cd (E ce (Y.take bs)).2.2 hcd ho1ne ho1mod
    have happD := applyT_append D bs cd (E ce (Y.take bs)).2.2
      (applyT E (E ce (Y.take bs)).2.1 (Y.drop bs)).2 hD hcd ho1mod ho2mod
    rw [applyT_of_ne_nil D cd _ ho1ne] at happD
    simp only [] at happD
    have hi := hinv ce cd (Y.take bs) hce hcd hR hxl
    have hrec := ih (Y.drop bs) (E ce (Y.take bs)).2.1 (D cd (E ce (Y.take bs)).2.2).2.1 hyl
      hEx.2.1 hDx.2.1 hi.2
    rw [happE]
    simp only []
    rw [happD]
    simp only []
    refine ⟨?_, hrec.2⟩
    rw [hi.1, hrec.1, List.take_append_drop]

theorem xorBlockUpdate_ok (bs : Nat) (k : UInt8) : BlockTransformOK bs (xorBlockUpdate k) := by
  intro c a hc _ _
  refine ⟨rfl, hc, by simp [xorBlockUpdate], fun b _ _ => ⟨rfl, by simp [xorBlockUpdate]⟩⟩

theorem uint8_xor_cancel (a b : UInt8) : (a ^^^ b) ^^^ b = a := by
  rcases a with ⟨a⟩; rcases b with ⟨b⟩
  show UInt8.mk ((a ^^^ b) ^^^ b) = UInt8.mk a
  rw [BitVec.xor_assoc, BitVec.xor_self, BitVec.xor_zero]

theorem xorBlockUpdate_inverts (bs : Nat) (k : UInt8) :
    DecryptInverts bs (xorBlockUpdate k) (xorBlockUpdate k) (fun _ _ => True) := by
  intro ce cd x _ _ _ _
  refine ⟨?_, trivial⟩
  simp only [xorBlockUpdate, List.map_map]
  conv_rhs => rw [← List.map_id x]
  apply List.map_congr_left
  intro b _
  exact uint8_xor_cancel b k

theorem ctxOK_of_fresh (ctx : MODES_CipherCtx) (hbs1 : 1 ≤ ctx.commonCtx.blockSize)
    (hbs2 : ctx.commonCtx.blockSize < 256) (hdata : ctx.commonCtx.blockSize ≤ ctx.data.length)
    (hfresh : ctx.dataLen = 0) : CtxOK ctx :=
  ⟨hbs1, hbs2, hdata, by omega, fun _ => by omega⟩

/-- Two contexts reached by runs on the same input from the same context look the same to
`MODES_CipherFinal`. -/
theorem final_same_of_runs (T : BlockUpdate) (ctx : MODES_CipherCtx) (inp : List UInt8)
    (r1 r2 : RetCode × MODES_CipherCtx × List UInt8) (cap : Nat) (hctx : CtxOK ctx)
    (h1 : RunResultOK T ctx inp r1) (h2 : RunResultOK T ctx inp r2) :
    ((MODES_CipherFinal r1.2.1 T cap).1, (MODES_CipherFinal r1.2.1 T cap).2.2.1,
        (MODES_CipherFinal r1.2.1 T cap).2.2.2) =
      ((MODES_CipherFinal r2.2.1 T cap).1, (MODES_CipherFinal r2.2.1 T cap).2.2.1,
        (MODES_CipherFinal r2.2.1 T cap).2.2.2) := by
  rw [final_view T r1.2.1 cap (runResult_ctxOK T ctx inp r1 hctx h1),
    final_view T r2.2.1 cap (runResult_ctxOK T ctx inp r2 hctx h2)]
  obtain ⟨-, a2, -, a4, -, -, a7, a8, a9, -⟩ := h1
  obtain ⟨-, b2, -, b4, -, -, b7, b8, b9, -⟩ := h2
  rw [a2, a4, a7, a8, a9, b2, b4, b7, b8, b9]

/-- C2. Streaming equivalence of the generic engine: for either direction, every padding
selector and every input of fewer than `2 ^ 32` bytes, from a fresh context (empty cache)
and with a block transform that is blockwise (`BlockTransformOK`), running
`MODES_CipherUpdate` over any chunking of the input (each call with room for the chunk plus
one block) succeeds and writes in total exactly the bytes that one `MODES_CipherUpdate` on
the whole input writes, and the `MODES_CipherFinal` calls that follow return the same
status, write the same bytes and leave the same `*outLen`. -/
theorem C2_streaming_equivalence (T : BlockUpdate) (ctx : MODES_CipherCtx)
    (chunks : List (List UInt8 × Nat)) (cap capFinal : Nat)
    (hT : BlockTransformOK ctx.commonCtx.blockSize T)
    (hbs1 : 1 ≤ ctx.commonCtx.blockSize) (hbs2 : ctx.commonCtx.blockSize < 256)
    (hdata : ctx.commonCtx.blockSize ≤ ctx.data.length) (hfresh : ctx.dataLen = 0)
    (hlen : (chunkInput chunks).length < 2 ^ 32)
    (hcaps : CapsOK ctx.commonCtx.blockSize chunks)
    (hcap : (chunkInput chunks).length ≤ cap) :
    (updateChunks T ctx chunks).1 = CRYPT_SUCCESS ∧
    (MODES_CipherUpdate ctx T (chunkInput chunks) cap).1 = CRYPT_SUCCESS ∧
    (updateChunks T ctx chunks).2.2 =
      (MODES_CipherUpdate ctx T (chunkInput chunks) cap).2.2.1 ∧
    (MODES_CipherFinal (updateChunks T ctx chunks).2.1 T capFinal).1 =
      (MODES_CipherFinal (MODES_CipherUpdate ctx T (chunkInput chunks) cap).2.1 T capFinal).1 ∧
    (MODES_CipherFinal (updateChunks T ctx chunks).2.1 T capFinal).2.2.1 =
      (MODES_CipherFinal (MODES_CipherUpdate ctx T (chunkInput chunks) cap).2.1 T
        capFinal).2.2.1 ∧
    (MODES_CipherFinal (updateChunks T ctx chunks).2.1 T capFinal).2.2.2 =
      (MODES_CipherFinal (MODES_CipherUpdate ctx T (chunkInput chunks) cap).2.1 T
        capFinal).2.2.2 := by
  have hctx := ctxOK_of_fresh ctx hbs1 hbs2 hdata hfresh
  have hrun := updateChunks_spec T chunks ctx hT hctx (by omega) hcaps
  have hone := update_spec T ctx (chunkInput chunks) cap hT hctx (by omega)
    (by
      have := Nat.div_mul_le_self ((chunkInput chunks).length + ctx.dataLen)
        ctx.commonCtx.blockSize
      omega)
  have hone' := runResult_of_update T ctx (chunkInput chunks) _ hone
  have hfin := final_same_of_runs T ctx (chunkInput chunks) _ _ capFinal hctx hrun hone'
  simp only [Prod.mk.injEq] at hfin
  refine ⟨hrun.1, hone.1, ?_, hfin.1, hfin.2.1, hfin.2.2⟩
  rw [hrun.2.2.1, hone.2.2.2.1]

/-- The encrypt side of a round trip: chunked updates and final of a plaintext `P` under a
validating padding scheme produce the transform of `P` followed by its pad bytes. -/
theorem encrypt_run (E : BlockUpdate) (ctx : MODES_CipherCtx) (P : List UInt8)
    (chunks : List (List UInt8 × Nat)) (capF : Nat)
    (hE : BlockTransformOK ctx.commonCtx.blockSize E)
    (hbs1 : 1 ≤ ctx.commonCtx.blockSize) (hbs2 : ctx.commonCtx.blockSize < 256)
    (hdata : ctx.commonCtx.blockSize ≤ ctx.data.length) (hfresh : ctx.dataLen = 0)
    (henc : ctx.enc = true)
    (hp1 : ctx.pad ≠ CRYPT_PADDING_NONE) (hp2 : ctx.pad ≠ CRYPT_PADDING_MAX_COUNT)
    (hin : chunkInput chunks = P) (hlen : P.length < 2 ^ 32)
    (hcaps : CapsOK ctx.commonCtx.blockSize chunks) (hcapF : ctx.commonCtx.blockSize ≤ capF) :
    (updateChunks E ctx chunks).1 = CRYPT_SUCCESS ∧
    (MODES_CipherFinal (updateChunks E ctx chunks).2.1 E capF).1 = CRYPT_SUCCESS ∧
    (MODES_CipherFinal (updateChunks E ctx chunks).2.1 E capF).2.2.2 =
      ctx.commonCtx.blockSize ∧
    (MODES_CipherFinal (updateChunks E ctx chunks).2.1 E capF).2.2.1.length =
      ctx.commonCtx.blockSize ∧
    (updateChunks E ctx chunks).2.2 ++
        (MODES_CipherFinal (updateChunks E ctx chunks).2.1 E capF).2.2.1 =
      (applyT E ctx.commonCtx (P ++ specPadBytes ctx.pad (ctx.commonCtx.blockSize -
        (P.length - P.length / ctx.commonCtx.blockSize * ctx.commonCtx.blockSize)))).2 ∧
    (applyT E ctx.commonCtx (P ++ specPadBytes ctx.pad (ctx.commonCtx.blockSize -
        (P.length - P.length / ctx.commonCtx.blockSize * ctx.commonCtx.blockSize)))).2.length =
      P.length / ctx.commonCtx.blockSize * ctx.commonCtx.blockSize +
        ctx.commonCtx.blockSize := by
  have hctx := ctxOK_of_fresh ctx hbs1 hbs2 hdata hfresh
  have hrun := updateChunks_spec E chunks ctx hE hctx (by rw [hin]; omega) hcaps
  have hctx1 := runResult_ctxOK E ctx _ _ hctx hrun
  have hfv := final_view E (updateChunks E ctx chunks).2.1 capF hctx1
  obtain ⟨r1, r2, r3, r4, r5, r6, r7, r8, r9, r10⟩ := hrun
  have hdf : defersLast ctx = false := by simp [defersLast, henc]
  have hall : ctx.data.take ctx.dataLen ++ chunkInput chunks = P := by
    rw [hfresh, hin]; simp
  rw [hall, hdf] at r2 r3 r4 r5
  simp only [emitLen, Bool.false_eq_true, if_false] at r2 r3 r4 r5
  generalize hbs : ctx.commonCtx.blockSize = bs at *
  have hNle : P.length / bs * bs ≤ P.length := Nat.div_mul_le_self _ _
  have hNmod : (P.length / bs * bs) % bs = 0 := Nat.mul_mod_left _ _
  have hrem : P.length - P.length / bs * bs < bs := by
    have := mod_eq_sub_div_mul P.length bs
    have := Nat.mod_lt P.length (show bs > 0 by omega)
    omega
  generalize hN : P.length / bs * bs = N at *
  have hdl : (P.drop N).length = P.length - N := List.length_drop _ _
  have htl : (P.take N).length = N := by rw [List.length_take]; omega
  have hpl := specPadBytes_length ctx.pad (bs - (P.length - N)) (by omega) hp1 hp2
  have hBl : (P.drop N ++ specPadBytes ctx.pad (bs - (P.length - N))).length = bs := by
    rw [List.length_append, hdl, hpl]; omega
  have hBne : P.drop N ++ specPadBytes ctx.pad (bs - (P.length - N)) ≠ [] :=
    List.ne_nil_of_length_pos (by omega)
  have hc1 : (updateChunks E ctx chunks).2.1.commonCtx.blockSize = bs := r10
  have hEB := hE (updateChunks E ctx chunks).2.1.commonCtx
    (P.drop N ++ specPadBytes ctx.pad (bs - (P.length - N))) hc1 hBne
    (by rw [hBl]; exact Nat.mod_self bs)
  have hpc : paddedCache (updateChunks E ctx chunks).2.1.algId ctx.pad bs (P.drop N) =
      (CRYPT_SUCCESS, P.drop N ++ specPadBytes ctx.pad (bs - (P.length - N))) := by
    cases hpd : ctx.pad <;> simp only [paddedCache, hdl] <;>
      first | exact absurd hpd hp1 | exact absurd hpd hp2
  have hfv2 : finalView E (updateChunks E ctx chunks).2.1.commonCtx
      (updateChunks E ctx chunks).2.1.algId ctx.pad true (P.drop N) capF =
      (CRYPT_SUCCESS,
        (E (updateChunks E ctx chunks).2.1.commonCtx
          (P.drop N ++ specPadBytes ctx.pad (bs - (P.length - N)))).2.2, bs) := by
    unfold finalView
    rw [hc1, if_neg (by omega), if_pos rfl, hpc]
    simp only [ne_eq, not_true_eq_false, if_false, hBl, hEB.1]
    rw [if_neg (by omega)]
  rw [r4, r7, r8, henc, hfv2] at hfv
  simp only [Prod.mk.injEq] at hfv
  have hsplit : P ++ specPadBytes ctx.pad (bs - (P.length - N)) =
      P.take N ++ (P.drop N ++ specPadBytes ctx.pad (bs - (P.length - N))) := by
    rw [← List.append_assoc, List.take_append_drop]
  have happ := applyT_append E bs ctx.commonCtx (P.take N)
    (P.drop N ++ specPadBytes ctx.pad (bs - (P.length - N))) hE hbs
    (by rw [htl]; exact hNmod) (by rw [hBl]; exact Nat.mod_self bs)
  rw [← r2, applyT_of_ne_nil E _ _ hBne] at happ
  simp only [] at happ
  refine ⟨r1, hfv.1, hfv.2.2, ?_, ?_, ?_⟩
  · rw [hfv.2.1, hEB.2.2.1, hBl]
  · rw [hsplit, happ, hfv.2.1, r3]
  · rw [hsplit, happ]
    simp only [List.length_append]
    rw [← r3, hEB.2.2.1, hBl]
    have := applyT_length E bs ctx.commonCtx (P.take N) hE hbs (by rw [htl]; exact hNmod)
    rw [r3, this, htl]

/-- The decrypt side of a round trip: chunked updates and final over the ciphertext of
`P` followed by its pad bytes give `P` back. -/
theorem decrypt_run (E D : BlockUpdate)
    (R : MODES_CipherCommonCtx → MODES_CipherCommonCtx → Prop)
    (ce : MODES_CipherCommonCtx) (ctx : MODES_CipherCtx) (P : List UInt8)
    (chunks : List (List UInt8 × Nat)) (capF : Nat)
    (hE : BlockTransformOK ctx.commonCtx.blockSize E)
    (hD : BlockTransformOK ctx.commonCtx.blockSize D)
    (hinv : DecryptInverts ctx.commonCtx.blockSize E D R)
    (hce : ce.blockSize = ctx.commonCtx.blockSize) (hR : R ce ctx.commonCtx)
    (hbs1 : 1 ≤ ctx.commonCtx.blockSize) (hbs2 : ctx.commonCtx.blockSize < 256)
    (hdata : ctx.commonCtx.blockSize ≤ ctx.data.length) (hfresh : ctx.dataLen = 0)
    (henc : ctx.enc = false)
    (hpad : ctx.pad = CRYPT_PADDING_ISO7816 ∨ ctx.pad = CRYPT_PADDING_X923 ∨
      ctx.pad = CRYPT_PADDING_PKCS5 ∨ ctx.pad = CRYPT_PADDING_PKCS7)
    (hin : chunkInput chunks =
      (applyT E ce (P ++ specPadBytes ctx.pad (ctx.commonCtx.blockSize -
        (P.length - P.length / ctx.commonCtx.blockSize * ctx.commonCtx.blockSize)))).2)
    (hlen : P.length + ctx.commonCtx.blockSize < 2 ^ 32)
    (hcaps : CapsOK ctx.commonCtx.blockSize chunks) (hcapF : ctx.commonCtx.blockSize ≤ capF) :
    (updateChunks D ctx chunks).1 = CRYPT_SUCCESS ∧
    (MODES_CipherFinal (updateChunks D ctx chunks).2.1 D capF).1 = CRYPT_SUCCESS ∧
    (updateChunks D ctx chunks).2.2 ++
        (MODES_CipherFinal (updateChunks D ctx chunks).2.1 D capF).2.2.1.take
          (MODES_CipherFinal (updateChunks D ctx chunks).2.1 D capF).2.2.2 = P := by
  have hp1 : ctx.pad ≠ CRYPT_PADDING_NONE := by
    rcases hpad with h | h | h | h <;> rw [h] <;> decide
  have hp2 : ctx.pad ≠ CRYPT_PADDING_MAX_COUNT := by
    rcases hpad with h | h | h | h <;> rw [h] <;> decide
  have hctx := ctxOK_of_fresh ctx hbs1 hbs2 hdata hfresh
  have hdf : defersLast ctx = true := (defersLast_eq_true ctx).mpr ⟨henc, hp1⟩
  generalize hbs : ctx.commonCtx.blockSize = bs at *
  have hNle : P.length / bs * bs ≤ P.length := Nat.div_mul_le_self _ _
  have hNmod : (P.length / bs * bs) % bs = 0 := Nat.mul_mod_left _ _
  have hrem : P.length - P.length / bs * bs < bs := by
    have := mod_eq_sub_div_mul P.length bs
    have := Nat.mod_lt P.length (show bs > 0 by omega)
    omega
  have hemit : emitLen bs true (P.length / bs * bs + bs) = P.length / bs * bs := by
    rw [emitLen_mul_add bs true (P.length / bs) bs hbs1 (Or.inr (by omega)),
      emitLen_block_true bs hbs1]
    rfl
  generalize hqq : P.length / bs = q at *
  generalize hN : q * bs = N at *
  have hq : N = q * bs := hN.symm
  have hdl : (P.drop N).length = P.length - N := List.length_drop _ _
  have htl : (P.take N).length = N := by rw [List.length_take]; omega
  have hpl := specPadBytes_length ctx.pad (bs - (P.length - N)) (by omega) hp1 hp2
  have hBl : (P.drop N ++ specPadBytes ctx.pad (bs - (P.length - N))).length = bs := by
    rw [List.length_append, hdl, hpl]; omega
  have hBne : P.drop N ++ specPadBytes ctx.pad (bs - (P.length - N)) ≠ [] :=
    List.ne_nil_of_length_pos (by omega)
  have hsplit : P ++ specPadBytes ctx.pad (bs - (P.length - N)) =
      P.take N ++ (P.drop N ++ specPadBytes ctx.pad (bs - (P.length - N))) := by
    rw [← List.append_assoc, List.take_append_drop]
  have happ := applyT_append E bs ce (P.take N)
    (P.drop N ++ specPadBytes ctx.pad (bs - (P.length - N))) hE hce
    (by rw [htl]; exact hNmod) (by rw [hBl]; exact Nat.mod_self bs)
  rw [applyT_of_ne_nil E _ _ hBne] at happ
  simp only [] at happ
  rw [hsplit, happ] at hin
  simp only [] at hin
  have ho1l := applyT_length E bs ce (P.take N) hE hce (by rw [htl]; exact hNmod)
  rw [htl] at ho1l
  have hce1 := applyT_blockSize E bs ce (P.take N) hE hce (by rw [htl]; exact hNmod)
  have hEB := hE (applyT E ce (P.take N)).1
    (P.drop N ++ specPadBytes ctx.pad (bs - (P.length - N))) hce1 hBne
    (by rw [hBl]; exact Nat.mod_self bs)
  have ho2l : (E (applyT E ce (P.take N)).1
      (P.drop N ++ specPadBytes ctx.pad (bs - (P.length - N)))).2.2.length = bs := by
    rw [hEB.2.2.1, hBl]
  have hinvN := applyT_inverts bs E D R hE hD hinv hbs1 q (P.take N) ce ctx.commonCtx
    (by rw [htl, hq]) hce hbs hR
  have hrun := updateChunks_spec D chunks ctx (by rw [hbs]; exact hD) hctx
    (by rw [hin, List.length_append, ho1l, ho2l]; omega) (by rw [hbs]; exact hcaps)
  have hctx1 := runResult_ctxOK D ctx _ _ hctx hrun
  have hfv := final_view D (updateChunks D ctx chunks).2.1 capF hctx1
  obtain ⟨r1, r2, r3, r4, r5, r6, r7, r8, r9, r10⟩ := hrun
  have hall : ctx.data.take ctx.dataLen ++ chunkInput chunks =
      (applyT E ce (P.take N)).2 ++ (E (applyT E ce (P.take N)).1
        (P.drop N ++ specPadBytes ctx.pad (bs - (P.length - N)))).2.2 := by
    rw [hfresh, hin]; simp
  have halll : ((applyT E ce (P.take N)).2 ++ (E (applyT E ce (P.take N)).1
        (P.drop N ++ specPadBytes ctx.pad (bs - (P.length - N)))).2.2).length = N + bs := by
    rw [List.length_append, ho1l, ho2l]
  rw [hall, hdf, hbs, halll, hemit] at r2 r3 r4 r5
  have htk : ((applyT E ce (P.take N)).2 ++ (E (applyT E ce (P.take N)).1
        (P.drop N ++ specPadBytes ctx.pad (bs - (P.length - N)))).2.2).take N =
      (applyT E ce (P.take N)).2 := by
    exact List.take_left' ho1l
  have hdr : ((applyT E ce (P.take N)).2 ++ (E (applyT E ce (P.take N)).1
        (P.drop N ++ specPadBytes ctx.pad (bs - (P.length - N)))).2.2).drop N =
      (E (applyT E ce (P.take N)).1
        (P.drop N ++ specPadBytes ctx.pad (bs - (P.length - N)))).2.2 := by
    exact List.drop_left' ho1l
  rw [htk] at r2 r3
  rw [hdr] at r4
  rw [hinvN.1] at r3
  have hcd1 : (applyT D ctx.commonCtx (applyT E ce (P.take N)).2).1.blockSize = bs :=
    applyT_blockSize D bs ctx.commonCtx _ hD hbs (by rw [ho1l]; exact hNmod)
  have hDB := hD (applyT D ctx.commonCtx (applyT E ce (P.take N)).2).1
    (E (applyT E ce (P.take N)).1
      (P.drop N ++ specPadBytes ctx.pad (bs - (P.length - N)))).2.2 hcd1
    (List.ne_nil_of_length_pos (by omega)) (by rw [ho2l]; exact Nat.mod_self bs)
  have hiB := hinv (applyT E ce (P.take N)).1
    (applyT D ctx.commonCtx (applyT E ce (P.take N)).2).1
    (P.drop N ++ specPadBytes ctx.pad (bs - (P.length - N))) hce1 hcd1 hinvN.2 hBl
  have hun := unpad_pad ctx.pad (P.drop N) bs capF hpad hbs2 (by rw [hdl]; exact hrem)
  rw [hdl] at hun
  have hfv2 : finalView D (applyT D ctx.commonCtx (applyT E ce (P.take N)).2).1
      (updateChunks D ctx chunks).2.1.algId ctx.pad false
      (E (applyT E ce (P.take N)).1
        (P.drop N ++ specPadBytes ctx.pad (bs - (P.length - N)))).2.2 capF =
      (CRYPT_SUCCESS, P.drop N ++ specPadBytes ctx.pad (bs - (P.length - N)),
        P.length - N) := by
    unfold finalView
    rw [hcd1, if_neg (by omega), if_neg (by decide), ho2l, if_neg (by omega)]
    simp only [hDB.1, ne_eq, not_true_eq_false, if_false, hiB.1, hun]
  rw [r2, r4, r7, r8, henc, hfv2] at hfv
  simp only [Prod.mk.injEq] at hfv
  refine ⟨r1, hfv.1, ?_⟩
  rw [r3, hfv.2.1, hfv.2.2, ← hdl, List.take_left', List.take_append_drop]
  rfl

/-- C1. Round trip through the generic engine: for block size 16, each of the padding
schemes ISO7816, X923, PKCS5, PKCS7, every plaintext `P` (with `P.length + 16 < 2 ^ 32`),
blockwise transforms `E` and `D` such that `D` inverts `E` block by block, an encrypt and
a decrypt context that start fresh from related common contexts, any chunking `pchunks` of
`P` and any chunking `cchunks` of the resulting ciphertext (every call with room for its
chunk plus one block, every final with room for one block): every `MODES_CipherUpdate` and
both `MODES_CipherFinal` calls succeed and the concatenated decrypt output is `P`. -/
theorem C1_engine_round_trip (E D : BlockUpdate)
    (R : MODES_CipherCommonCtx → MODES_CipherCommonCtx → Prop)
    (ectx dctx : MODES_CipherCtx) (pad : CRYPT_PaddingType) (P : List UInt8)
    (pchunks cchunks : List (List UInt8 × Nat)) (capE capD : Nat)
    (hE : BlockTransformOK 16 E) (hD : BlockTransformOK 16 D)
    (hinv : DecryptInverts 16 E D R)
    (hpad : pad = CRYPT_PADDING_ISO7816 ∨ pad = CRYPT_PADDING_X923 ∨
      pad = CRYPT_PADDING_PKCS5 ∨ pad = CRYPT_PADDING_PKCS7)
    (hebs : ectx.commonCtx.blockSize = 16) (hedata : 16 ≤ ectx.data.length)
    (hefresh : ectx.dataLen = 0) (heenc : ectx.enc = true) (hepad : ectx.pad = pad)
    (hdbs : dctx.commonCtx.blockSize = 16) (hddata : 16 ≤ dctx.data.length)
    (hdfresh : dctx.dataLen = 0) (hdenc : dctx.enc = false) (hdpad : dctx.pad = pad)
    (hR : R ectx.commonCtx dctx.commonCtx)
    (hP : chunkInput pchunks = P) (hlen : P.length + 16 < 2 ^ 32)
    (hpcaps : CapsOK 16 pchunks) (hccaps : CapsOK 16 cchunks)
    (hcapE : 16 ≤ capE) (hcapD : 16 ≤ capD)
    (hC : chunkInput cchunks = (updateChunks E ectx pchunks).2.2 ++
      (MODES_CipherFinal (updateChunks E ectx pchunks).2.1 E capE).2.2.1.take
        (MODES_CipherFinal (updateChunks E ectx pchunks).2.1 E capE).2.2.2) :
    (updateChunks E ectx pchunks).1 = CRYPT_SUCCESS ∧
    (MODES_CipherFinal (updateChunks E ectx pchunks).2.1 E capE).1 = CRYPT_SUCCESS ∧
    (updateChunks D dctx cchunks).1 = CRYPT_SUCCESS ∧
    (MODES_CipherFinal (updateChunks D dctx cchunks).2.1 D capD).1 = CRYPT_SUCCESS ∧
    (updateChunks D dctx cchunks).2.2 ++
        (MODES_CipherFinal (updateChunks D dctx cchunks).2.1 D capD).2.2.1.take
          (MODES_CipherFinal (updateChunks D dctx cchunks).2.1 D capD).2.2.2 = P := by
  have hp1 : pad ≠ CRYPT_PADDING_NONE := by
    rcases hpad with h | h | h | h <;> rw [h] <;> decide
  have hp2 : pad ≠ CRYPT_PADDING_MAX_COUNT := by
    rcases hpad with h | h | h | h <;> rw [h] <;> decide
  have henc := encrypt_run E ectx P pchunks capE (by rw [hebs]; exact hE)
    (by rw [hebs]; decide) (by rw [hebs]; decide) (by rw [hebs]; exact hedata) hefresh heenc
    (by rw [hepad]; exact hp1) (by rw [hepad]; exact hp2) hP (by omega)
    (by rw [hebs]; exact hpcaps) (by rw [hebs]; exact hcapE)
  obtain ⟨e1, e2, e3, e4, e5, -⟩ := henc
  rw [e3, ← e4, List.take_length, e5, hebs, hepad] at hC
  have hdec := decrypt_run E D R ectx.commonCtx dctx P cchunks capD (by rw [hdbs]; exact hE)
    (by rw [hdbs]; exact hD) (by rw [hdbs]; exact hinv) (by rw [hebs, hdbs]) hR
    (by rw [hdbs]; decide) (by rw [hdbs]; decide) (by rw [hdbs]; exact hddata) hdfresh hdenc
    (by rw [hdpad]; exact hpad) (by rw [hdbs, hdpad]; exact hC) (by rw [hdbs]; exact hlen)
    (by rw [hdbs]; exact hccaps) (by rw [hdbs]; exact hcapD)
  exact ⟨e1, e2, hdec.1, hdec.2.1, hdec.2.2⟩

theorem C1_witness :
    BlockTransformOK 16 (xorBlockUpdate 0x5A) ∧
    DecryptInverts 16 (xorBlockUpdate 0x5A) (xorBlockUpdate 0x5A) (fun _ _ => True) ∧
    chunkInput demoPlainChunks = demoPlain ∧
    (updateChunks (xorBlockUpdate 0x5A) (demoCtx CRYPT_PADDING_X923 false)
        demoCipherChunks).2.2 ++
      (MODES_CipherFinal (updateChunks (xorBlockUpdate 0x5A)
          (demoCtx CRYPT_PADDING_X923 false) demoCipherChunks).2.1
          (xorBlockUpdate 0x5A) 16).2.2.1.take
        (MODES_CipherFinal (updateChunks (xorBlockUpdate 0x5A)
          (demoCtx CRYPT_PADDING_X923 false) demoCipherChunks).2.1
          (xorBlockUpdate 0x5A) 16).2.2.2 = demoPlain :=
  ⟨xorBlockUpdate_ok 16 0x5A, xorBlockUpdate_inverts 16 0x5A, by decide,
  (C1_engine_round_trip (xorBlockUpdate 0x5A) (xorBlockUpdate 0x5A) (fun _ _ => True)
    (demoCtx CRYPT_PADDING_X923 true) (demoCtx CRYPT_PADDING_X923 false) CRYPT_PADDING_X923
    demoPlain demoPlainChunks demoCipherChunks 16 16
    (xorBlockUpdate_ok 16 0x5A) (xorBlockUpdate_ok 16 0x5A) (xorBlockUpdate_inverts 16 0x5A)
    (by decide) rfl (by decide) rfl rfl rfl rfl (by decide) rfl rfl rfl trivial
    (by decide) (by decide) (by decide) (by decide) (by decide) (by decide) (by decide)).2.2.2.2⟩

theorem C2_witness :
    BlockTransformOK 16 (xorBlockUpdate 0x5A) ∧ CapsOK 16 demoCipherChunks ∧
    (updateChunks (xorBlockUpdate 0x5A) (demoCtx CRYPT_PADDING_PKCS7 false)
        demoCipherChunks).2.2 =
      (MODES_CipherUpdate (demoCtx CRYPT_PADDING_PKCS7 false) (xorBlockUpdate 0x5A)
        (chunkInput demoCipherChunks) 32).2.2.1 :=
  ⟨xorBlockUpdate_ok 16 0x5A, by decide,
  (C2_streaming_equivalence (xorBlockUpdate 0x5A) (demoCtx CRYPT_PADDING_PKCS7 false)
    demoCipherChunks 32 16 (xorBlockUpdate_ok 16 0x5A) (by decide) (by decide) (by decide) rfl
    (by decide) (by decide) (by decide)).2.2.1⟩

/-- A loop that stores `g k` at index `off + k` for `k < n` overwrites that range. -/
theorem forLoop_store (d : List UInt8) (off n : Nat) (g : Nat → UInt8)
    (h : off + n ≤ d.length) :
    forLoop 0 n (fun k acc => acc.set (off + k) (g k)) d =
      d.take off ++ (List.range n).map g ++ d.drop (off + n) := by
  induction n with
  | zero => simp [forLoop_empty]
  | succ n ih =>
    rw [forLoop_succ 0 n (Nat.zero_le n), ih (by omega)]
    have hl : ((List.range n).map g).length = n := by simp
    have := set_after_splice d off ((List.range n).map g) (g n) (by rw [hl]; omega)
    rw [hl] at this
    rw [this, List.range_succ, List.map_append]
    rfl

theorem xorLoop_fst (enc : Bool) (n i : Nat) (input tmp iv : List UInt8) :
    (CFB_Bytes.xorLoop enc n i input tmp iv).1 =
      forLoop 0 n (fun k acc => acc.set (i + k)
        (if enc then input.getD k 0 ^^^ tmp.getD k 0 else input.getD k 0)) iv := by
  unfold CFB_Bytes.xorLoop
  induction n with
  | zero => simp [forLoop_empty]
  | succ n ih => rw [forLoop_succ 0 n (Nat.zero_le n), forLoop_succ 0 n (Nat.zero_le n), ← ih]

theorem xorLoop_snd (enc : Bool) (n i : Nat) (input tmp iv : List UInt8) :
    (CFB_Bytes.xorLoop enc n i input tmp iv).2 =
      (List.range n).map (fun k => input.getD k 0 ^^^ tmp.getD k 0) := by
  unfold CFB_Bytes.xorLoop
  induction n with
  | zero => simp [forLoop_empty]
  | succ n ih =>
    rw [forLoop_succ 0 n (Nat.zero_le n), List.range_succ, List.map_append]
    simp only [ih]
    rfl

theorem range_map_getD_drop (l : List UInt8) (a n : Nat) (h : a + n ≤ l.length) :
    (List.range n).map (fun j => l.getD (a + j) 0) = (l.drop a).take n := by
  apply List.ext_getElem
  · simp [List.length_take, List.length_drop]; omega
  · intro k h1 h2
    simp only [List.getElem_map, List.getElem_range, List.getElem_take, List.getElem_drop]
    have hk : k < n := by simpa using h1
    rw [List.getD_eq_getElem?_getD, List.getElem?_eq_getElem (by omega)]
    rfl

theorem range_map_getD_take (l : List UInt8) (n : Nat) (h : n ≤ l.length) :
    (List.range n).map (fun j => l.getD j 0) = l.take n := by
  have := range_map_getD_drop l 0 n (by omega)
  simpa using this

theorem range_map_xor (input tmp : List UInt8) (n : Nat) (h1 : n ≤ input.length)
    (h2 : n ≤ tmp.length) :
    (List.range n).map (fun k => input.getD k 0 ^^^ tmp.getD k 0) =
      List.zipWith (· ^^^ ·) (input.take n) tmp := by
  apply List.ext_getElem
  · simp [List.length_take]; omega
  · intro k h3 h4
    have hk : k < n := by simpa using h3
    simp only [List.getElem_map, List.getElem_range, List.getElem_zipWith, List.getElem_take]
    rw [List.getD_eq_getElem?_getD, List.getElem?_eq_getElem (by omega),
      List.getD_eq_getElem?_getD, List.getElem?_eq_getElem (by omega)]
    rfl

theorem getD_memcpyAt_zero (buf src : List UInt8) (k : Nat) (h : k < src.length) :
    (memcpyAt buf 0 src).getD k 0 = src.getD k 0 := by
  unfold memcpyAt
  simp only [List.take_zero, List.nil_append]
  exact getD_append_left src _ k h

theorem range_map_congr (n : Nat) (f g : Nat → UInt8) (h : ∀ k, k < n → f k = g k) :
    (List.range n).map f = (List.range n).map g := by
  apply List.map_congr_left
  intro k hk
  exact h k (List.mem_range.mp hk)

theorem forLoop_store_congr (d : List UInt8) (off n : Nat) (f g : Nat → UInt8)
    (h : ∀ k, k < n → f k = g k) :
    forLoop 0 n (fun k acc => acc.set (off + k) (f k)) d =
      forLoop 0 n (fun k acc => acc.set (off + k) (g k)) d := by
  induction n with
  | zero => simp [forLoop_empty]
  | succ n ih =>
    rw [forLoop_succ 0 n (Nat.zero_le n), forLoop_succ 0 n (Nat.zero_le n),
      ih (fun k hk => h k (by omega)), h n (by omega)]

theorem cfbRegister_length (iv tmp F : List UInt8) (bs fb : Nat) (hfb : fb ≤ bs)
    (hiv : bs ≤ iv.length) (htmp : fb ≤ tmp.length) (hF : F.length ≤ fb) :
    (cfbRegister iv tmp F bs fb).length = iv.length := by
  unfold cfbRegister
  simp only [List.length_append, List.length_take, List.length_drop]
  omega

theorem cfbRegister_getD (iv tmp F : List UInt8) (bs fb : Nat) (hfb : fb ≤ bs)
    (hiv : bs ≤ iv.length) (htmp : fb ≤ tmp.length) (hF : F.length < fb) :
    (cfbRegister iv tmp F bs fb).getD (bs - fb + F.length) 0 = tmp.getD F.length 0 := by
  unfold cfbRegister
  have h1 : ((iv.drop fb).take (bs - fb) ++ F).length = bs - fb + F.length := by
    simp only [List.length_append, List.length_take, List.length_drop]; omega
  rw [List.append_assoc ((iv.drop fb).take (bs - fb) ++ F)]
  rw [getD_append_right _ _ _ (by omega), h1, Nat.sub_self]
  rw [getD_append_left _ _ _ (by simp [List.length_take, List.length_drop]; omega)]
  rw [List.getD_eq_getElem?_getD, List.getD_eq_getElem?_getD, List.getElem?_take_of_lt (by omega),
    List.getElem?_drop]
  simp

theorem cfbRegister_set (iv tmp F : List UInt8) (bs fb : Nat) (f : UInt8) (hfb : fb ≤ bs)
    (hiv : bs ≤ iv.length) (htmp : fb ≤ tmp.length) (hF : F.length < fb) :
    (cfbRegister iv tmp F bs fb).set (bs - fb + F.length) f =
      cfbRegister iv tmp (F ++ [f]) bs fb := by
  unfold cfbRegister
  have h1 : ((iv.drop fb).take (bs - fb) ++ F).length = bs - fb + F.length := by
    simp only [List.length_append, List.length_take, List.length_drop]; omega
  rw [List.append_assoc ((iv.drop fb).take (bs - fb) ++ F)]
  rw [List.set_append_right _ _ (by omega), h1, Nat.sub_self]
  have h2 : (tmp.drop F.length).take (fb - F.length) =
      tmp[F.length] :: (tmp.drop (F.length + 1)).take (fb - F.length - 1) := by
    have e : fb - F.length = (fb - F.length - 1) + 1 := by omega
    rw [List.drop_eq_getElem_cons (show F.length < tmp.length by omega)]
    conv_lhs => rw [e]
    rfl
  rw [h2]
  simp only [List.cons_append, List.set_cons_zero, List.length_append, List.length_singleton,
    List.append_assoc, List.singleton_append]
  rfl

theorem uint8_xor_comm (a b : UInt8) : a ^^^ b = b ^^^ a := by
  rcases a with ⟨a⟩; rcases b with ⟨b⟩
  show UInt8.mk (a ^^^ b) = UInt8.mk (b ^^^ a)
  rw [BitVec.xor_comm]

theorem cfbSteps_nil (enc : Bool) (ctx : MODES_CipherCFBCtx) : cfbSteps enc ctx [] = (ctx, []) :=
  rfl

theorem cfbSteps_cons (enc : Bool) (ctx : MODES_CipherCFBCtx) (x : UInt8) (r : List UInt8) :
    cfbSteps enc ctx (x :: r) =
      ((cfbSteps enc (cfbByteStep enc ctx x).1 r).1,
        (cfbByteStep enc ctx x).2 :: (cfbSteps enc (cfbByteStep enc ctx x).1 r).2) := rfl

/-- Steps inside a feedback segment: the register holds the feedback bytes `F` followed by
the unused keystream of `tmp`. -/
theorem cfbSteps_in_segment (enc : Bool) (iv0 tmp : List UInt8) (xs : List UInt8) :
    ∀ (ctx : MODES_CipherCFBCtx) (F : List UInt8),
      ctx.modeCtx.iv = cfbRegister iv0 tmp F ctx.modeCtx.blockSize (ctx.feedbackBits >>> 3) →
      ctx.modeCtx.offset =
        (ctx.modeCtx.blockSize - (ctx.feedbackBits >>> 3) + F.length) % ctx.modeCtx.blockSize →
      1 ≤ F.length → F.length + xs.length ≤ ctx.feedbackBits >>> 3 →
      ctx.feedbackBits >>> 3 ≤ ctx.modeCtx.blockSize → ctx.modeCtx.blockSize < 256 →
      ctx.modeCtx.blockSize ≤ iv0.length → ctx.feedbackBits >>> 3 ≤ tmp.length →
      cfbSteps enc ctx xs =
        ({ ctx with modeCtx := { ctx.modeCtx with
            iv := cfbRegister iv0 tmp
              (F ++ (if enc then List.zipWith (· ^^^ ·) xs (tmp.drop F.length) else xs))
              ctx.modeCtx.blockSize (ctx.feedbackBits >>> 3),
            offset := (ctx.modeCtx.blockSize - (ctx.feedbackBits >>> 3) + F.length +
              xs.length) % ctx.modeCtx.blockSize } },
          List.zipWith (· ^^^ ·) xs (tmp.drop F.length)) := by
  induction xs with
  | nil =>
    intro ctx F hiv hoff _ _ _ _ _ _
    rw [cfbSteps_nil]
    simp only [List.zipWith_nil_left, ite_self, List.append_nil, List.length_nil, Nat.add_zero,
      ← hiv, ← hoff]
  | cons x r ih =>
    intro ctx F hiv hoff hF1 hlen hfb hbs hiv0 htmp
    generalize hbsv : ctx.modeCtx.blockSize = bs at *
    generalize hfbv : ctx.feedbackBits >>> 3 = fb at *
    simp only [List.length_cons] at hlen
    have hFlt : F.length < fb := by omega
    have hoff' : ctx.modeCtx.offset = bs - fb + F.length := by
      rw [hoff]; exact Nat.mod_eq_of_lt (by omega)
    have hpos : ctx.modeCtx.offset > 0 := by omega
    have hks : ctx.modeCtx.iv.getD ctx.modeCtx.offset 0 = tmp.getD F.length 0 := by
      rw [hiv, hoff']; exact cfbRegister_getD iv0 tmp F bs fb hfb hiv0 htmp hFlt
    have hdrop : tmp.drop F.length = tmp.getD F.length 0 :: tmp.drop (F.length + 1) := by
      rw [List.drop_eq_getElem_cons (show F.length < tmp.length by omega)]
      rw [List.getD_eq_getElem?_getD, List.getElem?_eq_getElem (by omega)]
      rfl
    have hstep : cfbByteStep enc ctx x =
        ({ ctx with modeCtx := { ctx.modeCtx with
            iv := cfbRegister iv0 tmp
              (F ++ [if enc then x ^^^ tmp.getD F.length 0 else x]) bs fb,
            offset := (bs - fb + (F.length + 1)) % bs } },
          x ^^^ tmp.getD F.length 0) := by
      unfold cfbByteStep
      rw [if_pos hpos, hks, hbsv, uint8_xor_comm (tmp.getD F.length 0) x]
      have hset := cfbRegister_set iv0 tmp F bs fb (if enc then x ^^^ tmp.getD F.length 0 else x)
        hfb hiv0 htmp hFlt
      rw [hiv, hoff', hset]
      have hm : (bs - fb + F.length + 1) % bs % 2 ^ 8 = (bs - fb + (F.length + 1)) % bs := by
        rw [Nat.add_assoc]
        exact Nat.mod_eq_of_lt (lt_of_le_of_lt (Nat.mod_le _ _) (by omega))
      rw [hm]
    rw [cfbSteps_cons, hstep]
    simp only []
    have hrec := ih
      { ctx with modeCtx := { ctx.modeCtx with
          iv := cfbRegister iv0 tmp
            (F ++ [if enc then x ^^^ tmp.getD F.length 0 else x]) bs fb,
          offset := (bs - fb + (F.length + 1)) % bs } }
      (F ++ [if enc then x ^^^ tmp.getD F.length 0 else x])
      (by simp only [hbsv, hfbv]) (by simp only [hbsv, hfbv, List.length_append,
        List.length_singleton])
      (by simp) (by simp only [hfbv, List.length_append, List.length_singleton]; omega)
      (by simp only [hbsv, hfbv]; exact hfb) (by simp only [hbsv]; exact hbs)
      (by simp only [hbsv]; exact hiv0) (by simp only [hfbv]; exact htmp)
    simp only [hbsv, hfbv, List.length_append, List.length_singleton] at hrec ⊢
    rw [hrec, hdrop]
    simp only [List.zipWith_cons_cons, List.length_cons]
    have e1 : bs - fb + (F.length + 1) + r.length = bs - fb + F.length + (r.length + 1) := by
      omega
    rw [e1]
    cases enc <;> simp

theorem cfbEncryptIv_ok (ctx : MODES_CipherCFBCtx) (hE : EncryptOK ctx) (hok : CfbOK ctx) :
    (cfbEncryptIv ctx).1 = CRYPT_SUCCESS ∧
      (cfbEncryptIv ctx).2.length = ctx.modeCtx.blockSize := by
  unfold cfbEncryptIv
  apply hE
  rw [List.length_take]
  have := hok.2.2.2.1
  omega

theorem cfbSteps_segment (enc : Bool) (ctx : MODES_CipherCFBCtx) (xs : List UInt8)
    (hE : EncryptOK ctx) (hok : CfbOK ctx) (hoff : ctx.modeCtx.offset = 0)
    (h1 : 1 ≤ xs.length) (h2 : xs.length ≤ ctx.feedbackBits >>> 3) :
    cfbSteps enc ctx xs = segmentResult enc ctx xs := by
  obtain ⟨hfb1, hfb, hbs, hiv, -⟩ := hok
  have hEl := (cfbEncryptIv_ok ctx hE ⟨hfb1, hfb, hbs, hiv, by omega⟩).2
  cases xs with
  | nil => simp at h1
  | cons x r =>
    have hstep : cfbByteStep enc ctx x =
        ({ ctx with modeCtx := { ctx.modeCtx with
            iv := cfbRegister ctx.modeCtx.iv (cfbEncryptIv ctx).2
              [if enc then x ^^^ (cfbEncryptIv ctx).2.getD 0 0 else x]
              ctx.modeCtx.blockSize (ctx.feedbackBits >>> 3),
            buf := memcpyAt ctx.modeCtx.buf 0 (cfbEncryptIv ctx).2,
            offset := (ctx.modeCtx.blockSize - (ctx.feedbackBits >>> 3) + 1) %
              ctx.modeCtx.blockSize } },
          x ^^^ (cfbEncryptIv ctx).2.getD 0 0) := by
      unfold cfbByteStep
      rw [if_neg (by omega)]
    simp only [List.length_cons] at h2
    have hrec := cfbSteps_in_segment enc ctx.modeCtx.iv (cfbEncryptIv ctx).2 r
      { ctx with modeCtx := { ctx.modeCtx with
          iv := cfbRegister ctx.modeCtx.iv (cfbEncryptIv ctx).2
            [if enc then x ^^^ (cfbEncryptIv ctx).2.getD 0 0 else x]
            ctx.modeCtx.blockSize (ctx.feedbackBits >>> 3),
          buf := memcpyAt ctx.modeCtx.buf 0 (cfbEncryptIv ctx).2,
          offset := (ctx.modeCtx.blockSize - (ctx.feedbackBits >>> 3) + 1) %
            ctx.modeCtx.blockSize } }
      [if enc then x ^^^ (cfbEncryptIv ctx).2.getD 0 0 else x]
      rfl rfl (by simp) (by simp only [List.length_singleton]; omega) hfb hbs hiv
      (by rw [hEl]; exact hfb)
    have hdrop : (cfbEncryptIv ctx).2 =
        (cfbEncryptIv ctx).2.getD 0 0 :: (cfbEncryptIv ctx).2.drop 1 := by
      have := List.drop_eq_getElem_cons (show 0 < (cfbEncryptIv ctx).2.length by omega)
      rw [List.drop_zero] at this
      conv_lhs => rw [this]
      rw [List.getD_eq_getElem?_getD, List.getElem?_eq_getElem (by omega)]
      rfl
    have hz : List.zipWith (· ^^^ ·) (x :: r) (cfbEncryptIv ctx).2 =
        (x ^^^ (cfbEncryptIv ctx).2.getD 0 0) ::
          List.zipWith (· ^^^ ·) r ((cfbEncryptIv ctx).2.drop 1) := by
      conv_lhs => rw [hdrop]
      rfl
    rw [cfbSteps_cons, hstep]
    simp only [] at hrec ⊢
    rw [hrec]
    unfold segmentResult
    rw [hz]
    simp only [List.length_singleton, List.length_cons, List.length_nil, Nat.zero_add]
    have e1 : ctx.modeCtx.blockSize - ctx.feedbackBits >>> 3 + 1 + r.length =
        ctx.modeCtx.blockSize - ctx.feedbackBits >>> 3 + (r.length + 1) := by omega
    rw [e1]
    cases enc <;> simp

theorem store_two (d : List UInt8) (off a b : Nat) (g h : Nat → UInt8)
    (hd : off + a + b ≤ d.length) :
    forLoop 0 b (fun j v => v.set (off + a + j) (h j))
        (forLoop 0 a (fun k v => v.set (off + k) (g k)) d) =
      d.take off ++ (List.range a).map g ++ (List.range b).map h ++ d.drop (off + a + b) := by
  rw [forLoop_store d off a g (by omega)]
  have hl1 : (d.take off ++ (List.range a).map g).length = off + a := by
    simp [List.length_take]; omega
  have hlen : (d.take off ++ (List.range a).map g ++ d.drop (off + a)).length = d.length := by
    simp [List.length_take, List.length_drop]; omega
  rw [forLoop_store _ (off + a) b h (by rw [hlen]; omega)]
  congr 1
  · congr 1
    exact List.take_left' hl1
  · have e : off + a + b = (off + a) + b := rfl
    rw [← List.drop_drop, List.drop_left' hl1, List.drop_drop]

theorem shifted_take (iv : List UInt8) (bs fb : Nat) (hiv : bs ≤ iv.length) :
    (memcpyAt iv 0 ((iv.drop fb).take (bs - fb))).take (bs - fb) =
      (iv.drop fb).take (bs - fb) := by
  unfold memcpyAt
  simp only [List.take_zero, List.nil_append, Nat.zero_add]
  apply List.take_left'
  simp [List.length_take, List.length_drop]; omega

theorem shifted_drop (iv : List UInt8) (bs fb : Nat) (hfb : fb ≤ bs) (hiv : bs ≤ iv.length) :
    (memcpyAt iv 0 ((iv.drop fb).take (bs - fb))).drop bs = iv.drop bs := by
  unfold memcpyAt
  have hl : ((iv.drop fb).take (bs - fb)).length = bs - fb := by
    simp [List.length_take, List.length_drop]; omega
  simp only [List.take_zero, List.nil_append, Nat.zero_add, hl]
  have h := @List.drop_append _ ((iv.drop fb).take (bs - fb)) (iv.drop (bs - fb)) fb
  rw [hl, List.drop_drop] at h
  have e1 : bs - fb + fb = bs := by omega
  rw [e1] at h
  exact h

theorem shifted_length (iv : List UInt8) (bs fb : Nat) :
    (memcpyAt iv 0 ((iv.drop fb).take (bs - fb))).length = iv.length := by
  apply memcpyAt_length
  simp [List.length_take, List.length_drop]

/-- One pass of the second loop is a run of byte steps over the next `feedbackBytes` input
bytes (or over all that is left when there are fewer). -/
theorem segment_spec (enc : Bool) (ctx : MODES_CipherCFBCtx) (input : List UInt8)
    (hE : EncryptOK ctx) (hok : CfbOK ctx) (hoff : ctx.modeCtx.offset = 0) :
    CFB_Bytes.segment enc ctx input =
      (CRYPT_SUCCESS, (segmentResult enc ctx (input.take (ctx.feedbackBits >>> 3))).1,
        (segmentResult enc ctx (input.take (ctx.feedbackBits >>> 3))).2,
        input.drop (ctx.feedbackBits >>> 3)) := by
  have hEok := cfbEncryptIv_ok ctx hE hok
  obtain ⟨hfb1, hfb, hbs, hiv, -⟩ := hok
  obtain ⟨hE1, hEl⟩ := hEok
  unfold CFB_Bytes.segment segmentResult
  simp only []
  generalize hbsv : ctx.modeCtx.blockSize = bs at *
  generalize hfbv : ctx.feedbackBits >>> 3 = fb at *
  generalize htv : (cfbEncryptIv ctx).2 = tmp at *
  have hmoved : sub32 bs fb = bs - fb := sub32_of_le bs fb hfb (by omega)
  have hiv1 : (if bs - fb > 0 then memcpyAt ctx.modeCtx.iv 0
      ((ctx.modeCtx.iv.drop fb).take (bs - fb)) else ctx.modeCtx.iv) =
      memcpyAt ctx.modeCtx.iv 0 ((ctx.modeCtx.iv.drop fb).take (bs - fb)) := by
    by_cases h : bs - fb > 0
    · rw [if_pos h]
    · rw [if_neg h]
      have : bs - fb = 0 := by omega
      rw [this]; simp [memcpyAt_nil]
  have hi : (if bs - fb > 0 then bs - fb else 0) = bs - fb := by
    by_cases h : bs - fb > 0
    · rw [if_pos h]
    · rw [if_neg h]; omega
  simp only [hE1, ne_eq, not_true_eq_false, if_false, hmoved, hiv1, hi]
  have hbuf : ∀ k, k < fb → (memcpyAt ctx.modeCtx.buf 0 tmp).getD k 0 = tmp.getD k 0 :=
    fun k hk => getD_memcpyAt_zero _ _ k (by omega)
  have hsl := shifted_length ctx.modeCtx.iv bs fb
  have hst := shifted_take ctx.modeCtx.iv bs fb hiv
  have hsd := shifted_drop ctx.modeCtx.iv bs fb hfb hiv
  by_cases hfull : input.length ≥ fb
  · rw [if_pos hfull]
    have hbi : bs - (bs - fb) = fb := by omega
    have htl : (input.take fb).length = fb := by rw [List.length_take]; omega
    rw [hbi, xorLoop_fst, xorLoop_snd, htl]
    rw [forLoop_store_congr _ (bs - fb) fb _
      (fun k => if enc then input.getD k 0 ^^^ tmp.getD k 0 else input.getD k 0)
      (fun k hk => by simp only [hbuf k hk])]
    rw [forLoop_store _ (bs - fb) fb _ (by rw [hsl]; omega)]
    rw [range_map_congr fb
      (fun k => input.getD k 0 ^^^ (memcpyAt ctx.modeCtx.buf 0 tmp).getD k 0)
      (fun k => input.getD k 0 ^^^ tmp.getD k 0)
      (fun k hk => by simp only [hbuf k hk])]
    rw [range_map_xor input tmp fb hfull (by omega)]
    have e1 : bs - fb + fb = bs := by omega
    have hmod : (bs - fb + fb) % bs = ctx.modeCtx.offset := by
      rw [e1, Nat.mod_self, hoff]
    rw [e1] at hmod ⊢
    rw [hst, hsd, hmod]
    have hF : (List.range fb).map
        (fun k => if enc then input.getD k 0 ^^^ tmp.getD k 0 else input.getD k 0) =
        (if enc then List.zipWith (· ^^^ ·) (input.take fb) tmp else input.take fb) := by
      cases enc
      · simp only [Bool.false_eq_true, if_false]
        exact range_map_getD_take input fb hfull
      · simp only [if_true]
        exact range_map_xor input tmp fb hfull (by omega)
    rw [hF]
    have hFl : (if enc then List.zipWith (· ^^^ ·) (input.take fb) tmp
        else input.take fb).length = fb := by
      cases enc <;> simp [List.length_take] <;> omega
    unfold cfbRegister
    rw [hFl, Nat.sub_self, List.take_zero, List.append_nil]
  · rw [if_neg hfull]
    have hlt : input.length < fb := by omega
    have htk : input.take fb = input := List.take_of_length_le (by omega)
    have hdr : input.drop fb = [] := List.drop_of_length_le (by omega)
    rw [htk, hdr, xorLoop_fst, xorLoop_snd]
    have hcnt : bs - (bs - fb + input.length) = fb - input.length := by omega
    rw [hcnt]
    rw [forLoop_store_congr _ (bs - fb) input.length _
      (fun k => if enc then input.getD k 0 ^^^ tmp.getD k 0 else input.getD k 0)
      (fun k hk => by simp only [hbuf k (by omega)])]
    rw [forLoop_store_congr _ (bs - fb + input.length) (fb - input.length) _
      (fun j => tmp.getD (input.length + j) 0)
      (fun k hk => hbuf _ (by omega))]
    rw [store_two _ (bs - fb) input.length (fb - input.length) _ _ (by rw [hsl]; omega)]
    rw [range_map_congr input.length
      (fun k => input.getD k 0 ^^^ (memcpyAt ctx.modeCtx.buf 0 tmp).getD k 0)
      (fun k => input.getD k 0 ^^^ tmp.getD k 0)
      (fun k hk => by simp only [hbuf k (by omega)])]
    rw [range_map_xor input tmp input.length (Nat.le_refl _) (by omega), List.take_length]
    rw [range_map_getD_drop tmp input.length (fb - input.length) (by omega)]
    have e1 : bs - fb + input.length + (fb - input.length) = bs := by omega
    rw [e1, hst, hsd]
    have hF : (List.range input.length).map
        (fun k => if enc then input.getD k 0 ^^^ tmp.getD k 0 else input.getD k 0) =
        (if enc then List.zipWith (· ^^^ ·) input tmp else input) := by
      cases enc
      · simp only [Bool.false_eq_true, if_false]
        have := range_map_getD_take input input.length (Nat.le_refl _)
        rw [List.take_length] at this
        exact this
      · simp only [if_true]
        have := range_map_xor input tmp input.length (Nat.le_refl _) (by omega)
        rw [List.take_length] at this
        exact this
    have hFl : (if enc then List.zipWith (· ^^^ ·) input tmp else input).length =
        input.length := by
      cases enc
      · simp
      · simp; omega
    have hm1 : (bs - fb + input.length) % 2 ^ 32 % 2 ^ 8 = (bs - fb + input.length) % bs := by
      rw [Nat.mod_eq_of_lt (show bs - fb + input.length < 2 ^ 32 by omega),
        Nat.mod_eq_of_lt (show bs - fb + input.length < 2 ^ 8 by omega),
        Nat.mod_eq_of_lt (show bs - fb + input.length < bs by omega)]
    rw [hF, hm1]
    unfold cfbRegister
    rw [hFl]

theorem cfbSteps_append (enc : Bool) (a b : List UInt8) :
    ∀ ctx : MODES_CipherCFBCtx, cfbSteps enc ctx (a ++ b) =
      ((cfbSteps enc (cfbSteps enc ctx a).1 b).1,
        (cfbSteps enc ctx a).2 ++ (cfbSteps enc (cfbSteps enc ctx a).1 b).2) := by
  induction a with
  | nil => intro ctx; rfl
  | cons x r ih =>
    intro ctx
    rw [List.cons_append, cfbSteps_cons, cfbSteps_cons, ih]
    rfl

theorem cfbOK_of_same (c1 c2 : MODES_CipherCFBCtx) (h : CfbSame c1 c2) (hok : CfbOK c1)
    (hoff : c2.modeCtx.offset < c2.modeCtx.blockSize) : CfbOK c2 := by
  obtain ⟨h1, h2, -, -, h5⟩ := h
  obtain ⟨a1, a2, a3, a4, -⟩ := hok
  unfold CfbOK
  rw [h1, h2, h5]
  rw [h2] at hoff
  exact ⟨a1, a2, a3, a4, hoff⟩

theorem encryptOK_of_same (c1 c2 : MODES_CipherCFBCtx) (h : CfbSame c1 c2)
    (hE : EncryptOK c1) : EncryptOK c2 := by
  obtain ⟨-, h2, h3, h4, -⟩ := h
  unfold EncryptOK
  rw [h2, h3, h4]
  exact hE

theorem drain_spec (enc : Bool) (inp : List UInt8) :
    ∀ ctx : MODES_CipherCFBCtx, CfbOK ctx →
      cfbSteps enc ctx inp =
        ((cfbSteps enc (CFB_Bytes.drain enc ctx inp).1 (CFB_Bytes.drain enc ctx inp).2.1).1,
          (CFB_Bytes.drain enc ctx inp).2.2 ++
            (cfbSteps enc (CFB_Bytes.drain enc ctx inp).1 (CFB_Bytes.drain enc ctx inp).2.1).2) ∧
      ((CFB_Bytes.drain enc ctx inp).2.1 = [] ∨
        (CFB_Bytes.drain enc ctx inp).1.modeCtx.offset = 0) ∧
      CfbSame ctx (CFB_Bytes.drain enc ctx inp).1 ∧ CfbOK (CFB_Bytes.drain enc ctx inp).1 := by
  induction inp with
  | nil =>
    intro ctx hok
    exact ⟨rfl, Or.inl rfl, ⟨rfl, rfl, rfl, rfl, rfl⟩, hok⟩
  | cons x r ih =>
    intro ctx hok
    by_cases hpos : ctx.modeCtx.offset > 0
    · have hstep : cfbByteStep enc ctx x =
          ({ ctx with modeCtx := { ctx.modeCtx with
              iv := ctx.modeCtx.iv.set ctx.modeCtx.offset
                (if enc then ctx.modeCtx.iv.getD ctx.modeCtx.offset 0 ^^^ x else x),
              offset := (ctx.modeCtx.offset + 1) % ctx.modeCtx.blockSize % 2 ^ 8 } },
            ctx.modeCtx.iv.getD ctx.modeCtx.offset 0 ^^^ x) := by
        unfold cfbByteStep
        rw [if_pos hpos]
      have hsame : CfbSame ctx { ctx with modeCtx := { ctx.modeCtx with
              iv := ctx.modeCtx.iv.set ctx.modeCtx.offset
                (if enc then ctx.modeCtx.iv.getD ctx.modeCtx.offset 0 ^^^ x else x),
              offset := (ctx.modeCtx.offset + 1) % ctx.modeCtx.blockSize % 2 ^ 8 } } :=
        ⟨rfl, rfl, rfl, rfl, List.length_set _ _ _⟩
      have hok1 := cfbOK_of_same _ _ hsame hok (by
        show (ctx.modeCtx.offset + 1) % ctx.modeCtx.blockSize % 2 ^ 8 < ctx.modeCtx.blockSize
        have h1 := hok.1
        have h2 := hok.2.1
        exact lt_of_le_of_lt (Nat.mod_le _ _) (Nat.mod_lt _ (by omega)))
      have hrec := ih _ hok1
      rw [cfbSteps_cons, hstep]
      have hd : CFB_Bytes.drain enc ctx (x :: r) =
          ((CFB_Bytes.drain enc { ctx with modeCtx := { ctx.modeCtx with
              iv := ctx.modeCtx.iv.set ctx.modeCtx.offset
                (if enc then ctx.modeCtx.iv.getD ctx.modeCtx.offset 0 ^^^ x else x),
              offset := (ctx.modeCtx.offset + 1) % ctx.modeCtx.blockSize % 2 ^ 8 } } r).1,
            (CFB_Bytes.drain enc { ctx with modeCtx := { ctx.modeCtx with
              iv := ctx.modeCtx.iv.set ctx.modeCtx.offset
                (if enc then ctx.modeCtx.iv.getD ctx.modeCtx.offset 0 ^^^ x else x),
              offset := (ctx.modeCtx.offset + 1) % ctx.modeCtx.blockSize % 2 ^ 8 } } r).2.1,
            (ctx.modeCtx.iv.getD ctx.modeCtx.offset 0 ^^^ x) ::
              (CFB_Bytes.drain enc { ctx with modeCtx := { ctx.modeCtx with
              iv := ctx.modeCtx.iv.set ctx.modeCtx.offset
                (if enc then ctx.modeCtx.iv.getD ctx.modeCtx.offset 0 ^^^ x else x),
              offset := (ctx.modeCtx.offset + 1) % ctx.modeCtx.blockSize % 2 ^ 8 } } r).2.2) := by
        rw [CFB_Bytes.drain]
        simp only [if_pos hpos]
      rw [hd]
      obtain ⟨r1, r2, r3, r4⟩ := hrec
      refine ⟨?_, r2, ?_, r4⟩
      · simp only []
        rw [r1]
        rfl
      · obtain ⟨s1, s2, s3, s4, s5⟩ := r3
        obtain ⟨t1, t2, t3, t4, t5⟩ := hsame
        exact ⟨s1.trans t1, s2.trans t2, s3.trans t3, s4.trans t4, s5.trans t5⟩
    · have hd : CFB_Bytes.drain enc ctx (x :: r) = (ctx, x :: r, []) := by
        rw [CFB_Bytes.drain]
        simp only [if_neg hpos]
      rw [hd]
      exact ⟨rfl, Or.inr (by simp only []; omega), ⟨rfl, rfl, rfl, rfl, rfl⟩, hok⟩

theorem segmentResult_same (enc : Bool) (ctx : MODES_CipherCFBCtx) (xs : List UInt8)
    (hE : EncryptOK ctx) (hok : CfbOK ctx) (h2 : xs.length ≤ ctx.feedbackBits >>> 3) :
    CfbSame ctx (segmentResult enc ctx xs).1 := by
  have hEl := (cfbEncryptIv_ok ctx hE hok).2
  obtain ⟨hfb1, hfb, hbs, hiv, -⟩ := hok
  refine ⟨rfl, rfl, rfl, rfl, ?_⟩
  show (cfbRegister _ _ _ _ _).length = _
  apply cfbRegister_length _ _ _ _ _ hfb hiv (by rw [hEl]; exact hfb)
  cases enc
  · simpa using h2
  · simp only [if_true, List.length_zipWith]
    omega

theorem segmentResult_offset (enc : Bool) (ctx : MODES_CipherCFBCtx) (xs : List UInt8) :
    (segmentResult enc ctx xs).1.modeCtx.offset =
      (ctx.modeCtx.blockSize - (ctx.feedbackBits >>> 3) + xs.length) % ctx.modeCtx.blockSize :=
  rfl

theorem loop_spec (enc : Bool) (fuel : Nat) :
    ∀ (ctx : MODES_CipherCFBCtx) (inp : List UInt8), inp.length ≤ fuel → CfbOK ctx →
      EncryptOK ctx → (inp = [] ∨ ctx.modeCtx.offset = 0) →
      CFB_Bytes.loop enc fuel ctx inp =
        some (CRYPT_SUCCESS, (cfbSteps enc ctx inp).1, (cfbSteps enc ctx inp).2) ∧
      CfbSame ctx (cfbSteps enc ctx inp).1 ∧ CfbOK (cfbSteps enc ctx inp).1 := by
  induction fuel with
  | zero =>
    intro ctx inp hlen hok _ _
    have : inp = [] := List.eq_nil_of_length_eq_zero (by omega)
    subst this
    exact ⟨by rw [CFB_Bytes.loop]; rfl, ⟨rfl, rfl, rfl, rfl, rfl⟩, hok⟩
  | succ f ih =>
    intro ctx inp hlen hok hE hoff
    cases inp with
    | nil => exact ⟨by rw [CFB_Bytes.loop]; rfl, ⟨rfl, rfl, rfl, rfl, rfl⟩, hok⟩
    | cons x r =>
      have hoff0 : ctx.modeCtx.offset = 0 := by
        rcases hoff with h | h
        · exact absurd h (List.cons_ne_nil _ _)
        · exact h
      have hseg := segment_spec enc ctx (x :: r) hE hok hoff0
      have hfb1 := hok.1
      have hbs1 : 0 < ctx.modeCtx.blockSize := by have := hok.2.1; omega
      generalize hfbv : ctx.feedbackBits >>> 3 = fb at *
      have htl1 : 1 ≤ ((x :: r).take fb).length := by
        rw [List.length_take]; simp only [List.length_cons]; omega
      have htl2 : ((x :: r).take fb).length ≤ fb := by
        rw [List.length_take]; omega
      have hsteps := cfbSteps_segment enc ctx ((x :: r).take fb) hE hok hoff0 htl1
        (by rw [hfbv]; exact htl2)
      have hsame := segmentResult_same enc ctx ((x :: r).take fb) hE hok
        (by rw [hfbv]; exact htl2)
      have hoffr := segmentResult_offset enc ctx ((x :: r).take fb)
      have hok1 := cfbOK_of_same _ _ hsame hok (by
        rw [hoffr, hsame.2.1]; exact Nat.mod_lt _ hbs1)
      have hE1 := encryptOK_of_same _ _ hsame hE
      have hdl : ((x :: r).drop fb).length ≤ f := by
        rw [List.length_drop]; simp only [List.length_cons] at hlen ⊢; omega
      have hcond : (x :: r).drop fb = [] ∨
          (segmentResult enc ctx ((x :: r).take fb)).1.modeCtx.offset = 0 := by
        by_cases hfull : fb ≤ (x :: r).length
        · right
          rw [hoffr, hfbv, List.length_take, Nat.min_eq_left hfull]
          have := hok.2.1
          have e : ctx.modeCtx.blockSize - fb + fb = ctx.modeCtx.blockSize := by omega
          rw [e, Nat.mod_self]
        · left
          exact List.drop_of_length_le (by omega)
      have hrec := ih (segmentResult enc ctx ((x :: r).take fb)).1 ((x :: r).drop fb) hdl hok1
        hE1 hcond
      have happ := cfbSteps_append enc ((x :: r).take fb) ((x :: r).drop fb) ctx
      rw [List.take_append_drop, hsteps] at happ
      rw [happ]
      obtain ⟨r1, r2, r3⟩ := hrec
      refine ⟨?_, ?_, r3⟩
      · rw [CFB_Bytes.loop]
        simp only [hseg, ne_eq, not_true_eq_false, if_false, r1]
      · obtain ⟨s1, s2, s3, s4, s5⟩ := r2
        obtain ⟨t1, t2, t3, t4, t5⟩ := hsame
        exact ⟨s1.trans t1, s2.trans t2, s3.trans t3, s4.trans t4, s5.trans t5⟩

/-- The byte functions return, and they are CFB byte by byte. -/
theorem CFB_Bytes_spec (enc : Bool) (ctx : MODES_CipherCFBCtx) (inp : List UInt8)
    (hok : CfbOK ctx) (hE : EncryptOK ctx) :
    CFB_Bytes enc ctx inp =
        some (CRYPT_SUCCESS, (cfbSteps enc ctx inp).1, (cfbSteps enc ctx inp).2) ∧
      CfbSame ctx (cfbSteps enc ctx inp).1 ∧ CfbOK (cfbSteps enc ctx inp).1 := by
  obtain ⟨d1, d2, d3, d4⟩ := drain_spec enc inp ctx hok
  have hE1 := encryptOK_of_same _ _ d3 hE
  obtain ⟨l1, l2, l3⟩ := loop_spec enc (CFB_Bytes.drain enc ctx inp).2.1.length
    (CFB_Bytes.drain enc ctx inp).1 (CFB_Bytes.drain enc ctx inp).2.1 (Nat.le_refl _) d4 hE1 d2
  rw [d1]
  refine ⟨?_, ?_, l3⟩
  · unfold CFB_Bytes
    simp only [l1]
  · obtain ⟨s1, s2, s3, s4, s5⟩ := l2
    obtain ⟨t1, t2, t3, t4, t5⟩ := d3
    exact ⟨s1.trans t1, s2.trans t2, s3.trans t3, s4.trans t4, s5.trans t5⟩

theorem cfbRun_spec (enc : Bool) (chunks : List (List UInt8)) :
    ∀ ctx : MODES_CipherCFBCtx, CfbOK ctx → EncryptOK ctx →
      cfbRun (CFB_Bytes enc) ctx chunks =
        some (CRYPT_SUCCESS, (cfbSteps enc ctx chunks.flatten).1,
          (cfbSteps enc ctx chunks.flatten).2) := by
  induction chunks with
  | nil => intro ctx _ _; rfl
  | cons c rest ih =>
    intro ctx hok hE
    obtain ⟨h1, h2, h3⟩ := CFB_Bytes_spec enc ctx c hok hE
    have hrec := ih (cfbSteps enc ctx c).1 h3 (encryptOK_of_same _ _ h2 hE)
    rw [List.flatten_cons, cfbSteps_append, cfbRun]
    simp only [h1, ne_eq, not_true_eq_false, if_false, hrec]

theorem cfbOK_of_widths (ctx : MODES_CipherCFBCtx)
    (hfb : ctx.feedbackBits = 8 ∨ ctx.feedbackBits = 64 ∨ ctx.feedbackBits = 128)
    (hbs : ctx.modeCtx.blockSize = 16) (hiv : 16 ≤ ctx.modeCtx.iv.length)
    (hoff : ctx.modeCtx.offset = 0) : CfbOK ctx := by
  unfold CfbOK
  rw [hbs, hoff]
  rcases hfb with h | h | h <;> rw [h] <;> exact ⟨by decide, by decide, by decide, hiv, by decide⟩

/-- C4. CFB streaming equivalence: for feedback width 8, 64 or 128 bits, block size 16 and
a starting state with offset 0 (the block-encrypt function succeeding on every block), each
of `MODES_CFB_BytesEncrypt` and `MODES_CFB_BytesDecrypt` returns `CRYPT_SUCCESS` on the whole
input, and calling it on the chunks of any chunking, one after the other, returns the same
status, the same concatenated output and the same final context (IV register, offset and
scratch buffer included) as the one call on the whole input. -/
theorem C4_cfb_streaming_equivalence (ctx : MODES_CipherCFBCtx) (chunks : List (List UInt8))
    (hfb : ctx.feedbackBits = 8 ∨ ctx.feedbackBits = 64 ∨ ctx.feedbackBits = 128)
    (hbs : ctx.modeCtx.blockSize = 16) (hiv : 16 ≤ ctx.modeCtx.iv.length)
    (hoff : ctx.modeCtx.offset = 0) (hE : EncryptOK ctx) :
    (cfbRun MODES_CFB_BytesEncrypt ctx chunks = MODES_CFB_BytesEncrypt ctx chunks.flatten ∧
      ∃ c out, MODES_CFB_BytesEncrypt ctx chunks.flatten = some (CRYPT_SUCCESS, c, out)) ∧
    (cfbRun MODES_CFB_BytesDecrypt ctx chunks = MODES_CFB_BytesDecrypt ctx chunks.flatten ∧
      ∃ c out, MODES_CFB_BytesDecrypt ctx chunks.flatten = some (CRYPT_SUCCESS, c, out)) := by
  have hok := cfbOK_of_widths ctx hfb hbs hiv hoff
  have he := (CFB_Bytes_spec true ctx chunks.flatten hok hE).1
  have hd := (CFB_Bytes_spec false ctx chunks.flatten hok hE).1
  have hre := cfbRun_spec true chunks ctx hok hE
  have hrd := cfbRun_spec false chunks ctx hok hE
  refine ⟨⟨?_, _, _, he⟩, ⟨?_, _, _, hd⟩⟩
  · show cfbRun (CFB_Bytes true) ctx chunks = CFB_Bytes true ctx chunks.flatten
    rw [hre, he]
  · show cfbRun (CFB_Bytes false) ctx chunks = CFB_Bytes false ctx chunks.flatten
    rw [hrd, hd]

theorem zipWith_take_right (I l : List UInt8) (n : Nat) (h : I.length ≤ n) :
    List.zipWith (· ^^^ ·) I (l.take n) = List.zipWith (· ^^^ ·) I l := by
  have h1 := @List.take_zipWith _ _ _ (· ^^^ ·) I l n
  rw [List.take_of_length_le h] at h1
  rw [← h1]
  apply List.take_of_length_le
  rw [List.length_zipWith]
  omega

theorem cfbRegister_take_full (iv tmp F : List UInt8) (bs fb : Nat) (hfb : fb ≤ bs)
    (hiv : bs ≤ iv.length) (hF : F.length = fb) :
    (cfbRegister iv tmp F bs fb).take bs = (iv.take bs).drop fb ++ F := by
  unfold cfbRegister
  rw [hF, Nat.sub_self, List.take_zero, List.append_nil]
  have hl : ((iv.drop fb).take (bs - fb) ++ F).length = bs := by
    simp only [List.length_append, List.length_take, List.length_drop, hF]; omega
  rw [List.take_left' hl, List.drop_take]

/-- The byte steps over whole segments are the textbook shift register. -/
theorem cfbSteps_textbook (enc : Bool) (segs : List (List UInt8)) :
    ∀ ctx : MODES_CipherCFBCtx, CfbOK ctx → EncryptOK ctx → ctx.modeCtx.offset = 0 →
      (∀ I ∈ segs, I.length = ctx.feedbackBits >>> 3) →
      (cfbSteps enc ctx segs.flatten).2 =
        (cfbTextbook (fun S => (ctx.modeCtx.ciphMeth.encryptBlock ctx.modeCtx.ciphCtx S).2) enc
          (ctx.feedbackBits >>> 3) (ctx.modeCtx.iv.take ctx.modeCtx.blockSize) segs).2.flatten ∧
      (cfbSteps enc ctx segs.flatten).1.modeCtx.iv.take ctx.modeCtx.blockSize =
        (cfbTextbook (fun S => (ctx.modeCtx.ciphMeth.encryptBlock ctx.modeCtx.ciphCtx S).2) enc
          (ctx.feedbackBits >>> 3) (ctx.modeCtx.iv.take ctx.modeCtx.blockSize) segs).1 ∧
      (cfbSteps enc ctx segs.flatten).1.modeCtx.offset = 0 := by
  induction segs with
  | nil =>
    intro ctx _ _ hoff _
    exact ⟨rfl, rfl, hoff⟩
  | cons I rest ih =>
    intro ctx hok hE hoff hlen
    have hI : I.length = ctx.feedbackBits >>> 3 := hlen I (List.mem_cons_self _ _)
    have hEl := (cfbEncryptIv_ok ctx hE hok).2
    have hfb1 := hok.1
    have hfb := hok.2.1
    have hiv := hok.2.2.2.1
    have hsteps := cfbSteps_segment enc ctx I hE hok hoff (by omega) (by omega)
    have hsame := segmentResult_same enc ctx I hE hok (by omega)
    have hoff1 : (segmentResult enc ctx I).1.modeCtx.offset = 0 := by
      rw [segmentResult_offset, hI]
      have e : ctx.modeCtx.blockSize - ctx.feedbackBits >>> 3 + ctx.feedbackBits >>> 3 =
          ctx.modeCtx.blockSize := by omega
      rw [e, Nat.mod_self]
    have hok1 := cfbOK_of_same _ _ hsame hok (by rw [hoff1, hsame.2.1]; omega)
    have hE1 := encryptOK_of_same _ _ hsame hE
    have hrec := ih (segmentResult enc ctx I).1 hok1 hE1 hoff1
      (fun J hJ => by rw [hsame.1]; exact hlen J (List.mem_cons_of_mem _ hJ))
    have hz : List.zipWith (· ^^^ ·) I ((cfbEncryptIv ctx).2.take (ctx.feedbackBits >>> 3)) =
        List.zipWith (· ^^^ ·) I (cfbEncryptIv ctx).2 :=
      zipWith_take_right I _ _ (by omega)
    have hFl : (if enc then List.zipWith (· ^^^ ·) I (cfbEncryptIv ctx).2 else I).length =
        ctx.feedbackBits >>> 3 := by
      cases enc
      · simpa using hI
      · simp only [if_true, List.length_zipWith]; omega
    have hreg : (segmentResult enc ctx I).1.modeCtx.iv.take ctx.modeCtx.blockSize =
        (ctx.modeCtx.iv.take ctx.modeCtx.blockSize).drop (ctx.feedbackBits >>> 3) ++
          (if enc then List.zipWith (· ^^^ ·) I (cfbEncryptIv ctx).2 else I) :=
      cfbRegister_take_full _ _ _ _ _ hfb hiv hFl
    rw [hsame.1, hsame.2.1, hsame.2.2.1, hsame.2.2.2.1, hreg] at hrec
    rw [List.flatten_cons, cfbSteps_append, hsteps]
    have htb : cfbTextbook
        (fun S => (ctx.modeCtx.ciphMeth.encryptBlock ctx.modeCtx.ciphCtx S).2) enc
        (ctx.feedbackBits >>> 3) (ctx.modeCtx.iv.take ctx.modeCtx.blockSize) (I :: rest) =
        ((cfbTextbook (fun S => (ctx.modeCtx.ciphMeth.encryptBlock ctx.modeCtx.ciphCtx S).2)
            enc (ctx.feedbackBits >>> 3)
            ((ctx.modeCtx.iv.take ctx.modeCtx.blockSize).drop (ctx.feedbackBits >>> 3) ++
              (if enc then List.zipWith (· ^^^ ·) I (cfbEncryptIv ctx).2 else I)) rest).1,
          List.zipWith (· ^^^ ·) I (cfbEncryptIv ctx).2 ::
            (cfbTextbook (fun S => (ctx.modeCtx.ciphMeth.encryptBlock ctx.modeCtx.ciphCtx S).2)
              enc (ctx.feedbackBits >>> 3)
              ((ctx.modeCtx.iv.take ctx.modeCtx.blockSize).drop (ctx.feedbackBits >>> 3) ++
                (if enc then List.zipWith (· ^^^ ·) I (cfbEncryptIv ctx).2 else I)) rest).2) := by
      rw [cfbTextbook]
      have : (ctx.modeCtx.ciphMeth.encryptBlock ctx.modeCtx.ciphCtx
          (ctx.modeCtx.iv.take ctx.modeCtx.blockSize)).2 = (cfbEncryptIv ctx).2 := rfl
      show (_, _) = (_, _)
      rw [this, hz]
    rw [htb]
    simp only [List.flatten_cons]
    obtain ⟨r1, r2, r3⟩ := hrec
    refine ⟨?_, r2, r3⟩
    rw [r1]
    rfl

theorem demoCfbCtx_encryptOK (bits : Nat) : EncryptOK (demoCfbCtx bits) := by
  intro x hx
  refine ⟨rfl, ?_⟩
  show (demoBlock [0x3C] x).length = 16
  unfold demoBlock
  rw [List.length_reverse, List.length_map]
  exact hx

theorem C4_witness :
    cfbRun MODES_CFB_BytesEncrypt (demoCfbCtx 64) [[1, 2, 3], [4, 5, 6, 7, 8, 9, 10], [11]] =
        MODES_CFB_BytesEncrypt (demoCfbCtx 64) [1, 2, 3, 4, 5, 6, 7, 8, 9, 10, 11] ∧
      cfbRun MODES_CFB_BytesDecrypt (demoCfbCtx 64) [[1, 2, 3], [4, 5, 6, 7, 8, 9, 10], [11]] =
        MODES_CFB_BytesDecrypt (demoCfbCtx 64) [1, 2, 3, 4, 5, 6, 7, 8, 9, 10, 11] :=
  ⟨(C4_cfb_streaming_equivalence (demoCfbCtx 64) [[1, 2, 3], [4, 5, 6, 7, 8, 9, 10], [11]]
      (Or.inr (Or.inl rfl)) rfl (by decide) rfl (demoCfbCtx_encryptOK 64)).1.1,
    (C4_cfb_streaming_equivalence (demoCfbCtx 64) [[1, 2, 3], [4, 5, 6, 7, 8, 9, 10], [11]]
      (Or.inr (Or.inl rfl)) rfl (by decide) rfl (demoCfbCtx_encryptOK 64)).2.1⟩

/-- C5: the CFB byte functions are the textbook shift register. For a feedback of `f` = 1, 8
or 16 bytes (`feedbackBits` = 8, 64 or 128), block size 16, offset 0 and an input made of
segments of `f` bytes, `MODES_CFB_BytesEncrypt` and `MODES_CFB_BytesDecrypt` return
`CRYPT_SUCCESS`, write the output segments of `cfbTextbook` (input segment XOR the first `f`
bytes of `E S`, the register being shifted by `f` bytes and filled with the ciphertext
segment), and leave the last register in the IV with offset 0. -/
theorem C5_cfb_bytes_textbook (ctx : MODES_CipherCFBCtx) (segs : List (List UInt8))
    (hfb : ctx.feedbackBits = 8 ∨ ctx.feedbackBits = 64 ∨ ctx.feedbackBits = 128)
    (hbs : ctx.modeCtx.blockSize = 16) (hiv : 16 ≤ ctx.modeCtx.iv.length)
    (hoff : ctx.modeCtx.offset = 0) (hE : EncryptOK ctx)
    (hsegs : ∀ I ∈ segs, I.length = ctx.feedbackBits / 8) :
    (∃ c, MODES_CFB_BytesEncrypt ctx segs.flatten =
        some (CRYPT_SUCCESS, c,
          (cfbTextbook (fun S => (ctx.modeCtx.ciphMeth.encryptBlock ctx.modeCtx.ciphCtx S).2)
            true (ctx.feedbackBits / 8) (ctx.modeCtx.iv.take 16) segs).2.flatten) ∧
        c.modeCtx.iv.take 16 =
          (cfbTextbook (fun S => (ctx.modeCtx.ciphMeth.encryptBlock ctx.modeCtx.ciphCtx S).2)
            true (ctx.feedbackBits / 8) (ctx.modeCtx.iv.take 16) segs).1 ∧
        c.modeCtx.offset = 0) ∧
    (∃ c, MODES_CFB_BytesDecrypt ctx segs.flatten =
        some (CRYPT_SUCCESS, c,
          (cfbTextbook (fun S => (ctx.modeCtx.ciphMeth.encryptBlock ctx.modeCtx.ciphCtx S).2)
            false (ctx.feedbackBits / 8) (ctx.modeCtx.iv.take 16) segs).2.flatten) ∧
        c.modeCtx.iv.take 16 =
          (cfbTextbook (fun S => (ctx.modeCtx.ciphMeth.encryptBlock ctx.modeCtx.ciphCtx S).2)
            false (ctx.feedbackBits / 8) (ctx.modeCtx.iv.take 16) segs).1 ∧
        c.modeCtx.offset = 0) := by
  have hok := cfbOK_of_widths ctx hfb hbs hiv hoff
  have hsh : ctx.feedbackBits >>> 3 = ctx.feedbackBits / 8 := by
    rw [Nat.shiftRight_eq_div_pow]
  have hsegs1 : ∀ I ∈ segs, I.length = ctx.feedbackBits >>> 3 := by
    intro I hI; rw [hsh]; exact hsegs I hI
  have ht := cfbSteps_textbook true segs ctx hok hE hoff hsegs1
  have hf := cfbSteps_textbook false segs ctx hok hE hoff hsegs1
  rw [hsh, hbs] at ht hf
  refine ⟨⟨(cfbSteps true ctx segs.flatten).1, ?_, ht.2.1, ht.2.2⟩,
    ⟨(cfbSteps false ctx segs.flatten).1, ?_, hf.2.1, hf.2.2⟩⟩
  · rw [← ht.1]
    exact (CFB_Bytes_spec true ctx segs.flatten hok hE).1
  · rw [← hf.1]
    exact (CFB_Bytes_spec false ctx segs.flatten hok hE).1

theorem C5_witness :
    ∃ c, MODES_CFB_BytesEncrypt (demoCfbCtx 8) [[7], [9], [200]].flatten =
        some (CRYPT_SUCCESS, c,
          (cfbTextbook (fun S => demoBlock [0x3C] S) true 1
            [0, 1, 2, 3, 4, 5, 6, 7, 8, 9, 10, 11, 12, 13, 14, 15] [[7], [9], [200]]).2.flatten) ∧
        c.modeCtx.iv.take 16 =
          (cfbTextbook (fun S => demoBlock [0x3C] S) true 1
            [0, 1, 2, 3, 4, 5, 6, 7, 8, 9, 10, 11, 12, 13, 14, 15] [[7], [9], [200]]).1 ∧
        c.modeCtx.offset = 0 :=
  (C5_cfb_bytes_textbook (demoCfbCtx 8) [[7], [9], [200]] (Or.inl rfl) rfl (by decide) rfl
    (demoCfbCtx_encryptOK 8) (by decide)).1

/-- At a feedback width of one bit and an input of `2 ^ 29` bytes the bit count `len * 8`
handed to `MODES_CFB_BitCrypt` is computed in `uint32_t` and is 0, so `CFB_Crypt` returns
`CRYPT_SUCCESS` and leaves the context and the output buffer as they were. -/
theorem cfb1_bit_count_overflow (ctx : MODES_CipherCFBCtx) (P out : List UInt8) (enc : Bool)
    (hfb : ctx.feedbackBits = 1) (hlen : P.length = 2 ^ 29) :
    CFB_Crypt ctx P out enc = some (CRYPT_SUCCESS, ctx, out) := by
  have h0 : ¬ (2 ^ 29 = 0) := by decide
  have h8 : 2 ^ 29 * 8 % 2 ^ 32 = 0 := by decide
  unfold CFB_Crypt
  simp only [hlen, hfb, if_neg h0, if_true, h8]
  rfl

/-- C3: evaluation of the code at a feedback width of one bit and a plaintext of `2 ^ 29`
bytes `0xFF`, with output buffers that hold zeros before the calls. `MODES_CFB_Encrypt`
returns `CRYPT_SUCCESS` and has written nothing (the `uint32_t` bit count `len * 8` is 0),
`MODES_CFB_Decrypt` on that output does the same, and what it returns is not the
plaintext. -/
theorem C3_cfb1_round_trip_fails :
    MODES_CFB_Encrypt (demoCfbCtx 1) (List.replicate (2 ^ 29) 0xFF)
        (List.replicate (2 ^ 29) 0) =
      some (CRYPT_SUCCESS, demoCfbCtx 1, List.replicate (2 ^ 29) 0) ∧
    MODES_CFB_Decrypt (demoCfbCtx 1) (List.replicate (2 ^ 29) 0)
        (List.replicate (2 ^ 29) 0) =
      some (CRYPT_SUCCESS, demoCfbCtx 1, List.replicate (2 ^ 29) 0) ∧
    List.replicate (2 ^ 29) (0 : UInt8) ≠ List.replicate (2 ^ 29) 0xFF := by
  refine ⟨cfb1_bit_count_overflow _ _ _ true rfl (List.length_replicate _ _),
    cfb1_bit_count_overflow _ _ _ false rfl (List.length_replicate _ _), ?_⟩
  intro h
  have h1 := (List.replicate_right_inj (by decide : 2 ^ 29 ≠ 0)).1 h
  exact absurd h1 (by decide)

theorem uint8_xor_cancel_left (a x : UInt8) : a ^^^ (a ^^^ x) = x := by
  rw [uint8_xor_comm a x, uint8_xor_comm a (x ^^^ a), uint8_xor_cancel]

theorem cfbByteStep_inverse (ctx : MODES_CipherCFBCtx) (x : UInt8) :
    cfbByteStep false ctx (cfbByteStep true ctx x).2 = ((cfbByteStep true ctx x).1, x) := by
  unfold cfbByteStep
  by_cases h : ctx.modeCtx.offset > 0
  · simp only [if_pos h, if_true, Bool.false_eq_true, if_false, uint8_xor_cancel_left]
  · simp only [if_neg h, if_true, Bool.false_eq_true, if_false, uint8_xor_cancel]

theorem cfbSteps_inverse (P : List UInt8) :
    ∀ ctx : MODES_CipherCFBCtx,
      cfbSteps false ctx (cfbSteps true ctx P).2 = ((cfbSteps true ctx P).1, P) := by
  induction P with
  | nil => intro ctx; rfl
  | cons x rest ih =>
    intro ctx
    rw [cfbSteps_cons true ctx x rest]
    simp only []
    rw [cfbSteps_cons false, cfbByteStep_inverse]
    simp only []
    rw [ih]

/-- Round trip of the CFB byte functions: for feedback width 8, 64 or 128 bits, block size 16
and offset 0, the calls of `MODES_CFB_BytesEncrypt` on the chunks of a plaintext succeed, and
the calls of `MODES_CFB_BytesDecrypt` from the same starting context on any split of the
ciphertext succeed, return the plaintext and end in the same context. -/
theorem cfb_bytes_round_trip (ctx : MODES_CipherCFBCtx) (chunksP : List (List UInt8))
    (hfb : ctx.feedbackBits = 8 ∨ ctx.feedbackBits = 64 ∨ ctx.feedbackBits = 128)
    (hbs : ctx.modeCtx.blockSize = 16) (hiv : 16 ≤ ctx.modeCtx.iv.length)
    (hoff : ctx.modeCtx.offset = 0) (hE : EncryptOK ctx) :
    ∃ c C, cfbRun MODES_CFB_BytesEncrypt ctx chunksP = some (CRYPT_SUCCESS, c, C) ∧
      ∀ chunksC : List (List UInt8), chunksC.flatten = C →
        cfbRun MODES_CFB_BytesDecrypt ctx chunksC = some (CRYPT_SUCCESS, c, chunksP.flatten) := by
  have hok := cfbOK_of_widths ctx hfb hbs hiv hoff
  refine ⟨_, _, cfbRun_spec true chunksP ctx hok hE, ?_⟩
  intro chunksC hC
  have h := cfbRun_spec false chunksC ctx hok hE
  rw [hC, cfbSteps_inverse] at h
  exact h

theorem beValue_foldl (l : List UInt8) :
    ∀ s : Nat, l.foldl (fun a b => a * 256 + b.toNat) s = s * 256 ^ l.length + beValue l := by
  unfold beValue
  induction l with
  | nil => intro s; simp
  | cons x l ih =>
    intro s
    rw [List.foldl_cons, List.foldl_cons, ih (s * 256 + x.toNat), ih (0 * 256 + x.toNat),
      List.length_cons, Nat.pow_succ]
    ring

theorem beValue_append (a b : List UInt8) :
    beValue (a ++ b) = beValue a * 256 ^ b.length + beValue b := by
  have h := beValue_foldl b (beValue a)
  unfold beValue at h ⊢
  rw [List.foldl_append, h]

theorem beValue_singleton (b : UInt8) : beValue [b] = b.toNat := by
  unfold beValue
  simp

theorem uint8_toNat_lt (b : UInt8) : b.toNat < 256 := by
  have := b.toBitVec.isLt
  exact this

theorem beValue_lt (l : List UInt8) : beValue l < 256 ^ l.length := by
  induction l using List.reverseRecOn with
  | nil => simp [beValue]
  | append_singleton l b ih =>
    rw [beValue_append, beValue_singleton, List.length_append, List.length_singleton]
    simp only [Nat.pow_one]
    rw [Nat.pow_succ]
    have := uint8_toNat_lt b
    omega

theorem beBytes_length (len : Nat) : ∀ n : Nat, (beBytes len n).length = len := by
  induction len with
  | zero => intro n; rfl
  | succ len ih => intro n; rw [beBytes, List.length_append, ih]; rfl

theorem uint8_toNat_ofNat (n : Nat) : (UInt8.ofNat n).toNat = n % 256 := by
  rfl

theorem uint8_ofNat_toNat (b : UInt8) : UInt8.ofNat b.toNat = b := by
  cases b with
  | mk v =>
    cases v with
    | ofFin f =>
      apply congrArg UInt8.mk
      apply congrArg BitVec.ofFin
      apply Fin.ext
      show f.val % 256 = f.val
      exact Nat.mod_eq_of_lt f.isLt

theorem beValue_beBytes (len : Nat) : ∀ n : Nat, beValue (beBytes len n) = n % 256 ^ len := by
  induction len with
  | zero => intro n; simp [beBytes, beValue, Nat.mod_one]
  | succ len ih =>
    intro n
    rw [beBytes, beValue_append, beValue_singleton, ih, uint8_toNat_ofNat, List.length_singleton,
      Nat.pow_one, Nat.mod_mod, Nat.pow_succ, Nat.mul_comm (256 ^ len) 256, Nat.mod_mul]
    ring

theorem beBytes_beValue (l : List UInt8) : beBytes l.length (beValue l) = l := by
  induction l using List.reverseRecOn with
  | nil => rfl
  | append_singleton l b ih =>
    rw [List.length_append, List.length_singleton, beBytes, beValue_append, beValue_singleton,
      List.length_singleton, Nat.pow_one]
    have hb := uint8_toNat_lt b
    have h1 : (beValue l * 256 + b.toNat) / 256 = beValue l := by omega
    have h2 : (beValue l * 256 + b.toNat) % 256 = b.toNat := by omega
    rw [h1, h2, ih, uint8_ofNat_toNat]

theorem beBytes_mod (len n : Nat) : beBytes len (n % 256 ^ len) = beBytes len n := by
  have h := beBytes_beValue (beBytes len n)
  rw [beBytes_length, beValue_beBytes] at h
  exact h

theorem beBytes_add (a : Nat) : ∀ b n : Nat,
    beBytes (a + b) n = beBytes a (n / 256 ^ b) ++ beBytes b n := by
  intro b
  induction b with
  | zero => intro n; simp [beBytes]
  | succ b ih =>
    intro n
    rw [← Nat.add_assoc, beBytes, ih, beBytes, List.append_assoc, Nat.div_div_eq_div_mul,
      Nat.pow_succ, Nat.mul_comm 256 (256 ^ b)]

theorem beBytes16_split (hi lo : Nat) (hlo : lo < 2 ^ 32) :
    beBytes 16 (hi * 2 ^ 32 + lo) = beBytes 12 hi ++ beBytes 4 lo := by
  have h := beBytes_add 12 4 (hi * 2 ^ 32 + lo)
  have e : (12 : Nat) + 4 = 16 := rfl
  rw [e] at h
  rw [h]
  have h1 : (hi * 2 ^ 32 + lo) / 256 ^ 4 = hi := by
    have : (256 : Nat) ^ 4 = 2 ^ 32 := by norm_num
    rw [this]
    omega
  have h2 : beBytes 4 (hi * 2 ^ 32 + lo) = beBytes 4 lo := by
    rw [← beBytes_mod 4 (hi * 2 ^ 32 + lo)]
    have : (hi * 2 ^ 32 + lo) % 256 ^ 4 = lo := by
      have : (256 : Nat) ^ 4 = 2 ^ 32 := by norm_num
      rw [this]
      omega
    rw [this]
  rw [h1, h2]

theorem beBytes16_eq (C : Nat) :
    beBytes 16 C = beBytes 12 (C / 2 ^ 32) ++ beBytes 4 (C % 2 ^ 32) := by
  have h := beBytes16_split (C / 2 ^ 32) (C % 2 ^ 32) (Nat.mod_lt _ (by decide))
  rw [Nat.div_add_mod' C (2 ^ 32)] at h
  exact h

theorem beBytes16_take (C : Nat) : (beBytes 16 C).take 12 = beBytes 12 (C / 2 ^ 32) := by
  rw [beBytes16_eq]
  exact List.take_left' (beBytes_length 12 _)

theorem beBytes16_drop (C : Nat) : (beBytes 16 C).drop 12 = beBytes 4 (C % 2 ^ 32) := by
  rw [beBytes16_eq]
  exact List.drop_left' (beBytes_length 12 _)

theorem beValue_beBytes4 (n : Nat) : beValue (beBytes 4 n) = n % 2 ^ 32 := by
  rw [beValue_beBytes]
  norm_num

theorem beValue_beBytes12 (n : Nat) : beValue (beBytes 12 n) = n % 2 ^ 96 := by
  rw [beValue_beBytes]
  norm_num

theorem beValue_lt16 (iv : List UInt8) (h : iv.length = 16) : beValue iv < 2 ^ 128 := by
  have := beValue_lt iv
  rw [h] at this
  have e : (256 : Nat) ^ 16 = 2 ^ 128 := by norm_num
  rw [e] at this
  exact this

theorem beBytes16_beValue (iv : List UInt8) (h : iv.length = 16) :
    beBytes 16 (beValue iv) = iv := by
  have := beBytes_beValue iv
  rw [h] at this
  exact this

theorem flatten_blocks_length (bl : List (List UInt8)) (h : ∀ B ∈ bl, B.length = 16) :
    bl.flatten.length = 16 * bl.length := by
  induction bl with
  | nil => rfl
  | cons B rest ih =>
    rw [List.flatten_cons, List.length_append, h B (List.mem_cons_self _ _),
      ih (fun J hJ => h J (List.mem_cons_of_mem _ hJ)), List.length_cons]
    omega

theorem flatten_take_blocks (bl : List (List UInt8)) (h : ∀ B ∈ bl, B.length = 16) :
    ∀ m : Nat, bl.flatten.take (16 * m) = (bl.take m).flatten := by
  induction bl with
  | nil => intro m; simp
  | cons B rest ih =>
    intro m
    cases m with
    | zero => simp
    | succ m =>
      have hB := h B (List.mem_cons_self _ _)
      have e : 16 * (m + 1) = B.length + 16 * m := by omega
      rw [List.flatten_cons, List.take_succ_cons, List.flatten_cons, e, List.take_append,
        ih (fun J hJ => h J (List.mem_cons_of_mem _ hJ))]

theorem flatten_drop_blocks (bl : List (List UInt8)) (h : ∀ B ∈ bl, B.length = 16) :
    ∀ m : Nat, bl.flatten.drop (16 * m) = (bl.drop m).flatten := by
  induction bl with
  | nil => intro m; simp
  | cons B rest ih =>
    intro m
    cases m with
    | zero => simp
    | succ m =>
      have hB := h B (List.mem_cons_self _ _)
      have e : 16 * (m + 1) = B.length + 16 * m := by omega
      rw [List.flatten_cons, List.drop_succ_cons, e, List.drop_append,
        ih (fun J hJ => h J (List.mem_cons_of_mem _ hJ))]

theorem ctrReference_append (E : List UInt8 → List UInt8 → List UInt8) (key : List UInt8)
    (a b : List (List UInt8)) :
    ∀ C : Nat, C < 2 ^ 128 →
      (ctrReference E key C (a ++ b)).1 =
        (ctrReference E key C a).1 ++ (ctrReference E key ((C + a.length) % 2 ^ 128) b).1 := by
  induction a with
  | nil =>
    intro C hC
    rw [List.nil_append, List.length_nil, Nat.add_zero, Nat.mod_eq_of_lt hC]
    rfl
  | cons x a ih =>
    intro C hC
    have e : ((C + 1) % 2 ^ 128 + a.length) % 2 ^ 128 = (C + (x :: a).length) % 2 ^ 128 := by
      rw [List.length_cons]
      omega
    rw [List.cons_append, ctrReference, ctrReference]
    simp only []
    rw [ih ((C + 1) % 2 ^ 128) (Nat.mod_lt _ (by decide)), e, List.append_assoc]

theorem ctrReference_snd (E : List UInt8 → List UInt8 → List UInt8) (key : List UInt8)
    (bl : List (List UInt8)) :
    ∀ C : Nat, C < 2 ^ 128 → (ctrReference E key C bl).2 = (C + bl.length) % 2 ^ 128 := by
  induction bl with
  | nil => intro C hC; rw [List.length_nil, Nat.add_zero, Nat.mod_eq_of_lt hC]; rfl
  | cons x a ih =>
    intro C hC
    rw [ctrReference]
    simp only []
    rw [ih ((C + 1) % 2 ^ 128) (Nat.mod_lt _ (by decide)), List.length_cons]
    omega

theorem ctrPrimitiveSpec_nowrap (E : List UInt8 → List UInt8 → List UInt8) (key : List UInt8)
    (bl : List (List UInt8)) :
    ∀ C : Nat, C < 2 ^ 128 → C % 2 ^ 32 + bl.length ≤ 2 ^ 32 →
      ctrPrimitiveSpec E key (beBytes 16 C) bl =
        ((ctrReference E key C bl).1,
          beBytes 12 (C / 2 ^ 32) ++ beBytes 4 ((C % 2 ^ 32 + bl.length) % 2 ^ 32)) := by
  induction bl with
  | nil =>
    intro C _ _
    rw [List.length_nil, Nat.add_zero, Nat.mod_mod, ← beBytes16_eq]
    rfl
  | cons B rest ih =>
    intro C hC hn
    rw [ctrPrimitiveSpec, ctrReference]
    simp only []
    rw [beBytes16_take, beBytes16_drop, beValue_beBytes4, Nat.mod_mod]
    cases rest with
    | nil =>
      rw [ctrPrimitiveSpec, ctrReference]
      rfl
    | cons B2 rest2 =>
      rw [List.length_cons, List.length_cons] at hn
      have h1 : (C % 2 ^ 32 + 1) % 2 ^ 32 = (C + 1) % 2 ^ 32 := by omega
      have h2 : C / 2 ^ 32 = (C + 1) / 2 ^ 32 := by omega
      have h3 : C + 1 < 2 ^ 128 := by omega
      rw [h1, h2, ← beBytes16_eq, Nat.mod_eq_of_lt h3, ih (C + 1) h3 (by
        rw [List.length_cons]; omega)]
      simp only []
      have h4 : ((C + 1) % 2 ^ 32 + (B2 :: rest2).length) % 2 ^ 32 =
          (C % 2 ^ 32 + (B :: B2 :: rest2).length) % 2 ^ 32 := by
        simp only [List.length_cons]
        omega
      rw [h4]

theorem ctr_loop_done (h : CTR_Helpers) (fuel : Nat) (ctx : MODES_CipherCommonCtx)
    (hbs : ctx.blockSize = 16) :
    AES_CTR_EncryptBlock.loop h fuel ctx [] = some (ctx, [], []) := by
  unfold AES_CTR_EncryptBlock.loop
  simp only [hbs, List.length_nil]
  rw [if_neg (by decide)]

theorem get_uint32_be_iv (C : Nat) : GET_UINT32_BE (beBytes 16 C) 12 = C % 2 ^ 32 := by
  unfold GET_UINT32_BE
  rw [beBytes16_drop, List.take_of_length_le (by rw [beBytes_length]), beValue_beBytes4,
    Nat.mod_mod]

theorem beBytes16_mod (n : Nat) : beBytes 16 (n % 2 ^ 128) = beBytes 16 n := by
  have h := beBytes_mod 16 n
  have e : (256 : Nat) ^ 16 = 2 ^ 128 := by norm_num
  rw [e] at h
  exact h

theorem ctr_loop_nowrap (h : CTR_Helpers) (E : List UInt8 → List UInt8 → List UInt8)
    (hPrim : ∀ (key iv : List UInt8) (bl : List (List UInt8)), iv.length = 16 →
      (∀ B ∈ bl, B.length = 16) →
      h.CRYPT_AES_CTR_Encrypt key bl.flatten iv = ctrPrimitiveSpec E key iv bl)
    (bl : List (List UInt8)) (hbl : ∀ B ∈ bl, B.length = 16) (fuel : Nat)
    (ctx : MODES_CipherCommonCtx) (C : Nat) (hbs : ctx.blockSize = 16)
    (hiv : ctx.iv = beBytes 16 C) (hC : C < 2 ^ 128) (hfuel : 1 ≤ fuel)
    (hlen : 16 * bl.length < 2 ^ 32) (hnw : C % 2 ^ 32 + bl.length < 2 ^ 32) :
    AES_CTR_EncryptBlock.loop h fuel ctx bl.flatten =
      some ({ ctx with iv := beBytes 16 ((C + bl.length) % 2 ^ 128) },
        (ctrReference E ctx.ciphCtx C bl).1, []) := by
  have hl := flatten_blocks_length bl hbl
  cases hb : bl with
  | nil =>
    rw [List.flatten_nil, ctr_loop_done h fuel ctx hbs, List.length_nil, Nat.add_zero,
      Nat.mod_eq_of_lt hC, ← hiv]
    rfl
  | cons B0 rest0 =>
    rw [← hb]
    have hn : 1 ≤ bl.length := by rw [hb, List.length_cons]; omega
    obtain ⟨f, rfl⟩ : ∃ f, fuel = f + 1 := ⟨fuel - 1, by omega⟩
    have hsh : bl.flatten.length >>> 4 = bl.length := by
      rw [hl, Nat.shiftRight_eq_div_pow]
      omega
    have hget : GET_UINT32_BE ctx.iv 12 = C % 2 ^ 32 := by rw [hiv, get_uint32_be_iv]
    have hctr : (C % 2 ^ 32 + bl.length) % 2 ^ 32 = C % 2 ^ 32 + bl.length :=
      Nat.mod_eq_of_lt hnw
    have hnlt : ¬ (C % 2 ^ 32 + bl.length < bl.length) := by omega
    have hne : ¬ (C % 2 ^ 32 + bl.length = 0) := by omega
    have hcal : bl.length <<< 4 % 2 ^ 32 = 16 * bl.length := by
      rw [Nat.shiftLeft_eq]
      omega
    have htake : List.take (16 * bl.length) bl.flatten = bl.flatten :=
      List.take_of_length_le (by omega)
    have hdrop : List.drop (16 * bl.length) bl.flatten = [] :=
      List.drop_of_length_le (by omega)
    have hivl : ctx.iv.length = 16 := by rw [hiv, beBytes_length]
    rw [AES_CTR_EncryptBlock.loop]
    simp only [hbs]
    rw [if_pos (by omega)]
    simp only [hsh, hget, hctr, if_neg hnlt, if_neg hne, hcal, htake, hdrop]
    rw [ctr_loop_done h f _ rfl, hPrim ctx.ciphCtx ctx.iv bl hivl hbl, hiv,
      ctrPrimitiveSpec_nowrap E ctx.ciphCtx bl C hC (by omega)]
    simp only [List.append_nil]
    have e1 : C / 2 ^ 32 = ((C + bl.length) % 2 ^ 128) / 2 ^ 32 := by omega
    have e2 : C % 2 ^ 32 + bl.length = ((C + bl.length) % 2 ^ 128) % 2 ^ 32 := by omega
    rw [hctr, e1, e2, ← beBytes16_eq]

theorem incUpper96_boundary (C m : Nat)
    (hm : C % 2 ^ 32 + m = 2 ^ 32) :
    incUpper96 (beBytes 12 (C / 2 ^ 32) ++ beBytes 4 0) = beBytes 16 ((C + m) % 2 ^ 128) := by
  unfold incUpper96
  rw [List.take_left' (beBytes_length 12 _), List.drop_left' (beBytes_length 12 _),
    beValue_beBytes12, beBytes16_eq ((C + m) % 2 ^ 128)]
  have e1 : (C / 2 ^ 32 % 2 ^ 96 + 1) % 2 ^ 96 = (C + m) % 2 ^ 128 / 2 ^ 32 := by omega
  have e2 : (C + m) % 2 ^ 128 % 2 ^ 32 = 0 := by omega
  rw [e1, e2]

theorem ctr_loop_wrap (h : CTR_Helpers) (E : List UInt8 → List UInt8 → List UInt8)
    (hPrim : ∀ (key iv : List UInt8) (bl : List (List UInt8)), iv.length = 16 →
      (∀ B ∈ bl, B.length = 16) →
      h.CRYPT_AES_CTR_Encrypt key bl.flatten iv = ctrPrimitiveSpec E key iv bl)
    (hInc : ∀ iv : List UInt8, iv.length = 16 → h.MODE_IncCounter iv 12 = incUpper96 iv)
    (bl : List (List UInt8)) (hbl : ∀ B ∈ bl, B.length = 16) (fuel : Nat)
    (ctx : MODES_CipherCommonCtx) (C : Nat) (hbs : ctx.blockSize = 16)
    (hiv : ctx.iv = beBytes 16 C) (hC : C < 2 ^ 128) (hfuel : 2 ≤ fuel)
    (hlen : 16 * bl.length < 2 ^ 32) (hw : 2 ^ 32 ≤ C % 2 ^ 32 + bl.length) :
    AES_CTR_EncryptBlock.loop h fuel ctx bl.flatten =
      some ({ ctx with iv := beBytes 16 ((C + bl.length) % 2 ^ 128) },
        (ctrReference E ctx.ciphCtx C bl).1, []) := by
  have hl := flatten_blocks_length bl hbl
  have hlo : C % 2 ^ 32 < 2 ^ 32 := Nat.mod_lt _ (by decide)
  obtain ⟨f, rfl⟩ : ∃ f, fuel = f + 1 := ⟨fuel - 1, by omega⟩
  obtain ⟨m, hm⟩ : ∃ m, C % 2 ^ 32 + m = 2 ^ 32 := ⟨2 ^ 32 - C % 2 ^ 32, by omega⟩
  obtain ⟨r, hr⟩ : ∃ r, bl.length = m + r := ⟨bl.length - m, by omega⟩
  have hsh : bl.flatten.length >>> 4 = bl.length := by
    rw [hl, Nat.shiftRight_eq_div_pow]
    omega
  have hget : GET_UINT32_BE ctx.iv 12 = C % 2 ^ 32 := by rw [hiv, get_uint32_be_iv]
  have hctr : (C % 2 ^ 32 + bl.length) % 2 ^ 32 = r := by omega
  have hlt : r < bl.length := by omega
  have hsub : sub32 bl.length r = m := by
    unfold sub32
    omega
  have hcal : m <<< 4 % 2 ^ 32 = 16 * m := by
    rw [Nat.shiftLeft_eq]
    omega
  have htake := flatten_take_blocks bl hbl m
  have hdrop := flatten_drop_blocks bl hbl m
  have hivl : ctx.iv.length = 16 := by rw [hiv, beBytes_length]
  have hbt : ∀ B ∈ bl.take m, B.length = 16 := fun B hB => hbl B (List.mem_of_mem_take hB)
  have hbd : ∀ B ∈ bl.drop m, B.length = 16 := fun B hB => hbl B (List.mem_of_mem_drop hB)
  have htl : (bl.take m).length = m := by rw [List.length_take]; omega
  have hdl : (bl.drop m).length = r := by rw [List.length_drop]; omega
  have h12 : sub32 16 4 = 12 := by decide
  rw [AES_CTR_EncryptBlock.loop]
  simp only [hbs]
  rw [if_pos (by omega)]
  simp only [hsh, hget, hctr, if_pos hlt, hsub, if_true, hcal, htake, hdrop, h12]
  rw [hPrim ctx.ciphCtx ctx.iv (bl.take m) hivl hbt, hiv,
    ctrPrimitiveSpec_nowrap E ctx.ciphCtx (bl.take m) C hC (by omega)]
  simp only [htl, hm, Nat.mod_self]
  rw [hInc _ (by rw [List.length_append, beBytes_length, beBytes_length]),
    incUpper96_boundary C m hm]
  have hX : (C + m) % 2 ^ 128 < 2 ^ 128 := Nat.mod_lt _ (by decide)
  have hrec := ctr_loop_nowrap h E hPrim (bl.drop m) hbd f
    { ctx with iv := beBytes 16 ((C + m) % 2 ^ 128) } ((C + m) % 2 ^ 128) hbs rfl hX (by omega)
    (by omega) (by omega)
  simp only [hbs] at hrec
  rw [hrec]
  simp only [List.append_nil, hdl]
  have e3 : ((C + m) % 2 ^ 128 + r) % 2 ^ 128 = (C + bl.length) % 2 ^ 128 := by omega
  have happ := ctrReference_append E ctx.ciphCtx (bl.take m) (bl.drop m) C hC
  rw [List.take_append_drop, htl] at happ
  rw [e3, happ]

theorem ctrBlocks_flatten (bl : List (List UInt8)) (hbl : ∀ B ∈ bl, B.length = 16) :
    ctrBlocks (bl.flatten.length / 16) bl.flatten = bl := by
  have e : bl.flatten.length / 16 = bl.length := by
    rw [flatten_blocks_length bl hbl]
    omega
  rw [e]
  clear e
  induction bl with
  | nil => rfl
  | cons B rest ih =>
    have hB := hbl B (List.mem_cons_self _ _)
    rw [List.length_cons, ctrBlocks, List.flatten_cons, List.take_left' hB, List.drop_left' hB,
      ih (fun J hJ => hbl J (List.mem_cons_of_mem _ hJ))]

theorem demoCtrHelpers_primitive (E : List UInt8 → List UInt8 → List UInt8)
    (key iv : List UInt8) (bl : List (List UInt8)) (_ : iv.length = 16)
    (hbl : ∀ B ∈ bl, B.length = 16) :
    (demoCtrHelpers E).CRYPT_AES_CTR_Encrypt key bl.flatten iv =
      ctrPrimitiveSpec E key iv bl := by
  show ctrPrimitiveSpec E key iv (ctrBlocks (bl.flatten.length / 16) bl.flatten) = _
  rw [ctrBlocks_flatten bl hbl]

/-- C6: CTR counter wrap. Assume that `MODES_CTR_LastHandle` finds nothing pending at offset
0, that `MODES_CTR_RemHandle` does nothing when no input is left, that
`CRYPT_AES_CTR_Encrypt` encrypts consecutive blocks while adding one per block to the low 32
bits of the IV modulo `2 ^ 32`, and that `MODE_IncCounter(iv, 12)` adds one to the big-endian
upper 96 bits. Then for every 16-byte IV of counter value `C`, and every input of `n ≥ 1`
blocks of 16 bytes starting at a block boundary, `AES_CTR_EncryptBlock` returns
`CRYPT_SUCCESS`, its output is that of processing the blocks one at a time with the counters
`C, C + 1, ..., C + n - 1` modulo `2 ^ 128`, the IV afterwards is `C + n` modulo `2 ^ 128`,
and the upper 96 bits have been incremented once if the low 32 bits crossed `2 ^ 32` and
not at all otherwise. -/
theorem C6_ctr_counter_wrap (h : CTR_Helpers) (E : List UInt8 → List UInt8 → List UInt8)
    (ctx : MODES_CipherCommonCtx) (bl : List (List UInt8))
    (hLast : ∀ (c : MODES_CipherCommonCtx) (inp : List UInt8), c.offset = 0 →
      h.MODES_CTR_LastHandle c inp = (c, [], 0))
    (hRem : ∀ c : MODES_CipherCommonCtx, h.MODES_CTR_RemHandle c [] = (c, []))
    (hPrim : ∀ (key iv : List UInt8) (bl : List (List UInt8)), iv.length = 16 →
      (∀ B ∈ bl, B.length = 16) →
      h.CRYPT_AES_CTR_Encrypt key bl.flatten iv = ctrPrimitiveSpec E key iv bl)
    (hInc : ∀ iv : List UInt8, iv.length = 16 → h.MODE_IncCounter iv 12 = incUpper96 iv)
    (hbs : ctx.blockSize = 16) (hivl : ctx.iv.length = 16) (hoff : ctx.offset = 0)
    (hbl : ∀ B ∈ bl, B.length = 16) (hn : 1 ≤ bl.length) (hlen : 16 * bl.length < 2 ^ 32) :
    AES_CTR_EncryptBlock h ctx bl.flatten =
      some (CRYPT_SUCCESS,
        { ctx with iv := beBytes 16 ((beValue ctx.iv + bl.length) % 2 ^ 128) },
        (ctrReference E ctx.ciphCtx (beValue ctx.iv) bl).1) ∧
    beValue (beBytes 16 ((beValue ctx.iv + bl.length) % 2 ^ 128)) =
      (beValue ctx.iv + bl.length) % 2 ^ 128 ∧
    beValue ((beBytes 16 ((beValue ctx.iv + bl.length) % 2 ^ 128)).take 12) =
      (beValue (ctx.iv.take 12) +
        (if 2 ^ 32 ≤ beValue (ctx.iv.drop 12) + bl.length then 1 else 0)) % 2 ^ 96 := by
  have hC := beValue_lt16 ctx.iv hivl
  have hiv := (beBytes16_beValue ctx.iv hivl).symm
  have hl := flatten_blocks_length bl hbl
  refine ⟨?_, ?_, ?_⟩
  · have hloop : AES_CTR_EncryptBlock.loop h bl.flatten.length ctx bl.flatten =
        some ({ ctx with iv := beBytes 16 ((beValue ctx.iv + bl.length) % 2 ^ 128) },
          (ctrReference E ctx.ciphCtx (beValue ctx.iv) bl).1, []) := by
      by_cases hw : 2 ^ 32 ≤ beValue ctx.iv % 2 ^ 32 + bl.length
      · exact ctr_loop_wrap h E hPrim hInc bl hbl _ ctx _ hbs hiv hC (by omega) hlen hw
      · exact ctr_loop_nowrap h E hPrim bl hbl _ ctx _ hbs hiv hC (by omega) hlen (by omega)
    have hne : ¬ (bl.flatten.length = 0) := by omega
    unfold AES_CTR_EncryptBlock
    rw [if_neg hne]
    simp only [hLast ctx bl.flatten hoff, List.drop_zero]
    rw [hloop]
    simp only [hRem, List.nil_append, List.append_nil]
  · have e : (256 : Nat) ^ 16 = 2 ^ 128 := by norm_num
    rw [beValue_beBytes, e, Nat.mod_mod]
  · have h1 : beValue ctx.iv = beValue (ctx.iv.take 12) * 2 ^ 32 + beValue (ctx.iv.drop 12) := by
      have := beValue_append (ctx.iv.take 12) (ctx.iv.drop 12)
      rw [List.take_append_drop, List.length_drop, hivl] at this
      rw [this]
      norm_num
    have h2 : beValue (ctx.iv.drop 12) < 2 ^ 32 := by
      have := beValue_lt (ctx.iv.drop 12)
      rw [List.length_drop, hivl] at this
      have e : (256 : Nat) ^ (16 - 12) = 2 ^ 32 := by norm_num
      rw [e] at this
      exact this
    have h3 : beValue (ctx.iv.take 12) < 2 ^ 96 := by
      have := beValue_lt (ctx.iv.take 12)
      rw [List.length_take, hivl] at this
      have e : (256 : Nat) ^ (min 12 16) = 2 ^ 96 := by norm_num
      rw [e] at this
      exact this
    rw [beBytes16_take, beValue_beBytes12, h1]
    split_ifs with hw <;> omega

theorem C6_witness :
    AES_CTR_EncryptBlock (demoCtrHelpers demoBlock) demoCtrCtx
        [List.replicate 16 1, List.replicate 16 2, List.replicate 16 3,
          List.replicate 16 4].flatten =
      some (CRYPT_SUCCESS,
        { demoCtrCtx with iv := beBytes 16 ((beValue demoCtrCtx.iv + 4) % 2 ^ 128) },
        (ctrReference demoBlock [0x3C] (beValue demoCtrCtx.iv)
          [List.replicate 16 1, List.replicate 16 2, List.replicate 16 3,
            List.replicate 16 4]).1) :=
  (C6_ctr_counter_wrap (demoCtrHelpers demoBlock) demoBlock demoCtrCtx
    [List.replicate 16 1, List.replicate 16 2, List.replicate 16 3, List.replicate 16 4]
    (fun _ _ _ => rfl) (fun _ => rfl) (demoCtrHelpers_primitive demoBlock) (fun _ _ => rfl)
    rfl rfl rfl (by decide) (by decide) (by decide)).1

/-- C11 (counterexample): with block size 16 and a cache of 14 bytes (here fourteen bytes
`0xAA` in a 32-byte buffer), `MODES_BlockPadding` with `CRYPT_PADDING_X923` sets
`dataLen = 16` and appends the two pad bytes `[0x00, 0x02]`, not the three bytes
`[0x00, 0x00, 0x02]`. -/
theorem C11_x923_two_pad_bytes :
    MODES_BlockPadding CRYPT_CIPHER_AES128_CBC CRYPT_PADDING_X923 16
        (List.replicate 32 0xAA) 14 =
      (CRYPT_SUCCESS, List.replicate 14 0xAA ++ [0x00, 0x02] ++ List.replicate 16 0xAA, 16) ∧
    ((MODES_BlockPadding CRYPT_CIPHER_AES128_CBC CRYPT_PADDING_X923 16
        (List.replicate 32 0xAA) 14).2.1.drop 14).take
      ((MODES_BlockPadding CRYPT_CIPHER_AES128_CBC CRYPT_PADDING_X923 16
        (List.replicate 32 0xAA) 14).2.2 - 14) ≠ [0x00, 0x00, 0x02] := by
  decide

/-- C11 (amended): with block size 16 and a cache of 14 bytes, `MODES_BlockPadding` with
`CRYPT_PADDING_X923` returns `CRYPT_SUCCESS`, sets `dataLen = 16`, keeps the 14 cached bytes
and appends the pad bytes `[0x00, 0x02]`; the pad `[0x00, 0x00, 0x02]` is the one of a cache
of 13 bytes. -/
theorem C11_x923_pad_example (algId : CRYPT_CIPHER_AlgId) (data : List UInt8)
    (hdata : 16 ≤ data.length) :
    MODES_BlockPadding algId CRYPT_PADDING_X923 16 data 14 =
      (CRYPT_SUCCESS, data.take 14 ++ [0x00, 0x02] ++ data.drop 16, 16) ∧
    MODES_BlockPadding algId CRYPT_PADDING_X923 16 data 13 =
      (CRYPT_SUCCESS, data.take 13 ++ [0x00, 0x00, 0x03] ++ data.drop 16, 16) := by
  constructor
  · rw [ MODES_BlockPadding_eq algId CRYPT_PADDING_X923 16 14 data (by decide) (by decide)
      (by decide) (by decide) hdata]
    rfl
  · rw [ MODES_BlockPadding_eq algId CRYPT_PADDING_X923 16 13 data (by decide) (by decide)
      (by decide) (by decide) hdata]
    rfl

theorem C11_witness :
    MODES_BlockPadding CRYPT_CIPHER_AES128_CBC CRYPT_PADDING_X923 16 (List.replicate 32 7) 14 =
      (CRYPT_SUCCESS, (List.replicate 32 7).take 14 ++ [0x00, 0x02] ++
        (List.replicate 32 7).drop 16, 16) :=
  (C11_x923_pad_example CRYPT_CIPHER_AES128_CBC (List.replicate 32 7) (by decide)).1

/-- C12. Unpadding undoes padding: for each of the schemes ISO7816, X923, PKCS5, PKCS7, every
block size `1 ≤ bs ≤ 32`, every `n < bs` and every cache buffer (of at least `bs` bytes)
whose first `n` bytes are the data, whatever they are, `Mode_BlockUnPadding` with
`padLen = bs` on the block written by `MODES_BlockPadding` (the first `bs` bytes of the
buffer) returns `CRYPT_SUCCESS` with `dataLen = n`. -/
theorem C12_unpadding_undoes_padding (algId : CRYPT_CIPHER_AlgId) (padding : CRYPT_PaddingType)
    (bs n : Nat) (data : List UInt8) (dataLen : Nat)
    (hpad : padding = CRYPT_PADDING_ISO7816 ∨ padding = CRYPT_PADDING_X923 ∨
      padding = CRYPT_PADDING_PKCS5 ∨ padding = CRYPT_PADDING_PKCS7)
    (hbs1 : 1 ≤ bs) (hbs2 : bs ≤ 32) (hn : n < bs) (hdata : bs ≤ data.length) :
    (MODES_BlockPadding algId padding bs data n).1 = CRYPT_SUCCESS ∧
    (MODES_BlockPadding algId padding bs data n).2.2 = bs ∧
    ((MODES_BlockPadding algId padding bs data n).2.1.take bs).take n = data.take n ∧
    Mode_BlockUnPadding padding ((MODES_BlockPadding algId padding bs data n).2.1.take bs) bs
      dataLen = (CRYPT_SUCCESS, n) := by
  have hp1 : padding ≠ CRYPT_PADDING_NONE := by
    rcases hpad with h | h | h | h <;> rw [h] <;> decide
  have hp2 : padding ≠ CRYPT_PADDING_MAX_COUNT := by
    rcases hpad with h | h | h | h <;> rw [h] <;> decide
  have hcl : (data.take n).length = n := by
    rw [List.length_take]; omega
  have hsl : (specPadBytes padding (bs - n)).length = bs - n :=
    specPadBytes_length padding (bs - n) (by omega) hp1 hp2
  have hbl : (data.take n ++ specPadBytes padding (bs - n)).length = bs := by
    rw [List.length_append, hcl, hsl]; omega
  rw [ MODES_BlockPadding_eq algId padding bs n data hp1 hp2 (by omega) hn hdata]
  simp only []
  rw [List.take_left' hbl]
  refine ⟨trivial, trivial, List.take_left' hcl, ?_⟩
  have h := unpad_pad padding (data.take n) bs dataLen hpad (by omega) (by rw [hcl]; exact hn)
  rw [hcl] at h
  exact h

theorem C12_witness :
    Mode_BlockUnPadding CRYPT_PADDING_ISO7816
      ((MODES_BlockPadding CRYPT_CIPHER_AES128_CBC CRYPT_PADDING_ISO7816 16
        ([1, 2, 0x80, 0x00, 0x00] ++ List.replicate 27 0xEE) 5).2.1.take 16) 16 99 =
      (CRYPT_SUCCESS, 5) :=
  (C12_unpadding_undoes_padding CRYPT_CIPHER_AES128_CBC CRYPT_PADDING_ISO7816 16 5
    ([1, 2, 0x80, 0x00, 0x00] ++ List.replicate 27 0xEE) 99 (Or.inl rfl) (by decide)
    (by decide) (by decide) (by decide)).2.2.2

/-- Evaluation of the block-aligned part when `len` bytes go to the transform. -/
theorem T_take_ok_w (T : BlockUpdate) (bs : Nat) (c : MODES_CipherCommonCtx) (x : List UInt8)
    (n : Nat) (hT : BlockTransformSucceeds bs T) (hc : c.blockSize = bs) (hn : 0 < n)
    (hle : n ≤ x.length) (hmod : n % bs = 0) :
    T c (x.take n) = (CRYPT_SUCCESS, (applyT T c (x.take n)).1, (applyT T c (x.take n)).2) := by
  have hlen : (x.take n).length = n := by simp [List.length_take]; omega
  have hne : x.take n ≠ [] := List.ne_nil_of_length_pos (by omega)
  have h := hT c (x.take n) hc hne (by rw [hlen]; exact hmod)
  rw [applyT_of_ne_nil T c _ hne]
  ext1
  · exact h.1
  · rfl

theorem blocks_spec_w (T : BlockUpdate) (ctx : MODES_CipherCtx) (tmpIn : List UInt8)
    (hT : BlockTransformSucceeds ctx.commonCtx.blockSize T)
    (hbs1 : 1 ≤ ctx.commonCtx.blockSize) (hbs2 : ctx.commonCtx.blockSize < 256)
    (hne : 0 < tmpIn.length) (hlen : tmpIn.length < 2 ^ 32) :
    MODES_CipherUpdate.blocks ctx T tmpIn =
      (CRYPT_SUCCESS,
        (applyT T ctx.commonCtx
          (tmpIn.take (emitLen ctx.commonCtx.blockSize (defersLast ctx) tmpIn.length))).1,
        (applyT T ctx.commonCtx
          (tmpIn.take (emitLen ctx.commonCtx.blockSize (defersLast ctx) tmpIn.length))).2,
        tmpIn.length - emitLen ctx.commonCtx.blockSize (defersLast ctx) tmpIn.length,
        emitLen ctx.commonCtx.blockSize (defersLast ctx) tmpIn.length) := by
  generalize hbs : ctx.commonCtx.blockSize = bs at *
  generalize hL : tmpIn.length = L at *
  have hmodlt : L % bs < bs := Nat.mod_lt L (by omega)
  have hleft : L % bs % 2 ^ 8 = L % bs := Nat.mod_eq_of_lt (by omega)
  have hmod : L % bs = L - L / bs * bs := mod_eq_sub_div_mul L bs
  have hdle : L / bs * bs ≤ L := Nat.div_mul_le_self L bs
  have hlen0 : L - L % bs = L / bs * bs := by omega
  have hdvd : (L / bs * bs) % bs = 0 := Nat.mul_mod_left _ _
  unfold MODES_CipherUpdate.blocks
  simp only [hbs, hL, hleft, hlen0]
  by_cases hpos : L / bs * bs > 0
  · rw [if_pos hpos]
    by_cases henc : ctx.enc = true
    · have hd : defersLast ctx = false := by simp [defersLast, henc]
      rw [if_pos henc, hd]
      simp only [emitLen, Bool.false_eq_true, if_false]
      rw [T_take_ok_w T bs ctx.commonCtx tmpIn _ hT hbs hpos (by omega) hdvd, hmod]
    · rw [if_neg henc]
      by_cases hpad : ctx.pad = CRYPT_PADDING_NONE
      · have hd : defersLast ctx = false := by simp [defersLast, hpad]
        have hdefer : ¬ (ctx.pad ≠ CRYPT_PADDING_NONE ∧ L % bs = 0) := fun h => h.1 hpad
        simp only [hd, if_neg hdefer, if_pos hpos, emitLen, Bool.false_eq_true, if_false]
        rw [T_take_ok_w T bs ctx.commonCtx tmpIn _ hT hbs hpos (by omega) hdvd, hmod]
      · have hd : defersLast ctx = true := by simp [defersLast, henc, hpad]
        by_cases hz : L % bs = 0
        · have hdefer : ctx.pad ≠ CRYPT_PADDING_NONE ∧ L % bs = 0 := ⟨hpad, hz⟩
          have hN : (L - 1) / bs * bs = L / bs * bs - bs :=
            pred_div_mul_of_mod_zero L bs hbs1 hne hz
          have hge : bs ≤ L / bs * bs := by
            rcases Nat.eq_zero_or_pos (L / bs) with h | h
            · rw [h] at hpos; simp at hpos
            · exact Nat.le_mul_of_pos_left bs h
          have hs : sub32 (L / bs * bs) bs = L / bs * bs - bs :=
            sub32_of_le _ _ hge (by omega)
          simp only [hd, if_pos hdefer, emitLen, if_true, hN, hs]
          by_cases hpos2 : L / bs * bs - bs > 0
          · rw [if_pos hpos2]
            have hdvd2 : (L / bs * bs - bs) % bs = 0 := by
              have : L / bs * bs - bs = (L / bs - 1) * bs := by
                rw [Nat.sub_mul]; simp
              rw [this]; exact Nat.mul_mod_left _ _
            rw [T_take_ok_w T bs ctx.commonCtx tmpIn _ hT hbs hpos2 (by omega) hdvd2]
            have : L - (L / bs * bs - bs) = bs := by omega
            rw [this]
          · rw [if_neg hpos2]
            have h0 : L / bs * bs - bs = 0 := by omega
            have : L - 0 = bs := by omega
            simp only [h0, List.take_zero, applyT_nil, this]
        · have hdefer : ¬ (ctx.pad ≠ CRYPT_PADDING_NONE ∧ L % bs = 0) := fun h => hz h.2
          have hN : (L - 1) / bs * bs = L / bs * bs :=
            pred_div_mul_of_mod_pos L bs hbs1 (by omega)
          simp only [hd, if_neg hdefer, if_pos hpos, emitLen, if_true, hN]
          rw [T_take_ok_w T bs ctx.commonCtx tmpIn _ hT hbs hpos (by omega) hdvd, hmod]
  · rw [if_neg hpos]
    have h0 : L / bs * bs = 0 := by omega
    have hlt : L < bs := by omega
    have hN : emitLen bs (defersLast ctx) L = 0 := by
      unfold emitLen
      split
      · have : (L - 1) / bs = 0 := Nat.div_eq_of_lt (by omega)
        rw [this]; simp
      · exact h0
    simp only [hN, List.take_zero, applyT_nil, h0, hmod]

theorem applyT_blockSize_w (T : BlockUpdate) (bs : Nat) (c : MODES_CipherCommonCtx)
    (x : List UInt8) (hT : BlockTransformSucceeds bs T) (hc : c.blockSize = bs)
    (hmod : x.length % bs = 0) : (applyT T c x).1.blockSize = bs := by
  cases x with
  | nil => exact hc
  | cons a l => exact (hT c (a :: l) hc (List.cons_ne_nil _ _) hmod).2.1

theorem applyT_length_w (T : BlockUpdate) (bs : Nat) (c : MODES_CipherCommonCtx)
    (x : List UInt8) (hT : BlockTransformSucceeds bs T) (hc : c.blockSize = bs)
    (hmod : x.length % bs = 0) : (applyT T c x).2.length = x.length := by
  cases x with
  | nil => rfl
  | cons a l => exact (hT c (a :: l) hc (List.cons_ne_nil _ _) hmod).2.2

/-- The part of `MODES_CipherUpdate` after the cache, entered with an empty cache. -/
theorem rest_spec_w (T : BlockUpdate) (ctx : MODES_CipherCtx) (tmpIn out : List UInt8)
    (outLen : Nat)
    (hT : BlockTransformSucceeds ctx.commonCtx.blockSize T)
    (hbs1 : 1 ≤ ctx.commonCtx.blockSize) (hbs2 : ctx.commonCtx.blockSize < 256)
    (hdata : ctx.commonCtx.blockSize ≤ ctx.data.length) (hd0 : ctx.dataLen = 0)
    (hne : 0 < tmpIn.length) (hlen : outLen + tmpIn.length < 2 ^ 32) :
    (MODES_CipherUpdate.rest ctx T tmpIn out outLen).1 = CRYPT_SUCCESS ∧
    (MODES_CipherUpdate.rest ctx T tmpIn out outLen).2.2.2 =
      outLen + emitLen ctx.commonCtx.blockSize (defersLast ctx) tmpIn.length ∧
    (MODES_CipherUpdate.rest ctx T tmpIn out outLen).2.1.commonCtx =
      (applyT T ctx.commonCtx
        (tmpIn.take (emitLen ctx.commonCtx.blockSize (defersLast ctx) tmpIn.length))).1 ∧
    (MODES_CipherUpdate.rest ctx T tmpIn out outLen).2.2.1 =
      out ++ (applyT T ctx.commonCtx
        (tmpIn.take (emitLen ctx.commonCtx.blockSize (defersLast ctx) tmpIn.length))).2 ∧
    (MODES_CipherUpdate.rest ctx T tmpIn out outLen).2.1.data.take
        (MODES_CipherUpdate.rest ctx T tmpIn out outLen).2.1.dataLen =
      tmpIn.drop (emitLen ctx.commonCtx.blockSize (defersLast ctx) tmpIn.length) ∧
    (MODES_CipherUpdate.rest ctx T tmpIn out outLen).2.1.dataLen =
      tmpIn.length - emitLen ctx.commonCtx.blockSize (defersLast ctx) tmpIn.length ∧
    (MODES_CipherUpdate.rest ctx T tmpIn out outLen).2.1.data.length = ctx.data.length ∧
    (MODES_CipherUpdate.rest ctx T tmpIn out outLen).2.1.pad = ctx.pad ∧
    (MODES_CipherUpdate.rest ctx T tmpIn out outLen).2.1.enc = ctx.enc ∧
    (MODES_CipherUpdate.rest ctx T tmpIn out outLen).2.1.algId = ctx.algId := by
  have hb := blocks_spec_w T ctx tmpIn hT hbs1 hbs2 hne (by omega)
  have hNle := emitLen_le ctx.commonCtx.blockSize (defersLast ctx) tmpIn.length
  have hrem := emitLen_rem_le ctx.commonCtx.blockSize (defersLast ctx) tmpIn.length hbs1
  generalize hN : emitLen ctx.commonCtx.blockSize (defersLast ctx) tmpIn.length = N at *
  unfold MODES_CipherUpdate.rest
  simp only [hb, ne_eq, not_true_eq_false, if_false]
  have hmodN : (outLen + N) % 2 ^ 32 = outLen + N := Nat.mod_eq_of_lt (by omega)
  by_cases hleft : tmpIn.length - N > 0
  · simp only [if_pos hleft]
    have hsrc : ((tmpIn.drop N).take (tmpIn.length - N)).length = tmpIn.length - N := by
      simp [List.length_take, List.length_drop]
    have hsrc2 : (tmpIn.drop N).take (tmpIn.length - N) = tmpIn.drop N := by
      apply List.take_of_length_le
      simp [List.length_drop]
    refine ⟨trivial, hmodN, trivial, trivial, ?_, trivial, ?_, trivial, trivial, trivial⟩
    · have := memcpyAt_zero_take ctx.data ((tmpIn.drop N).take (tmpIn.length - N))
      rw [hsrc] at this
      rw [this, hsrc2]
    · apply memcpyAt_length
      rw [hsrc]; omega
  · simp only [if_neg hleft]
    have hNeq : N = tmpIn.length := by omega
    refine ⟨trivial, hmodN, trivial, trivial, ?_, ?_, trivial, trivial, trivial, trivial⟩
    · show ctx.data.take ctx.dataLen = tmpIn.drop N
      rw [hd0, hNeq]; simp
    · show ctx.dataLen = tmpIn.length - N
      rw [hd0]; omega

/-- `MODES_CipherUpdateCache` on a non-empty cache. -/
theorem cache_eq_nonempty_w (T : BlockUpdate) (ctx : MODES_CipherCtx) (inp : List UInt8)
    (hT : BlockTransformSucceeds ctx.commonCtx.blockSize T)
    (hbs1 : 1 ≤ ctx.commonCtx.blockSize) (hbs2 : ctx.commonCtx.blockSize < 256)
    (hdata : ctx.commonCtx.blockSize ≤ ctx.data.length)
    (hd : 0 < ctx.dataLen) (hdle : ctx.dataLen ≤ ctx.commonCtx.blockSize) :
    MODES_CipherUpdateCache ctx T inp 0 =
      if ctx.dataLen + inp.length < ctx.commonCtx.blockSize ∨
          (ctx.dataLen + inp.length = ctx.commonCtx.blockSize ∧ defersLast ctx = true) then
        (CRYPT_SUCCESS,
          { ctx with data := memcpyAt ctx.data ctx.dataLen inp,
                     dataLen := ctx.dataLen + inp.length }, [], [], 0)
      else
        (CRYPT_SUCCESS,
          { ctx with
              commonCtx := (T ctx.commonCtx (ctx.data.take ctx.dataLen ++
                inp.take (ctx.commonCtx.blockSize - ctx.dataLen))).2.1,
              data := memcpyAt ctx.data ctx.dataLen
                (inp.take (ctx.commonCtx.blockSize - ctx.dataLen)),
              dataLen := 0 },
          inp.drop (ctx.commonCtx.blockSize - ctx.dataLen),
          (T ctx.commonCtx (ctx.data.take ctx.dataLen ++
                inp.take (ctx.commonCtx.blockSize - ctx.dataLen))).2.2,
          ctx.commonCtx.blockSize) := by
  unfold MODES_CipherUpdateCache
  simp only [fill_spec ctx inp hbs2 hd hdle]
  generalize hbs : ctx.commonCtx.blockSize = bs at *
  generalize hdl : ctx.dataLen = d at *
  by_cases hlt : d + inp.length < bs
  · have hmin : min inp.length (bs - d) = inp.length := by omega
    rw [if_pos (Or.inl hlt)]
    simp only [hmin, List.take_length, List.drop_length]
    rw [if_pos (by omega)]
  · have hmin : min inp.length (bs - d) = bs - d := by omega
    have hfull : d + (bs - d) = bs := by omega
    simp only [hmin, hfull, ne_eq, not_true_eq_false, if_false]
    have hblock : (memcpyAt ctx.data d (inp.take (bs - d))).take bs =
        ctx.data.take d ++ inp.take (bs - d) := by
      have hl : (inp.take (bs - d)).length = bs - d := by
        simp [List.length_take]; omega
      have := memcpyAt_take ctx.data (inp.take (bs - d)) d (by omega)
      rw [hl, hfull] at this
      exact this
    have hblen : (ctx.data.take d ++ inp.take (bs - d)).length = bs := by
      simp [List.length_take]; omega
    have hok := hT ctx.commonCtx (ctx.data.take d ++ inp.take (bs - d)) hbs
      (List.ne_nil_of_length_pos (by omega)) (by rw [hblen]; exact Nat.mod_self bs)
    by_cases hdef : d + inp.length = bs ∧ defersLast ctx = true
    · rw [if_pos (Or.inr hdef)]
      have hk : bs - d = inp.length := by omega
      have hencf := ((defersLast_eq_true ctx).mp hdef.2)
      have hfull2 : d + inp.length = bs := hdef.1
      simp only [hk, List.take_length, List.drop_length, hfull2]
      have hne : ¬ (ctx.enc = true) := by simp [hencf.1]
      simp only [if_neg hne]
      rw [if_pos ⟨rfl, hencf.2⟩]
    · have hn : ¬ (d + inp.length < bs ∨ (d + inp.length = bs ∧ defersLast ctx = true)) := by
        intro h
        rcases h with h | h
        · exact hlt h
        · exact hdef h
      rw [if_neg hn]
      simp only [hblock]
      unfold MODES_CipherUpdateCache.finish
      simp only [hok.1, ne_eq, not_true_eq_false, if_false, hbs]
      by_cases henc : ctx.enc = true
      · simp only [henc, if_true]
      · have hencf : ctx.enc = false := by simpa using henc
        simp only [hencf, Bool.false_eq_true, if_false]
        have : ¬ ((inp.drop (bs - d)).length = 0 ∧ ctx.pad ≠ CRYPT_PADDING_NONE) := by
          rintro ⟨h1, h2⟩
          apply hdef
          constructor
          · simp [List.length_drop] at h1
            omega
          · exact (defersLast_eq_true ctx).mpr ⟨hencf, h2⟩
        rw [if_neg this]

theorem take_emitLen_length (bs : Nat) (d : Bool) (x : List UInt8) :
    (x.take (emitLen bs d x.length)).length = emitLen bs d x.length := by
  rw [List.length_take]
  exact Nat.min_eq_left (emitLen_le _ _ _)

theorem update_shape_empty_cache (T : BlockUpdate) (ctx : MODES_CipherCtx) (inp : List UInt8)
    (cap : Nat) (hT : BlockTransformSucceeds ctx.commonCtx.blockSize T) (hctx : CtxOK ctx)
    (hd0 : ctx.dataLen = 0) (hlen : inp.length + ctx.dataLen < 2 ^ 32)
    (hcap : (inp.length + ctx.dataLen) / ctx.commonCtx.blockSize * ctx.commonCtx.blockSize
      ≤ cap) :
    UpdateShapeOK ctx inp (MODES_CipherUpdate ctx T inp cap) := by
  obtain ⟨hbs1, hbs2, hdata, -, -⟩ := hctx
  rw [update_eq_empty_cache T ctx inp cap hbs1 hd0 hlen hcap]
  unfold UpdateShapeOK
  have hall : ctx.data.take ctx.dataLen ++ inp = inp := by rw [hd0]; simp
  rw [hall, hd0, Nat.zero_add]
  by_cases hz : inp.length = 0
  · have hnil : inp = [] := List.eq_nil_of_length_eq_zero hz
    subst hnil
    rw [if_pos hz]
    have hN : emitLen ctx.commonCtx.blockSize (defersLast ctx) ([] : List UInt8).length = 0 :=
      emitLen_small _ _ _ (by simp; omega)
    rw [hN]
    simp [hd0]
  · rw [if_neg hz]
    have h := rest_spec_w T ctx inp [] 0 hT hbs1 hbs2 hdata hd0 (by omega) (by omega)
    obtain ⟨h1, h2, h3, h4, h5, h6, h7, h8, h9, h10⟩ := h
    have hmod : (inp.take (emitLen ctx.commonCtx.blockSize (defersLast ctx)
        inp.length)).length % ctx.commonCtx.blockSize = 0 := by
      rw [take_emitLen_length]; exact emitLen_mod _ _ _
    refine ⟨h1, ?_, ?_, h6, h5, h7, h8, h9, h10, ?_⟩
    · rw [h2]; simp
    · rw [h4, List.nil_append, applyT_length_w T _ _ _ hT rfl hmod, take_emitLen_length]
    · rw [h3]
      exact applyT_blockSize_w T _ _ _ hT rfl hmod

theorem update_shape_nonempty_cache (T : BlockUpdate) (ctx : MODES_CipherCtx)
    (inp : List UInt8) (cap : Nat) (hT : BlockTransformSucceeds ctx.commonCtx.blockSize T)
    (hctx : CtxOK ctx) (hd : 0 < ctx.dataLen) (hlen : inp.length + ctx.dataLen < 2 ^ 32)
    (hcap : (inp.length + ctx.dataLen) / ctx.commonCtx.blockSize * ctx.commonCtx.blockSize
      ≤ cap) :
    UpdateShapeOK ctx inp (MODES_CipherUpdate ctx T inp cap) := by
  obtain ⟨hbs1, hbs2, hdata, hdle, hdlt⟩ := hctx
  have hU : MODES_CipherUpdate ctx T inp cap =
      if (MODES_CipherUpdateCache ctx T inp 0).2.2.1.length = 0 then
        (CRYPT_SUCCESS, (MODES_CipherUpdateCache ctx T inp 0).2.1,
          (MODES_CipherUpdateCache ctx T inp 0).2.2.2.1,
          (MODES_CipherUpdateCache ctx T inp 0).2.2.2.2)
      else MODES_CipherUpdate.rest (MODES_CipherUpdateCache ctx T inp 0).2.1 T
          (MODES_CipherUpdateCache ctx T inp 0).2.2.1
          (MODES_CipherUpdateCache ctx T inp 0).2.2.2.1
          (MODES_CipherUpdateCache ctx T inp 0).2.2.2.2 := by
    have hc1 : (MODES_CipherUpdateCache ctx T inp 0).1 = CRYPT_SUCCESS := by
      rw [cache_eq_nonempty_w T ctx inp hT hbs1 hbs2 hdata hd hdle]
      split <;> rfl
    unfold MODES_CipherUpdate
    rw [check_ok _ _ _ _ hlen hcap]
    simp only [hc1, ne_eq, not_true_eq_false, if_false]
  rw [hU, cache_eq_nonempty_w T ctx inp hT hbs1 hbs2 hdata hd hdle]
  unfold UpdateShapeOK
  generalize hbs : ctx.commonCtx.blockSize = bs at *
  generalize hdl : ctx.dataLen = d at *
  have hcl : (ctx.data.take d).length = d := by
    simp [List.length_take]; omega
  by_cases hcond : d + inp.length < bs ∨ (d + inp.length = bs ∧ defersLast ctx = true)
  · rw [if_pos hcond]
    have hN : emitLen bs (defersLast ctx) (d + inp.length) = 0 := by
      rcases hcond with h | h
      · exact emitLen_small _ _ _ h
      · rw [h.1, h.2]; exact emitLen_block_true bs hbs1
    have hle : d + inp.length ≤ bs := by
      rcases hcond with h | h <;> omega
    rw [hN]
    simp only [List.length_nil, if_true, List.drop_zero, Nat.sub_zero]
    refine ⟨trivial, trivial, trivial, trivial, ?_, ?_, trivial, trivial, trivial, hbs⟩
    · exact memcpyAt_take ctx.data inp d (by omega)
    · exact memcpyAt_length ctx.data inp d (by omega)
  · rw [if_neg hcond]
    have hge : bs ≤ d + inp.length := by
      by_contra h
      exact hcond (Or.inl (by omega))
    have hkl : (inp.take (bs - d)).length = bs - d := by
      simp [List.length_take]; omega
    have hblen : (ctx.data.take d ++ inp.take (bs - d)).length = bs := by
      rw [List.length_append, hcl, hkl]; omega
    have hBne : ctx.data.take d ++ inp.take (bs - d) ≠ [] :=
      List.ne_nil_of_length_pos (by omega)
    have hok := hT ctx.commonCtx (ctx.data.take d ++ inp.take (bs - d)) hbs hBne
      (by rw [hblen]; exact Nat.mod_self bs)
    have hsplit : ctx.data.take d ++ inp =
        (ctx.data.take d ++ inp.take (bs - d)) ++ inp.drop (bs - d) := by
      rw [List.append_assoc, List.take_append_drop]
    have hdlen : (inp.drop (bs - d)).length = inp.length - (bs - d) := List.length_drop _ _
    have hml : (memcpyAt ctx.data d (inp.take (bs - d))).length = ctx.data.length :=
      memcpyAt_length _ _ _ (by rw [hkl]; omega)
    simp only []
    by_cases hz : (inp.drop (bs - d)).length = 0
    · rw [if_pos hz]
      have heq : d + inp.length = bs := by omega
      have hdf : defersLast ctx = false := by
        cases h : defersLast ctx with
        | false => rfl
        | true => exact absurd (Or.inr ⟨heq, h⟩) hcond
      have hN : emitLen bs (defersLast ctx) (d + inp.length) = bs := by
        rw [heq, hdf]; exact emitLen_block_false bs hbs1
      have hdr : (ctx.data.take d ++ inp).drop bs = [] := by
        apply List.drop_of_length_le
        rw [List.length_append, hcl]; omega
      rw [hN, hdr]
      simp only [List.take_zero]
      refine ⟨trivial, trivial, ?_, ?_, trivial, hml, trivial, trivial, trivial, hok.2.1⟩
      · rw [hok.2.2, hblen]
      · omega
    · rw [if_neg hz]
      have hmpos : 0 < (inp.drop (bs - d)).length := by omega
      have hcc : (T ctx.commonCtx (ctx.data.take d ++ inp.take (bs - d))).2.1.blockSize = bs :=
        hok.2.1
      have hr := rest_spec_w T
        { ctx with
            commonCtx := (T ctx.commonCtx (ctx.data.take d ++ inp.take (bs - d))).2.1,
            data := memcpyAt ctx.data d (inp.take (bs - d)),
            dataLen := 0 } (inp.drop (bs - d))
        (T ctx.commonCtx (ctx.data.take d ++ inp.take (bs - d))).2.2 bs
        (by rw [hcc]; exact hT) (by rw [hcc]; exact hbs1) (by rw [hcc]; exact hbs2)
        (by rw [hcc, hml]; exact hdata) rfl hmpos (by rw [hdlen]; omega)
      have hdfl : defersLast { ctx with
            commonCtx := (T ctx.commonCtx (ctx.data.take d ++ inp.take (bs - d))).2.1,
            data := memcpyAt ctx.data d (inp.take (bs - d)),
            dataLen := 0 } = defersLast ctx := rfl
      simp only [hcc, hdfl] at hr
      obtain ⟨h1, h2, h3, h4, h5, h6, h7, h8, h9, h10⟩ := hr
      have hcnd : defersLast ctx = false ∨ 0 < (inp.drop (bs - d)).length := Or.inr hmpos
      have hN : emitLen bs (defersLast ctx) (d + inp.length) =
          bs + emitLen bs (defersLast ctx) (inp.drop (bs - d)).length := by
        have e : d + inp.length = 1 * bs + (inp.drop (bs - d)).length := by
          rw [hdlen]; omega
        rw [e, emitLen_mul_add bs _ 1 _ hbs1 hcnd]
        omega
      have hmod : ((inp.drop (bs - d)).take (emitLen bs (defersLast ctx)
          (inp.drop (bs - d)).length)).length % bs = 0 := by
        rw [take_emitLen_length]; exact emitLen_mod _ _ _
      have hlenw := applyT_length_w T bs _ _ hT hcc hmod
      rw [take_emitLen_length] at hlenw
      generalize hN1 : emitLen bs (defersLast ctx) (inp.drop (bs - d)).length = N1 at *
      have hN1le : N1 ≤ (inp.drop (bs - d)).length := by
        rw [← hN1]; exact emitLen_le _ _ _
      have hdrop : (ctx.data.take d ++ inp).drop (bs + N1) = (inp.drop (bs - d)).drop N1 := by
        have := @List.drop_append _ (ctx.data.take d ++ inp.take (bs - d))
          (inp.drop (bs - d)) N1
        rw [hblen] at this
        rw [hsplit, this]
      rw [hN, hdrop]
      refine ⟨h1, ?_, ?_, ?_, h5, ?_, h8, h9, h10, ?_⟩
      · rw [h2]
      · rw [h4, List.length_append, hok.2.2, hblen, hlenw]
      · rw [h6, hdlen]; omega
      · rw [h7]; exact hml
      · rw [h3]
        exact applyT_blockSize_w T bs _ _ hT hcc hmod

theorem update_shape (T : BlockUpdate) (ctx : MODES_CipherCtx) (inp : List UInt8) (cap : Nat)
    (hT : BlockTransformSucceeds ctx.commonCtx.blockSize T) (hctx : CtxOK ctx)
    (hlen : inp.length + ctx.dataLen < 2 ^ 32)
    (hcap : (inp.length + ctx.dataLen) / ctx.commonCtx.blockSize * ctx.commonCtx.blockSize
      ≤ cap) :
    UpdateShapeOK ctx inp (MODES_CipherUpdate ctx T inp cap) := by
  rcases Nat.eq_zero_or_pos ctx.dataLen with h | h
  · exact update_shape_empty_cache T ctx inp cap hT hctx h hlen hcap
  · exact update_shape_nonempty_cache T ctx inp cap hT hctx h hlen hcap

theorem succeeds_of_ok (bs : Nat) (T : BlockUpdate) (h : BlockTransformOK bs T) :
    BlockTransformSucceeds bs T :=
  fun c a hc ha hm => ⟨(h c a hc ha hm).1, (h c a hc ha hm).2.1, (h c a hc ha hm).2.2.1⟩

theorem check_fail_iff (bs d n cap : Nat) (hn : n < 2 ^ 32) (hd : d < 2 ^ 32) :
    MODE_CheckUpdateParam bs d n cap = CRYPT_EAL_BUFF_LEN_NOT_ENOUGH ↔
      (2 ^ 32 ≤ n + d ∨ cap < (n + d) / bs * bs) := by
  unfold MODE_CheckUpdateParam
  by_cases hov : 2 ^ 32 ≤ n + d
  · have h1 : (n + d) % 2 ^ 32 < n := by omega
    rw [if_pos h1]
    exact ⟨fun _ => Or.inl hov, fun _ => rfl⟩
  · have hm : (n + d) % 2 ^ 32 = n + d := Nat.mod_eq_of_lt (by omega)
    rw [hm, if_neg (by omega)]
    by_cases hc : cap < (n + d) / bs * bs
    · rw [if_pos hc]
      exact ⟨fun _ => Or.inr hc, fun _ => rfl⟩
    · rw [if_neg hc]
      constructor
      · intro h; exact absurd h (by decide)
      · intro h
        rcases h with h | h
        · exact absurd h hov
        · exact absurd h hc

theorem check_success_or_fail (bs d n cap : Nat) :
    MODE_CheckUpdateParam bs d n cap = CRYPT_SUCCESS ∨
      MODE_CheckUpdateParam bs d n cap = CRYPT_EAL_BUFF_LEN_NOT_ENOUGH := by
  unfold MODE_CheckUpdateParam
  split_ifs <;> simp

theorem update_of_check_fail (T : BlockUpdate) (ctx : MODES_CipherCtx) (inp : List UInt8)
    (cap : Nat)
    (h : MODE_CheckUpdateParam ctx.commonCtx.blockSize ctx.dataLen inp.length cap =
      CRYPT_EAL_BUFF_LEN_NOT_ENOUGH) :
    MODES_CipherUpdate ctx T inp cap = (CRYPT_EAL_BUFF_LEN_NOT_ENOUGH, ctx, [], cap) := by
  unfold MODES_CipherUpdate
  rw [h, if_pos (by decide)]

/-- C13. Update capacity check: for `blockSize ≥ 1`, an input of `inLen < 2 ^ 32` bytes and
a cache length that fits its `uint8_t`, `MODE_CheckUpdateParam` returns
`CRYPT_EAL_BUFF_LEN_NOT_ENOUGH` if and only if `inLen + cacheLen` does not fit 32 bits or
the capacity is below `(inLen + cacheLen) / blockSize * blockSize`. In that case
`MODES_CipherUpdate` returns this code with the context, the output and `*outLen` as they
were, whatever the block transform is (it is not called); in the other case, on a
well-formed context and with a block transform that succeeds, `MODES_CipherUpdate` returns
`CRYPT_SUCCESS`. -/
theorem C13_update_capacity_check (T : BlockUpdate) (ctx : MODES_CipherCtx)
    (inp : List UInt8) (cap : Nat) (_hbs : 1 ≤ ctx.commonCtx.blockSize)
    (hin : inp.length < 2 ^ 32) (hd : ctx.dataLen < 2 ^ 8) :
    (MODE_CheckUpdateParam ctx.commonCtx.blockSize ctx.dataLen inp.length cap =
        CRYPT_EAL_BUFF_LEN_NOT_ENOUGH ↔
      (2 ^ 32 ≤ inp.length + ctx.dataLen ∨
        cap < (inp.length + ctx.dataLen) / ctx.commonCtx.blockSize *
          ctx.commonCtx.blockSize)) ∧
    ((2 ^ 32 ≤ inp.length + ctx.dataLen ∨
        cap < (inp.length + ctx.dataLen) / ctx.commonCtx.blockSize *
          ctx.commonCtx.blockSize) →
      MODES_CipherUpdate ctx T inp cap = (CRYPT_EAL_BUFF_LEN_NOT_ENOUGH, ctx, [], cap)) ∧
    (¬ (2 ^ 32 ≤ inp.length + ctx.dataLen ∨
        cap < (inp.length + ctx.dataLen) / ctx.commonCtx.blockSize *
          ctx.commonCtx.blockSize) →
      CtxOK ctx → BlockTransformSucceeds ctx.commonCtx.blockSize T →
      (MODES_CipherUpdate ctx T inp cap).1 = CRYPT_SUCCESS) := by
  have hiff := check_fail_iff ctx.commonCtx.blockSize ctx.dataLen inp.length cap hin
    (by omega)
  refine ⟨hiff, fun hc => update_of_check_fail T ctx inp cap (hiff.mpr hc), ?_⟩
  intro hc hctx hT
  exact (update_shape T ctx inp cap hT hctx (by omega) (by omega)).1

theorem C13_witness :
    MODES_CipherUpdate (demoCtx CRYPT_PADDING_PKCS7 true) (xorBlockUpdate 0x5A) demoPlain 15 =
      (CRYPT_EAL_BUFF_LEN_NOT_ENOUGH, demoCtx CRYPT_PADDING_PKCS7 true, [], 15) :=
  (C13_update_capacity_check (xorBlockUpdate 0x5A) (demoCtx CRYPT_PADDING_PKCS7 true)
    demoPlain 15 (by decide) (by decide) (by decide)).2.1 (Or.inr (by decide))

/-- C14. Update length accounting on encrypt: for `enc = true`, any padding selector, a
cache of `c < blockSize` bytes, an input of `n` bytes with `c + n < 2 ^ 32`, a capacity of
at least `(c + n) / blockSize * blockSize` and a block transform that succeeds,
`MODES_CipherUpdate` returns `CRYPT_SUCCESS` with `*outLen = (c + n) / blockSize *
blockSize`, has written exactly that many bytes, leaves `cacheLen = (c + n) % blockSize`,
and the cache holds the last `(c + n) % blockSize` bytes of the old cache followed by the
input. -/
theorem C14_update_length_accounting (T : BlockUpdate) (ctx : MODES_CipherCtx)
    (inp : List UInt8) (cap : Nat)
    (hT : BlockTransformSucceeds ctx.commonCtx.blockSize T) (henc : ctx.enc = true)
    (hbs1 : 1 ≤ ctx.commonCtx.blockSize) (hbs2 : ctx.commonCtx.blockSize < 256)
    (hdata : ctx.commonCtx.blockSize ≤ ctx.data.length)
    (hc : ctx.dataLen < ctx.commonCtx.blockSize)
    (hlen : inp.length + ctx.dataLen < 2 ^ 32)
    (hcap : (inp.length + ctx.dataLen) / ctx.commonCtx.blockSize * ctx.commonCtx.blockSize
      ≤ cap) :
    (MODES_CipherUpdate ctx T inp cap).1 = CRYPT_SUCCESS ∧
    (MODES_CipherUpdate ctx T inp cap).2.2.2 =
      (ctx.dataLen + inp.length) / ctx.commonCtx.blockSize * ctx.commonCtx.blockSize ∧
    (MODES_CipherUpdate ctx T inp cap).2.2.1.length =
      (MODES_CipherUpdate ctx T inp cap).2.2.2 ∧
    (MODES_CipherUpdate ctx T inp cap).2.1.dataLen =
      (ctx.dataLen + inp.length) % ctx.commonCtx.blockSize ∧
    (MODES_CipherUpdate ctx T inp cap).2.1.data.take
        ((ctx.dataLen + inp.length) % ctx.commonCtx.blockSize) =
      (ctx.data.take ctx.dataLen ++ inp).drop
        ((ctx.data.take ctx.dataLen ++ inp).length -
          (ctx.dataLen + inp.length) % ctx.commonCtx.blockSize) := by
  have hd : defersLast ctx = false := by simp [defersLast, henc]
  have hctx : CtxOK ctx := ⟨hbs1, hbs2, hdata, by omega, fun _ => hc⟩
  obtain ⟨h1, h2, h3, h4, h5, -⟩ := update_shape T ctx inp cap hT hctx hlen hcap
  have hN : emitLen ctx.commonCtx.blockSize (defersLast ctx) (ctx.dataLen + inp.length) =
      (ctx.dataLen + inp.length) / ctx.commonCtx.blockSize * ctx.commonCtx.blockSize := by
    rw [hd]; simp [emitLen]
  have hmod := mod_eq_sub_div_mul (ctx.dataLen + inp.length) ctx.commonCtx.blockSize
  have hle := Nat.div_mul_le_self (ctx.dataLen + inp.length) ctx.commonCtx.blockSize
  have hall : (ctx.data.take ctx.dataLen ++ inp).length = ctx.dataLen + inp.length := by
    rw [List.length_append, List.length_take]; omega
  rw [hN] at h2 h3 h4 h5
  have h4a : (MODES_CipherUpdate ctx T inp cap).2.1.dataLen =
      (ctx.dataLen + inp.length) % ctx.commonCtx.blockSize := by rw [h4, hmod]
  refine ⟨h1, h2, by rw [h3, h2], h4a, ?_⟩
  rw [← h4a, h5, hall, h4a]
  congr 1
  omega

theorem C14_witness :
    (MODES_CipherUpdate (demoCtx CRYPT_PADDING_NONE true) (xorBlockUpdate 0x5A) demoPlain
        16).2.2.2 = (0 + 19) / 16 * 16 ∧
    (MODES_CipherUpdate (demoCtx CRYPT_PADDING_NONE true) (xorBlockUpdate 0x5A) demoPlain
        16).2.1.dataLen = (0 + 19) % 16 :=
  ⟨(C14_update_length_accounting (xorBlockUpdate 0x5A) (demoCtx CRYPT_PADDING_NONE true)
      demoPlain 16 (succeeds_of_ok 16 _ (xorBlockUpdate_ok 16 0x5A)) rfl (by decide)
      (by decide) (by decide) (by decide) (by decide) (by decide)).2.1,
    (C14_update_length_accounting (xorBlockUpdate 0x5A) (demoCtx CRYPT_PADDING_NONE true)
      demoPlain 16 (succeeds_of_ok 16 _ (xorBlockUpdate_ok 16 0x5A)) rfl (by decide)
      (by decide) (by decide) (by decide) (by decide) (by decide)).2.2.2.1⟩

/-- C15. Decryption padding lookahead: for `enc = false`, a padding selector other than
`CRYPT_PADDING_NONE`, a cache of at most one block, no overflow, enough capacity and a block
transform that succeeds, `MODES_CipherUpdate` returns `CRYPT_SUCCESS`; with
`T = cacheLen + inLen`, if `T` is a positive multiple of `blockSize` then `*outLen =
T - blockSize` bytes are written, `cacheLen = blockSize` and the cache holds the last
block of the old cache followed by the input, as it came; if `T` is not a multiple of
`blockSize` then `*outLen = T / blockSize * blockSize` and `cacheLen = T % blockSize`. If
moreover the transform is blockwise, the bytes written and the context left are those of
the transform on the first `*outLen` bytes alone: the held block has not gone through
it. -/
theorem C15_decrypt_padding_lookahead (T : BlockUpdate) (ctx : MODES_CipherCtx)
    (inp : List UInt8) (cap : Nat)
    (hT : BlockTransformSucceeds ctx.commonCtx.blockSize T) (henc : ctx.enc = false)
    (hpad : ctx.pad ≠ CRYPT_PADDING_NONE)
    (hbs1 : 1 ≤ ctx.commonCtx.blockSize) (hbs2 : ctx.commonCtx.blockSize < 256)
    (hdata : ctx.commonCtx.blockSize ≤ ctx.data.length)
    (hc : ctx.dataLen ≤ ctx.commonCtx.blockSize)
    (hlen : inp.length + ctx.dataLen < 2 ^ 32)
    (hcap : (inp.length + ctx.dataLen) / ctx.commonCtx.blockSize * ctx.commonCtx.blockSize
      ≤ cap) :
    (MODES_CipherUpdate ctx T inp cap).1 = CRYPT_SUCCESS ∧
    (MODES_CipherUpdate ctx T inp cap).2.2.1.length =
      (MODES_CipherUpdate ctx T inp cap).2.2.2 ∧
    (0 < ctx.dataLen + inp.length →
      (ctx.dataLen + inp.length) % ctx.commonCtx.blockSize = 0 →
      (MODES_CipherUpdate ctx T inp cap).2.2.2 =
        ctx.dataLen + inp.length - ctx.commonCtx.blockSize ∧
      (MODES_CipherUpdate ctx T inp cap).2.1.dataLen = ctx.commonCtx.blockSize ∧
      (MODES_CipherUpdate ctx T inp cap).2.1.data.take ctx.commonCtx.blockSize =
        (ctx.data.take ctx.dataLen ++ inp).drop
          (ctx.dataLen + inp.length - ctx.commonCtx.blockSize)) ∧
    ((ctx.dataLen + inp.length) % ctx.commonCtx.blockSize ≠ 0 →
      (MODES_CipherUpdate ctx T inp cap).2.2.2 =
        (ctx.dataLen + inp.length) / ctx.commonCtx.blockSize * ctx.commonCtx.blockSize ∧
      (MODES_CipherUpdate ctx T inp cap).2.1.dataLen =
        (ctx.dataLen + inp.length) % ctx.commonCtx.blockSize) ∧
    (BlockTransformOK ctx.commonCtx.blockSize T →
      (MODES_CipherUpdate ctx T inp cap).2.2.1 =
        (applyT T ctx.commonCtx ((ctx.data.take ctx.dataLen ++ inp).take
          (MODES_CipherUpdate ctx T inp cap).2.2.2)).2 ∧
      (MODES_CipherUpdate ctx T inp cap).2.1.commonCtx =
        (applyT T ctx.commonCtx ((ctx.data.take ctx.dataLen ++ inp).take
          (MODES_CipherUpdate ctx T inp cap).2.2.2)).1) := by
  have hd : defersLast ctx = true := (defersLast_eq_true ctx).mpr ⟨henc, hpad⟩
  have hctx : CtxOK ctx := ⟨hbs1, hbs2, hdata, hc, fun h => by rw [hd] at h; cases h⟩
  obtain ⟨h1, h2, h3, h4, h5, -⟩ := update_shape T ctx inp cap hT hctx hlen hcap
  rw [hd] at h2 h3 h4 h5
  refine ⟨h1, by rw [h3, h2], ?_, ?_, ?_⟩
  · intro hpos hmod
    have hN : emitLen ctx.commonCtx.blockSize true (ctx.dataLen + inp.length) =
        ctx.dataLen + inp.length - ctx.commonCtx.blockSize := by
      unfold emitLen
      rw [if_pos rfl, pred_div_mul_of_mod_zero _ _ hbs1 hpos hmod]
      have := Nat.div_add_mod (ctx.dataLen + inp.length) ctx.commonCtx.blockSize
      rw [hmod, Nat.add_zero, Nat.mul_comm] at this
      rw [this]
    have hge : ctx.commonCtx.blockSize ≤ ctx.dataLen + inp.length :=
      Nat.le_of_dvd hpos (Nat.dvd_of_mod_eq_zero hmod)
    rw [hN] at h2 h4 h5
    have h4a : (MODES_CipherUpdate ctx T inp cap).2.1.dataLen = ctx.commonCtx.blockSize := by
      rw [h4]; omega
    refine ⟨h2, h4a, ?_⟩
    rw [h4a] at h5
    exact h5
  · intro hmod
    have hN : emitLen ctx.commonCtx.blockSize true (ctx.dataLen + inp.length) =
        (ctx.dataLen + inp.length) / ctx.commonCtx.blockSize * ctx.commonCtx.blockSize := by
      unfold emitLen
      rw [if_pos rfl, pred_div_mul_of_mod_pos _ _ hbs1 (by omega)]
    rw [hN] at h2 h4
    refine ⟨h2, ?_⟩
    rw [h4, mod_eq_sub_div_mul]
  · intro hOK
    obtain ⟨-, g2, g3, g4, -⟩ := update_spec T ctx inp cap hOK hctx hlen hcap
    rw [g2]
    exact ⟨g4, g3⟩

theorem C15_witness :
    (MODES_CipherUpdate (demoCtx CRYPT_PADDING_PKCS7 false) (xorBlockUpdate 0x5A)
        (List.replicate 32 1) 32).2.2.2 = 0 + 32 - 16 ∧
    (MODES_CipherUpdate (demoCtx CRYPT_PADDING_PKCS7 false) (xorBlockUpdate 0x5A)
        (List.replicate 32 1) 32).2.1.dataLen = 16 ∧
    (MODES_CipherUpdate (demoCtx CRYPT_PADDING_PKCS7 false) (xorBlockUpdate 0x5A)
        (List.replicate 32 1) 32).2.1.data.take 16 =
      ((List.replicate 32 (0 : UInt8)).take 0 ++ List.replicate 32 1).drop (0 + 32 - 16) :=
  (C15_decrypt_padding_lookahead (xorBlockUpdate 0x5A) (demoCtx CRYPT_PADDING_PKCS7 false)
    (List.replicate 32 1) 32 (succeeds_of_ok 16 _ (xorBlockUpdate_ok 16 0x5A)) rfl
    (by decide) (by decide) (by decide) (by decide) (by decide) (by decide)
    (by decide)).2.2.1 (by decide) (by decide)

theorem ctxOK_of_shape (ctx : MODES_CipherCtx) (inp : List UInt8)
    (u : RetCode × MODES_CipherCtx × List UInt8 × Nat) (hctx : CtxOK ctx)
    (h : UpdateShapeOK ctx inp u) :
    CtxOK u.2.1 ∧ u.2.1.enc = ctx.enc ∧ u.2.1.pad = ctx.pad ∧
      u.2.1.commonCtx.blockSize = ctx.commonCtx.blockSize := by
  obtain ⟨hbs1, hbs2, hdata, -, -⟩ := hctx
  obtain ⟨-, -, -, h4, -, h6, h7, h8, -, h10⟩ := h
  have hdef : defersLast u.2.1 = defersLast ctx := by
    unfold defersLast
    rw [h7, h8]
  refine ⟨⟨by rw [h10]; exact hbs1, by rw [h10]; exact hbs2, by rw [h10, h6]; exact hdata,
    ?_, ?_⟩, h8, h7, h10⟩
  · rw [h10, h4]
    exact emitLen_rem_le _ _ _ hbs1
  · intro hf
    rw [hdef] at hf
    rw [h10, h4, hf]
    exact emitLen_rem_lt _ _ hbs1

theorem update_success_shape (T : BlockUpdate) (ctx : MODES_CipherCtx) (inp : List UInt8)
    (cap : Nat) (hT : BlockTransformSucceeds ctx.commonCtx.blockSize T) (hctx : CtxOK ctx)
    (hin : inp.length < 2 ^ 32)
    (hs : (MODES_CipherUpdate ctx T inp cap).1 = CRYPT_SUCCESS) :
    UpdateShapeOK ctx inp (MODES_CipherUpdate ctx T inp cap) := by
  have hd : ctx.dataLen < 2 ^ 32 := by
    have := hctx.2.1
    have := hctx.2.2.2.1
    omega
  have hnf : ¬ (MODE_CheckUpdateParam ctx.commonCtx.blockSize ctx.dataLen inp.length cap =
      CRYPT_EAL_BUFF_LEN_NOT_ENOUGH) := by
    intro hf
    rw [update_of_check_fail T ctx inp cap hf] at hs
    simp at hs
  rw [check_fail_iff _ _ _ _ hin hd] at hnf
  exact update_shape T ctx inp cap hT hctx (by omega) (by omega)

theorem updateChunks_ctxOK (T : BlockUpdate) (chunks : List (List UInt8 × Nat)) :
    ∀ ctx : MODES_CipherCtx, BlockTransformSucceeds ctx.commonCtx.blockSize T → CtxOK ctx →
      (∀ ch ∈ chunks, ch.1.length < 2 ^ 32) →
      (updateChunks T ctx chunks).1 = CRYPT_SUCCESS →
      CtxOK (updateChunks T ctx chunks).2.1 ∧
        (updateChunks T ctx chunks).2.1.enc = ctx.enc ∧
        (updateChunks T ctx chunks).2.1.pad = ctx.pad ∧
        (updateChunks T ctx chunks).2.1.commonCtx.blockSize = ctx.commonCtx.blockSize := by
  induction chunks with
  | nil => intro ctx _ hctx _ _; exact ⟨hctx, rfl, rfl, rfl⟩
  | cons ch rest ih =>
    intro ctx hT hctx hin hs
    rw [updateChunks] at hs ⊢
    simp only [] at hs ⊢
    by_cases hu : (MODES_CipherUpdate ctx T ch.1 ch.2).1 = CRYPT_SUCCESS
    · rw [if_neg (not_not.mpr hu)] at hs ⊢
      simp only [] at hs ⊢
      have hsh := update_success_shape T ctx ch.1 ch.2 hT hctx
        (hin ch (List.mem_cons_self _ _)) hu
      obtain ⟨k1, k2, k3, k4⟩ := ctxOK_of_shape ctx ch.1 _ hctx hsh
      obtain ⟨r1, r2, r3, r4⟩ := ih (MODES_CipherUpdate ctx T ch.1 ch.2).2.1
        (by rw [k4]; exact hT) k1 (fun c hc => hin c (List.mem_cons_of_mem _ hc)) hs
      exact ⟨r1, by rw [r2, k2], by rw [r3, k3], by rw [r4, k4]⟩
    · rw [if_pos hu] at hs
      exact absurd hs hu

/-- C19 (counterexample): a decrypt context with PKCS7 padding and block size 16 starts with
an empty cache; `MODES_CipherUpdate` on 16 bytes returns `CRYPT_SUCCESS`, writes nothing
and leaves `cacheLen = 16`, which is not less than the block size. -/
theorem C19_cache_holds_full_block :
    (demoCtx CRYPT_PADDING_PKCS7 false).dataLen = 0 ∧
    (MODES_CipherUpdate (demoCtx CRYPT_PADDING_PKCS7 false) (xorBlockUpdate 0x5A)
        (List.replicate 16 1) 16).1 = CRYPT_SUCCESS ∧
    (MODES_CipherUpdate (demoCtx CRYPT_PADDING_PKCS7 false) (xorBlockUpdate 0x5A)
        (List.replicate 16 1) 16).2.2.2 = 0 ∧
    (MODES_CipherUpdate (demoCtx CRYPT_PADDING_PKCS7 false) (xorBlockUpdate 0x5A)
        (List.replicate 16 1) 16).2.1.dataLen = 16 ∧
    ¬ ((MODES_CipherUpdate (demoCtx CRYPT_PADDING_PKCS7 false) (xorBlockUpdate 0x5A)
        (List.replicate 16 1) 16).2.1.dataLen <
      (MODES_CipherUpdate (demoCtx CRYPT_PADDING_PKCS7 false) (xorBlockUpdate 0x5A)
        (List.replicate 16 1) 16).2.1.commonCtx.blockSize) := by
  decide

/-- On a well-formed context the cached bytes alone do not make a block leave the cache. -/
theorem emitLen_of_ctxOK (ctx : MODES_CipherCtx) (hctx : CtxOK ctx) :
    emitLen ctx.commonCtx.blockSize (defersLast ctx) ctx.dataLen = 0 := by
  obtain ⟨hbs1, -, -, hle, hlt⟩ := hctx
  cases hd : defersLast ctx with
  | false => exact emitLen_small _ _ _ (hlt hd)
  | true =>
    unfold emitLen
    simp only [if_true]
    rcases Nat.eq_zero_or_pos ctx.dataLen with h | h
    · rw [h]; simp
    · rw [Nat.div_eq_of_lt (by omega)]; simp

/-- When the last block is held back and `L` is a positive multiple of the block size, one
whole block stays behind. -/
theorem emitLen_rem_multiple (bs L : Nat) (hbs : 1 ≤ bs) (hL : 0 < L) (hm : L % bs = 0) :
    L - emitLen bs true L = bs := by
  have hq : L = (L / bs - 1) * bs + bs := by
    have h1 := Nat.div_add_mod L bs
    rw [hm] at h1
    have h2 : 1 ≤ L / bs := by
      rcases Nat.eq_zero_or_pos (L / bs) with h | h
      · rw [h] at h1; omega
      · exact h
    have h3 : (L / bs - 1) * bs + bs = (L / bs - 1 + 1) * bs := by
      rw [Nat.add_mul, Nat.one_mul]
    rw [h3, Nat.sub_add_cancel h2, Nat.mul_comm]
    omega
  have he : emitLen bs true L = (L / bs - 1) * bs := by
    conv_lhs => rw [hq]
    rw [emitLen_mul_add bs true _ _ hbs (Or.inr (by omega)), emitLen_block_true bs hbs]
    rfl
  omega

/-- The cache length after a run of successful update calls: the bytes held in total, less
the whole blocks that have left the cache. -/
theorem updateChunks_dataLen (T : BlockUpdate) (chunks : List (List UInt8 × Nat)) :
    ∀ ctx : MODES_CipherCtx, BlockTransformSucceeds ctx.commonCtx.blockSize T → CtxOK ctx →
      (∀ ch ∈ chunks, ch.1.length < 2 ^ 32) →
      (updateChunks T ctx chunks).1 = CRYPT_SUCCESS →
      (updateChunks T ctx chunks).2.1.dataLen =
        ctx.dataLen + (chunks.map (fun ch => ch.1.length)).sum -
          emitLen ctx.commonCtx.blockSize (defersLast ctx)
            (ctx.dataLen + (chunks.map (fun ch => ch.1.length)).sum) := by
  induction chunks with
  | nil =>
    intro ctx _ hctx _ _
    show ctx.dataLen = _
    rw [List.map_nil, List.sum_nil, Nat.add_zero, emitLen_of_ctxOK ctx hctx]
    rfl
  | cons ch rest ih =>
    intro ctx hT hctx hin hs
    rw [updateChunks] at hs ⊢
    simp only [] at hs ⊢
    by_cases hu : (MODES_CipherUpdate ctx T ch.1 ch.2).1 = CRYPT_SUCCESS
    · rw [if_neg (not_not.mpr hu)] at hs ⊢
      simp only [] at hs ⊢
      have hsh := update_success_shape T ctx ch.1 ch.2 hT hctx
        (hin ch (List.mem_cons_self _ _)) hu
      obtain ⟨k1, k2, k3, k4⟩ := ctxOK_of_shape ctx ch.1 _ hctx hsh
      have hlen := hsh.2.2.2.1
      have hdef : defersLast (MODES_CipherUpdate ctx T ch.1 ch.2).2.1 = defersLast ctx := by
        unfold defersLast
        rw [k2, k3]
      have hrec := ih (MODES_CipherUpdate ctx T ch.1 ch.2).2.1
        (by rw [k4]; exact hT) k1 (fun c hc => hin c (List.mem_cons_of_mem _ hc)) hs
      rw [hrec, k4, hdef, hlen, List.map_cons, List.sum_cons]
      have hc := emitLen_compose ctx.commonCtx.blockSize (defersLast ctx)
        (ctx.dataLen + ch.1.length) (rest.map (fun ch => ch.1.length)).sum hctx.1
      have hle := emitLen_le ctx.commonCtx.blockSize (defersLast ctx)
        (ctx.dataLen + ch.1.length)
      have e : ctx.dataLen + (ch.1.length + (rest.map (fun ch => ch.1.length)).sum) =
          ctx.dataLen + ch.1.length + (rest.map (fun ch => ch.1.length)).sum := by omega
      rw [e, hc]
      omega
    · rw [if_pos hu] at hs
      exact absurd hs hu

/-- C19 (amended). Cache-length invariant: from a context with an empty cache (as
`MODES_CipherNewCtx` leaves it), `1 ≤ blockSize < 256` and a cache buffer of at least one
block, after every run of successful `MODES_CipherUpdate` calls (either direction, every
padding selector, a block transform that succeeds) `cacheLen ≤ blockSize`, and
`cacheLen < blockSize` whenever `enc = true` or the padding is `CRYPT_PADDING_NONE`; the
block size, the direction and the padding selector are as they were. On decrypt with a
padding scheme, `cacheLen = blockSize` whenever the number of bytes fed so far is a positive
multiple of the block size (the last block is held back), and `cacheLen` is that number
modulo the block size otherwise. -/
theorem C19_cache_length_invariant (T : BlockUpdate) (ctx : MODES_CipherCtx)
    (chunks : List (List UInt8 × Nat))
    (hT : BlockTransformSucceeds ctx.commonCtx.blockSize T)
    (hbs1 : 1 ≤ ctx.commonCtx.blockSize) (hbs2 : ctx.commonCtx.blockSize < 256)
    (hdata : ctx.commonCtx.blockSize ≤ ctx.data.length) (hfresh : ctx.dataLen = 0)
    (hin : ∀ ch ∈ chunks, ch.1.length < 2 ^ 32)
    (hs : (updateChunks T ctx chunks).1 = CRYPT_SUCCESS) :
    (updateChunks T ctx chunks).2.1.dataLen ≤ ctx.commonCtx.blockSize ∧
    (ctx.enc = true ∨ ctx.pad = CRYPT_PADDING_NONE →
      (updateChunks T ctx chunks).2.1.dataLen < ctx.commonCtx.blockSize) ∧
    (updateChunks T ctx chunks).2.1.commonCtx.blockSize = ctx.commonCtx.blockSize ∧
    (updateChunks T ctx chunks).2.1.enc = ctx.enc ∧
    (updateChunks T ctx chunks).2.1.pad = ctx.pad ∧
    (ctx.enc = false → ctx.pad ≠ CRYPT_PADDING_NONE →
      (0 < (chunks.map (fun ch => ch.1.length)).sum →
        (chunks.map (fun ch => ch.1.length)).sum % ctx.commonCtx.blockSize = 0 →
        (updateChunks T ctx chunks).2.1.dataLen = ctx.commonCtx.blockSize) ∧
      ((chunks.map (fun ch => ch.1.length)).sum % ctx.commonCtx.blockSize ≠ 0 →
        (updateChunks T ctx chunks).2.1.dataLen =
          (chunks.map (fun ch => ch.1.length)).sum % ctx.commonCtx.blockSize)) := by
  have hctx : CtxOK ctx := ⟨hbs1, hbs2, hdata, by omega, fun _ => by omega⟩
  obtain ⟨r1, r2, r3, r4⟩ := updateChunks_ctxOK T chunks ctx hT hctx hin hs
  have hlen := updateChunks_dataLen T chunks ctx hT hctx hin hs
  obtain ⟨-, -, -, c4, c5⟩ := r1
  rw [r4] at c4 c5
  refine ⟨c4, ?_, r4, r2, r3, ?_⟩
  · intro h
    apply c5
    unfold defersLast
    rw [r2, r3]
    rcases h with h | h
    · rw [h]; rfl
    · rw [h]; simp
  · intro henc hpad
    have hd : defersLast ctx = true := (defersLast_eq_true ctx).mpr ⟨henc, hpad⟩
    rw [hfresh, Nat.zero_add, hd] at hlen
    constructor
    · intro hpos hmod
      rw [hlen]
      exact emitLen_rem_multiple _ _ hbs1 hpos hmod
    · intro hmod
      rw [hlen]
      have hN : emitLen ctx.commonCtx.blockSize true (chunks.map (fun ch => ch.1.length)).sum =
          (chunks.map (fun ch => ch.1.length)).sum / ctx.commonCtx.blockSize *
            ctx.commonCtx.blockSize := by
        unfold emitLen
        simp only [if_true]
        exact pred_div_mul_of_mod_pos _ _ hbs1 (by omega)
      rw [hN]
      have := mod_eq_sub_div_mul (chunks.map (fun ch => ch.1.length)).sum
        ctx.commonCtx.blockSize
      omega

/-- C19 at concrete inputs: an encrypt run on nineteen bytes leaves fewer than sixteen bytes
in the cache, and a decrypt run with X9.23 padding on thirty-two bytes holds back the last
block. -/
theorem C19_witness :
    (updateChunks (xorBlockUpdate 0x5A) (demoCtx CRYPT_PADDING_PKCS7 true)
        demoPlainChunks).2.1.dataLen < 16 ∧
    (updateChunks (xorBlockUpdate 0x5A) (demoCtx CRYPT_PADDING_X923 false)
        demoCipherChunks).2.1.dataLen = 16 :=
  ⟨(C19_cache_length_invariant (xorBlockUpdate 0x5A) (demoCtx CRYPT_PADDING_PKCS7 true)
      demoPlainChunks (succeeds_of_ok 16 _ (xorBlockUpdate_ok 16 0x5A)) (by decide) (by decide)
      (by decide) rfl (by decide) (by decide)).2.1 (Or.inl rfl),
    ((C19_cache_length_invariant (xorBlockUpdate 0x5A) (demoCtx CRYPT_PADDING_X923 false)
      demoCipherChunks (succeeds_of_ok 16 _ (xorBlockUpdate_ok 16 0x5A)) (by decide) (by decide)
      (by decide) rfl (by decide) (by decide)).2.2.2.2.2 rfl (by decide)).1 (by decide)
      (by decide)⟩

/-- C16. Final on encrypt with padding: for `enc = true`, a padding scheme among ZEROS,
ISO7816, X923, PKCS5, PKCS7, a cache of `n < blockSize` bytes (`1 ≤ blockSize < 256`) and a
capacity of at least `blockSize`, `MODES_CipherFinal` hands to the block transform, in one
call, the block of `blockSize` bytes made of the cache followed by the pad bytes of the
scheme; it returns the status of that call, the bytes written are the output of that call,
the context left is the one of that call, and on success `*outLen = blockSize`. With
`n = 0` the block consists of padding only. -/
theorem C16_final_encrypt_padding (T : BlockUpdate) (ctx : MODES_CipherCtx) (cap : Nat)
    (hpad : ctx.pad = CRYPT_PADDING_ZEROS ∨ ctx.pad = CRYPT_PADDING_ISO7816 ∨
      ctx.pad = CRYPT_PADDING_X923 ∨ ctx.pad = CRYPT_PADDING_PKCS5 ∨
      ctx.pad = CRYPT_PADDING_PKCS7)
    (henc : ctx.enc = true)
    (hbs1 : 1 ≤ ctx.commonCtx.blockSize) (hbs2 : ctx.commonCtx.blockSize < 256)
    (hn : ctx.dataLen < ctx.commonCtx.blockSize)
    (hdata : ctx.commonCtx.blockSize ≤ ctx.data.length)
    (hcap : ctx.commonCtx.blockSize ≤ cap) :
    (ctx.data.take ctx.dataLen ++
        specPadBytes ctx.pad (ctx.commonCtx.blockSize - ctx.dataLen)).length =
      ctx.commonCtx.blockSize ∧
    MODES_CipherFinal ctx T cap =
      ((T ctx.commonCtx (ctx.data.take ctx.dataLen ++
          specPadBytes ctx.pad (ctx.commonCtx.blockSize - ctx.dataLen))).1,
        { ctx with
          commonCtx := (T ctx.commonCtx (ctx.data.take ctx.dataLen ++
            specPadBytes ctx.pad (ctx.commonCtx.blockSize - ctx.dataLen))).2.1,
          data := ctx.data.take ctx.dataLen ++
            specPadBytes ctx.pad (ctx.commonCtx.blockSize - ctx.dataLen) ++
            ctx.data.drop ctx.commonCtx.blockSize,
          dataLen := ctx.commonCtx.blockSize },
        (T ctx.commonCtx (ctx.data.take ctx.dataLen ++
          specPadBytes ctx.pad (ctx.commonCtx.blockSize - ctx.dataLen))).2.2,
        if (T ctx.commonCtx (ctx.data.take ctx.dataLen ++
            specPadBytes ctx.pad (ctx.commonCtx.blockSize - ctx.dataLen))).1 = CRYPT_SUCCESS
        then ctx.commonCtx.blockSize else cap) ∧
    (ctx.dataLen = 0 →
      ctx.data.take ctx.dataLen ++
          specPadBytes ctx.pad (ctx.commonCtx.blockSize - ctx.dataLen) =
        specPadBytes ctx.pad ctx.commonCtx.blockSize) := by
  have hp1 : ctx.pad ≠ CRYPT_PADDING_NONE := by
    rcases hpad with h | h | h | h | h <;> rw [h] <;> decide
  have hp2 : ctx.pad ≠ CRYPT_PADDING_MAX_COUNT := by
    rcases hpad with h | h | h | h | h <;> rw [h] <;> decide
  have hcl : (ctx.data.take ctx.dataLen).length = ctx.dataLen := by
    rw [List.length_take]; omega
  have hsl := specPadBytes_length ctx.pad (ctx.commonCtx.blockSize - ctx.dataLen) (by omega)
    hp1 hp2
  have hbl : (ctx.data.take ctx.dataLen ++
      specPadBytes ctx.pad (ctx.commonCtx.blockSize - ctx.dataLen)).length =
      ctx.commonCtx.blockSize := by
    rw [List.length_append, hcl, hsl]; omega
  refine ⟨hbl, ?_, ?_⟩
  · unfold MODES_CipherFinal
    have hc : ¬ (ctx.pad ≠ CRYPT_PADDING_NONE ∧ cap < ctx.commonCtx.blockSize) := by
      intro h; omega
    rw [if_neg hc, if_pos henc]
    rw [ MODES_BlockPadding_eq ctx.algId ctx.pad ctx.commonCtx.blockSize ctx.dataLen ctx.data
      hp1 hp2 hbs2 hn hdata]
    have hz : ¬ (ctx.commonCtx.blockSize = 0) := by omega
    simp only [ne_eq, not_true_eq_false, if_false, hz, List.take_left' hbl]
    by_cases hs : (T ctx.commonCtx (ctx.data.take ctx.dataLen ++
        specPadBytes ctx.pad (ctx.commonCtx.blockSize - ctx.dataLen))).1 = CRYPT_SUCCESS
    · simp only [hs, not_true_eq_false, if_false, if_true]
    · simp only [hs, not_false_eq_true, if_true, if_false]
  · intro h0
    rw [h0]
    simp

theorem C16_witness :
    MODES_CipherFinal (demoCtx CRYPT_PADDING_PKCS7 true) (xorBlockUpdate 0x5A) 16 =
      ((xorBlockUpdate 0x5A demoCommonCtx ((List.replicate 32 0).take 0 ++
          specPadBytes CRYPT_PADDING_PKCS7 (16 - 0))).1,
        { demoCtx CRYPT_PADDING_PKCS7 true with
          commonCtx := (xorBlockUpdate 0x5A demoCommonCtx ((List.replicate 32 0).take 0 ++
            specPadBytes CRYPT_PADDING_PKCS7 (16 - 0))).2.1,
          data := (List.replicate 32 0).take 0 ++ specPadBytes CRYPT_PADDING_PKCS7 (16 - 0) ++
            (List.replicate 32 0).drop 16,
          dataLen := 16 },
        (xorBlockUpdate 0x5A demoCommonCtx ((List.replicate 32 0).take 0 ++
          specPadBytes CRYPT_PADDING_PKCS7 (16 - 0))).2.2,
        if (xorBlockUpdate 0x5A demoCommonCtx ((List.replicate 32 0).take 0 ++
            specPadBytes CRYPT_PADDING_PKCS7 (16 - 0))).1 = CRYPT_SUCCESS
        then 16 else 16) :=
  (C16_final_encrypt_padding (xorBlockUpdate 0x5A) (demoCtx CRYPT_PADDING_PKCS7 true) 16
    (Or.inr (Or.inr (Or.inr (Or.inr rfl)))) rfl (by decide) (by decide) (by decide)
    (by decide) (by decide)).2.1

/-- C17. Final with padding none: with `CRYPT_PADDING_NONE` and an empty cache,
`MODES_CipherFinal` (either direction) returns `CRYPT_SUCCESS` with `*outLen = 0`, writes
nothing and leaves the context as it was, whatever the block transform is. With
`enc = true` and a non-empty cache (`0 < cacheLen < blockSize`) it returns
`CRYPT_MODE_ERR_INPUT_LEN` with the context, the output and `*outLen` as they were,
whatever the transform is, unless the algorithm is `CRYPT_CIPHER_SM4_XTS`: then the cached
bytes go to the transform in one call, whose status is returned, and on success
`*outLen = cacheLen`. -/
theorem C17_final_padding_none (T : BlockUpdate) (ctx : MODES_CipherCtx) (cap : Nat)
    (hpad : ctx.pad = CRYPT_PADDING_NONE) (hbs1 : 1 ≤ ctx.commonCtx.blockSize) :
    (ctx.dataLen = 0 → MODES_CipherFinal ctx T cap = (CRYPT_SUCCESS, ctx, [], 0)) ∧
    (ctx.enc = true → 0 < ctx.dataLen → ctx.dataLen < ctx.commonCtx.blockSize →
      ctx.algId ≠ CRYPT_CIPHER_SM4_XTS →
      MODES_CipherFinal ctx T cap = (CRYPT_MODE_ERR_INPUT_LEN, ctx, [], cap)) ∧
    (ctx.enc = true → 0 < ctx.dataLen → ctx.dataLen < ctx.commonCtx.blockSize →
      ctx.algId = CRYPT_CIPHER_SM4_XTS →
      MODES_CipherFinal ctx T cap =
        ((T ctx.commonCtx (ctx.data.take ctx.dataLen)).1,
          { ctx with commonCtx := (T ctx.commonCtx (ctx.data.take ctx.dataLen)).2.1 },
          (T ctx.commonCtx (ctx.data.take ctx.dataLen)).2.2,
          if (T ctx.commonCtx (ctx.data.take ctx.dataLen)).1 = CRYPT_SUCCESS
          then ctx.dataLen else cap)) := by
  obtain ⟨c, a, d, dl, p, e⟩ := ctx
  simp only [] at hpad hbs1 ⊢
  subst hpad
  have hc : ¬ (CRYPT_PADDING_NONE ≠ CRYPT_PADDING_NONE ∧ cap < c.blockSize) := by
    intro h; exact h.1 rfl
  refine ⟨?_, ?_, ?_⟩
  · intro h0
    subst h0
    unfold MODES_CipherFinal
    simp only []
    rw [if_neg hc]
    cases e
    · simp only [Bool.false_eq_true, if_false, if_true]
    · unfold MODES_BlockPadding
      simp only [if_true, Nat.zero_mod, ne_eq, not_true_eq_false, if_false]
  · intro henc hpos hlt hx
    subst henc
    have hm : dl % c.blockSize ≠ 0 := by
      rw [Nat.mod_eq_of_lt hlt]; omega
    have hxts : IfXts a = false := by
      unfold IfXts
      cases a <;> first | rfl | exact absurd rfl hx
    unfold MODES_CipherFinal
    simp only []
    rw [if_neg hc]
    unfold MODES_BlockPadding
    have hne : ¬ (CRYPT_MODE_ERR_INPUT_LEN = CRYPT_SUCCESS) := by decide
    simp only [hm, ne_eq, not_false_eq_true, if_true, hxts, Bool.false_eq_true, if_false, hne]
  · intro henc hpos hlt hx
    subst henc
    subst hx
    have hm : dl % c.blockSize ≠ 0 := by
      rw [Nat.mod_eq_of_lt hlt]; omega
    have hxts : IfXts CRYPT_CIPHER_SM4_XTS = true := rfl
    have hz : ¬ (dl = 0) := by omega
    unfold MODES_CipherFinal
    simp only []
    rw [if_neg hc]
    unfold MODES_BlockPadding
    simp only [hm, ne_eq, not_false_eq_true, if_true, hxts, not_true_eq_false, if_false, hz]
    by_cases hs : (T c (d.take dl)).1 = CRYPT_SUCCESS
    · simp only [hs, not_true_eq_false, if_false, if_true]
    · simp only [hs, not_false_eq_true, if_true, if_false]

theorem C17_witness :
    MODES_CipherFinal (demoCtx CRYPT_PADDING_NONE false) (xorBlockUpdate 0x5A) 7 =
      (CRYPT_SUCCESS, demoCtx CRYPT_PADDING_NONE false, [], 0) :=
  (C17_final_padding_none (xorBlockUpdate 0x5A) (demoCtx CRYPT_PADDING_NONE false) 7 rfl
    (by decide)).1 rfl

/-- `MODES_CipherFinal` on decrypt with a non-empty cache: the cache goes to the transform in
one call and, if that call succeeds, `Mode_BlockUnPadding` decides on the status and on
`*outLen`. -/
theorem final_decrypt_eq (T : BlockUpdate) (ctx : MODES_CipherCtx) (cap : Nat)
    (henc : ctx.enc = false) (hd : 0 < ctx.dataLen)
    (hcap : ¬ (ctx.pad ≠ CRYPT_PADDING_NONE ∧ cap < ctx.commonCtx.blockSize))
    (hs : (T ctx.commonCtx (ctx.data.take ctx.dataLen)).1 = CRYPT_SUCCESS) :
    MODES_CipherFinal ctx T cap =
      ((Mode_BlockUnPadding ctx.pad (T ctx.commonCtx (ctx.data.take ctx.dataLen)).2.2
          ctx.dataLen cap).1,
        { ctx with commonCtx := (T ctx.commonCtx (ctx.data.take ctx.dataLen)).2.1 },
        (T ctx.commonCtx (ctx.data.take ctx.dataLen)).2.2,
        (Mode_BlockUnPadding ctx.pad (T ctx.commonCtx (ctx.data.take ctx.dataLen)).2.2
          ctx.dataLen cap).2) := by
  have hz : ¬ (ctx.dataLen = 0) := by omega
  unfold MODES_CipherFinal
  rw [if_neg hcap]
  simp only [henc, Bool.false_eq_true, if_false, hz, hs, ne_eq, not_true_eq_false]

/-- C18 (evaluation at the failing input). A decrypt context with X9.23 padding and block
size 16 is fed one ciphertext block whose decryption is sixteen bytes `0x00`:
`MODES_CipherUpdate` holds the block back, and `MODES_CipherFinal` transforms it and returns
`CRYPT_SUCCESS` with `*outLen = 16`, although the block ends in the pad count `0x00`, which
is not a valid X9.23 padding. With PKCS7 the same block is rejected with
`CRYPT_EAL_CIPHER_DATA_ERROR`. -/
theorem C18_final_accepts_x923_zero_count :
    (MODES_CipherUpdate (demoCtx CRYPT_PADDING_X923 false) (xorBlockUpdate 0x5A)
        (List.replicate 16 0x5A) 16).1 = CRYPT_SUCCESS ∧
    (MODES_CipherUpdate (demoCtx CRYPT_PADDING_X923 false) (xorBlockUpdate 0x5A)
        (List.replicate 16 0x5A) 16).2.1.dataLen = 16 ∧
    (MODES_CipherFinal (MODES_CipherUpdate (demoCtx CRYPT_PADDING_X923 false)
        (xorBlockUpdate 0x5A) (List.replicate 16 0x5A) 16).2.1 (xorBlockUpdate 0x5A) 16).1 =
      CRYPT_SUCCESS ∧
    (MODES_CipherFinal (MODES_CipherUpdate (demoCtx CRYPT_PADDING_X923 false)
        (xorBlockUpdate 0x5A) (List.replicate 16 0x5A) 16).2.1 (xorBlockUpdate 0x5A)
        16).2.2.1 = List.replicate 16 0x00 ∧
    (MODES_CipherFinal (MODES_CipherUpdate (demoCtx CRYPT_PADDING_X923 false)
        (xorBlockUpdate 0x5A) (List.replicate 16 0x5A) 16).2.1 (xorBlockUpdate 0x5A)
        16).2.2.2 = 16 ∧
    (MODES_CipherFinal (MODES_CipherUpdate (demoCtx CRYPT_PADDING_PKCS7 false)
        (xorBlockUpdate 0x5A) (List.replicate 16 0x5A) 16).2.1 (xorBlockUpdate 0x5A) 16).1 =
      CRYPT_EAL_CIPHER_DATA_ERROR := by
  decide

/-- `MODES_CipherFinal` on decrypt with PKCS5/PKCS7 and a held block: it succeeds exactly on
a transformed block with valid padding, and then `*outLen` is the block size minus the pad
count; otherwise it returns `CRYPT_EAL_CIPHER_DATA_ERROR`. -/
theorem final_decrypt_pkcs (T : BlockUpdate) (ctx : MODES_CipherCtx) (cap : Nat)
    (henc : ctx.enc = false)
    (hpad : ctx.pad = CRYPT_PADDING_PKCS5 ∨ ctx.pad = CRYPT_PADDING_PKCS7)
    (hbs1 : 1 ≤ ctx.commonCtx.blockSize) (hbs2 : ctx.commonCtx.blockSize < 256)
    (hd : ctx.dataLen = ctx.commonCtx.blockSize) (hcap : ctx.commonCtx.blockSize ≤ cap)
    (hs : (T ctx.commonCtx (ctx.data.take ctx.dataLen)).1 = CRYPT_SUCCESS) :
    (PkcsValid (T ctx.commonCtx (ctx.data.take ctx.dataLen)).2.2 ctx.commonCtx.blockSize →
      (MODES_CipherFinal ctx T cap).1 = CRYPT_SUCCESS ∧
      (MODES_CipherFinal ctx T cap).2.2.2 = ctx.commonCtx.blockSize -
        ((T ctx.commonCtx (ctx.data.take ctx.dataLen)).2.2.getD
          (ctx.commonCtx.blockSize - 1) 0).toNat) ∧
    (¬ PkcsValid (T ctx.commonCtx (ctx.data.take ctx.dataLen)).2.2 ctx.commonCtx.blockSize →
      (MODES_CipherFinal ctx T cap).1 = CRYPT_EAL_CIPHER_DATA_ERROR) := by
  have hc : ¬ (ctx.pad ≠ CRYPT_PADDING_NONE ∧ cap < ctx.commonCtx.blockSize) := by
    intro h; omega
  rw [final_decrypt_eq T ctx cap henc (by omega) hc hs, hd]
  have hu : Mode_BlockUnPadding ctx.pad (T ctx.commonCtx
      (ctx.data.take ctx.commonCtx.blockSize)).2.2 ctx.commonCtx.blockSize cap =
      UnPaddingPkcs (T ctx.commonCtx (ctx.data.take ctx.commonCtx.blockSize)).2.2
        ctx.commonCtx.blockSize cap := by
    rcases hpad with h | h <;> rw [h] <;> rfl
  simp only [hu]
  constructor
  · intro hv
    rw [UnPaddingPkcs_valid _ _ cap hbs1 (by omega) hv]
    exact ⟨rfl, rfl⟩
  · intro hv
    rw [UnPaddingPkcs_invalid _ _ cap hbs1 (by omega) hv]

/-- `MODES_CipherFinal` on decrypt with ISO7816 and a held block: it succeeds exactly on a
transformed block whose last non-zero byte is `0x80`, and then `*outLen` is the index of
that byte; otherwise it returns `CRYPT_EAL_CIPHER_DATA_ERROR`. -/
theorem final_decrypt_iso7816 (T : BlockUpdate) (ctx : MODES_CipherCtx) (cap : Nat)
    (henc : ctx.enc = false) (hpad : ctx.pad = CRYPT_PADDING_ISO7816)
    (hbs1 : 1 ≤ ctx.commonCtx.blockSize) (hbs2 : ctx.commonCtx.blockSize < 256)
    (hd : ctx.dataLen = ctx.commonCtx.blockSize) (hcap : ctx.commonCtx.blockSize ≤ cap)
    (hs : (T ctx.commonCtx (ctx.data.take ctx.dataLen)).1 = CRYPT_SUCCESS) :
    (∀ k, Iso7816ValidAt (T ctx.commonCtx (ctx.data.take ctx.dataLen)).2.2
        ctx.commonCtx.blockSize k →
      (MODES_CipherFinal ctx T cap).1 = CRYPT_SUCCESS ∧
      (MODES_CipherFinal ctx T cap).2.2.2 = k) ∧
    ((¬ ∃ k, Iso7816ValidAt (T ctx.commonCtx (ctx.data.take ctx.dataLen)).2.2
        ctx.commonCtx.blockSize k) →
      (MODES_CipherFinal ctx T cap).1 = CRYPT_EAL_CIPHER_DATA_ERROR) := by
  have hc : ¬ (ctx.pad ≠ CRYPT_PADDING_NONE ∧ cap < ctx.commonCtx.blockSize) := by
    intro h; omega
  rw [final_decrypt_eq T ctx cap henc (by omega) hc hs, hd]
  have hu : Mode_BlockUnPadding ctx.pad (T ctx.commonCtx
      (ctx.data.take ctx.commonCtx.blockSize)).2.2 ctx.commonCtx.blockSize cap =
      UnPaddingISO7816 (T ctx.commonCtx (ctx.data.take ctx.commonCtx.blockSize)).2.2
        ctx.commonCtx.blockSize cap := by
    rw [hpad]; rfl
  simp only [hu]
  constructor
  · intro k hv
    rw [UnPaddingISO7816_valid _ _ cap k hbs1 (by omega) hv]
    exact ⟨rfl, rfl⟩
  · intro hv
    rw [UnPaddingISO7816_invalid _ _ cap hbs1 (by omega) hv]

theorem forLoop_invariant {σ : Type} (P : σ → Prop) (body : Nat → σ → σ) (lo hi : Nat) (s : σ)
    (hs : P s) (hb : ∀ i t, P t → P (body i t)) : P (forLoop lo hi body s) := by
  unfold forLoop
  generalize List.range' lo (hi - lo) = l
  induction l generalizing s with
  | nil => exact hs
  | cons a l ih => exact ih (body a s) (hb a s hs)

theorem xorLoop_iv_length (enc : Bool) (n i : Nat) (input tmp iv : List UInt8) :
    (CFB_Bytes.xorLoop enc n i input tmp iv).1.length = iv.length := by
  unfold CFB_Bytes.xorLoop
  apply forLoop_invariant (fun s : List UInt8 × List UInt8 => s.1.length = iv.length)
  · rfl
  · intro k t ht
    simp only [List.length_set]
    exact ht

theorem memcpyAt_self_length (iv : List UInt8) (a b : Nat) :
    (memcpyAt iv 0 ((iv.drop a).take b)).length = iv.length := by
  unfold memcpyAt
  simp only [List.take_zero, List.nil_append, List.length_append, List.length_take,
    List.length_drop, Nat.zero_add]
  omega

theorem drain_invariant (enc : Bool) (inp : List UInt8) :
    ∀ ctx : MODES_CipherCFBCtx, 1 ≤ ctx.modeCtx.blockSize → ctx.modeCtx.blockSize < 256 →
      ctx.modeCtx.offset < ctx.modeCtx.blockSize →
      (CFB_Bytes.drain enc ctx inp).1.modeCtx.blockSize = ctx.modeCtx.blockSize ∧
      (CFB_Bytes.drain enc ctx inp).1.feedbackBits = ctx.feedbackBits ∧
      (CFB_Bytes.drain enc ctx inp).1.modeCtx.iv.length = ctx.modeCtx.iv.length ∧
      (CFB_Bytes.drain enc ctx inp).1.modeCtx.offset < ctx.modeCtx.blockSize := by
  induction inp with
  | nil => intro ctx _ _ ho; exact ⟨rfl, rfl, rfl, ho⟩
  | cons x rest ih =>
    intro ctx h1 h2 ho
    rw [CFB_Bytes.drain]
    by_cases hpos : ctx.modeCtx.offset > 0
    · rw [if_pos hpos]
      simp only []
      have hlt : (ctx.modeCtx.offset + 1) % ctx.modeCtx.blockSize % 2 ^ 8 <
          ctx.modeCtx.blockSize := by
        have := Nat.mod_lt (ctx.modeCtx.offset + 1) (by omega : 0 < ctx.modeCtx.blockSize)
        have := Nat.mod_le ((ctx.modeCtx.offset + 1) % ctx.modeCtx.blockSize) (2 ^ 8)
        omega
      obtain ⟨r1, r2, r3, r4⟩ := ih
        { ctx with modeCtx := { ctx.modeCtx with
            iv := ctx.modeCtx.iv.set ctx.modeCtx.offset
              (if enc then ctx.modeCtx.iv.getD ctx.modeCtx.offset 0 ^^^ x else x),
            offset := (ctx.modeCtx.offset + 1) % ctx.modeCtx.blockSize % 2 ^ 8 } }
        h1 h2 hlt
      refine ⟨r1, r2, ?_, r4⟩
      rw [r3]
      exact List.length_set _ _ _
    · rw [if_neg hpos]
      exact ⟨rfl, rfl, rfl, ho⟩

theorem segment_invariant (enc : Bool) (ctx : MODES_CipherCFBCtx) (input : List UInt8)
    (h1 : 1 ≤ ctx.feedbackBits >>> 3)
    (h2 : ctx.feedbackBits >>> 3 ≤ ctx.modeCtx.blockSize) (h3 : ctx.modeCtx.blockSize < 256)
    (ho : ctx.modeCtx.offset < ctx.modeCtx.blockSize) (hne : 0 < input.length) :
    (CFB_Bytes.segment enc ctx input).2.1.modeCtx.blockSize = ctx.modeCtx.blockSize ∧
    (CFB_Bytes.segment enc ctx input).2.1.feedbackBits = ctx.feedbackBits ∧
    (CFB_Bytes.segment enc ctx input).2.1.modeCtx.iv.length = ctx.modeCtx.iv.length ∧
    (CFB_Bytes.segment enc ctx input).2.1.modeCtx.offset < ctx.modeCtx.blockSize ∧
    ((CFB_Bytes.segment enc ctx input).1 = CRYPT_SUCCESS →
      (CFB_Bytes.segment enc ctx input).2.2.2.length < input.length) := by
  have hsub : sub32 ctx.modeCtx.blockSize (ctx.feedbackBits >>> 3) =
      ctx.modeCtx.blockSize - ctx.feedbackBits >>> 3 := sub32_of_le _ _ h2 (by omega)
  have hivl : (if sub32 ctx.modeCtx.blockSize (ctx.feedbackBits >>> 3) > 0 then
      memcpyAt ctx.modeCtx.iv 0 ((ctx.modeCtx.iv.drop (ctx.feedbackBits >>> 3)).take
        (sub32 ctx.modeCtx.blockSize (ctx.feedbackBits >>> 3)))
      else ctx.modeCtx.iv).length = ctx.modeCtx.iv.length := by
    split
    · exact memcpyAt_self_length _ _ _
    · rfl
  unfold CFB_Bytes.segment
  simp only []
  by_cases hs : (cfbEncryptIv ctx).1 = CRYPT_SUCCESS
  · rw [if_neg (not_not.mpr hs)]
    by_cases hfull : input.length ≥ ctx.feedbackBits >>> 3
    · rw [if_pos hfull]
      refine ⟨rfl, rfl, ?_, ho, ?_⟩
      · show (CFB_Bytes.xorLoop enc _ _ input _ _).1.length = _
        rw [xorLoop_iv_length, hivl]
      · intro _
        show (input.drop (ctx.feedbackBits >>> 3)).length < input.length
        rw [List.length_drop]
        omega
    · rw [if_neg hfull]
      refine ⟨rfl, rfl, ?_, ?_, ?_⟩
      · show (forLoop 0 _ _ (CFB_Bytes.xorLoop enc _ _ input _ _).1).length = _
        apply forLoop_invariant (fun v : List UInt8 => v.length = ctx.modeCtx.iv.length)
        · rw [xorLoop_iv_length, hivl]
        · intro i t ht
          simp only [List.length_set]
          exact ht
      · show (sub32 ctx.modeCtx.blockSize (ctx.feedbackBits >>> 3) + input.length) % 2 ^ 32 %
          2 ^ 8 < ctx.modeCtx.blockSize
        rw [hsub]
        have e1 : (ctx.modeCtx.blockSize - ctx.feedbackBits >>> 3 + input.length) % 2 ^ 32 =
            ctx.modeCtx.blockSize - ctx.feedbackBits >>> 3 + input.length :=
          Nat.mod_eq_of_lt (by omega)
        have e2 : (ctx.modeCtx.blockSize - ctx.feedbackBits >>> 3 + input.length) % 2 ^ 8 =
            ctx.modeCtx.blockSize - ctx.feedbackBits >>> 3 + input.length :=
          Nat.mod_eq_of_lt (by omega)
        rw [e1, e2]
        omega
      · intro _
        exact hne
  · rw [if_pos hs]
    refine ⟨rfl, rfl, rfl, ho, ?_⟩
    intro h
    exact absurd h hs

theorem loop_invariant (enc : Bool) (fuel : Nat) :
    ∀ (ctx : MODES_CipherCFBCtx) (input : List UInt8), input.length ≤ fuel →
      1 ≤ ctx.feedbackBits >>> 3 → ctx.feedbackBits >>> 3 ≤ ctx.modeCtx.blockSize →
      ctx.modeCtx.blockSize < 256 → ctx.modeCtx.offset < ctx.modeCtx.blockSize →
      ∃ r, CFB_Bytes.loop enc fuel ctx input = some r ∧
        r.2.1.modeCtx.blockSize = ctx.modeCtx.blockSize ∧
        r.2.1.feedbackBits = ctx.feedbackBits ∧
        r.2.1.modeCtx.iv.length = ctx.modeCtx.iv.length ∧
        r.2.1.modeCtx.offset < ctx.modeCtx.blockSize := by
  induction fuel with
  | zero =>
    intro ctx input hf _ _ _ ho
    have : input = [] := List.eq_nil_of_length_eq_zero (by omega)
    subst this
    exact ⟨_, rfl, rfl, rfl, rfl, ho⟩
  | succ fuel ih =>
    intro ctx input hf h1 h2 h3 ho
    cases input with
    | nil => exact ⟨_, rfl, rfl, rfl, rfl, ho⟩
    | cons x rest =>
      obtain ⟨s1, s2, s3, s4, s5⟩ := segment_invariant enc ctx (x :: rest) h1 h2 h3 ho
        (by simp)
      rw [CFB_Bytes.loop]
      by_cases hs : (CFB_Bytes.segment enc ctx (x :: rest)).1 = CRYPT_SUCCESS
      · rw [if_neg (not_not.mpr hs)]
        have hlt := s5 hs
        obtain ⟨r, hr, r1, r2, r3, r4⟩ := ih (CFB_Bytes.segment enc ctx (x :: rest)).2.1
          (CFB_Bytes.segment enc ctx (x :: rest)).2.2.2 (by simp at hf hlt ⊢; omega)
          (by rw [s2]; exact h1) (by rw [s2, s1]; exact h2) (by rw [s1]; exact h3)
          (by rw [s1]; exact s4)
        rw [hr]
        rw [s1] at r4
        exact ⟨_, rfl, by rw [r1, s1], by rw [r2, s2], by rw [r3, s3], r4⟩
      · rw [if_pos hs]
        exact ⟨_, rfl, s1, s2, s3, s4⟩

theorem CFB_Bytes_invariant (enc : Bool) (ctx : MODES_CipherCFBCtx) (inp : List UInt8)
    (h1 : 1 ≤ ctx.feedbackBits >>> 3) (h2 : ctx.feedbackBits >>> 3 ≤ ctx.modeCtx.blockSize)
    (h3 : ctx.modeCtx.blockSize < 256) (ho : ctx.modeCtx.offset < ctx.modeCtx.blockSize) :
    ∃ r, CFB_Bytes enc ctx inp = some r ∧
      r.2.1.modeCtx.blockSize = ctx.modeCtx.blockSize ∧
      r.2.1.feedbackBits = ctx.feedbackBits ∧
      r.2.1.modeCtx.iv.length = ctx.modeCtx.iv.length ∧
      r.2.1.modeCtx.offset < ctx.modeCtx.blockSize := by
  obtain ⟨d1, d2, d3, d4⟩ := drain_invariant enc inp ctx (by omega) h3 ho
  obtain ⟨r, hr, r1, r2, r3, r4⟩ := loop_invariant enc (CFB_Bytes.drain enc ctx inp).2.1.length
    (CFB_Bytes.drain enc ctx inp).1 (CFB_Bytes.drain enc ctx inp).2.1 (Nat.le_refl _)
    (by rw [d2]; exact h1) (by rw [d2, d1]; exact h2) (by rw [d1]; exact h3)
    (by rw [d1]; exact d4)
  unfold CFB_Bytes
  simp only []
  rw [hr]
  rw [d1] at r4
  exact ⟨_, rfl, by rw [r1, d1], by rw [r2, d2], by rw [r3, d3], r4⟩

theorem memcpy_s_length (dest : List UInt8) (src : List UInt8) (count : Nat) :
    (memcpy_s dest dest.length src count).2.length = dest.length := by
  unfold memcpy_s
  split
  · apply memcpyAt_length
    rw [List.length_take]
    omega
  · apply memcpyAt_length
    rw [List.length_replicate]
    omega

theorem MODES_SetIv_invariant (ctx : MODES_CipherCommonCtx) (val : Option (List UInt8))
    (len : Nat) :
    (MODES_SetIv ctx val len).2.blockSize = ctx.blockSize ∧
    (MODES_SetIv ctx val len).2.iv.length = ctx.iv.length ∧
    ((MODES_SetIv ctx val len).2.offset = ctx.offset ∨
      (MODES_SetIv ctx val len).2.offset = 0) := by
  unfold MODES_SetIv
  cases val with
  | none => exact ⟨rfl, rfl, Or.inl rfl⟩
  | some v =>
    simp only []
    split_ifs
    · exact ⟨rfl, rfl, Or.inl rfl⟩
    · exact ⟨rfl, memcpy_s_length _ _ _, Or.inl rfl⟩
    · exact ⟨rfl, memcpy_s_length _ _ _, Or.inr rfl⟩

theorem MODES_CFB_Ctrl_invariant (modeCtx : MODES_CFB_Ctx) (opt : CRYPT_CipherCtrl)
    (val : Option CtrlVal) (len : Nat) :
    (MODES_CFB_Ctrl modeCtx opt val len).2.1.cfbCtx.modeCtx.blockSize =
      modeCtx.cfbCtx.modeCtx.blockSize ∧
    (MODES_CFB_Ctrl modeCtx opt val len).2.1.cfbCtx.modeCtx.iv.length =
      modeCtx.cfbCtx.modeCtx.iv.length ∧
    ((MODES_CFB_Ctrl modeCtx opt val len).2.1.cfbCtx.modeCtx.offset =
        modeCtx.cfbCtx.modeCtx.offset ∨
      (MODES_CFB_Ctrl modeCtx opt val len).2.1.cfbCtx.modeCtx.offset = 0) := by
  cases opt with
  | CRYPT_CTRL_REINIT_STATUS =>
    exact MODES_SetIv_invariant modeCtx.cfbCtx.modeCtx (val.map CtrlVal.bytes) len
  | CRYPT_CTRL_GET_IV => exact ⟨rfl, rfl, Or.inl rfl⟩
  | CRYPT_CTRL_SET_FEEDBACKSIZE =>
    show (SetFeedbackSize modeCtx.cfbCtx (val.map CtrlVal.word) len).2.modeCtx.blockSize = _ ∧
      (SetFeedbackSize modeCtx.cfbCtx (val.map CtrlVal.word) len).2.modeCtx.iv.length = _ ∧
      ((SetFeedbackSize modeCtx.cfbCtx (val.map CtrlVal.word) len).2.modeCtx.offset = _ ∨
        (SetFeedbackSize modeCtx.cfbCtx (val.map CtrlVal.word) len).2.modeCtx.offset = 0)
    unfold SetFeedbackSize
    cases val.map CtrlVal.word with
    | none => exact ⟨rfl, rfl, Or.inl rfl⟩
    | some v =>
      simp only []
      split_ifs <;> exact ⟨rfl, rfl, Or.inl rfl⟩
  | CRYPT_CTRL_GET_FEEDBACKSIZE => exact ⟨rfl, rfl, Or.inl rfl⟩
  | CRYPT_CTRL_GET_BLOCKSIZE =>
    unfold MODES_CFB_Ctrl
    cases val with
    | none => exact ⟨rfl, rfl, Or.inl rfl⟩
    | some v =>
      simp only []
      split_ifs <;> exact ⟨rfl, rfl, Or.inl rfl⟩
  | other c => exact ⟨rfl, rfl, Or.inl rfl⟩

/-- C20. Offset invariant: for a CFB context with block size 16, a feedback width of 8, 64
or 128 bits, an IV buffer of at least 16 bytes and `offset < blockSize`, each of
`MODES_CFB_BytesEncrypt`, `MODES_CFB_BytesDecrypt` (on any input, whether the block
encryption succeeds or fails: the call returns), `MODES_SetIv`, `MODES_CFB_Ctrl` (any
option, value and length) and `MODES_CFB_DeInitCtx` leaves a context with the same block
size, an IV buffer of the same length and `offset < blockSize`; so the index `offset` is
inside the IV register. A context with `offset = 0`, as creation leaves it, satisfies the
condition. -/
theorem C20_cfb_offset_invariant (modeCtx : MODES_CFB_Ctx) (inp : List UInt8)
    (iv : Option (List UInt8)) (opt : CRYPT_CipherCtrl) (val : Option CtrlVal) (len : Nat)
    (hbs : modeCtx.cfbCtx.modeCtx.blockSize = 16)
    (hfb : modeCtx.cfbCtx.feedbackBits = 8 ∨ modeCtx.cfbCtx.feedbackBits = 64 ∨
      modeCtx.cfbCtx.feedbackBits = 128)
    (hivl : 16 ≤ modeCtx.cfbCtx.modeCtx.iv.length)
    (hoff : modeCtx.cfbCtx.modeCtx.offset < modeCtx.cfbCtx.modeCtx.blockSize) :
    (∃ r, MODES_CFB_BytesEncrypt modeCtx.cfbCtx inp = some r ∧
      r.2.1.modeCtx.blockSize = 16 ∧ 16 ≤ r.2.1.modeCtx.iv.length ∧
      r.2.1.modeCtx.offset < r.2.1.modeCtx.blockSize) ∧
    (∃ r, MODES_CFB_BytesDecrypt modeCtx.cfbCtx inp = some r ∧
      r.2.1.modeCtx.blockSize = 16 ∧ 16 ≤ r.2.1.modeCtx.iv.length ∧
      r.2.1.modeCtx.offset < r.2.1.modeCtx.blockSize) ∧
    ((MODES_SetIv modeCtx.cfbCtx.modeCtx iv len).2.blockSize = 16 ∧
      16 ≤ (MODES_SetIv modeCtx.cfbCtx.modeCtx iv len).2.iv.length ∧
      (MODES_SetIv modeCtx.cfbCtx.modeCtx iv len).2.offset <
        (MODES_SetIv modeCtx.cfbCtx.modeCtx iv len).2.blockSize) ∧
    ((MODES_CFB_Ctrl modeCtx opt val len).2.1.cfbCtx.modeCtx.blockSize = 16 ∧
      16 ≤ (MODES_CFB_Ctrl modeCtx opt val len).2.1.cfbCtx.modeCtx.iv.length ∧
      (MODES_CFB_Ctrl modeCtx opt val len).2.1.cfbCtx.modeCtx.offset <
        (MODES_CFB_Ctrl modeCtx opt val len).2.1.cfbCtx.modeCtx.blockSize) ∧
    ((MODES_CFB_DeInitCtx modeCtx).2.cfbCtx.modeCtx.blockSize = 16 ∧
      16 ≤ (MODES_CFB_DeInitCtx modeCtx).2.cfbCtx.modeCtx.iv.length ∧
      (MODES_CFB_DeInitCtx modeCtx).2.cfbCtx.modeCtx.offset <
        (MODES_CFB_DeInitCtx modeCtx).2.cfbCtx.modeCtx.blockSize) ∧
    ((0 : Nat) < modeCtx.cfbCtx.modeCtx.blockSize) := by
  have hf1 : 1 ≤ modeCtx.cfbCtx.feedbackBits >>> 3 := by
    rcases hfb with h | h | h <;> rw [h] <;> decide
  have hf2 : modeCtx.cfbCtx.feedbackBits >>> 3 ≤ modeCtx.cfbCtx.modeCtx.blockSize := by
    rw [hbs]
    rcases hfb with h | h | h <;> rw [h] <;> decide
  have hb : modeCtx.cfbCtx.modeCtx.blockSize < 256 := by rw [hbs]; decide
  refine ⟨?_, ?_, ?_, ?_, ?_, by rw [hbs]; decide⟩
  · obtain ⟨r, hr, r1, -, r3, r4⟩ := CFB_Bytes_invariant true modeCtx.cfbCtx inp hf1 hf2 hb hoff
    exact ⟨r, hr, by rw [r1, hbs], by rw [r3]; exact hivl, by rw [r1]; exact r4⟩
  · obtain ⟨r, hr, r1, -, r3, r4⟩ := CFB_Bytes_invariant false modeCtx.cfbCtx inp hf1 hf2 hb hoff
    exact ⟨r, hr, by rw [r1, hbs], by rw [r3]; exact hivl, by rw [r1]; exact r4⟩
  · obtain ⟨s1, s2, s3⟩ := MODES_SetIv_invariant modeCtx.cfbCtx.modeCtx iv len
    refine ⟨by rw [s1, hbs], by rw [s2]; exact hivl, ?_⟩
    rw [s1]
    rcases s3 with h | h <;> rw [h] <;> omega
  · obtain ⟨s1, s2, s3⟩ := MODES_CFB_Ctrl_invariant modeCtx opt val len
    refine ⟨by rw [s1, hbs], by rw [s2]; exact hivl, ?_⟩
    rw [s1]
    rcases s3 with h | h <;> rw [h] <;> omega
  · refine ⟨hbs, ?_, ?_⟩
    · show 16 ≤ (List.replicate modeCtx.cfbCtx.modeCtx.iv.length (0 : UInt8)).length
      rw [List.length_replicate]
      exact hivl
    · show 0 < modeCtx.cfbCtx.modeCtx.blockSize
      omega

theorem C20_witness :
    ∃ r, MODES_CFB_BytesEncrypt (demoCfbCtx 64) [1, 2, 3] = some r ∧
      r.2.1.modeCtx.blockSize = 16 ∧ 16 ≤ r.2.1.modeCtx.iv.length ∧
      r.2.1.modeCtx.offset < r.2.1.modeCtx.blockSize :=
  (C20_cfb_offset_invariant
    { algId := CRYPT_CIPHER_AES128_CFB, cfbCtx := demoCfbCtx 64, enc := true } [1, 2, 3] none
    CRYPT_CTRL_GET_IV none 16 rfl (Or.inr (Or.inl rfl)) (by decide) (by decide)).1
/-- A successful `memcpy_s` into a buffer that is long enough. -/
theorem memcpy_s_ok (dest src : List UInt8) (count : Nat) (h : count ≤ dest.length) :
    memcpy_s dest dest.length src count = (true, src.take count ++ dest.drop (src.take count).length) := by
  unfold memcpy_s memcpyAt
  rw [if_pos h]
  simp

/-- `MODES_SetIv` on a value of the right length. -/
theorem MODES_SetIv_ok (ctx : MODES_CipherCommonCtx) (v : List UInt8) (len : Nat)
    (hv : len ≤ v.length) (h1 : len = ctx.blockSize) (h2 : len ≤ ctx.iv.length) :
    MODES_SetIv ctx (some v) len =
      (CRYPT_SUCCESS, { ctx with iv := v.take len ++ ctx.iv.drop len, offset := 0 }) := by
  unfold MODES_SetIv
  have hl : (v.take len).length = len := by simp [hv]
  simp only [memcpy_s_ok ctx.iv v len h2, hl]
  rw [if_neg (by simpa using h1)]
  simp

/-- `MODES_GetIv` into a buffer of at least `len = blockSize` bytes. -/
theorem MODES_GetIv_ok (ctx : MODES_CipherCommonCtx) (w : List UInt8) (len : Nat)
    (h1 : len = ctx.blockSize) (h2 : len ≤ ctx.iv.length) :
    MODES_GetIv ctx (some w) len = (CRYPT_SUCCESS, some (ctx.iv.take len ++ w.drop len)) := by
  unfold MODES_GetIv
  simp only []
  rw [if_neg (by simpa using h1)]
  have hm : memcpy_s w len ctx.iv ctx.blockSize = (true, ctx.iv.take len ++ w.drop len) := by
    unfold memcpy_s memcpyAt
    rw [if_pos (by omega), ← h1]
    have hl : (ctx.iv.take len).length = len := by simp [h2]
    simp [hl]
  rw [hm]
  simp

/-- C21 (Set-IV through Ctrl). For every context whose IV buffer can hold a block, every
offset included, and every value `v` of `len = blockSize` bytes, `MODES_CipherCtrl` and
`MODES_CFB_Ctrl` with `CRYPT_CTRL_REINIT_STATUS` return `CRYPT_SUCCESS`, leave `val` as it
is and change the context in two fields only: the first `blockSize` bytes of the IV buffer
become `v` and `offset` becomes 0. A following `CRYPT_CTRL_GET_IV` into a buffer of `len`
bytes returns `CRYPT_SUCCESS`, the same context and exactly `v`. The context after the
reset is the same whatever the IV register and the offset were before, so nothing computed
from it depends on them. -/
theorem C21_set_iv_through_ctrl (ctx : MODES_CipherCtx) (v w : CtrlVal) (len : Nat)
    (cfb : MODES_CFB_Ctx) (v2 w2 : CtrlVal) (len2 : Nat)
    (hv : v.bytes.length = len) (hw : w.bytes.length = len)
    (h1 : len = ctx.commonCtx.blockSize) (h2 : len ≤ ctx.commonCtx.iv.length)
    (hv2 : v2.bytes.length = len2) (hw2 : w2.bytes.length = len2)
    (h3 : len2 = cfb.cfbCtx.modeCtx.blockSize) (h4 : len2 ≤ cfb.cfbCtx.modeCtx.iv.length) :
    (MODES_CipherCtrl ctx CRYPT_CTRL_REINIT_STATUS (some v) len =
        (CRYPT_SUCCESS,
          { ctx with commonCtx :=
              { ctx.commonCtx with iv := v.bytes ++ ctx.commonCtx.iv.drop len, offset := 0 } },
          some v) ∧
      MODES_CipherCtrl (MODES_CipherCtrl ctx CRYPT_CTRL_REINIT_STATUS (some v) len).2.1
          CRYPT_CTRL_GET_IV (some w) len =
        (CRYPT_SUCCESS, (MODES_CipherCtrl ctx CRYPT_CTRL_REINIT_STATUS (some v) len).2.1,
          some { w with bytes := v.bytes }) ∧
      ∀ (iv0 : List UInt8) (off0 : Nat), iv0.length = len →
        MODES_CipherCtrl
            { ctx with commonCtx :=
                { ctx.commonCtx with iv := iv0 ++ ctx.commonCtx.iv.drop len, offset := off0 } }
            CRYPT_CTRL_REINIT_STATUS (some v) len =
          MODES_CipherCtrl ctx CRYPT_CTRL_REINIT_STATUS (some v) len) ∧
    (MODES_CFB_Ctrl cfb CRYPT_CTRL_REINIT_STATUS (some v2) len2 =
        (CRYPT_SUCCESS,
          { cfb with cfbCtx :=
              { cfb.cfbCtx with modeCtx :=
                  { cfb.cfbCtx.modeCtx with
                      iv := v2.bytes ++ cfb.cfbCtx.modeCtx.iv.drop len2, offset := 0 } } },
          some v2) ∧
      MODES_CFB_Ctrl (MODES_CFB_Ctrl cfb CRYPT_CTRL_REINIT_STATUS (some v2) len2).2.1
          CRYPT_CTRL_GET_IV (some w2) len2 =
        (CRYPT_SUCCESS, (MODES_CFB_Ctrl cfb CRYPT_CTRL_REINIT_STATUS (some v2) len2).2.1,
          some { w2 with bytes := v2.bytes }) ∧
      ∀ (iv0 : List UInt8) (off0 : Nat), iv0.length = len2 →
        MODES_CFB_Ctrl
            { cfb with cfbCtx :=
                { cfb.cfbCtx with modeCtx :=
                    { cfb.cfbCtx.modeCtx with
                        iv := iv0 ++ cfb.cfbCtx.modeCtx.iv.drop len2, offset := off0 } } }
            CRYPT_CTRL_REINIT_STATUS (some v2) len2 =
          MODES_CFB_Ctrl cfb CRYPT_CTRL_REINIT_STATUS (some v2) len2) := by
  have tk : v.bytes.take len = v.bytes := by rw [← hv]; exact List.take_length _
  have tk2 : v2.bytes.take len2 = v2.bytes := by rw [← hv2]; exact List.take_length _
  have dw : w.bytes.drop len = [] := by rw [← hw]; exact List.drop_length _
  have dw2 : w2.bytes.drop len2 = [] := by rw [← hw2]; exact List.drop_length _
  have e1 : MODES_CipherCtrl ctx CRYPT_CTRL_REINIT_STATUS (some v) len =
      (CRYPT_SUCCESS,
        { ctx with commonCtx :=
            { ctx.commonCtx with iv := v.bytes ++ ctx.commonCtx.iv.drop len, offset := 0 } },
        some v) := by
    unfold MODES_CipherCtrl
    simp only [Option.map_some']
    rw [ MODES_SetIv_ok ctx.commonCtx v.bytes len (by omega) h1 h2, tk]
  have e2 : MODES_CFB_Ctrl cfb CRYPT_CTRL_REINIT_STATUS (some v2) len2 =
      (CRYPT_SUCCESS,
        { cfb with cfbCtx :=
            { cfb.cfbCtx with modeCtx :=
                { cfb.cfbCtx.modeCtx with
                    iv := v2.bytes ++ cfb.cfbCtx.modeCtx.iv.drop len2, offset := 0 } } },
        some v2) := by
    unfold MODES_CFB_Ctrl
    simp only [Option.map_some']
    rw [ MODES_SetIv_ok cfb.cfbCtx.modeCtx v2.bytes len2 (by omega) h3 h4, tk2]
  refine ⟨⟨e1, ?_, ?_⟩, ⟨e2, ?_, ?_⟩⟩
  · rw [e1]
    have g := MODES_GetIv_ok
      { ctx.commonCtx with iv := v.bytes ++ ctx.commonCtx.iv.drop len, offset := 0 }
      w.bytes len h1 (by simp; omega)
    simp only [List.take_left' hv, dw, List.append_nil] at g
    simp only [ MODES_CipherCtrl, Option.map_some', g]
  · intro iv0 off0 h0
    rw [e1]
    have g := MODES_SetIv_ok
      { ctx.commonCtx with iv := iv0 ++ ctx.commonCtx.iv.drop len, offset := off0 }
      v.bytes len (by omega) h1 (by simp; omega)
    simp only [List.drop_left' h0, tk] at g
    simp only [ MODES_CipherCtrl, Option.map_some', g]
  · rw [e2]
    have g := MODES_GetIv_ok
      { cfb.cfbCtx.modeCtx with
          iv := v2.bytes ++ cfb.cfbCtx.modeCtx.iv.drop len2, offset := 0 }
      w2.bytes len2 h3 (by simp; omega)
    simp only [List.take_left' hv2, dw2, List.append_nil] at g
    simp only [ MODES_CFB_Ctrl, Option.map_some', g]
  · intro iv0 off0 h0
    rw [e2]
    have g := MODES_SetIv_ok
      { cfb.cfbCtx.modeCtx with
          iv := iv0 ++ cfb.cfbCtx.modeCtx.iv.drop len2, offset := off0 }
      v2.bytes len2 (by omega) h3 (by simp; omega)
    simp only [List.drop_left' h0, tk2] at g
    simp only [ MODES_CFB_Ctrl, Option.map_some', g]

theorem C21_witness :
    MODES_CFB_Ctrl demoCfbModeCtx CRYPT_CTRL_REINIT_STATUS (some demoIvVal) 16 =
      (CRYPT_SUCCESS,
        { demoCfbModeCtx with cfbCtx :=
            { demoCfbModeCtx.cfbCtx with modeCtx :=
                { demoCfbModeCtx.cfbCtx.modeCtx with
                    iv := demoIvVal.bytes ++ demoCfbModeCtx.cfbCtx.modeCtx.iv.drop 16,
                    offset := 0 } } },
        some demoIvVal) :=
  (C21_set_iv_through_ctrl (demoCtx CRYPT_PADDING_PKCS7 true) demoIvVal
    { bytes := List.replicate 16 0, word := 0 } 16 demoCfbModeCtx demoIvVal
    { bytes := List.replicate 16 0, word := 0 } 16 rfl rfl rfl (by decide) rfl rfl rfl
    (by decide)).2.1

/-- C22 (IV length validation in Ctrl). `MODES_SetIv` returns `CRYPT_NULL_INPUT` for a NULL
`val` (whatever `len`) and `CRYPT_MODES_IVLEN_ERROR` for a non-NULL `val` with
`len ≠ blockSize`; `MODES_GetIv` returns `CRYPT_NULL_INPUT` for a NULL `val` and
`CRYPT_MODE_ERR_INPUT_LEN` for a non-NULL `val` with `len ≠ blockSize`. In each of these
cases the context (IV register and offset included) and the buffer behind `val` come back
unchanged. A `CRYPT_CTRL_GET_IV` call, which is how `MODES_GetIv` is reached, returns the
context it was given, whatever its arguments. -/
theorem C22_iv_length_validation (ctx : MODES_CipherCommonCtx) (v : List UInt8)
    (len len0 : Nat) (c : MODES_CipherCtx) (cfb : MODES_CFB_Ctx) (val : Option CtrlVal)
    (hlen : len ≠ ctx.blockSize) :
    MODES_SetIv ctx none len0 = (CRYPT_NULL_INPUT, ctx) ∧
    MODES_SetIv ctx (some v) len = (CRYPT_MODES_IVLEN_ERROR, ctx) ∧
    MODES_GetIv ctx none len0 = (CRYPT_NULL_INPUT, none) ∧
    MODES_GetIv ctx (some v) len = (CRYPT_MODE_ERR_INPUT_LEN, some v) ∧
    (MODES_CipherCtrl c CRYPT_CTRL_GET_IV val len0).2.1 = c ∧
    (MODES_CFB_Ctrl cfb CRYPT_CTRL_GET_IV val len0).2.1 = cfb := by
  refine ⟨rfl, ?_, rfl, ?_, rfl, rfl⟩
  · unfold MODES_SetIv
    simp only []
    rw [if_pos hlen]
  · unfold MODES_GetIv
    simp only []
    rw [if_pos hlen]

theorem C22_witness :
    MODES_SetIv demoCommonCtx (some [1, 2, 3]) 3 = (CRYPT_MODES_IVLEN_ERROR, demoCommonCtx) :=
  (C22_iv_length_validation demoCommonCtx [1, 2, 3] 3 0 (demoCtx CRYPT_PADDING_NONE true)
    demoCfbModeCtx none (by decide)).2.1

/-- C23 (unknown control options fail). On a non-NULL context, for every `opt` other than
`CRYPT_CTRL_REINIT_STATUS` and `CRYPT_CTRL_GET_IV`, `MODES_CipherCtrl` returns
`CRYPT_MODES_CTRL_TYPE_ERROR`; for every `opt` other than the five options that
`MODES_CFB_Ctrl` lists, `MODES_CFB_Ctrl` returns `CRYPT_MODES_METHODS_NOT_SUPPORT`. Neither
status is `CRYPT_SUCCESS`, and the context and `val` come back unchanged. -/
theorem C23_unknown_ctrl_options (ctx : MODES_CipherCtx) (cfb : MODES_CFB_Ctx)
    (opt opt2 : CRYPT_CipherCtrl) (val : Option CtrlVal) (len : Nat)
    (h1 : opt ≠ CRYPT_CTRL_REINIT_STATUS) (h2 : opt ≠ CRYPT_CTRL_GET_IV)
    (k1 : opt2 ≠ CRYPT_CTRL_REINIT_STATUS) (k2 : opt2 ≠ CRYPT_CTRL_GET_IV)
    (k3 : opt2 ≠ CRYPT_CTRL_SET_FEEDBACKSIZE) (k4 : opt2 ≠ CRYPT_CTRL_GET_FEEDBACKSIZE)
    (k5 : opt2 ≠ CRYPT_CTRL_GET_BLOCKSIZE) :
    MODES_CipherCtrl ctx opt val len = (CRYPT_MODES_CTRL_TYPE_ERROR, ctx, val) ∧
    MODES_CFB_Ctrl cfb opt2 val len = (CRYPT_MODES_METHODS_NOT_SUPPORT, cfb, val) ∧
    (MODES_CipherCtrl ctx opt val len).1 ≠ CRYPT_SUCCESS ∧
    (MODES_CFB_Ctrl cfb opt2 val len).1 ≠ CRYPT_SUCCESS := by
  have e1 : MODES_CipherCtrl ctx opt val len = (CRYPT_MODES_CTRL_TYPE_ERROR, ctx, val) := by
    cases opt with
    | CRYPT_CTRL_REINIT_STATUS => exact absurd rfl h1
    | CRYPT_CTRL_GET_IV => exact absurd rfl h2
    | CRYPT_CTRL_SET_FEEDBACKSIZE => rfl
    | CRYPT_CTRL_GET_FEEDBACKSIZE => rfl
    | CRYPT_CTRL_GET_BLOCKSIZE => rfl
    | other code => rfl
  have e2 : MODES_CFB_Ctrl cfb opt2 val len = (CRYPT_MODES_METHODS_NOT_SUPPORT, cfb, val) := by
    cases opt2 with
    | CRYPT_CTRL_REINIT_STATUS => exact absurd rfl k1
    | CRYPT_CTRL_GET_IV => exact absurd rfl k2
    | CRYPT_CTRL_SET_FEEDBACKSIZE => exact absurd rfl k3
    | CRYPT_CTRL_GET_FEEDBACKSIZE => exact absurd rfl k4
    | CRYPT_CTRL_GET_BLOCKSIZE => exact absurd rfl k5
    | other code => rfl
  refine ⟨e1, e2, ?_, ?_⟩
  · rw [e1]
    show CRYPT_MODES_CTRL_TYPE_ERROR ≠ CRYPT_SUCCESS
    decide
  · rw [e2]
    show CRYPT_MODES_METHODS_NOT_SUPPORT ≠ CRYPT_SUCCESS
    decide

theorem C23_witness :
    MODES_CipherCtrl (demoCtx CRYPT_PADDING_NONE true) CRYPT_CTRL_GET_BLOCKSIZE
        (some demoIvVal) 4 =
      (CRYPT_MODES_CTRL_TYPE_ERROR, demoCtx CRYPT_PADDING_NONE true, some demoIvVal) ∧
    MODES_CFB_Ctrl demoCfbModeCtx (other 77) (some demoIvVal) 4 =
      (CRYPT_MODES_METHODS_NOT_SUPPORT, demoCfbModeCtx, some demoIvVal) :=
  ⟨(C23_unknown_ctrl_options (demoCtx CRYPT_PADDING_NONE true) demoCfbModeCtx
      CRYPT_CTRL_GET_BLOCKSIZE (other 77) (some demoIvVal) 4 (by decide) (by decide)
      (by decide) (by decide) (by decide) (by decide) (by decide)).1,
   (C23_unknown_ctrl_options (demoCtx CRYPT_PADDING_NONE true) demoCfbModeCtx
      CRYPT_CTRL_GET_BLOCKSIZE (other 77) (some demoIvVal) 4 (by decide) (by decide)
      (by decide) (by decide) (by decide) (by decide) (by decide)).2.1⟩

/-- The checks of `SetFeedbackSize` pass exactly for a non-NULL `val` with `len = 4` and a
width of 1, 8 or 128 bits that fits the block and, for SM4, is 128. -/
theorem SetFeedbackSize_success_iff (ctx : MODES_CipherCFBCtx) (val : Option Nat) (len : Nat)
    (hbs : ctx.modeCtx.blockSize < 256) :
    (SetFeedbackSize ctx val len).1 = CRYPT_SUCCESS ↔
      ∃ v, val = some v ∧ len = 4 ∧ (v = 1 ∨ v = 8 ∨ v = 128) ∧
        v ≤ ctx.modeCtx.blockSize * 8 ∧ (ctx.modeCtx.ciphMeth.algId ≠ CRYPT_SYM_SM4 ∨ v = 128) := by
  have hm : (ctx.modeCtx.blockSize * 8) % 2 ^ 32 = ctx.modeCtx.blockSize * 8 :=
    Nat.mod_eq_of_lt (by omega)
  cases val with
  | none => simp [SetFeedbackSize]
  | some v =>
    unfold SetFeedbackSize
    simp only [hm]
    by_cases h4 : len = 4
    · by_cases hs : ctx.modeCtx.ciphMeth.algId = CRYPT_SYM_SM4 ∧ v ≠ 128
      · rw [if_neg (by simpa using h4), if_pos hs]
        simp only [reduceCtorEq, false_iff, not_exists]
        intro x hx
        cases hx.1
        have := hx.2.2.2.2
        tauto
      · rw [if_neg (by simpa using h4), if_neg hs]
        by_cases hv : v ≠ 1 ∧ v ≠ 8 ∧ v ≠ 128
        · rw [if_pos hv]
          simp only [reduceCtorEq, false_iff, not_exists]
          intro x hx
          cases hx.1
          have := hx.2.2.1
          omega
        · rw [if_neg hv]
          by_cases hb : v > ctx.modeCtx.blockSize * 8
          · rw [if_pos hb]
            simp only [reduceCtorEq, false_iff, not_exists]
            intro x hx
            cases hx.1
            have := hx.2.2.2.1
            omega
          · rw [if_neg hb]
            simp only [true_iff]
            refine ⟨v, rfl, h4, by omega, by omega, ?_⟩
            by_cases h : ctx.modeCtx.ciphMeth.algId = CRYPT_SYM_SM4
            · right
              by_contra h128
              exact hs ⟨h, h128⟩
            · left
              exact h
    · rw [if_pos h4]
      simp only [reduceCtorEq, false_iff, not_exists]
      intro x hx
      exact h4 hx.2.1

/-- What `SetFeedbackSize` leaves behind: the width on success, the context untouched on
failure. -/
theorem SetFeedbackSize_result (ctx : MODES_CipherCFBCtx) (val : Option Nat) (len : Nat) :
    ((SetFeedbackSize ctx val len).1 = CRYPT_SUCCESS →
      ∀ v, val = some v → (v = 1 ∨ v = 8 ∨ v = 128) ∧
        (SetFeedbackSize ctx val len).2 = { ctx with feedbackBits := v }) ∧
    ((SetFeedbackSize ctx val len).1 ≠ CRYPT_SUCCESS → (SetFeedbackSize ctx val len).2 = ctx) := by
  cases val with
  | none => simp [SetFeedbackSize]
  | some v =>
    unfold SetFeedbackSize
    simp only []
    split_ifs with a b c d
    · simp
    · simp
    · simp
    · simp
    · simp only [forall_const, ne_eq, not_true_eq_false, false_implies, and_true]
      intro x hx
      cases hx
      have hv : v = 1 ∨ v = 8 ∨ v = 128 := by omega
      refine ⟨hv, ?_⟩
      rcases hv with h | h | h <;> subst h <;> rfl

/-- C24 (feedback-size validation). For a CFB context (its `uint8_t` block size is below
256), `MODES_CFB_Ctrl` with `CRYPT_CTRL_SET_FEEDBACKSIZE` returns `CRYPT_SUCCESS` if and
only if `val` is non-NULL, `len = 4`, `*val` is 1, 8 or 128, `*val ≤ blockSize * 8`, and
the primitive is not SM4 or `*val = 128`. On success `feedbackBits` is `*val`, nothing else
in the context changes, and a following `CRYPT_CTRL_GET_FEEDBACKSIZE` with `len = 4`
returns `*val`. On every failure the context, `feedbackBits` included, is unchanged. A
request for 64 always fails. `val` itself is never written. -/
theorem C24_feedback_size_validation (cfb : MODES_CFB_Ctx) (val : Option CtrlVal) (len : Nat)
    (hbs : cfb.cfbCtx.modeCtx.blockSize < 256) :
    ((MODES_CFB_Ctrl cfb CRYPT_CTRL_SET_FEEDBACKSIZE val len).1 = CRYPT_SUCCESS ↔
      ∃ v, val = some v ∧ len = 4 ∧ (v.word = 1 ∨ v.word = 8 ∨ v.word = 128) ∧
        v.word ≤ cfb.cfbCtx.modeCtx.blockSize * 8 ∧
        (cfb.cfbCtx.modeCtx.ciphMeth.algId ≠ CRYPT_SYM_SM4 ∨ v.word = 128)) ∧
    ((MODES_CFB_Ctrl cfb CRYPT_CTRL_SET_FEEDBACKSIZE val len).1 = CRYPT_SUCCESS →
      ∀ v, val = some v →
        (MODES_CFB_Ctrl cfb CRYPT_CTRL_SET_FEEDBACKSIZE val len).2.1 =
          { cfb with cfbCtx := { cfb.cfbCtx with feedbackBits := v.word } } ∧
        ∀ w : CtrlVal,
          MODES_CFB_Ctrl (MODES_CFB_Ctrl cfb CRYPT_CTRL_SET_FEEDBACKSIZE val len).2.1
              CRYPT_CTRL_GET_FEEDBACKSIZE (some w) 4 =
            (CRYPT_SUCCESS, (MODES_CFB_Ctrl cfb CRYPT_CTRL_SET_FEEDBACKSIZE val len).2.1,
              some { w with word := v.word })) ∧
    ((MODES_CFB_Ctrl cfb CRYPT_CTRL_SET_FEEDBACKSIZE val len).1 ≠ CRYPT_SUCCESS →
      (MODES_CFB_Ctrl cfb CRYPT_CTRL_SET_FEEDBACKSIZE val len).2.1 = cfb) ∧
    (∀ v, val = some v → v.word = 64 →
      (MODES_CFB_Ctrl cfb CRYPT_CTRL_SET_FEEDBACKSIZE val len).1 ≠ CRYPT_SUCCESS) ∧
    (MODES_CFB_Ctrl cfb CRYPT_CTRL_SET_FEEDBACKSIZE val len).2.2 = val := by
  have hiff := SetFeedbackSize_success_iff cfb.cfbCtx (val.map CtrlVal.word) len hbs
  have hres := SetFeedbackSize_result cfb.cfbCtx (val.map CtrlVal.word) len
  have e1 : (MODES_CFB_Ctrl cfb CRYPT_CTRL_SET_FEEDBACKSIZE val len).1 =
      (SetFeedbackSize cfb.cfbCtx (val.map CtrlVal.word) len).1 := rfl
  have e2 : (MODES_CFB_Ctrl cfb CRYPT_CTRL_SET_FEEDBACKSIZE val len).2.1 =
      { cfb with cfbCtx := (SetFeedbackSize cfb.cfbCtx (val.map CtrlVal.word) len).2 } := rfl
  have hiff2 : (MODES_CFB_Ctrl cfb CRYPT_CTRL_SET_FEEDBACKSIZE val len).1 = CRYPT_SUCCESS ↔
      ∃ v, val = some v ∧ len = 4 ∧ (v.word = 1 ∨ v.word = 8 ∨ v.word = 128) ∧
        v.word ≤ cfb.cfbCtx.modeCtx.blockSize * 8 ∧
        (cfb.cfbCtx.modeCtx.ciphMeth.algId ≠ CRYPT_SYM_SM4 ∨ v.word = 128) := by
    rw [e1, hiff]
    constructor
    · rintro ⟨x, hx, r⟩
      cases val with
      | none => simp at hx
      | some v =>
        simp only [Option.map_some', Option.some.injEq] at hx
        subst hx
        exact ⟨v, rfl, r⟩
    · rintro ⟨v, hv, r⟩
      subst hv
      exact ⟨v.word, rfl, r⟩
  refine ⟨hiff2, ?_, ?_, ?_, rfl⟩
  · intro hs v hv
    subst hv
    rw [e1] at hs
    have h := (hres.1 hs v.word rfl).2
    rw [e2, h]
    refine ⟨rfl, ?_⟩
    intro w
    rfl
  · intro hf
    rw [e1] at hf
    rw [e2, hres.2 hf]
  · intro v hv h64 hs
    obtain ⟨x, hx, _, h, _⟩ := hiff2.1 hs
    rw [hv] at hx
    cases hx
    omega

theorem C24_witness :
    (MODES_CFB_Ctrl demoCfbModeCtx CRYPT_CTRL_SET_FEEDBACKSIZE
        (some { bytes := [], word := 64 }) 4).1 ≠ CRYPT_SUCCESS :=
  (C24_feedback_size_validation demoCfbModeCtx (some { bytes := [], word := 64 }) 4
    (by decide)).2.2.2.1 _ rfl rfl

/-- C27 (get block size through Ctrl). For a CFB context with a non-NULL `val`
and `len = 4`, `MODES_CFB_Ctrl` with `CRYPT_CTRL_GET_BLOCKSIZE` returns `CRYPT_SUCCESS` and
writes the constant 1 to `val`, whatever the block size of the context, without changing
the context; with `val` NULL, or with `len ≠ 4`, it returns `CRYPT_INVALID_ARG` and leaves
the context and `val` unchanged. -/
theorem C27_get_blocksize_writes_one (cfb : MODES_CFB_Ctx) (v : CtrlVal) (len len0 : Nat)
    (hlen : len ≠ 4) :
    MODES_CFB_Ctrl cfb CRYPT_CTRL_GET_BLOCKSIZE (some v) 4 =
      (CRYPT_SUCCESS, cfb, some { v with word := 1 }) ∧
    MODES_CFB_Ctrl cfb CRYPT_CTRL_GET_BLOCKSIZE none len0 = (CRYPT_INVALID_ARG, cfb, none) ∧
    MODES_CFB_Ctrl cfb CRYPT_CTRL_GET_BLOCKSIZE (some v) len =
      (CRYPT_INVALID_ARG, cfb, some v) := by
  refine ⟨rfl, rfl, ?_⟩
  unfold MODES_CFB_Ctrl
  simp only []
  rw [if_pos hlen]

theorem C27_witness :
    MODES_CFB_Ctrl demoCfbModeCtx CRYPT_CTRL_GET_BLOCKSIZE (some demoIvVal) 16 =
      (CRYPT_INVALID_ARG, demoCfbModeCtx, some demoIvVal) :=
  (C27_get_blocksize_writes_one demoCfbModeCtx demoIvVal 16 0 (by decide)).2.2

/-- C27 (counterexample): on a CFB context of block size 16 the call succeeds and the value
written to `val` is 1, not the block size 16. -/
theorem C27_blocksize_not_written :
    demoCfbModeCtx.cfbCtx.modeCtx.blockSize = 16 ∧
    (MODES_CFB_Ctrl demoCfbModeCtx CRYPT_CTRL_GET_BLOCKSIZE
        (some { bytes := [], word := 0 }) 4).1 = CRYPT_SUCCESS ∧
    (MODES_CFB_Ctrl demoCfbModeCtx CRYPT_CTRL_GET_BLOCKSIZE
        (some { bytes := [], word := 0 }) 4).2.2.map CtrlVal.word = some 1 ∧
    (MODES_CFB_Ctrl demoCfbModeCtx CRYPT_CTRL_GET_BLOCKSIZE
        (some { bytes := [], word := 0 }) 4).2.2.map CtrlVal.word ≠
      some demoCfbModeCtx.cfbCtx.modeCtx.blockSize := by
  refine ⟨rfl, rfl, rfl, ?_⟩
  decide
/-- C25 (algorithm dispatch). `MODES_GetSymMethod` returns NULL exactly for the ids outside
the listed set and, for a listed id, a method table whose primitive id and block size are
the listed ones (AES128, AES192, AES256 and SM4 with block size 16, ChaCha20 with block
size 1). `MODES_CipherNewCtx` and `MODES_CFB_NewCtx` return NULL when `MODES_GetSymMethod`
does, and NULL when an allocation fails; when the allocations succeed and the id is listed
they return a context that holds the method table, its block size, offset 0, the id, an
empty cache (for `MODES_CipherNewCtx`) and a key context of `ctxSize` zero bytes. -/
theorem C25_algorithm_dispatch (p : SymPrimitives) (sz : BufferSizes)
    (algId : CRYPT_CIPHER_AlgId) (keyOk : Bool) :
    (MODES_GetSymMethod p algId).map (fun m => (m.algId, m.blockSize)) =
        (listedPrimitive algId).map (fun s => (s, listedBlockSize s)) ∧
    (MODES_GetSymMethod p algId = none ↔ listedPrimitive algId = none) ∧
    (MODES_CipherNewCtx p sz true true algId).map
        (fun c => (c.commonCtx.blockSize, c.commonCtx.offset, c.dataLen, c.algId,
          c.commonCtx.ciphCtx)) =
      (MODES_GetSymMethod p algId).map
        (fun m => (m.blockSize, 0, 0, algId, List.replicate m.ctxSize 0)) ∧
    (MODES_CFB_NewCtx p sz true true algId).map
        (fun c => (c.cfbCtx.modeCtx.blockSize, c.cfbCtx.modeCtx.offset, c.algId,
          c.cfbCtx.modeCtx.ciphCtx)) =
      (MODES_GetSymMethod p algId).map
        (fun m => (m.blockSize, 0, algId, List.replicate m.ctxSize 0)) ∧
    (MODES_CipherNewCtx p sz true true algId).map (fun c => c.commonCtx.ciphMeth) =
      MODES_GetSymMethod p algId ∧
    (MODES_CFB_NewCtx p sz true true algId).map (fun c => c.cfbCtx.modeCtx.ciphMeth) =
      MODES_GetSymMethod p algId ∧
    MODES_CipherNewCtx p sz false keyOk algId = none ∧
    MODES_CipherNewCtx p sz true false algId = none ∧
    MODES_CFB_NewCtx p sz false keyOk algId = none ∧
    MODES_CFB_NewCtx p sz true false algId = none := by
  cases algId <;>
    refine ⟨rfl, by simp [ MODES_GetSymMethod, listedPrimitive], rfl, rfl, rfl, rfl, rfl, rfl, rfl, rfl⟩
/-- The value that `GET_UINT32_BE` loads fits in 32 bits. -/
theorem get_uint32_be_lt (p : List UInt8) (i : Nat) : GET_UINT32_BE p i < 2 ^ 32 := by
  unfold GET_UINT32_BE
  have h := beValue_lt ((p.drop i).take 4)
  have hl : ((p.drop i).take 4).length ≤ 4 := by
    rw [List.length_take]
    exact Nat.min_le_left _ _
  have hp : (256 : Nat) ^ ((p.drop i).take 4).length ≤ 256 ^ 4 :=
    Nat.pow_le_pow_right (by decide) hl
  have e : (256 : Nat) ^ 4 = 2 ^ 32 := by norm_num
  omega

/-- The batch arithmetic of one pass of the CTR loop, on numbers: with `c < 2 ^ 32` and
`1 ≤ m < 2 ^ 28`, the C computation yields `min m (2 ^ 32 - c)` blocks and the final
`beCtr32` is 0 exactly when the low counter reaches its wrap point. -/
theorem ctr_batch_numbers (c m : Nat) (hc : c < 2 ^ 32) (hm1 : 1 ≤ m) (hm : m < 2 ^ 28) :
    (if (c + m) % 2 ^ 32 < m then sub32 m ((c + m) % 2 ^ 32) else m) = min m (2 ^ 32 - c) ∧
    ((if (c + m) % 2 ^ 32 < m then 0 else (c + m) % 2 ^ 32) = 0 ↔
      c + min m (2 ^ 32 - c) = 2 ^ 32) := by
  unfold sub32
  by_cases hw : c + m < 2 ^ 32
  · have e : (c + m) % 2 ^ 32 = c + m := Nat.mod_eq_of_lt hw
    rw [e, if_neg (by omega), if_neg (by omega)]
    have hmin : min m (2 ^ 32 - c) = m := Nat.min_eq_left (by omega)
    rw [hmin]
    omega
  · have e : (c + m) % 2 ^ 32 = c + m - 2 ^ 32 := by omega
    rw [e, if_pos (by omega), if_pos (by omega)]
    have hmin : min m (2 ^ 32 - c) = 2 ^ 32 - c := Nat.min_eq_right (by omega)
    rw [hmin]
    omega

/-- One pass of the CTR loop, with the batch size in closed form. -/
theorem ctr_loop_step (h : CTR_Helpers) (ctx : MODES_CipherCommonCtx) (input : List UInt8)
    (fuel : Nat) (hbs : ctx.blockSize = 16) (hlen : input.length < 2 ^ 32)
    (hleft : 16 ≤ input.length) :
    AES_CTR_EncryptBlock.loop h (fuel + 1) ctx input =
      match AES_CTR_EncryptBlock.loop h fuel
          { ctx with
            iv :=
              if GET_UINT32_BE ctx.iv 12 +
                  min (input.length >>> 4) (2 ^ 32 - GET_UINT32_BE ctx.iv 12) = 2 ^ 32 then
                h.MODE_IncCounter
                  (h.CRYPT_AES_CTR_Encrypt ctx.ciphCtx
                    (input.take
                      (16 * min (input.length >>> 4) (2 ^ 32 - GET_UINT32_BE ctx.iv 12)))
                    ctx.iv).2 12
              else
                (h.CRYPT_AES_CTR_Encrypt ctx.ciphCtx
                  (input.take
                    (16 * min (input.length >>> 4) (2 ^ 32 - GET_UINT32_BE ctx.iv 12)))
                  ctx.iv).2 }
          (input.drop (16 * min (input.length >>> 4) (2 ^ 32 - GET_UINT32_BE ctx.iv 12))) with
      | none => none
      | some s =>
        some (s.1,
          (h.CRYPT_AES_CTR_Encrypt ctx.ciphCtx
            (input.take (16 * min (input.length >>> 4) (2 ^ 32 - GET_UINT32_BE ctx.iv 12)))
            ctx.iv).1 ++ s.2.1, s.2.2) := by
  have hc := get_uint32_be_lt ctx.iv 12
  have hm1 : 1 ≤ input.length >>> 4 := by
    rw [Nat.shiftRight_eq_div_pow]
    omega
  have hm : input.length >>> 4 < 2 ^ 28 := by
    rw [Nat.shiftRight_eq_div_pow]
    omega
  obtain ⟨n1, n2⟩ := ctr_batch_numbers (GET_UINT32_BE ctx.iv 12) (input.length >>> 4) hc hm1 hm
  have hb : min (input.length >>> 4) (2 ^ 32 - GET_UINT32_BE ctx.iv 12) ≤ input.length >>> 4 :=
    Nat.min_le_left _ _
  have hcal : (min (input.length >>> 4) (2 ^ 32 - GET_UINT32_BE ctx.iv 12) <<< 4) % 2 ^ 32 =
      16 * min (input.length >>> 4) (2 ^ 32 - GET_UINT32_BE ctx.iv 12) := by
    rw [Nat.shiftLeft_eq]
    omega
  have h12 : sub32 16 4 = 12 := by decide
  rw [AES_CTR_EncryptBlock.loop]
  simp only [hbs]
  rw [if_pos (by omega)]
  simp only [n1, hcal, h12]
  by_cases hz : GET_UINT32_BE ctx.iv 12 +
      min (input.length >>> 4) (2 ^ 32 - GET_UINT32_BE ctx.iv 12) = 2 ^ 32
  · rw [if_pos (n2.2 hz), if_pos hz]
  · rw [if_neg (fun a => hz (n2.1 a)), if_neg hz]

/-- The CTR loop returns: with block size 16 and a 32-bit length, `input.length / 16` passes
are enough whatever the helper functions do, and fewer than 16 bytes remain. -/
theorem ctr_loop_terminates (h : CTR_Helpers) (fuel : Nat) :
    ∀ (ctx : MODES_CipherCommonCtx) (input : List UInt8), ctx.blockSize = 16 →
      input.length < 2 ^ 32 → input.length / 16 ≤ fuel →
      ∃ s, AES_CTR_EncryptBlock.loop h fuel ctx input = some s ∧ s.2.2.length < 16 ∧
        s.1.blockSize = 16 := by
  induction fuel with
  | zero =>
    intro ctx input hbs _ hf
    refine ⟨(ctx, [], input), ?_, ?_, hbs⟩
    · rw [AES_CTR_EncryptBlock.loop]
      simp only [hbs]
      rw [if_neg (by omega)]
    · show input.length < 16
      omega
  | succ f ih =>
    intro ctx input hbs hlen hf
    by_cases hleft : 16 ≤ input.length
    · rw [ctr_loop_step h ctx input f hbs hlen hleft]
      have hc := get_uint32_be_lt ctx.iv 12
      have hm1 : 1 ≤ input.length >>> 4 := by
        rw [Nat.shiftRight_eq_div_pow]
        omega
      have hmle : 16 * (input.length >>> 4) ≤ input.length := by
        rw [Nat.shiftRight_eq_div_pow]
        omega
      have hb1 : 1 ≤ min (input.length >>> 4) (2 ^ 32 - GET_UINT32_BE ctx.iv 12) := by
        rw [Nat.le_min]
        omega
      have hb2 : min (input.length >>> 4) (2 ^ 32 - GET_UINT32_BE ctx.iv 12) ≤
          input.length >>> 4 := Nat.min_le_left _ _
      obtain ⟨s, hs, r1, r2⟩ := ih
        { ctx with
          iv :=
            if GET_UINT32_BE ctx.iv 12 +
                min (input.length >>> 4) (2 ^ 32 - GET_UINT32_BE ctx.iv 12) = 2 ^ 32 then
              h.MODE_IncCounter
                (h.CRYPT_AES_CTR_Encrypt ctx.ciphCtx
                  (input.take
                    (16 * min (input.length >>> 4) (2 ^ 32 - GET_UINT32_BE ctx.iv 12)))
                  ctx.iv).2 12
            else
              (h.CRYPT_AES_CTR_Encrypt ctx.ciphCtx
                (input.take
                  (16 * min (input.length >>> 4) (2 ^ 32 - GET_UINT32_BE ctx.iv 12)))
                ctx.iv).2 }
        (input.drop (16 * min (input.length >>> 4) (2 ^ 32 - GET_UINT32_BE ctx.iv 12)))
        hbs (by rw [List.length_drop]; omega) (by rw [List.length_drop]; omega)
      rw [hs]
      exact ⟨_, rfl, r1, r2⟩
    · refine ⟨(ctx, [], input), ?_, ?_, hbs⟩
      · rw [AES_CTR_EncryptBlock.loop]
        simp only [hbs]
        rw [if_neg (by omega)]
      · show input.length < 16
        omega

/-- C30 (CTR batch splitting arithmetic). In a pass of the loop of `AES_CTR_EncryptBlock`
(block size 16, `left = input.length` a 32-bit value of at least 16), with `c` the
big-endian value of IV bytes 12..15 and `m = left >> 4`: `m ≥ 1`; the primitive receives
the first `16 * b` bytes of the input with `b = min m (2 ^ 32 - c)`, where `1 ≤ b ≤ m`,
`c + b ≤ 2 ^ 32` and `b << 4` is below `2 ^ 32`; `MODE_IncCounter(iv, 12)` is applied
exactly when `c + b = 2 ^ 32`; the loop goes on with the rest of the input, which is
strictly shorter. The loop returns after at most `left / 16` passes, whatever the helper
functions compute, leaving fewer than 16 bytes. -/
theorem C30_ctr_batch_splitting (h : CTR_Helpers) (ctx : MODES_CipherCommonCtx)
    (input : List UInt8) (fuel : Nat) (hbs : ctx.blockSize = 16)
    (hlen : input.length < 2 ^ 32) (hleft : 16 ≤ input.length) :
    1 ≤ input.length >>> 4 ∧
    1 ≤ ctrBatch (GET_UINT32_BE ctx.iv 12) (input.length >>> 4) ∧
    ctrBatch (GET_UINT32_BE ctx.iv 12) (input.length >>> 4) ≤ input.length >>> 4 ∧
    GET_UINT32_BE ctx.iv 12 + ctrBatch (GET_UINT32_BE ctx.iv 12) (input.length >>> 4) ≤
      2 ^ 32 ∧
    ctrBatch (GET_UINT32_BE ctx.iv 12) (input.length >>> 4) <<< 4 < 2 ^ 32 ∧
    ctrBatch (GET_UINT32_BE ctx.iv 12) (input.length >>> 4) <<< 4 =
      16 * ctrBatch (GET_UINT32_BE ctx.iv 12) (input.length >>> 4) ∧
    (input.drop (16 * ctrBatch (GET_UINT32_BE ctx.iv 12) (input.length >>> 4))).length <
      input.length ∧
    AES_CTR_EncryptBlock.loop h (fuel + 1) ctx input =
      (match AES_CTR_EncryptBlock.loop h fuel
          { ctx with
            iv :=
              if GET_UINT32_BE ctx.iv 12 +
                  ctrBatch (GET_UINT32_BE ctx.iv 12) (input.length >>> 4) = 2 ^ 32 then
                h.MODE_IncCounter
                  (h.CRYPT_AES_CTR_Encrypt ctx.ciphCtx
                    (input.take
                      (16 * ctrBatch (GET_UINT32_BE ctx.iv 12) (input.length >>> 4)))
                    ctx.iv).2 12
              else
                (h.CRYPT_AES_CTR_Encrypt ctx.ciphCtx
                  (input.take
                    (16 * ctrBatch (GET_UINT32_BE ctx.iv 12) (input.length >>> 4)))
                  ctx.iv).2 }
          (input.drop (16 * ctrBatch (GET_UINT32_BE ctx.iv 12) (input.length >>> 4))) with
      | none => none
      | some s =>
        some (s.1,
          (h.CRYPT_AES_CTR_Encrypt ctx.ciphCtx
            (input.take (16 * ctrBatch (GET_UINT32_BE ctx.iv 12) (input.length >>> 4)))
            ctx.iv).1 ++ s.2.1, s.2.2)) ∧
    ∃ s, AES_CTR_EncryptBlock.loop h (input.length / 16) ctx input = some s ∧
      s.2.2.length < 16 := by
  have hc := get_uint32_be_lt ctx.iv 12
  have hm1 : 1 ≤ input.length >>> 4 := by
    rw [Nat.shiftRight_eq_div_pow]
    omega
  have hmle : 16 * (input.length >>> 4) ≤ input.length := by
    rw [Nat.shiftRight_eq_div_pow]
    omega
  have hb1 : 1 ≤ ctrBatch (GET_UINT32_BE ctx.iv 12) (input.length >>> 4) := by
    unfold ctrBatch
    rw [Nat.le_min]
    omega
  have hb2 : ctrBatch (GET_UINT32_BE ctx.iv 12) (input.length >>> 4) ≤ input.length >>> 4 :=
    Nat.min_le_left _ _
  have hb3 : ctrBatch (GET_UINT32_BE ctx.iv 12) (input.length >>> 4) ≤
      2 ^ 32 - GET_UINT32_BE ctx.iv 12 := Nat.min_le_right _ _
  have hsh : ctrBatch (GET_UINT32_BE ctx.iv 12) (input.length >>> 4) <<< 4 =
      16 * ctrBatch (GET_UINT32_BE ctx.iv 12) (input.length >>> 4) := by
    rw [Nat.shiftLeft_eq]
    omega
  refine ⟨hm1, hb1, hb2, by omega, by omega, hsh, ?_, ?_, ?_⟩
  · rw [List.length_drop]
    omega
  · exact ctr_loop_step h ctx input fuel hbs hlen hleft
  · obtain ⟨s, hs, r1, _⟩ := ctr_loop_terminates h (input.length / 16) ctx input hbs hlen
      (Nat.le_refl _)
    exact ⟨s, hs, r1⟩

theorem C30_witness :
    ∃ s, AES_CTR_EncryptBlock.loop (demoCtrHelpers demoBlock) (48 / 16) demoCtrCtx
        (List.replicate 48 7) = some s ∧ s.2.2.length < 16 :=
  (C30_ctr_batch_splitting (demoCtrHelpers demoBlock) demoCtrCtx (List.replicate 48 7) 0 rfl
    (by decide) (by decide)).2.2.2.2.2.2.2.2
/-- A loop over a pair of independent accumulators is the pair of the two loops. -/
theorem forLoop_pair {α β : Type} (lo hi : Nat) (f : Nat → α → α) (g : Nat → β → β)
    (a : α) (b : β) :
    forLoop lo hi (fun i (s : α × β) => (f i s.1, g i s.2)) (a, b) =
      (forLoop lo hi f a, forLoop lo hi g b) := by
  unfold forLoop
  generalize List.range' lo (hi - lo) = l
  induction l generalizing a b with
  | nil => rfl
  | cons x l ih => exact ih (f x a) (g x b)

/-- The loop that records its index in every pass records `0, 1, ..., n - 1`. -/
theorem forLoop_trace (n : Nat) (t : List Nat) :
    forLoop 0 n (fun i (tr : List Nat) => tr ++ [i]) t = t ++ List.range n := by
  induction n with
  | zero => simp [forLoop_empty]
  | succ n ih =>
    rw [forLoop_succ 0 n (Nat.zero_le n), ih, List.range_succ, List.append_assoc]

/-- The recorded run of `UnPaddingX923` returns what `UnPaddingX923` returns, and its reads
are the count byte followed by the indices `0 .. padLen - 2`, whatever the buffer holds. -/
theorem UnPaddingX923_traced (pad : List UInt8) (padLen finLen : Nat) :
    UnPaddingX923.traced pad padLen finLen =
      (UnPaddingX923 pad padLen finLen, sub32 padLen 1 :: List.range (sub32 padLen 1)) := by
  rw [UnPaddingX923.traced, UnPaddingX923, UnPaddingX923.check]
  rewrite [forLoop_pair 0 (sub32 padLen 1)
    (fun i c => c ||| ((pad.getD i 0).toNat *
      cbool (decide (i ≥ sub32 padLen (pad.getD (sub32 padLen 1) 0).toNat))))
    (fun i (tr : List Nat) => tr ++ [i]), forLoop_trace, List.singleton_append]
  dsimp only


/-- The recorded run of `UnPaddingPkcs` returns what `UnPaddingPkcs` returns, and its reads
are the count byte followed by the indices `0 .. padLen - 1`, whatever the buffer holds. -/
theorem UnPaddingPkcs_traced (pad : List UInt8) (padLen finLen : Nat) :
    UnPaddingPkcs.traced pad padLen finLen =
      (UnPaddingPkcs pad padLen finLen, sub32 padLen 1 :: List.range padLen) := by
  rw [UnPaddingPkcs.traced, UnPaddingPkcs, UnPaddingPkcs.check]
  rewrite [forLoop_pair 0 padLen
    (fun i c => c ||| (((pad.getD i 0).toNat ^^^ (pad.getD (sub32 padLen 1) 0).toNat) *
      cbool (decide (i ≥ sub32 padLen (pad.getD (sub32 padLen 1) 0).toNat))))
    (fun i (tr : List Nat) => tr ++ [i]), forLoop_trace, List.singleton_append]
  dsimp only

/-- The reads of the two checks depend on `padLen` only: two buffers give the same sequence
of reads, the count byte and then `padLen - 1` loop reads for X9.23, `padLen` loop reads for
PKCS. -/
theorem unpadding_reads_data_independent (pad pad2 : List UInt8)
    (padLen finLen finLen2 : Nat) (h : 1 ≤ padLen) (h32 : padLen < 2 ^ 32) :
    (UnPaddingX923.traced pad padLen finLen).2 =
      (UnPaddingX923.traced pad2 padLen finLen2).2 ∧
    (UnPaddingPkcs.traced pad padLen finLen).2 =
      (UnPaddingPkcs.traced pad2 padLen finLen2).2 ∧
    (UnPaddingX923.traced pad padLen finLen).2 = (padLen - 1) :: List.range (padLen - 1) ∧
    (UnPaddingPkcs.traced pad padLen finLen).2 = (padLen - 1) :: List.range padLen := by
  have e : sub32 padLen 1 = padLen - 1 := by
    unfold sub32
    omega
  rewrite [UnPaddingX923_traced pad padLen finLen, UnPaddingX923_traced pad2 padLen finLen2,
    UnPaddingPkcs_traced pad padLen finLen, UnPaddingPkcs_traced pad2 padLen finLen2, e]
  dsimp only
  exact ⟨rfl, rfl, rfl, rfl⟩

/-- The two checks have a single failure code, and a failure leaves `*finLen` alone. -/
theorem unpadding_single_error_code (pad : List UInt8) (padLen finLen : Nat) :
    (UnPaddingX923 pad padLen finLen =
        (CRYPT_SUCCESS, sub32 padLen (pad.getD (sub32 padLen 1) 0).toNat) ∨
      UnPaddingX923 pad padLen finLen = (CRYPT_EAL_CIPHER_DATA_ERROR, finLen)) ∧
    (UnPaddingPkcs pad padLen finLen =
        (CRYPT_SUCCESS, sub32 padLen (pad.getD (sub32 padLen 1) 0).toNat) ∨
      UnPaddingPkcs pad padLen finLen = (CRYPT_EAL_CIPHER_DATA_ERROR, finLen)) := by
  rw [UnPaddingX923, UnPaddingPkcs]
  constructor
  · by_cases h : UnPaddingX923.check pad padLen ≠ 0
    · rw [if_pos h]
      exact Or.inr rfl
    · rw [if_neg h]
      exact Or.inl rfl
  · by_cases h : UnPaddingPkcs.check pad padLen ≠ 0
    · rw [if_pos h]
      exact Or.inr rfl
    · rw [if_neg h]
      exact Or.inl rfl

/-- C28 (evaluation at the failing input): the 16-byte block `FF .. FF 00` ends in
the pad count 0, which no X9.23 padding has, and fifteen of its bytes are not zero, yet
`UnPaddingX923` returns `CRYPT_SUCCESS` with `*finLen = 16` instead of
`CRYPT_EAL_CIPHER_DATA_ERROR`; `UnPaddingPkcs` rejects the same block. The reads are the
count byte and then the indices 0 to 14. -/
theorem C28_UnPaddingX923_invalid_block_accepted :
    UnPaddingX923 demoZeroCountBlock 16 0 = (CRYPT_SUCCESS, 16) ∧
    UnPaddingPkcs demoZeroCountBlock 16 0 = (CRYPT_EAL_CIPHER_DATA_ERROR, 0) ∧
    UnPaddingX923.traced demoZeroCountBlock 16 0 =
      ((CRYPT_SUCCESS, 16), 15 :: List.range 15) := by
  decide
/-- Bitwise or of bytes, on their values. -/
theorem uint8_toNat_or (a b : UInt8) : (a ||| b).toNat = a.toNat ||| b.toNat :=
  BitVec.toNat_or a.toBitVec b.toBitVec

set_option maxRecDepth 100000 in
/-- Testing a byte against the mask `1 << p` reads its bit `p`. -/
theorem uint8_bit_select : ∀ k < 256, ∀ p < 8,
    (((UInt8.ofNat k &&& (1 <<< UInt8.ofNat p)) > 0) ↔ k.testBit p = true) := by
  decide

set_option maxRecDepth 100000 in
/-- Clearing bit `p` of a byte, on values. -/
theorem uint8_clear_bit : ∀ k < 256, ∀ p < 8,
    (UInt8.ofNat k &&& ~~~(1 <<< UInt8.ofNat p)).toNat = k &&& (255 - 2 ^ p) := by
  decide

set_option maxRecDepth 100000 in
/-- Moving a bit to position `p`, on values. -/
theorem uint8_place_bit : ∀ c < 2, ∀ p < 8,
    (UInt8.ofNat c <<< UInt8.ofNat p).toNat = c * 2 ^ p := by
  decide

set_option maxRecDepth 100000 in
/-- Shifting a byte left by one bit, on values. -/
theorem uint8_shl1 : ∀ k < 256, (UInt8.ofNat k <<< 1).toNat = 2 * k % 256 := by
  decide

set_option maxRecDepth 100000 in
/-- Shifting a byte right by seven bits, on values. -/
theorem uint8_shr7 : ∀ k < 256, (UInt8.ofNat k >>> 7).toNat = k / 128 := by
  decide

set_option maxRecDepth 100000 in
/-- An even byte value and a bit do not overlap. -/
theorem nat_lor_carry : ∀ k < 256, ∀ y < 2, (2 * k % 256) ||| y = 2 * k % 256 + y := by
  decide

set_option maxRecDepth 100000 in
/-- The bits of the mask that clears bit `p`. -/
theorem testBit_mask : ∀ p < 8, ∀ q < 8, (255 - 2 ^ p).testBit q = decide (q ≠ p) := by
  decide

set_option maxRecDepth 100000 in
/-- The bits of a bit placed at position `p`. -/
theorem testBit_placed : ∀ c < 2, ∀ p < 8, ∀ q < 8,
    (c * 2 ^ p).testBit q = (decide (q = p) && decide (c = 1)) := by
  decide

set_option maxRecDepth 100000 in
/-- The top bit of a byte is its value divided by 128. -/
theorem testBit7_div : ∀ k < 256, k.testBit 7 = decide (k / 128 = 1) := by
  decide

set_option maxRecDepth 100000 in
/-- The top bit of a byte XORed with `0x80` or with `0`. -/
theorem uint8_xor_top : ∀ k < 256,
    ((UInt8.ofNat k ^^^ 0x80).toNat.testBit 7 = !k.testBit 7) ∧
    ((UInt8.ofNat k ^^^ 0).toNat.testBit 7 = k.testBit 7) := by
  decide

/-- Shifting a byte left by one bit, for a byte. -/
theorem uint8_shl1_toNat (a : UInt8) : (a <<< 1).toNat = 2 * a.toNat % 256 := by
  have h := uint8_shl1 a.toNat (uint8_toNat_lt a)
  rw [uint8_ofNat_toNat] at h
  exact h

/-- Shifting a byte right by seven bits, for a byte. -/
theorem uint8_shr7_toNat (a : UInt8) : (a >>> 7).toNat = a.toNat / 128 := by
  have h := uint8_shr7 a.toNat (uint8_toNat_lt a)
  rw [uint8_ofNat_toNat] at h
  exact h

/-- The byte that the shift stores: the doubled byte plus the incoming bit. -/
theorem shift_byte_toNat (a c : UInt8) (hc : c.toNat ≤ 1) :
    ((a <<< 1) ||| c).toNat = 2 * a.toNat % 256 + c.toNat := by
  rw [uint8_toNat_or, uint8_shl1_toNat]
  exact nat_lor_carry a.toNat (uint8_toNat_lt a) c.toNat (by omega)

theorem shiftBytes_length : ∀ (l : List UInt8) (c : UInt8), (shiftBytes l c).length = l.length
  | [], _ => rfl
  | [_], _ => rfl
  | _ :: b :: rest, c => by
    rw [shiftBytes, List.length_cons, shiftBytes_length (b :: rest) c]
    rfl

/-- The shift of a register extended by one byte at its low end. -/
theorem shiftBytes_snoc : ∀ (l : List UInt8) (b c : UInt8),
    shiftBytes (l ++ [b]) c = shiftBytes l (b >>> 7) ++ [(b <<< 1) ||| c]
  | [], _, _ => rfl
  | [_], _, _ => rfl
  | a :: a2 :: rest, b, c => by
    have ih : shiftBytes (a2 :: (rest ++ [b])) c =
        shiftBytes (a2 :: rest) (b >>> 7) ++ [(b <<< 1) ||| c] := shiftBytes_snoc (a2 :: rest) b c
    show shiftBytes (a :: a2 :: (rest ++ [b])) c = _
    rw [shiftBytes, ih, shiftBytes]
    rfl

/-- The byte-wise shift is the doubling of the big-endian value. -/
theorem shiftBytes_eq (l : List UInt8) : ∀ c : UInt8, c.toNat ≤ 1 →
    shiftBytes l c = beBytes l.length (2 * beValue l + c.toNat) := by
  induction l using List.reverseRecOn with
  | nil => intro c _; rfl
  | append_singleton l b ih =>
    intro c hc
    have hb := uint8_toNat_lt b
    have h7 : (b >>> 7).toNat ≤ 1 := by
      rw [uint8_shr7_toNat]
      omega
    rw [shiftBytes_snoc, ih (b >>> 7) h7, List.length_append, List.length_singleton, beBytes,
      beValue_append, beValue_singleton, uint8_shr7_toNat]
    have e1 : (2 * (beValue l * 256 ^ [b].length + b.toNat) + c.toNat) / 256 =
        2 * beValue l + b.toNat / 128 := by
      simp only [List.length_singleton, Nat.pow_one]
      omega
    have e2 : (2 * (beValue l * 256 ^ [b].length + b.toNat) + c.toNat) % 256 =
        2 * b.toNat % 256 + c.toNat := by
      simp only [List.length_singleton, Nat.pow_one]
      omega
    rw [e1, e2, ← shift_byte_toNat b c hc, uint8_ofNat_toNat]
/-- A buffer from index `n` on: the byte at `n` and the rest. -/
theorem drop_eq_getD_cons (v : List UInt8) (n : Nat) (h : n < v.length) :
    v.drop n = v.getD n 0 :: v.drop (n + 1) := by
  rw [List.getD_eq_getElem?_getD, List.getElem?_eq_getElem h]
  exact List.drop_eq_getElem_cons h

/-- The first `n + 1` bytes of a buffer: the first `n` and the byte at `n`. -/
theorem take_succ_getD (v : List UInt8) (n : Nat) (h : n < v.length) :
    v.take (n + 1) = v.take n ++ [v.getD n 0] := by
  rw [List.getD_eq_getElem?_getD, List.getElem?_eq_getElem h, List.take_succ,
    List.getElem?_eq_getElem h]
  rfl

/-- The shift loop of `Cfb1Crypt` followed by the store into the last byte: the first
`n + 1` bytes of the buffer are shifted left by one bit and receive `c`. -/
theorem shift_loop (v : List UInt8) : ∀ (n : Nat) (c : UInt8), n + 1 ≤ v.length →
    (forLoop 0 n (fun k w => w.set k ((w.getD k 0 <<< 1) ||| (w.getD (k + 1) 0 >>> 7))) v).set n
        (((forLoop 0 n
            (fun k w => w.set k ((w.getD k 0 <<< 1) ||| (w.getD (k + 1) 0 >>> 7))) v).getD n 0
          <<< 1) ||| c) =
      shiftBytes (v.take (n + 1)) c ++ v.drop (n + 1) := by
  intro n
  induction n with
  | zero =>
    intro c h
    rw [forLoop_empty 0 0 (Nat.le_refl 0)]
    cases v with
    | nil => simp at h
    | cons a rest => rfl
  | succ n ih =>
    intro c h
    have hl : (shiftBytes (v.take (n + 1)) (v.getD (n + 1) 0 >>> 7)).length = n + 1 := by
      rw [shiftBytes_length, List.length_take]
      omega
    have hF : forLoop 0 (n + 1)
        (fun k w => w.set k ((w.getD k 0 <<< 1) ||| (w.getD (k + 1) 0 >>> 7))) v =
        shiftBytes (v.take (n + 1)) (v.getD (n + 1) 0 >>> 7) ++ v.drop (n + 1) := by
      rw [forLoop_succ 0 n (Nat.zero_le n)]
      have h0 := ih 0 (by omega)
      have hg : (forLoop 0 n
          (fun k w => w.set k ((w.getD k 0 <<< 1) ||| (w.getD (k + 1) 0 >>> 7))) v).getD
            (n + 1) 0 = v.getD (n + 1) 0 := by
        have e := congrArg (fun l => l.getD (n + 1) 0) h0
        simp only [] at e
        rw [List.getD_eq_getElem?_getD, List.getElem?_set_ne (by omega),
          ← List.getD_eq_getElem?_getD] at e
        rw [e, getD_append_right _ _ _ (by rw [shiftBytes_length, List.length_take]; omega),
          shiftBytes_length, List.length_take, Nat.min_eq_left (by omega), Nat.sub_self,
          drop_eq_getD_cons v (n + 1) (by omega)]
        rfl
      show (forLoop 0 n _ v).set n (((forLoop 0 n _ v).getD n 0 <<< 1) |||
        ((forLoop 0 n _ v).getD (n + 1) 0 >>> 7)) = _
      rw [hg]
      exact ih (v.getD (n + 1) 0 >>> 7) (by omega)
    rw [hF, getD_append_right _ _ _ (by rw [hl]), hl, Nat.sub_self,
      List.set_append_right _ _ (by rw [hl]), hl, Nat.sub_self,
      drop_eq_getD_cons v (n + 1) (by omega), take_succ_getD v (n + 1) (by omega),
      shiftBytes_snoc]
    simp only [List.set_cons_zero, List.append_assoc, List.singleton_append]
    rfl
/-- The top bit of a byte, as a number, is the byte shifted right by seven bits. -/
theorem msb_toNat (b : UInt8) : (msb b).toNat = (b >>> 7).toNat := by
  have hb := uint8_toNat_lt b
  unfold msb
  rw [uint8_shr7_toNat, testBit7_div b.toNat hb]
  by_cases h : b.toNat / 128 = 1
  · simp [h]
  · have : b.toNat / 128 = 0 := by omega
    simp [this]

/-- One call of `Cfb1Crypt` on a register of 16 bytes: the output byte is the input byte XOR
the first byte of the encrypted register, and the register is shifted left by one bit and
receives the top bit of the feedback byte. -/
theorem Cfb1Crypt_spec (ctx : MODES_CipherCFBCtx) (E : List UInt8 → List UInt8)
    (t0 o0 : UInt8) (enc : Bool)
    (hbs : ctx.modeCtx.blockSize = 16) (hiv : 16 ≤ ctx.modeCtx.iv.length)
    (hE : ∀ x : List UInt8, x.length = 16 →
      ctx.modeCtx.ciphMeth.encryptBlock ctx.modeCtx.ciphCtx x = (CRYPT_SUCCESS, E x) ∧
        (E x).length = 16) :
    Cfb1Crypt ctx t0 o0 enc =
      (CRYPT_SUCCESS,
        { ctx with modeCtx := { ctx.modeCtx with
            iv := shiftInBit (ctx.modeCtx.iv.take 16)
                (msb (if enc then (E (ctx.modeCtx.iv.take 16)).getD 0 0 ^^^ t0 else t0)) ++
              ctx.modeCtx.iv.drop 16,
            buf := memcpyAt ctx.modeCtx.buf 0 (E (ctx.modeCtx.iv.take 16)) } },
        (E (ctx.modeCtx.iv.take 16)).getD 0 0 ^^^ t0) := by
  have hS : (ctx.modeCtx.iv.take 16).length = 16 := by
    rw [List.length_take]
    omega
  obtain ⟨e1, e2⟩ := hE (ctx.modeCtx.iv.take 16) hS
  have henc : cfbEncryptIv ctx = (CRYPT_SUCCESS, E (ctx.modeCtx.iv.take 16)) := by
    unfold cfbEncryptIv
    rw [hbs, e1]
  have h15 : sub32 16 1 = 15 := by decide
  have hne : ¬ (CRYPT_SUCCESS ≠ CRYPT_SUCCESS) := by decide
  have ht : (memcpyAt ctx.modeCtx.buf 0 (E (ctx.modeCtx.iv.take 16))).getD 0 0 =
      (E (ctx.modeCtx.iv.take 16)).getD 0 0 :=
    getD_memcpyAt_zero _ _ 0 (by omega)
  have hsh : ∀ fb : UInt8,
      (forLoop 0 15
          (fun k w => w.set k ((w.getD k 0 <<< 1) ||| (w.getD (k + 1) 0 >>> 7)))
          ctx.modeCtx.iv).set 15
        (((forLoop 0 15
            (fun k w => w.set k ((w.getD k 0 <<< 1) ||| (w.getD (k + 1) 0 >>> 7)))
            ctx.modeCtx.iv).getD 15 0 <<< 1) ||| (fb >>> 7)) =
      shiftInBit (ctx.modeCtx.iv.take 16) (msb fb) ++ ctx.modeCtx.iv.drop 16 := by
    intro fb
    have h7 : (fb >>> 7).toNat ≤ 1 := by
      have := uint8_toNat_lt fb
      rw [uint8_shr7_toNat]
      omega
    rw [shift_loop ctx.modeCtx.iv 15 (fb >>> 7) (by omega), shiftBytes_eq _ _ h7]
    unfold shiftInBit
    rw [msb_toNat]
  unfold Cfb1Crypt
  simp only [henc, hbs, h15, hne, if_false, ht, hsh]
/-- The byte `tmp[0]` that `MODES_CFB_BitCrypt` builds from input bit `i`. -/
theorem bit_select_spec (x : UInt8) (i : Nat) :
    (if (x &&& (1 <<< UInt8.ofNat (7 - i % 8))) > 0 then (0x80 : UInt8) else 0) =
      if x.toNat.testBit (7 - i % 8) then 0x80 else 0 := by
  have h := uint8_bit_select x.toNat (uint8_toNat_lt x) (7 - i % 8) (by omega)
  rw [uint8_ofNat_toNat] at h
  by_cases hb : x.toNat.testBit (7 - i % 8) = true
  · rw [if_pos (h.mpr hb), if_pos hb]
  · rw [if_neg (fun a => hb (h.mp a)), if_neg hb]

/-- The top bit of a byte combined with the byte that carries one input bit. -/
theorem msb_xor_bit (a : UInt8) (b : Bool) :
    msb (a ^^^ (if b then 0x80 else 0)) = Bool.xor b (msb a) ∧
    msb (if b then (0x80 : UInt8) else 0) = b := by
  have h := uint8_xor_top a.toNat (uint8_toNat_lt a)
  rw [uint8_ofNat_toNat] at h
  unfold msb
  cases b with
  | true =>
    refine ⟨?_, by decide⟩
    simp only [if_true]
    rw [h.1]
    simp
  | false =>
    refine ⟨?_, by decide⟩
    simp only [Bool.false_eq_true, if_false]
    rw [h.2]
    simp

/-- The byte after bit `p` is cleared and the top bit of `o` is stored there: bit `p` is the
top bit of `o`, the other bits are kept. -/
theorem stored_bit_spec (x o : UInt8) (p q : Nat) (hp : p < 8) (hq : q < 8) :
    ((x &&& ~~~(1 <<< UInt8.ofNat p)) ||| ((o >>> 7) <<< UInt8.ofNat p)).toNat.testBit q =
      if q = p then msb o else x.toNat.testBit q := by
  have ho := uint8_toNat_lt o
  have hc : o.toNat / 128 < 2 := by omega
  have h1 := uint8_clear_bit x.toNat (uint8_toNat_lt x) p hp
  rw [uint8_ofNat_toNat] at h1
  have h2 := uint8_place_bit (o.toNat / 128) hc p hp
  have h3 : UInt8.ofNat (o.toNat / 128) = o >>> 7 := by
    rw [← uint8_shr7_toNat, uint8_ofNat_toNat]
  rw [h3] at h2
  rw [uint8_toNat_or, h1, h2, Nat.testBit_lor, Nat.testBit_land, testBit_mask p hp q hq,
    testBit_placed (o.toNat / 128) hc p hp q hq]
  unfold msb
  rw [testBit7_div o.toNat ho]
  by_cases hqp : q = p
  · simp [hqp]
  · simp [hqp]

/-- The two stores of `MODES_CFB_BitCrypt` into `out[i / 8]`: output bit `i` becomes the top
bit of `o`, every other bit and the length are kept. -/
theorem store_bit_spec (out : List UInt8) (o : UInt8) (i : Nat) (hi : i / 8 < out.length) :
    ((out.set (i / 8) (out.getD (i / 8) 0 &&& ~~~(1 <<< UInt8.ofNat (7 - i % 8)))).set (i / 8)
        ((out.set (i / 8)
            (out.getD (i / 8) 0 &&& ~~~(1 <<< UInt8.ofNat (7 - i % 8)))).getD (i / 8) 0 |||
          ((o >>> 7) <<< UInt8.ofNat (7 - i % 8)))).length = out.length ∧
    ∀ j, bitAt
        ((out.set (i / 8) (out.getD (i / 8) 0 &&& ~~~(1 <<< UInt8.ofNat (7 - i % 8)))).set
          (i / 8)
          ((out.set (i / 8)
              (out.getD (i / 8) 0 &&& ~~~(1 <<< UInt8.ofNat (7 - i % 8)))).getD (i / 8) 0 |||
            ((o >>> 7) <<< UInt8.ofNat (7 - i % 8)))) j =
      if j = i then msb o else bitAt out j := by
  have hg : (out.set (i / 8)
      (out.getD (i / 8) 0 &&& ~~~(1 <<< UInt8.ofNat (7 - i % 8)))).getD (i / 8) 0 =
      out.getD (i / 8) 0 &&& ~~~(1 <<< UInt8.ofNat (7 - i % 8)) := by
    rw [List.getD_eq_getElem?_getD, List.getElem?_set_self hi]
    rfl
  rw [hg, List.set_set]
  refine ⟨by rw [List.length_set], ?_⟩
  intro j
  unfold bitAt
  by_cases hj : j / 8 = i / 8
  · rw [hj, List.getD_eq_getElem?_getD, List.getElem?_set_self hi]
    show (out.getD (i / 8) 0 &&& ~~~(1 <<< UInt8.ofNat (7 - i % 8)) |||
      (o >>> 7) <<< UInt8.ofNat (7 - i % 8)).toNat.testBit (7 - j % 8) = _
    rw [stored_bit_spec _ _ (7 - i % 8) (7 - j % 8) (by omega) (by omega)]
    by_cases hji : j = i
    · rw [hji, if_pos rfl, if_pos rfl]
    · rw [if_neg (by omega), if_neg hji]
  · rw [List.getD_eq_getElem?_getD, List.getElem?_set_ne (fun a => hj a.symm),
      ← List.getD_eq_getElem?_getD, if_neg (fun a => hj (by rw [a]))]
/-- The loop of `MODES_CFB_BitCrypt` from bit `i` on, for `n` bits, against the reference:
the loop returns `CRYPT_SUCCESS`, the register is the reference register, output bits
`i .. i + n - 1` are the reference bits, and everything else is as before. -/
theorem bitcrypt_loop_spec (enc : Bool) (inp : List UInt8) (E : List UInt8 → List UInt8) :
    ∀ (n i : Nat) (ctx : MODES_CipherCFBCtx) (t1 : UInt8) (out : List UInt8),
      ctx.modeCtx.blockSize = 16 → 16 ≤ ctx.modeCtx.iv.length →
      (∀ x : List UInt8, x.length = 16 →
        ctx.modeCtx.ciphMeth.encryptBlock ctx.modeCtx.ciphCtx x = (CRYPT_SUCCESS, E x) ∧
          (E x).length = 16) →
      i + n ≤ 8 * out.length →
      (MODES_CFB_BitCrypt.loop enc inp n i ctx t1 out).1 = CRYPT_SUCCESS ∧
      (MODES_CFB_BitCrypt.loop enc inp n i ctx t1 out).2.1.modeCtx.iv =
        (cfb1Reference E enc (ctx.modeCtx.iv.take 16)
          ((List.range' i n).map (bitAt inp))).1 ++ ctx.modeCtx.iv.drop 16 ∧
      (cfb1Reference E enc (ctx.modeCtx.iv.take 16)
          ((List.range' i n).map (bitAt inp))).1.length = 16 ∧
      (MODES_CFB_BitCrypt.loop enc inp n i ctx t1 out).2.1.modeCtx.blockSize = 16 ∧
      (MODES_CFB_BitCrypt.loop enc inp n i ctx t1 out).2.1.modeCtx.ciphMeth =
        ctx.modeCtx.ciphMeth ∧
      (MODES_CFB_BitCrypt.loop enc inp n i ctx t1 out).2.1.modeCtx.ciphCtx =
        ctx.modeCtx.ciphCtx ∧
      (MODES_CFB_BitCrypt.loop enc inp n i ctx t1 out).2.1.modeCtx.offset =
        ctx.modeCtx.offset ∧
      (MODES_CFB_BitCrypt.loop enc inp n i ctx t1 out).2.1.feedbackBits = ctx.feedbackBits ∧
      (MODES_CFB_BitCrypt.loop enc inp n i ctx t1 out).2.2.length = out.length ∧
      (∀ j, j < n → bitAt (MODES_CFB_BitCrypt.loop enc inp n i ctx t1 out).2.2 (i + j) =
        (cfb1Reference E enc (ctx.modeCtx.iv.take 16)
          ((List.range' i n).map (bitAt inp))).2.getD j false) ∧
      (∀ j, (j < i ∨ i + n ≤ j) →
        bitAt (MODES_CFB_BitCrypt.loop enc inp n i ctx t1 out).2.2 j = bitAt out j) := by
  intro n
  induction n with
  | zero =>
    intro i ctx t1 out hbs hiv _ _
    have hS : (ctx.modeCtx.iv.take 16).length = 16 := by
      rw [List.length_take]
      omega
    refine ⟨rfl, ?_, hS, hbs, rfl, rfl, rfl, rfl, rfl, ?_, ?_⟩
    · show ctx.modeCtx.iv = ctx.modeCtx.iv.take 16 ++ ctx.modeCtx.iv.drop 16
      rw [List.take_append_drop]
    · intro j hj
      omega
    · intro j _
      rfl
  | succ n ih =>
    intro i ctx t1 out hbs hiv hE hout
    have hS : (ctx.modeCtx.iv.take 16).length = 16 := by
      rw [List.length_take]
      omega
    have hi8 : i / 8 < out.length := by omega
    have hstep := Cfb1Crypt_spec ctx E
      (if (inp.getD (i / 8) 0).toNat.testBit (7 - i % 8) then 0x80 else 0) t1 enc hbs hiv hE
    obtain ⟨m1, m2⟩ := msb_xor_bit ((E (ctx.modeCtx.iv.take 16)).getD 0 0) (bitAt inp i)
    have hbit : (inp.getD (i / 8) 0).toNat.testBit (7 - i % 8) = bitAt inp i := rfl
    rw [hbit] at hstep
    have hfb : msb (if enc then (E (ctx.modeCtx.iv.take 16)).getD 0 0 ^^^
          (if bitAt inp i then (0x80 : UInt8) else 0)
        else (if bitAt inp i then (0x80 : UInt8) else 0)) =
        (if enc then Bool.xor (bitAt inp i) (msb ((E (ctx.modeCtx.iv.take 16)).getD 0 0))
          else bitAt inp i) := by
      cases enc with
      | true => simpa using m1
      | false => simpa using m2
    rw [hfb] at hstep
    obtain ⟨s1, s2⟩ := store_bit_spec out
      ((E (ctx.modeCtx.iv.take 16)).getD 0 0 ^^^ (if bitAt inp i then (0x80 : UInt8) else 0))
      i hi8
    have hlen : (shiftInBit (ctx.modeCtx.iv.take 16)
        (if enc then Bool.xor (bitAt inp i) (msb ((E (ctx.modeCtx.iv.take 16)).getD 0 0))
          else bitAt inp i)).length = 16 := by
      unfold shiftInBit
      rw [beBytes_length, hS]
    have hne : ¬ (CRYPT_SUCCESS ≠ CRYPT_SUCCESS) := by decide
    have hunf : MODES_CFB_BitCrypt.loop enc inp (n + 1) i ctx t1 out =
        MODES_CFB_BitCrypt.loop enc inp n (i + 1)
          { ctx with modeCtx := { ctx.modeCtx with
              iv := shiftInBit (ctx.modeCtx.iv.take 16)
                  (if enc then
                    Bool.xor (bitAt inp i) (msb ((E (ctx.modeCtx.iv.take 16)).getD 0 0))
                  else bitAt inp i) ++ ctx.modeCtx.iv.drop 16,
              buf := memcpyAt ctx.modeCtx.buf 0 (E (ctx.modeCtx.iv.take 16)) } }
          ((E (ctx.modeCtx.iv.take 16)).getD 0 0 ^^^
            (if bitAt inp i then (0x80 : UInt8) else 0))
          ((out.set (i / 8)
              (out.getD (i / 8) 0 &&& ~~~(1 <<< UInt8.ofNat (7 - i % 8)))).set (i / 8)
            ((out.set (i / 8)
                (out.getD (i / 8) 0 &&& ~~~(1 <<< UInt8.ofNat (7 - i % 8)))).getD (i / 8) 0 |||
              (((E (ctx.modeCtx.iv.take 16)).getD 0 0 ^^^
                (if bitAt inp i then (0x80 : UInt8) else 0)) >>> 7) <<<
                UInt8.ofNat (7 - i % 8))) := by
      rw [ MODES_CFB_BitCrypt.loop]
      simp only [bit_select_spec, hbit, hstep, hne, if_false]
    obtain ⟨r1, r2, r3, r4, r5, r6, r7, r8, r9, r10, r11⟩ := ih (i + 1)
      { ctx with modeCtx := { ctx.modeCtx with
          iv := shiftInBit (ctx.modeCtx.iv.take 16)
              (if enc then
                Bool.xor (bitAt inp i) (msb ((E (ctx.modeCtx.iv.take 16)).getD 0 0))
              else bitAt inp i) ++ ctx.modeCtx.iv.drop 16,
          buf := memcpyAt ctx.modeCtx.buf 0 (E (ctx.modeCtx.iv.take 16)) } }
      ((E (ctx.modeCtx.iv.take 16)).getD 0 0 ^^^ (if bitAt inp i then (0x80 : UInt8) else 0))
      ((out.set (i / 8)
          (out.getD (i / 8) 0 &&& ~~~(1 <<< UInt8.ofNat (7 - i % 8)))).set (i / 8)
        ((out.set (i / 8)
            (out.getD (i / 8) 0 &&& ~~~(1 <<< UInt8.ofNat (7 - i % 8)))).getD (i / 8) 0 |||
          (((E (ctx.modeCtx.iv.take 16)).getD 0 0 ^^^
            (if bitAt inp i then (0x80 : UInt8) else 0)) >>> 7) <<<
            UInt8.ofNat (7 - i % 8)))
      hbs (by simp only [List.length_append, hlen]; omega) hE (by rw [s1]; omega)
    have htk : (shiftInBit (ctx.modeCtx.iv.take 16)
        (if enc then Bool.xor (bitAt inp i) (msb ((E (ctx.modeCtx.iv.take 16)).getD 0 0))
          else bitAt inp i) ++ ctx.modeCtx.iv.drop 16).take 16 =
        shiftInBit (ctx.modeCtx.iv.take 16)
          (if enc then Bool.xor (bitAt inp i) (msb ((E (ctx.modeCtx.iv.take 16)).getD 0 0))
            else bitAt inp i) := by
      rw [List.take_append_of_le_length (by rw [hlen]), List.take_of_length_le (by rw [hlen])]
    have hdr : (shiftInBit (ctx.modeCtx.iv.take 16)
        (if enc then Bool.xor (bitAt inp i) (msb ((E (ctx.modeCtx.iv.take 16)).getD 0 0))
          else bitAt inp i) ++ ctx.modeCtx.iv.drop 16).drop 16 = ctx.modeCtx.iv.drop 16 := by
      rw [List.drop_append_of_le_length (by rw [hlen]), List.drop_of_length_le (by rw [hlen]),
        List.nil_append]
    simp only [htk, hdr] at r2 r3 r10
    have href : cfb1Reference E enc (ctx.modeCtx.iv.take 16)
        ((List.range' i (n + 1)).map (bitAt inp)) =
        ((cfb1Reference E enc
            (shiftInBit (ctx.modeCtx.iv.take 16)
              (if enc then
                Bool.xor (bitAt inp i) (msb ((E (ctx.modeCtx.iv.take 16)).getD 0 0))
              else bitAt inp i))
            ((List.range' (i + 1) n).map (bitAt inp))).1,
          Bool.xor (bitAt inp i) (msb ((E (ctx.modeCtx.iv.take 16)).getD 0 0)) ::
            (cfb1Reference E enc
              (shiftInBit (ctx.modeCtx.iv.take 16)
                (if enc then
                  Bool.xor (bitAt inp i) (msb ((E (ctx.modeCtx.iv.take 16)).getD 0 0))
                else bitAt inp i))
              ((List.range' (i + 1) n).map (bitAt inp))).2) := by
      rw [List.range'_succ, List.map_cons, cfb1Reference]
    rw [hunf, href]
    refine ⟨r1, r2, r3, r4, r5, r6, r7, r8, r9.trans s1, ?_, ?_⟩
    · intro j hj
      cases j with
      | zero =>
        refine (r11 i (Or.inl (by omega))).trans ?_
        rw [s2 i, if_pos rfl, m1]
        rfl
      | succ k =>
        have e : i + (k + 1) = i + 1 + k := by omega
        rw [e]
        exact r10 k (by omega)
    · intro j hj
      refine (r11 j (by omega)).trans ?_
      rw [s2 j, if_neg (by omega)]
set_option maxRecDepth 100000 in
/-- The bits of a doubled byte value plus an incoming bit. -/
theorem testBit_shifted : ∀ a < 256, ∀ y < 2, ∀ q < 8,
    (2 * a % 256 + y).testBit q = if q = 0 then decide (y = 1) else a.testBit (q - 1) := by
  decide

/-- The bytes of the byte-wise shift, by index. -/
theorem shiftBytes_getD : ∀ (l : List UInt8) (c : UInt8) (k : Nat), k < l.length →
    (shiftBytes l c).getD k 0 =
      ((l.getD k 0 <<< 1) ||| (if k + 1 < l.length then l.getD (k + 1) 0 >>> 7 else c))
  | [], _, _, h => by simp at h
  | [a], c, k, h => by
    have hk : k = 0 := by simpa using h
    subst hk
    rfl
  | a :: b :: rest, c, 0, _ => by
    rw [shiftBytes]
    simp
  | a :: b :: rest, c, k + 1, h => by
    have ih := shiftBytes_getD (b :: rest) c k (by simpa using h)
    rw [shiftBytes]
    simp only [List.getD_cons_succ, List.length_cons] at ih ⊢
    rw [ih]
    by_cases hk : k + 1 < rest.length + 1
    · rw [if_pos hk, if_pos (by omega)]
    · rw [if_neg hk, if_neg (by omega)]

/-- The register shift of the reference, bit by bit: bit `j` of the shifted register is bit
`j + 1` of the register, and the last bit is `c`. -/
theorem shiftInBit_bits (S : List UInt8) (c : Bool) (j : Nat) (hj : j < 8 * S.length) :
    bitAt (shiftInBit S c) j = if j + 1 < 8 * S.length then bitAt S (j + 1) else c := by
  have hc : (UInt8.ofNat c.toNat).toNat = c.toNat := by
    cases c <;> rfl
  have hc1 : c.toNat ≤ 1 := by
    cases c <;> decide
  have he : shiftInBit S c = shiftBytes S (UInt8.ofNat c.toNat) := by
    unfold shiftInBit
    rw [shiftBytes_eq S _ (by rw [hc]; exact hc1), hc]
  have hk : j / 8 < S.length := by omega
  rw [he]
  unfold bitAt
  rw [shiftBytes_getD S _ (j / 8) hk]
  have hy : (if j / 8 + 1 < S.length then S.getD (j / 8 + 1) 0 >>> 7
      else UInt8.ofNat c.toNat).toNat ≤ 1 := by
    by_cases h : j / 8 + 1 < S.length
    · rw [if_pos h, uint8_shr7_toNat]
      have := uint8_toNat_lt (S.getD (j / 8 + 1) 0)
      omega
    · rw [if_neg h, hc]
      exact hc1
  rw [shift_byte_toNat _ _ hy,
    testBit_shifted _ (uint8_toNat_lt _) _ (by omega) (7 - j % 8) (by omega)]
  by_cases h7 : j % 8 = 7
  · have hq : 7 - j % 8 = 0 := by omega
    rw [if_pos hq]
    by_cases h : j / 8 + 1 < S.length
    · have e1 : (j + 1) / 8 = j / 8 + 1 := by omega
      have e2 : 7 - (j + 1) % 8 = 7 := by omega
      rw [if_pos h, if_pos (by omega), e1, e2, uint8_shr7_toNat,
        testBit7_div _ (uint8_toNat_lt _)]
    · rw [if_neg h, if_neg (by omega), hc]
      cases c <;> rfl
  · have hq : ¬ (7 - j % 8 = 0) := by omega
    have e1 : (j + 1) / 8 = j / 8 := by omega
    have e2 : 7 - (j + 1) % 8 = 7 - j % 8 - 1 := by omega
    rw [if_neg hq, if_pos (by omega), e1, e2]
/-- C29 (1-bit CFB reference definition). For block size 16, a block-encrypt function that
is the function `E` and succeeds, an IV buffer that holds the register `S_0` in its first
16 bytes, and `len` input bits that fit `out`: `MODES_CFB_BitCrypt` returns `CRYPT_SUCCESS`;
for each `i < len` output bit `i` (most significant bit first within each byte) is
`in_i XOR msb(E(S_i)[0])` and `S_{i+1}` is `S_i` shifted left by one bit across its 16 bytes
with the lowest bit set to the ciphertext bit (`o_i` when `enc`, `in_i` otherwise), as
`cfb1Reference` computes them; the register ends as `S_len`; the bits of `out` at
positions `len` and above, its length, and the IV buffer beyond the register are
unchanged. The shift of the reference, `shiftInBit`, moves bit `j + 1` of the register to
bit `j` and puts the new bit last. -/
theorem C29_cfb1_reference (ctx : MODES_CipherCFBCtx) (E : List UInt8 → List UInt8)
    (inp out : List UInt8) (len : Nat) (enc : Bool)
    (hbs : ctx.modeCtx.blockSize = 16) (hiv : 16 ≤ ctx.modeCtx.iv.length)
    (hE : ∀ x : List UInt8, x.length = 16 →
      ctx.modeCtx.ciphMeth.encryptBlock ctx.modeCtx.ciphCtx x = (CRYPT_SUCCESS, E x) ∧
        (E x).length = 16)
    (hout : len ≤ 8 * out.length) :
    (MODES_CFB_BitCrypt ctx inp out len enc).1 = CRYPT_SUCCESS ∧
    (MODES_CFB_BitCrypt ctx inp out len enc).2.1.modeCtx.iv.take 16 =
      (cfb1Reference E enc (ctx.modeCtx.iv.take 16) ((List.range len).map (bitAt inp))).1 ∧
    (MODES_CFB_BitCrypt ctx inp out len enc).2.1.modeCtx.iv.drop 16 =
      ctx.modeCtx.iv.drop 16 ∧
    (∀ j, j < len → bitAt (MODES_CFB_BitCrypt ctx inp out len enc).2.2 j =
      (cfb1Reference E enc (ctx.modeCtx.iv.take 16)
        ((List.range len).map (bitAt inp))).2.getD j false) ∧
    (∀ j, len ≤ j → bitAt (MODES_CFB_BitCrypt ctx inp out len enc).2.2 j = bitAt out j) ∧
    (MODES_CFB_BitCrypt ctx inp out len enc).2.2.length = out.length ∧
    (∀ (S : List UInt8) (c : Bool) (j : Nat), j < 8 * S.length →
      bitAt (shiftInBit S c) j = if j + 1 < 8 * S.length then bitAt S (j + 1) else c) := by
  obtain ⟨r1, r2, r3, _, _, _, _, _, r9, r10, r11⟩ :=
    bitcrypt_loop_spec enc inp E len 0 ctx 0 out hbs hiv hE (by omega)
  rw [← List.range_eq_range'] at r2 r3 r10
  unfold MODES_CFB_BitCrypt
  refine ⟨r1, ?_, ?_, ?_, ?_, r9, shiftInBit_bits⟩
  · rw [r2, List.take_append_of_le_length (by rw [r3]), List.take_of_length_le (by rw [r3])]
  · rw [r2, List.drop_append_of_le_length (by rw [r3]), List.drop_of_length_le (by rw [r3]),
      List.nil_append]
  · intro j hj
    have := r10 j hj
    rw [Nat.zero_add] at this
    exact this
  · intro j hj
    exact r11 j (Or.inr (by omega))

theorem C29_witness :
    (MODES_CFB_BitCrypt (demoCfbCtx 1) [0xA5] [0x00] 8 true).1 = CRYPT_SUCCESS ∧
    (MODES_CFB_BitCrypt (demoCfbCtx 1) [0xA5] [0x00] 8 true).2.1.modeCtx.iv.take 16 =
      (cfb1Reference (demoBlock [0x3C]) true ((demoCfbCtx 1).modeCtx.iv.take 16)
        ((List.range 8).map (bitAt [0xA5]))).1 :=
  ⟨(C29_cfb1_reference (demoCfbCtx 1) (demoBlock [0x3C]) [0xA5] [0x00] 8 true rfl
      (by decide) (fun x hx => ⟨rfl, by simp [demoBlock, hx]⟩) (by decide)).1,
   (C29_cfb1_reference (demoCfbCtx 1) (demoBlock [0x3C]) [0xA5] [0x00] 8 true rfl
      (by decide) (fun x hx => ⟨rfl, by simp [demoBlock, hx]⟩) (by decide)).2.1⟩
/-- Bitwise XOR of bytes, bit by bit. -/
theorem uint8_testBit_xor (a b : UInt8) (q : Nat) :
    (a ^^^ b).toNat.testBit q = Bool.xor (a.toNat.testBit q) (b.toNat.testBit q) := by
  have h : (a ^^^ b).toNat = a.toNat ^^^ b.toNat := BitVec.toNat_xor a.toBitVec b.toBitVec
  rw [h, Nat.testBit_xor]

/-- One byte through `MODES_CFB_BytesEncrypt` with 8-bit feedback at offset 0: the output
byte is the input byte XOR the first byte of the encrypted register. -/
theorem cfb8_single_byte (ctx : MODES_CipherCFBCtx) (E : List UInt8 → List UInt8) (b : UInt8)
    (hbs : ctx.modeCtx.blockSize = 16) (hiv : 16 ≤ ctx.modeCtx.iv.length)
    (hoff : ctx.modeCtx.offset = 0) (hfb : ctx.feedbackBits = 8)
    (hE : ∀ x : List UInt8, x.length = 16 →
      ctx.modeCtx.ciphMeth.encryptBlock ctx.modeCtx.ciphCtx x = (CRYPT_SUCCESS, E x) ∧
        (E x).length = 16) :
    (MODES_CFB_BytesEncrypt ctx [b]).map (fun r => (r.1, r.2.2)) =
      some (CRYPT_SUCCESS, [b ^^^ (E (ctx.modeCtx.iv.take 16)).getD 0 0]) := by
  have hok : CfbOK ctx := by
    unfold CfbOK
    rw [hfb, hbs, hoff]
    exact ⟨by decide, by decide, by decide, hiv, by decide⟩
  have hEok : EncryptOK ctx := by
    intro x hx
    rw [hbs] at hx ⊢
    obtain ⟨e1, e2⟩ := hE x hx
    rw [e1]
    exact ⟨rfl, e2⟩
  have hS : (ctx.modeCtx.iv.take 16).length = 16 := by
    rw [List.length_take]
    omega
  have henc : cfbEncryptIv ctx = (CRYPT_SUCCESS, E (ctx.modeCtx.iv.take 16)) := by
    unfold cfbEncryptIv
    rw [hbs, (hE _ hS).1]
  unfold MODES_CFB_BytesEncrypt
  rw [(CFB_Bytes_spec true ctx [b] hok hEok).1]
  simp only [Option.map_some', cfbSteps, cfbByteStep, hoff, henc]
  rfl

/-- C26 (CFB feedback-width cross-check). For block size 16, a block-encrypt
function that is `E` and succeeds, offset 0 and an input byte `b`: eight single-bit steps
(`MODES_CFB_BitCrypt` with `len = 8`) and one call with 8-bit feedback
(`MODES_CFB_BytesEncrypt` with `feedbackBits = 8`, `len = 1`) from the same state both
return `CRYPT_SUCCESS`, and their output bytes agree in the first (most significant) bit.
Bit `j` of the 8-bit output is bit `j` of `b` XOR bit `j` of `E(IV)[0]`, while bit `j` of the
1-bit output is bit `j` of `b` XOR the top bit of `E(S_j)[0]` for the register `S_j` after
`j` shifts, as `cfb1Reference` computes it. -/
theorem C26_cfb1_cfb8_first_bit (ctx : MODES_CipherCFBCtx) (E : List UInt8 → List UInt8)
    (b o0 : UInt8)
    (hbs : ctx.modeCtx.blockSize = 16) (hiv : 16 ≤ ctx.modeCtx.iv.length)
    (hoff : ctx.modeCtx.offset = 0) (hfb : ctx.feedbackBits = 8)
    (hE : ∀ x : List UInt8, x.length = 16 →
      ctx.modeCtx.ciphMeth.encryptBlock ctx.modeCtx.ciphCtx x = (CRYPT_SUCCESS, E x) ∧
        (E x).length = 16) :
    (MODES_CFB_BitCrypt ctx [b] [o0] 8 true).1 = CRYPT_SUCCESS ∧
    (MODES_CFB_BytesEncrypt ctx [b]).map (fun r => (r.1, r.2.2)) =
      some (CRYPT_SUCCESS, [b ^^^ (E (ctx.modeCtx.iv.take 16)).getD 0 0]) ∧
    bitAt (MODES_CFB_BitCrypt ctx [b] [o0] 8 true).2.2 0 =
      bitAt [b ^^^ (E (ctx.modeCtx.iv.take 16)).getD 0 0] 0 ∧
    (∀ j, j < 8 → bitAt [b ^^^ (E (ctx.modeCtx.iv.take 16)).getD 0 0] j =
      Bool.xor (bitAt [b] j) (bitAt [(E (ctx.modeCtx.iv.take 16)).getD 0 0] j)) ∧
    (∀ j, j < 8 → bitAt (MODES_CFB_BitCrypt ctx [b] [o0] 8 true).2.2 j =
      (cfb1Reference E true (ctx.modeCtx.iv.take 16)
        ((List.range 8).map (bitAt [b]))).2.getD j false) := by
  obtain ⟨r1, _, _, _, _, _, _, _, _, r10, _⟩ :=
    bitcrypt_loop_spec true [b] E 8 0 ctx 0 [o0] hbs hiv hE (by simp)
  rw [← List.range_eq_range'] at r10
  have hbits : ∀ j, j < 8 → bitAt (MODES_CFB_BitCrypt ctx [b] [o0] 8 true).2.2 j =
      (cfb1Reference E true (ctx.modeCtx.iv.take 16)
        ((List.range 8).map (bitAt [b]))).2.getD j false := by
    intro j hj
    have := r10 j hj
    rw [Nat.zero_add] at this
    exact this
  have hx : ∀ j, j < 8 → bitAt [b ^^^ (E (ctx.modeCtx.iv.take 16)).getD 0 0] j =
      Bool.xor (bitAt [b] j) (bitAt [(E (ctx.modeCtx.iv.take 16)).getD 0 0] j) := by
    intro j hj
    have h0 : j / 8 = 0 := by omega
    unfold bitAt
    rw [h0]
    exact uint8_testBit_xor _ _ _
  refine ⟨r1, cfb8_single_byte ctx E b hbs hiv hoff hfb hE, ?_, hx, hbits⟩
  rw [hbits 0 (by decide), hx 0 (by decide)]
  rfl

theorem C26_witness :
    bitAt (MODES_CFB_BitCrypt (demoCfbCtx 8) [0xA5] [0x00] 8 true).2.2 0 =
      bitAt [0xA5 ^^^ (demoBlock [0x3C] ((demoCfbCtx 8).modeCtx.iv.take 16)).getD 0 0] 0 :=
  (C26_cfb1_cfb8_first_bit (demoCfbCtx 8) (demoBlock [0x3C]) 0xA5 0x00 rfl (by decide) rfl rfl
    (fun x hx => ⟨rfl, by simp [demoBlock, hx]⟩)).2.2.1

/-- C26 (counterexample): from the same state (block size 16, IV
`0, 1, ..., 15`, offset 0, the toy block function) and for the input byte `0x00`, eight
single-bit steps produce the byte `0x0F`, one call with 8-bit feedback produces `0x33`. -/
theorem C26_cfb1_differs_from_cfb8 :
    (MODES_CFB_BitCrypt (demoCfbCtx 8) [0x00] [0x00] 8 true).1 = CRYPT_SUCCESS ∧
    (MODES_CFB_BitCrypt (demoCfbCtx 8) [0x00] [0x00] 8 true).2.2 = [0x0F] ∧
    (MODES_CFB_BytesEncrypt (demoCfbCtx 8) [0x00]).map (fun r => (r.1, r.2.2)) =
      some (CRYPT_SUCCESS, [0x33]) := by
  decide

/-- C35 (padding selector validation). `MODES_SetPaddingCheck` returns `CRYPT_SUCCESS` exactly
when `CRYPT_PADDING_NONE <= pad < CRYPT_PADDING_MAX_COUNT` and
`CRYPT_MODES_PADDING_NOT_SUPPORT` otherwise; `MODES_BlockPadding` with a padding value that
is none of NONE, ZEROS, ISO7816, X923, PKCS5, PKCS7 returns `CRYPT_INVALID_ARG` and leaves
the data bytes and `*dataLen` as they were. -/
theorem C35_padding_selector_validation (padNone padMaxCount pad : Int)
    (algId : CRYPT_CIPHER_AlgId) (padding : CRYPT_PaddingType) (blockSize : Nat)
    (data : List UInt8) (dataLen : Nat)
    (h1 : padding ≠ CRYPT_PADDING_NONE) (h2 : padding ≠ CRYPT_PADDING_ZEROS)
    (h3 : padding ≠ CRYPT_PADDING_ISO7816) (h4 : padding ≠ CRYPT_PADDING_X923)
    (h5 : padding ≠ CRYPT_PADDING_PKCS5) (h6 : padding ≠ CRYPT_PADDING_PKCS7) :
    (MODES_SetPaddingCheck padNone padMaxCount pad = CRYPT_SUCCESS ↔
      padNone ≤ pad ∧ pad < padMaxCount) ∧
    (¬ (padNone ≤ pad ∧ pad < padMaxCount) →
      MODES_SetPaddingCheck padNone padMaxCount pad = CRYPT_MODES_PADDING_NOT_SUPPORT) ∧
    MODES_BlockPadding algId padding blockSize data dataLen =
      (CRYPT_INVALID_ARG, data, dataLen) := by
  refine ⟨?_, ?_, ?_⟩
  · unfold MODES_SetPaddingCheck
    by_cases h : pad ≥ padMaxCount ∨ pad < padNone
    · rw [if_pos h]
      constructor
      · intro hc; cases hc
      · intro hc; omega
    · rw [if_neg h]
      constructor
      · intro _; omega
      · intro _; rfl
  · intro hn
    unfold MODES_SetPaddingCheck
    rw [if_pos (by omega)]
  · cases padding with
    | CRYPT_PADDING_NONE => exact absurd rfl h1
    | CRYPT_PADDING_ZEROS => exact absurd rfl h2
    | CRYPT_PADDING_ISO7816 => exact absurd rfl h3
    | CRYPT_PADDING_X923 => exact absurd rfl h4
    | CRYPT_PADDING_PKCS5 => exact absurd rfl h5
    | CRYPT_PADDING_PKCS7 => exact absurd rfl h6
    | CRYPT_PADDING_MAX_COUNT => rfl

/-- C35 at a concrete input: the selector values 0..6 with `pad = 7`, and
`MODES_BlockPadding` with the selector `CRYPT_PADDING_MAX_COUNT` on a 16-byte cache that
holds three bytes. -/
theorem C35_witness :
    (MODES_SetPaddingCheck 0 6 7 = CRYPT_SUCCESS ↔ (0 : Int) ≤ 7 ∧ (7 : Int) < 6) ∧
    (¬ ((0 : Int) ≤ 7 ∧ (7 : Int) < 6) →
      MODES_SetPaddingCheck 0 6 7 = CRYPT_MODES_PADDING_NOT_SUPPORT) ∧
    MODES_BlockPadding CRYPT_CIPHER_AES128_CBC CRYPT_PADDING_MAX_COUNT 16
        (List.replicate 16 0x11) 3 =
      (CRYPT_INVALID_ARG, List.replicate 16 0x11, 3) :=
  C35_padding_selector_validation 0 6 7 CRYPT_CIPHER_AES128_CBC CRYPT_PADDING_MAX_COUNT 16
    (List.replicate 16 0x11) 3 (by decide) (by decide) (by decide) (by decide) (by decide)
    (by decide)

/-- C40 (stream-mode update contract). `MODES_CipherStreamProcess`, run on a process function
whose calls are recorded: with `inLen = 0` it returns `CRYPT_SUCCESS` with `*outLen = 0`, no
call and the context as it was; with `inLen > *outLen` it returns
`CRYPT_MODE_BUFF_LEN_NOT_ENOUGH`, no call, and `*outLen` as it was; otherwise there is
exactly one call, on the `inLen` input bytes, and the result is the status of that call with
`*outLen` as it was when it failed, and `*outLen = inLen` when it returned `CRYPT_SUCCESS`.
`MODES_CFB_Update`, `AES_CTR_Update` and `SM4_OFB_Update` hand their arguments to
`MODES_CipherStreamProcess` and so return in the first two cases without touching the
context. -/
theorem C40_stream_update_contract {σ : Type} (f : CipherStreamProcess σ) (ctx : σ)
    (calls : List Nat) (inp out : List UInt8) (cap : Nat) (cfb : MODES_CFB_Ctx)
    (m : MODES_CipherCtx) (h : CTR_Helpers) (s : SM4_OFB_Helpers) :
    MODES_CipherStreamProcess (recordCalls f) (ctx, calls) inp out cap =
      (if inp.length = 0 then some (CRYPT_SUCCESS, (ctx, calls), out, 0)
       else if inp.length > cap then
         some (CRYPT_MODE_BUFF_LEN_NOT_ENOUGH, (ctx, calls), out, cap)
       else
         (f ctx inp out).map (fun r =>
           (r.1, (r.2.1, calls ++ [inp.length]), r.2.2,
             if r.1 = CRYPT_SUCCESS then inp.length else cap))) ∧
    MODES_CFB_Update cfb inp out cap =
      (MODES_CipherStreamProcess (if cfb.enc then MODES_CFB_Encrypt else MODES_CFB_Decrypt)
        cfb.cfbCtx inp out cap).map
        (fun r => (r.1, { cfb with cfbCtx := r.2.1 }, r.2.2.1, r.2.2.2)) ∧
    AES_CTR_Update h (some m) inp out cap =
      (MODES_CipherStreamProcess
        (fun c i o =>
          (AES_CTR_EncryptBlock h c i).map (fun r => (r.1, r.2.1, memcpyAt o 0 r.2.2)))
        m.commonCtx inp out cap).map
        (fun r => (r.1, some { m with commonCtx := r.2.1 }, r.2.2.1, r.2.2.2)) ∧
    SM4_OFB_Update s m inp out cap =
      (MODES_CipherStreamProcess
        (if m.enc then MODE_SM4_OFB_Encrypt s else MODE_SM4_OFB_Decrypt s)
        m.commonCtx inp out cap).map
        (fun r => (r.1, { m with commonCtx := r.2.1 }, r.2.2.1, r.2.2.2)) ∧
    MODES_CFB_Update cfb [] out cap = some (CRYPT_SUCCESS, cfb, out, 0) ∧
    AES_CTR_Update h (some m) [] out cap = some (CRYPT_SUCCESS, some m, out, 0) ∧
    SM4_OFB_Update s m [] out cap = some (CRYPT_SUCCESS, m, out, 0) ∧
    (if inp.length > cap then
      MODES_CFB_Update cfb inp out cap = some (CRYPT_MODE_BUFF_LEN_NOT_ENOUGH, cfb, out, cap) ∧
      AES_CTR_Update h (some m) inp out cap =
        some (CRYPT_MODE_BUFF_LEN_NOT_ENOUGH, some m, out, cap) ∧
      SM4_OFB_Update s m inp out cap = some (CRYPT_MODE_BUFF_LEN_NOT_ENOUGH, m, out, cap)
     else True) := by
  refine ⟨?_, ?_, ?_, ?_, rfl, rfl, rfl, ?_⟩
  · unfold MODES_CipherStreamProcess recordCalls
    by_cases h0 : inp.length = 0
    · rw [if_pos h0, if_pos h0]
    · rw [if_neg h0, if_neg h0]
      by_cases h1 : inp.length > cap
      · rw [if_pos h1, if_pos h1]
      · rw [if_neg h1, if_neg h1]
        cases hf : f ctx inp out with
        | none => rfl
        | some r =>
          simp only [Option.map_some']
          by_cases hr : r.1 = CRYPT_SUCCESS
          · simp [hr]
          · simp [hr]
  · unfold MODES_CFB_Update
    cases MODES_CipherStreamProcess (if cfb.enc then MODES_CFB_Encrypt else MODES_CFB_Decrypt)
      cfb.cfbCtx inp out cap <;> rfl
  · unfold AES_CTR_Update
    simp only []
    cases MODES_CipherStreamProcess
        (fun c i o =>
          (AES_CTR_EncryptBlock h c i).map (fun r => (r.1, r.2.1, memcpyAt o 0 r.2.2)))
        m.commonCtx inp out cap <;> rfl
  · unfold SM4_OFB_Update
    cases MODES_CipherStreamProcess
        (if m.enc then MODE_SM4_OFB_Encrypt s else MODE_SM4_OFB_Decrypt s)
        m.commonCtx inp out cap <;> rfl
  · by_cases h1 : inp.length > cap
    · have h0 : ¬ inp.length = 0 := by omega
      rw [if_pos h1]
      refine ⟨?_, ?_, ?_⟩
      · unfold MODES_CFB_Update MODES_CipherStreamProcess
        rw [if_neg h0, if_pos h1]
      · unfold AES_CTR_Update MODES_CipherStreamProcess
        simp only []
        rw [if_neg h0, if_pos h1]
      · unfold SM4_OFB_Update MODES_CipherStreamProcess
        rw [if_neg h0, if_pos h1]
    · rw [if_neg h1]
      trivial

/-- The scan finds an entry exactly when the entry belongs to the list and has the id, for a
list without repeated ids. -/
theorem scan_eq_some_iff (id : CRYPT_RAND_AlgId) (e : DrbgIdMap) :
    ∀ t : List DrbgIdMap, (t.map DrbgIdMap.drbgId).Nodup →
      (GetDrbgIdMap.scan id t = some e ↔ e ∈ t ∧ e.drbgId = id) := by
  intro t
  induction t with
  | nil => intro _; simp [GetDrbgIdMap.scan]
  | cons a rest ih =>
    intro hnd
    rw [List.map_cons, List.nodup_cons] at hnd
    rw [GetDrbgIdMap.scan]
    by_cases ha : a.drbgId = id
    · rw [if_pos ha]
      constructor
      · intro h
        have : a = e := Option.some.inj h
        subst this
        exact ⟨List.mem_cons_self _ _, ha⟩
      · rintro ⟨hm, he⟩
        rcases List.mem_cons.mp hm with h | h
        · rw [h]
        · exact absurd (List.mem_map.mpr ⟨e, h, he.trans ha.symm⟩) hnd.1
    · rw [if_neg ha, ih hnd.2]
      constructor
      · rintro ⟨hm, he⟩
        exact ⟨List.mem_cons_of_mem _ hm, he⟩
      · rintro ⟨hm, he⟩
        rcases List.mem_cons.mp hm with h | h
        · rw [h] at he; exact absurd he ha
        · exact ⟨h, he⟩

/-- The scan finds nothing exactly when no entry has the id. -/
theorem scan_eq_none_iff (id : CRYPT_RAND_AlgId) :
    ∀ t : List DrbgIdMap, (GetDrbgIdMap.scan id t = none ↔ ∀ e ∈ t, e.drbgId ≠ id) := by
  intro t
  induction t with
  | nil => simp [GetDrbgIdMap.scan]
  | cons a rest ih =>
    rw [GetDrbgIdMap.scan]
    by_cases ha : a.drbgId = id
    · rw [if_pos ha]
      constructor
      · intro h; cases h
      · intro h; exact absurd ha (h a (List.mem_cons_self _ _))
    · rw [if_neg ha, ih]
      constructor
      · intro h e he
        rcases List.mem_cons.mp he with h1 | h1
        · rw [h1]; exact ha
        · exact h e h1
      · intro h e he
        exact h e (List.mem_cons_of_mem _ he)

/-- No two entries of the table have the same id. -/
theorem drbg_ids_nodup : (DRBG_METHOD_MAP.map DrbgIdMap.drbgId).Nodup := by
  decide

/-- On two lists with the same entries and no repeated id the scan gives the same result. -/
theorem scan_perm (id : CRYPT_RAND_AlgId) (t u : List DrbgIdMap) (hp : t.Perm u)
    (hnd : (u.map DrbgIdMap.drbgId).Nodup) :
    GetDrbgIdMap.scan id t = GetDrbgIdMap.scan id u := by
  have hnt : (t.map DrbgIdMap.drbgId).Nodup := (hp.map DrbgIdMap.drbgId).nodup_iff.mpr hnd
  cases hu : GetDrbgIdMap.scan id u with
  | none =>
    rw [scan_eq_none_iff] at hu ⊢
    intro e he
    exact hu e (hp.mem_iff.mp he)
  | some e =>
    rw [scan_eq_some_iff id e u hnd] at hu
    rw [scan_eq_some_iff id e t hnt]
    exact ⟨hp.mem_iff.mpr hu.1, hu.2⟩

/-- `GetRequiredMethod` returns `CRYPT_SUCCESS` or `CRYPT_EAL_ERR_ALGID`; on success it has
stored the `depId` of the entry and left the type field alone, and it succeeds exactly when
the look-up of the dependent method does. -/
theorem GetRequiredMethod_spec {MdMethod MacMethod : Type} (d : RandDeps MdMethod MacMethod)
    (p : SymPrimitives) (map : DrbgIdMap) (lu : EAL_RandMethLookup MdMethod MacMethod) :
    ((GetRequiredMethod d p map lu).1 = CRYPT_SUCCESS ∨
      (GetRequiredMethod d p map lu).1 = CRYPT_EAL_ERR_ALGID) ∧
    ((GetRequiredMethod d p map lu).1 = CRYPT_SUCCESS →
      (GetRequiredMethod d p map lu).2.methodId = map.depId ∧
      (GetRequiredMethod d p map lu).2.type = lu.type) ∧
    (map.type = RAND_TYPE_MD →
      ((GetRequiredMethod d p map lu).1 = CRYPT_SUCCESS ↔
        d.EAL_MdFindMethod map.depId ≠ none)) ∧
    (map.type = RAND_TYPE_MAC →
      ((GetRequiredMethod d p map lu).1 = CRYPT_SUCCESS ↔
        (d.EAL_MacFindMethod map.depId).1 = CRYPT_SUCCESS)) ∧
    (∀ id, (map.type = RAND_TYPE_AES ∨ map.type = RAND_TYPE_AES_DF) →
      map.depId = DepId.cipher id →
      ((GetRequiredMethod d p map lu).1 = CRYPT_SUCCESS ↔ MODES_GetSymMethod p id ≠ none)) := by
  obtain ⟨i, dep, t⟩ := map
  cases t with
  | RAND_TYPE_MD =>
    unfold GetRequiredMethod
    simp only []
    cases d.EAL_MdFindMethod dep <;> simp
  | RAND_TYPE_MAC =>
    unfold GetRequiredMethod
    simp only []
    by_cases h : (d.EAL_MacFindMethod dep).1 = CRYPT_SUCCESS <;> simp [h]
  | RAND_TYPE_AES =>
    unfold GetRequiredMethod
    simp only []
    cases dep with
    | md a => simp
    | mac a => simp
    | cipher a => cases hg : MODES_GetSymMethod p a <;> simp [hg]
  | RAND_TYPE_AES_DF =>
    unfold GetRequiredMethod
    simp only []
    cases dep with
    | md a => simp
    | mac a => simp
    | cipher a => cases hg : MODES_GetSymMethod p a <;> simp [hg]
  | RAND_TYPE_MAX =>
    unfold GetRequiredMethod
    simp

/-- `EAL_RandFindMethod` on a non-NULL `lu` for an id of the table: it fails with the status
of `GetRequiredMethod` and the record that function left, or it succeeds and stores the type
of the entry in the record that `GetRequiredMethod` filled. -/
theorem EAL_RandFindMethod_entry {MdMethod MacMethod : Type} (d : RandDeps MdMethod MacMethod)
    (p : SymPrimitives) (id : CRYPT_RAND_AlgId) (lu : EAL_RandMethLookup MdMethod MacMethod)
    (e : DrbgIdMap) (he : GetDrbgIdMap id = some e) :
    EAL_RandFindMethod d p id (some lu) =
      if (GetRequiredMethod d p e lu).1 ≠ CRYPT_SUCCESS then
        ((GetRequiredMethod d p e lu).1, some (GetRequiredMethod d p e lu).2)
      else (CRYPT_SUCCESS, some { (GetRequiredMethod d p e lu).2 with type := e.type }) := by
  unfold EAL_RandFindMethod
  simp only [he]

/-- `EAL_RandFindMethod` for an entry of a hash type whose hash method is found. -/
theorem EAL_RandFindMethod_md {MdMethod MacMethod : Type} (d : RandDeps MdMethod MacMethod)
    (p : SymPrimitives) (id : CRYPT_RAND_AlgId) (lu : EAL_RandMethLookup MdMethod MacMethod)
    (e : DrbgIdMap) (m : MdMethod) (he : GetDrbgIdMap id = some e)
    (ht : e.type = RAND_TYPE_MD) (hm : d.EAL_MdFindMethod e.depId = some m) :
    EAL_RandFindMethod d p id (some lu) =
      (CRYPT_SUCCESS,
        some { type := e.type, methodId := e.depId, method := some (RandMethodRef.md m) }) := by
  rw [EAL_RandFindMethod_entry d p id lu e he]
  obtain ⟨i, dep, t⟩ := e
  simp only [] at ht hm
  subst ht
  unfold GetRequiredMethod
  simp only [hm]
  rfl

/-- `EAL_RandFindMethod` for an entry of a MAC type whose MAC look-up succeeds. -/
theorem EAL_RandFindMethod_mac {MdMethod MacMethod : Type} (d : RandDeps MdMethod MacMethod)
    (p : SymPrimitives) (id : CRYPT_RAND_AlgId) (lu : EAL_RandMethLookup MdMethod MacMethod)
    (e : DrbgIdMap) (he : GetDrbgIdMap id = some e)
    (ht : e.type = RAND_TYPE_MAC) (hm : (d.EAL_MacFindMethod e.depId).1 = CRYPT_SUCCESS) :
    EAL_RandFindMethod d p id (some lu) =
      (CRYPT_SUCCESS,
        some { type := e.type, methodId := e.depId,
               method := some (RandMethodRef.mac (d.EAL_MacFindMethod e.depId).2) }) := by
  rw [EAL_RandFindMethod_entry d p id lu e he]
  obtain ⟨i, dep, t⟩ := e
  simp only [] at ht hm
  subst ht
  unfold GetRequiredMethod
  simp only [hm, ne_eq, not_true_eq_false, if_false]

/-- `EAL_RandFindMethod` for an entry of a cipher type whose cipher method is found. -/
theorem EAL_RandFindMethod_sym {MdMethod MacMethod : Type} (d : RandDeps MdMethod MacMethod)
    (p : SymPrimitives) (id : CRYPT_RAND_AlgId) (lu : EAL_RandMethLookup MdMethod MacMethod)
    (e : DrbgIdMap) (c : CRYPT_CIPHER_AlgId) (m : EAL_SymMethod)
    (he : GetDrbgIdMap id = some e)
    (ht : e.type = RAND_TYPE_AES ∨ e.type = RAND_TYPE_AES_DF)
    (hc : e.depId = DepId.cipher c) (hm : MODES_GetSymMethod p c = some m) :
    EAL_RandFindMethod d p id (some lu) =
      (CRYPT_SUCCESS,
        some { type := e.type, methodId := e.depId, method := some (RandMethodRef.sym m) }) := by
  rw [EAL_RandFindMethod_entry d p id lu e he]
  obtain ⟨i, dep, t⟩ := e
  simp only [] at ht hc
  subst hc
  rcases ht with ht | ht <;> subst ht <;>
    · unfold GetRequiredMethod
      simp only [hm]
      rfl

/-- C36 (DRBG dispatch). `GetDrbgIdMap` returns the table entry whose `drbgId` is `id`, and
NULL when no entry has it; no two entries of `DRBG_METHOD_MAP` share a `drbgId`, so the scan
gives the same result on every reordering of the table. `EAL_RandFindMethod` returns
`CRYPT_NULL_INPUT` for a NULL `lu`; for a non-NULL `lu` it returns `CRYPT_EAL_ERR_ALGID` when
`id` is not in the table or the look-up of the dependent method (hash, MAC or cipher) fails,
and it returns `CRYPT_SUCCESS` exactly when that look-up succeeds, with `lu.type` and
`lu.methodId` set to the type and the `depId` of the entry and `lu.method` to the method
found. `CRYPT_RAND_AES128_CTR` and `CRYPT_RAND_AES128_CTR_DF` both resolve, with
`CRYPT_SUCCESS`, to `CRYPT_CIPHER_AES128_CTR` and its method table `AES128_METHOD`, with the
types `RAND_TYPE_AES` and `RAND_TYPE_AES_DF`. -/
theorem C36_drbg_dispatch {MdMethod MacMethod : Type} (d : RandDeps MdMethod MacMethod)
    (p : SymPrimitives) (id : CRYPT_RAND_AlgId) (lu : EAL_RandMethLookup MdMethod MacMethod) :
    (∀ e, GetDrbgIdMap id = some e ↔ e ∈ DRBG_METHOD_MAP ∧ e.drbgId = id) ∧
    (GetDrbgIdMap id = none ↔ ∀ e ∈ DRBG_METHOD_MAP, e.drbgId ≠ id) ∧
    (DRBG_METHOD_MAP.map DrbgIdMap.drbgId).Nodup ∧
    (∀ t : List DrbgIdMap, t.Perm DRBG_METHOD_MAP →
      GetDrbgIdMap.scan id t = GetDrbgIdMap id) ∧
    EAL_RandFindMethod d p id none = (CRYPT_NULL_INPUT, none) ∧
    (GetDrbgIdMap id = none →
      EAL_RandFindMethod d p id (some lu) = (CRYPT_EAL_ERR_ALGID, some lu)) ∧
    (∀ e, GetDrbgIdMap id = some e →
      ((EAL_RandFindMethod d p id (some lu)).1 = CRYPT_SUCCESS ∨
        (EAL_RandFindMethod d p id (some lu)).1 = CRYPT_EAL_ERR_ALGID) ∧
      (e.type = RAND_TYPE_MD → d.EAL_MdFindMethod e.depId = none →
        (EAL_RandFindMethod d p id (some lu)).1 = CRYPT_EAL_ERR_ALGID) ∧
      (e.type = RAND_TYPE_MAC → (d.EAL_MacFindMethod e.depId).1 ≠ CRYPT_SUCCESS →
        (EAL_RandFindMethod d p id (some lu)).1 = CRYPT_EAL_ERR_ALGID) ∧
      (∀ c, (e.type = RAND_TYPE_AES ∨ e.type = RAND_TYPE_AES_DF) →
        e.depId = DepId.cipher c → MODES_GetSymMethod p c = none →
        (EAL_RandFindMethod d p id (some lu)).1 = CRYPT_EAL_ERR_ALGID) ∧
      ((EAL_RandFindMethod d p id (some lu)).1 = CRYPT_SUCCESS →
        ∃ l2, (EAL_RandFindMethod d p id (some lu)).2 = some l2 ∧ l2.type = e.type ∧
          l2.methodId = e.depId) ∧
      (∀ m, e.type = RAND_TYPE_MD → d.EAL_MdFindMethod e.depId = some m →
        EAL_RandFindMethod d p id (some lu) =
          (CRYPT_SUCCESS,
            some { type := e.type, methodId := e.depId,
                   method := some (RandMethodRef.md m) })) ∧
      (e.type = RAND_TYPE_MAC → (d.EAL_MacFindMethod e.depId).1 = CRYPT_SUCCESS →
        EAL_RandFindMethod d p id (some lu) =
          (CRYPT_SUCCESS,
            some { type := e.type, methodId := e.depId,
                   method := some (RandMethodRef.mac (d.EAL_MacFindMethod e.depId).2) })) ∧
      (∀ c m, (e.type = RAND_TYPE_AES ∨ e.type = RAND_TYPE_AES_DF) →
        e.depId = DepId.cipher c → MODES_GetSymMethod p c = some m →
        EAL_RandFindMethod d p id (some lu) =
          (CRYPT_SUCCESS,
            some { type := e.type, methodId := e.depId,
                   method := some (RandMethodRef.sym m) }))) ∧
    GetDrbgIdMap CRYPT_RAND_AES128_CTR =
      some { drbgId := CRYPT_RAND_AES128_CTR, depId := DepId.cipher CRYPT_CIPHER_AES128_CTR,
             type := RAND_TYPE_AES } ∧
    GetDrbgIdMap CRYPT_RAND_AES128_CTR_DF =
      some { drbgId := CRYPT_RAND_AES128_CTR_DF,
             depId := DepId.cipher CRYPT_CIPHER_AES128_CTR, type := RAND_TYPE_AES_DF } ∧
    EAL_RandFindMethod d p CRYPT_RAND_AES128_CTR (some lu) =
      (CRYPT_SUCCESS,
        some { type := RAND_TYPE_AES, methodId := DepId.cipher CRYPT_CIPHER_AES128_CTR,
               method := some (RandMethodRef.sym (AES128_METHOD p)) }) ∧
    EAL_RandFindMethod d p CRYPT_RAND_AES128_CTR_DF (some lu) =
      (CRYPT_SUCCESS,
        some { type := RAND_TYPE_AES_DF, methodId := DepId.cipher CRYPT_CIPHER_AES128_CTR,
               method := some (RandMethodRef.sym (AES128_METHOD p)) }) ∧
    ((id = CRYPT_RAND_AES128_CTR ∨ id = CRYPT_RAND_AES192_CTR ∨ id = CRYPT_RAND_AES256_CTR ∨
        id = CRYPT_RAND_AES128_CTR_DF ∨ id = CRYPT_RAND_AES192_CTR_DF ∨
        id = CRYPT_RAND_AES256_CTR_DF) →
      (EAL_RandFindMethod d p id (some lu)).1 = CRYPT_SUCCESS) := by
  refine ⟨fun e => scan_eq_some_iff id e _ drbg_ids_nodup, scan_eq_none_iff id _,
    drbg_ids_nodup, fun t ht => scan_perm id t _ ht drbg_ids_nodup, rfl, ?_, ?_, rfl, rfl,
    rfl, rfl, ?_⟩
  · intro hn
    unfold EAL_RandFindMethod
    simp only [hn]
  · intro e he
    obtain ⟨g1, g2, g3, g4, g5⟩ := GetRequiredMethod_spec d p e lu
    have hF := EAL_RandFindMethod_entry d p id lu e he
    refine ⟨?_, ?_, ?_, ?_, ?_,
      fun m ht hm => EAL_RandFindMethod_md d p id lu e m he ht hm,
      fun ht hm => EAL_RandFindMethod_mac d p id lu e he ht hm,
      fun c m ht hc hm => EAL_RandFindMethod_sym d p id lu e c m he ht hc hm⟩
    all_goals
      by_cases hs : (GetRequiredMethod d p e lu).1 = CRYPT_SUCCESS
      · have hF2 : EAL_RandFindMethod d p id (some lu) =
            (CRYPT_SUCCESS, some { (GetRequiredMethod d p e lu).2 with type := e.type }) := by
          rw [hF, if_neg (by simpa using hs)]
        rw [hF2]
        first
        | exact Or.inl rfl
        | (intro ht hn; exact absurd hn ((g3 ht).mp hs))
        | (intro ht hn; exact absurd ((g4 ht).mp hs) hn)
        | (intro c ht hc hn; exact absurd hn ((g5 c ht hc).mp hs))
        | (intro _; exact ⟨_, rfl, rfl, (g2 hs).1⟩)
      · have he2 : (GetRequiredMethod d p e lu).1 = CRYPT_EAL_ERR_ALGID := by
          rcases g1 with h | h
          · exact absurd h hs
          · exact h
        have hF2 : EAL_RandFindMethod d p id (some lu) =
            ((GetRequiredMethod d p e lu).1, some (GetRequiredMethod d p e lu).2) := by
          rw [hF, if_pos hs]
        rw [hF2]
        first
        | exact Or.inr he2
        | exact fun _ _ => he2
        | exact fun _ _ _ _ => he2
        | (intro h; exact absurd h hs)
  · intro hid
    rcases hid with h | h | h | h | h | h <;> subst h <;> rfl

/-- C34 (teardown clears state). `MODES_CipherDeInitCtx` returns `CRYPT_SUCCESS` and leaves a
context whose cache is all zero with `dataLen = 0`, whose padding is `CRYPT_PADDING_NONE`,
whose scratch buffer and IV register are all zero, whose offset is 0 and whose key context
is what `cipherDeInitCtx` made of it; `blockSize`, the method table, `algId` (and the
direction flag) are as before. `MODES_CFB_DeInitCtx` on a context of block size 16 clears
the scratch buffer and the IV register, resets the offset to 0 and the feedback width to
128, and returns `CRYPT_NULL_INPUT` for a NULL context. -/
theorem C34_teardown_clears_state (m : MODES_CipherCtx) (c : MODES_CFB_Ctx)
    (hbs : c.cfbCtx.modeCtx.blockSize = 16) :
    MODES_CipherDeInitCtx m =
      (CRYPT_SUCCESS,
        { commonCtx :=
            { ciphCtx := m.commonCtx.ciphMeth.cipherDeInitCtx m.commonCtx.ciphCtx
              ciphMeth := m.commonCtx.ciphMeth
              iv := List.replicate m.commonCtx.iv.length 0
              buf := List.replicate m.commonCtx.buf.length 0
              blockSize := m.commonCtx.blockSize
              offset := 0 }
          algId := m.algId
          data := List.replicate m.data.length 0
          dataLen := 0
          pad := CRYPT_PADDING_NONE
          enc := m.enc }) ∧
    MODES_CFB_DeInitCtx.checked (some c) =
      (CRYPT_SUCCESS,
        some
          { algId := c.algId
            cfbCtx :=
              { modeCtx :=
                  { ciphCtx :=
                      c.cfbCtx.modeCtx.ciphMeth.cipherDeInitCtx c.cfbCtx.modeCtx.ciphCtx
                    ciphMeth := c.cfbCtx.modeCtx.ciphMeth
                    iv := List.replicate c.cfbCtx.modeCtx.iv.length 0
                    buf := List.replicate c.cfbCtx.modeCtx.buf.length 0
                    blockSize := 16
                    offset := 0 }
                feedbackBits := 128 }
            enc := c.enc }) ∧
    MODES_CFB_DeInitCtx.checked none = (CRYPT_NULL_INPUT, none) := by
  refine ⟨rfl, ?_, rfl⟩
  unfold MODES_CFB_DeInitCtx.checked MODES_CFB_DeInitCtx MODES_Clean
  simp only [hbs]
  rfl

/-- C34 at a concrete input: a cipher context with a cached block and a CFB context of
feedback width 8 with the IV `0, 1, ..., 15`. -/
theorem C34_witness :
    (({ algId := CRYPT_CIPHER_AES128_CFB, cfbCtx := demoCfbCtx 8, enc := true } :
      MODES_CFB_Ctx).cfbCtx.modeCtx.blockSize = 16) ∧
    (MODES_CFB_DeInitCtx.checked
        (some { algId := CRYPT_CIPHER_AES128_CFB, cfbCtx := demoCfbCtx 8, enc := true })).2
      = some
          { algId := CRYPT_CIPHER_AES128_CFB
            cfbCtx :=
              { modeCtx :=
                  { ciphCtx := [0x3C], ciphMeth := demoCfbMethod
                    iv := List.replicate 16 0, buf := List.replicate 16 0
                    blockSize := 16, offset := 0 }
                feedbackBits := 128 }
            enc := true } :=
  ⟨rfl,
    congrArg Prod.snd
      (C34_teardown_clears_state (demoCtx CRYPT_PADDING_PKCS7 true)
        { algId := CRYPT_CIPHER_AES128_CFB, cfbCtx := demoCfbCtx 8, enc := true } rfl).2.1⟩

/-- C33 (validation order of `MODES_CipherInitCtx`). A NULL `iv` gives `CRYPT_NULL_INPUT`, and
otherwise `ivLen != blockSize` gives `CRYPT_MODES_IVLEN_ERROR`; in both cases the context is
returned as it was whatever the key-setup function would do. When the key setup fails (it
changes the key context only), its status is returned and the IV register and the direction
flag are as before. When it succeeds, with an IV buffer that holds a block and `ivLen`
readable bytes behind `iv`, the status is `CRYPT_SUCCESS`, the first `blockSize` bytes of the
IV register are those of `iv` and the rest of the register is as before, `enc` is the
requested direction, and cache, `dataLen` and padding are as before. -/
theorem C33_init_validation_order (ctx : MODES_CipherCtx)
    (setSymKey : MODES_CipherCommonCtx → List UInt8 → RetCode × MODES_CipherCommonCtx)
    (key v : List UInt8) (ivLen : Nat) (enc : Bool)
    (hkey : (setSymKey ctx.commonCtx key).2 =
      { ctx.commonCtx with ciphCtx := (setSymKey ctx.commonCtx key).2.ciphCtx })
    (hiv : ctx.commonCtx.blockSize ≤ ctx.commonCtx.iv.length) (hv : ivLen ≤ v.length) :
    (∀ s k n e, MODES_CipherInitCtx ctx s k none n e = (CRYPT_NULL_INPUT, ctx)) ∧
    (∀ s k e, ivLen ≠ ctx.commonCtx.blockSize →
      MODES_CipherInitCtx ctx s k (some v) ivLen e = (CRYPT_MODES_IVLEN_ERROR, ctx)) ∧
    (ivLen = ctx.commonCtx.blockSize → (setSymKey ctx.commonCtx key).1 ≠ CRYPT_SUCCESS →
      (MODES_CipherInitCtx ctx setSymKey key (some v) ivLen enc).1 =
        (setSymKey ctx.commonCtx key).1 ∧
      (MODES_CipherInitCtx ctx setSymKey key (some v) ivLen enc).2.commonCtx.iv =
        ctx.commonCtx.iv ∧
      (MODES_CipherInitCtx ctx setSymKey key (some v) ivLen enc).2.enc = ctx.enc) ∧
    (ivLen = ctx.commonCtx.blockSize → (setSymKey ctx.commonCtx key).1 = CRYPT_SUCCESS →
      (MODES_CipherInitCtx ctx setSymKey key (some v) ivLen enc).1 = CRYPT_SUCCESS ∧
      (MODES_CipherInitCtx ctx setSymKey key (some v) ivLen enc).2.commonCtx.iv.take
          ctx.commonCtx.blockSize = v.take ivLen ∧
      (MODES_CipherInitCtx ctx setSymKey key (some v) ivLen enc).2.commonCtx.iv.drop
          ctx.commonCtx.blockSize = ctx.commonCtx.iv.drop ctx.commonCtx.blockSize ∧
      (MODES_CipherInitCtx ctx setSymKey key (some v) ivLen enc).2.enc = enc ∧
      (MODES_CipherInitCtx ctx setSymKey key (some v) ivLen enc).2.data = ctx.data ∧
      (MODES_CipherInitCtx ctx setSymKey key (some v) ivLen enc).2.dataLen = ctx.dataLen ∧
      (MODES_CipherInitCtx ctx setSymKey key (some v) ivLen enc).2.pad = ctx.pad) := by
  refine ⟨fun _ _ _ _ => rfl, ?_, ?_, ?_⟩
  · intro s k e hne
    unfold MODES_CipherInitCtx
    simp only []
    rw [if_pos hne]
  · intro hl hf
    have hE : MODES_CipherInitCtx ctx setSymKey key (some v) ivLen enc =
        ((setSymKey ctx.commonCtx key).1,
          { ctx with commonCtx := (setSymKey ctx.commonCtx key).2 }) := by
      unfold MODES_CipherInitCtx
      simp only []
      rw [if_neg (by simpa using hl), if_pos hf]
    rw [hE]
    refine ⟨rfl, ?_, rfl⟩
    show (setSymKey ctx.commonCtx key).2.iv = _
    rw [hkey]
  · intro hl hs
    have hivr : (setSymKey ctx.commonCtx key).2.iv = ctx.commonCtx.iv := by rw [hkey]
    have hE : MODES_CipherInitCtx ctx setSymKey key (some v) ivLen enc =
        ((setSymKey ctx.commonCtx key).1,
          { ctx with
            commonCtx :=
              if ivLen > 0 then
                { (setSymKey ctx.commonCtx key).2 with
                  iv := (memcpy_s (setSymKey ctx.commonCtx key).2.iv
                    (setSymKey ctx.commonCtx key).2.iv.length v ivLen).2 }
              else (setSymKey ctx.commonCtx key).2
            enc := enc }) := by
      unfold MODES_CipherInitCtx
      simp only []
      rw [if_neg (by simpa using hl), if_neg (by simpa using hs)]
    rw [hE]
    refine ⟨hs, ?_, ?_, rfl, rfl, rfl, rfl⟩
    · show (if ivLen > 0 then _ else _ : MODES_CipherCommonCtx).iv.take _ = _
      by_cases h0 : ivLen > 0
      · rw [if_pos h0]
        show (memcpy_s _ _ v ivLen).2.take _ = _
        rw [hivr, memcpy_s_ok ctx.commonCtx.iv v ivLen (by omega), ← hl]
        have hlen : (v.take ivLen).length = ivLen := by simp [hv]
        show (List.take ivLen v ++ _).take ivLen = _
        rw [List.take_left' hlen]
      · rw [if_neg h0]
        have hz : ivLen = 0 := by omega
        rw [← hl, hz]
        simp
    · show (if ivLen > 0 then _ else _ : MODES_CipherCommonCtx).iv.drop _ = _
      by_cases h0 : ivLen > 0
      · rw [if_pos h0]
        show (memcpy_s _ _ v ivLen).2.drop _ = _
        rw [hivr, memcpy_s_ok ctx.commonCtx.iv v ivLen (by omega), ← hl]
        have hlen : (v.take ivLen).length = ivLen := by simp [hv]
        show (List.take ivLen v ++ _).drop ivLen = _
        rw [List.drop_left' hlen, hlen]
      · rw [if_neg h0]
        rw [hivr]

/-- C33 at a concrete input: the toy context with a key setup that stores the first key
byte, and the IV `0, 1, ..., 15`. -/
theorem C33_witness :
    (MODES_CipherInitCtx (demoCtx CRYPT_PADDING_PKCS7 false)
        (fun c k => (CRYPT_SUCCESS, { c with ciphCtx := [k.getD 0 0] })) [0x3C]
        (some [0, 1, 2, 3, 4, 5, 6, 7, 8, 9, 10, 11, 12, 13, 14, 15]) 16 true).1 =
      CRYPT_SUCCESS ∧
    (MODES_CipherInitCtx (demoCtx CRYPT_PADDING_PKCS7 false)
        (fun c k => (CRYPT_SUCCESS, { c with ciphCtx := [k.getD 0 0] })) [0x3C]
        (some [0, 1, 2, 3, 4, 5, 6, 7, 8, 9, 10, 11, 12, 13, 14, 15]) 16
        true).2.commonCtx.iv.take 16 =
      [0, 1, 2, 3, 4, 5, 6, 7, 8, 9, 10, 11, 12, 13, 14, 15] ∧
    (MODES_CipherInitCtx (demoCtx CRYPT_PADDING_PKCS7 false)
        (fun c k => (CRYPT_SUCCESS, { c with ciphCtx := [k.getD 0 0] })) [0x3C]
        (some [0, 1, 2, 3, 4, 5, 6, 7, 8, 9, 10, 11, 12, 13, 14, 15]) 16 true).2.enc =
      true :=
  ⟨((C33_init_validation_order (demoCtx CRYPT_PADDING_PKCS7 false)
      (fun c k => (CRYPT_SUCCESS, { c with ciphCtx := [k.getD 0 0] })) [0x3C]
      [0, 1, 2, 3, 4, 5, 6, 7, 8, 9, 10, 11, 12, 13, 14, 15] 16 true rfl (by decide)
      (by decide)).2.2.2 rfl rfl).1,
   ((C33_init_validation_order (demoCtx CRYPT_PADDING_PKCS7 false)
      (fun c k => (CRYPT_SUCCESS, { c with ciphCtx := [k.getD 0 0] })) [0x3C]
      [0, 1, 2, 3, 4, 5, 6, 7, 8, 9, 10, 11, 12, 13, 14, 15] 16 true rfl (by decide)
      (by decide)).2.2.2 rfl rfl).2.1,
   ((C33_init_validation_order (demoCtx CRYPT_PADDING_PKCS7 false)
      (fun c k => (CRYPT_SUCCESS, { c with ciphCtx := [k.getD 0 0] })) [0x3C]
      [0, 1, 2, 3, 4, 5, 6, 7, 8, 9, 10, 11, 12, 13, 14, 15] 16 true rfl (by decide)
      (by decide)).2.2.2 rfl rfl).2.2.2.1⟩

theorem MODES_SetIv_ciphMeth (ctx : MODES_CipherCommonCtx) (val : Option (List UInt8))
    (len : Nat) : (MODES_SetIv ctx val len).2.ciphMeth = ctx.ciphMeth := by
  unfold MODES_SetIv
  cases val with
  | none => rfl
  | some v =>
    simp only []
    split_ifs <;> rfl

theorem feedbackOK_ctrl (meth : EAL_SymMethod) (c : MODES_CFB_Ctx) (opt : CRYPT_CipherCtrl)
    (val : Option CtrlVal) (len : Nat) (h : FeedbackOK meth c) :
    FeedbackOK meth (MODES_CFB_Ctrl c opt val len).2.1 := by
  obtain ⟨h1, h2, h3, h4⟩ := h
  cases opt with
  | CRYPT_CTRL_REINIT_STATUS =>
    exact ⟨(MODES_SetIv_invariant c.cfbCtx.modeCtx (val.map CtrlVal.bytes) len).1.trans h1,
      (MODES_SetIv_ciphMeth c.cfbCtx.modeCtx (val.map CtrlVal.bytes) len).trans h2, h3, h4⟩
  | CRYPT_CTRL_GET_IV => exact ⟨h1, h2, h3, h4⟩
  | CRYPT_CTRL_SET_FEEDBACKSIZE =>
    show FeedbackOK meth { c with cfbCtx := (SetFeedbackSize c.cfbCtx (val.map CtrlVal.word) len).2 }
    obtain ⟨r1, r2⟩ := SetFeedbackSize_result c.cfbCtx (val.map CtrlVal.word) len
    by_cases hs : (SetFeedbackSize c.cfbCtx (val.map CtrlVal.word) len).1 = CRYPT_SUCCESS
    · obtain ⟨v, hv, -, hv3, -, hv5⟩ :=
        (SetFeedbackSize_success_iff c.cfbCtx (val.map CtrlVal.word) len
          (by rw [h1]; decide)).mp hs
      have hr := (r1 hs v hv).2
      unfold FeedbackOK
      rw [hr]
      refine ⟨h1, h2, hv3, ?_⟩
      intro hm
      rcases hv5 with h5 | h5
      · rw [h2] at h5; exact absurd hm h5
      · exact h5
    · have hr := r2 hs
      unfold FeedbackOK
      rw [hr]
      exact ⟨h1, h2, h3, h4⟩
  | CRYPT_CTRL_GET_FEEDBACKSIZE => exact ⟨h1, h2, h3, h4⟩
  | CRYPT_CTRL_GET_BLOCKSIZE =>
    cases val with
    | none => exact ⟨h1, h2, h3, h4⟩
    | some v =>
      unfold MODES_CFB_Ctrl
      simp only []
      split_ifs <;> exact ⟨h1, h2, h3, h4⟩
  | other n => exact ⟨h1, h2, h3, h4⟩

theorem deinit_feedback (c : MODES_CFB_Ctx) (h1 : c.cfbCtx.modeCtx.blockSize = 16) :
    (MODES_CFB_DeInitCtx c).2.cfbCtx.feedbackBits = 128 ∧
    (MODES_CFB_DeInitCtx c).2.cfbCtx.modeCtx.blockSize = 16 ∧
    (MODES_CFB_DeInitCtx c).2.cfbCtx.modeCtx.ciphMeth = c.cfbCtx.modeCtx.ciphMeth := by
  unfold MODES_CFB_DeInitCtx MODES_Clean
  simp only [h1]
  refine ⟨?_, ?_, ?_⟩ <;> first | rfl | trivial

theorem feedbackOK_deinit (meth : EAL_SymMethod) (c : MODES_CFB_Ctx) (h : FeedbackOK meth c) :
    FeedbackOK meth (MODES_CFB_DeInitCtx c).2 := by
  obtain ⟨h1, h2, -, -⟩ := h
  obtain ⟨d1, d2, d3⟩ := deinit_feedback c h1
  exact ⟨d2, d3.trans h2, Or.inr (Or.inr d1), fun _ => d1⟩

theorem feedbackOK_calls (meth : EAL_SymMethod) (calls : List CfbCall) :
    ∀ c : MODES_CFB_Ctx, FeedbackOK meth c → FeedbackOK meth (cfbCalls c calls) := by
  induction calls with
  | nil => intro c h; exact h
  | cons a rest ih =>
    intro c h
    cases a with
    | ctrl opt val len => exact ih _ (feedbackOK_ctrl meth c opt val len h)
    | deinit => exact ih _ (feedbackOK_deinit meth c h)

theorem cfbCalls_append (a b : List CfbCall) :
    ∀ c : MODES_CFB_Ctx, cfbCalls c (a ++ b) = cfbCalls (cfbCalls c a) b := by
  induction a with
  | nil => intro c; rfl
  | cons x rest ih =>
    intro c
    cases x with
    | ctrl opt val len => exact ih _
    | deinit => exact ih _

/-- A context created for an AES or SM4 CFB id has feedback width 128 and satisfies the
feedback-width facts for its own method table, whose primitive is SM4 exactly for the SM4
id. -/
theorem feedbackOK_new (p : SymPrimitives) (sz : BufferSizes) (algId : CRYPT_CIPHER_AlgId)
    (c0 : MODES_CFB_Ctx)
    (halg : algId = CRYPT_CIPHER_AES128_CFB ∨ algId = CRYPT_CIPHER_AES192_CFB ∨
      algId = CRYPT_CIPHER_AES256_CFB ∨ algId = CRYPT_CIPHER_SM4_CFB)
    (hnew : MODES_CFB_NewCtx p sz true true algId = some c0) :
    c0.cfbCtx.feedbackBits = 128 ∧ FeedbackOK c0.cfbCtx.modeCtx.ciphMeth c0 ∧
    (algId = CRYPT_CIPHER_SM4_CFB → c0.cfbCtx.modeCtx.ciphMeth.algId = CRYPT_SYM_SM4) := by
  rcases halg with h | h | h | h <;> subst h <;>
    · have hc := (Option.some.inj hnew).symm
      subst hc
      exact ⟨rfl, ⟨rfl, rfl, Or.inr (Or.inr rfl), fun _ => rfl⟩, fun _ => by first | rfl | contradiction⟩

/-- C31 (feedback-width invariant). A context that `MODES_CFB_NewCtx` creates for an AES or
SM4 CFB id has `feedbackBits = 128`; after any sequence of `MODES_CFB_Ctrl` and
`MODES_CFB_DeInitCtx` calls, whatever their arguments and status, `feedbackBits` is 1, 8 or
128; right after a `MODES_CFB_DeInitCtx` it is 128; and for the SM4 id it is 128 after every
sequence of calls. -/
theorem C31_feedback_width_invariant (p : SymPrimitives) (sz : BufferSizes)
    (algId : CRYPT_CIPHER_AlgId) (c0 : MODES_CFB_Ctx) (calls : List CfbCall)
    (halg : algId = CRYPT_CIPHER_AES128_CFB ∨ algId = CRYPT_CIPHER_AES192_CFB ∨
      algId = CRYPT_CIPHER_AES256_CFB ∨ algId = CRYPT_CIPHER_SM4_CFB)
    (hnew : MODES_CFB_NewCtx p sz true true algId = some c0) :
    c0.cfbCtx.feedbackBits = 128 ∧
    ((cfbCalls c0 calls).cfbCtx.feedbackBits = 1 ∨
      (cfbCalls c0 calls).cfbCtx.feedbackBits = 8 ∨
      (cfbCalls c0 calls).cfbCtx.feedbackBits = 128) ∧
    (cfbCalls c0 (calls ++ [CfbCall.deinit])).cfbCtx.feedbackBits = 128 ∧
    (algId = CRYPT_CIPHER_SM4_CFB → (cfbCalls c0 calls).cfbCtx.feedbackBits = 128) := by
  obtain ⟨n1, n2, n3⟩ := feedbackOK_new p sz algId c0 halg hnew
  obtain ⟨k1, k2, k3, k4⟩ := feedbackOK_calls _ calls c0 n2
  refine ⟨n1, k3, ?_, fun hs => k4 (n3 hs)⟩
  rw [cfbCalls_append]
  exact (deinit_feedback _ k1).1

/-- C31 at a concrete input: an SM4 context on which the widths 8 and 1 are requested, then a
teardown, then the width 8 again. -/
theorem C31_witness :
    (MODES_CFB_NewCtx demoPrimitives demoSizes true true CRYPT_CIPHER_SM4_CFB).map
        (fun c => (cfbCalls c
          [CfbCall.ctrl CRYPT_CTRL_SET_FEEDBACKSIZE (some { bytes := [], word := 8 }) 4,
           CfbCall.ctrl CRYPT_CTRL_SET_FEEDBACKSIZE (some { bytes := [], word := 1 }) 4,
           CfbCall.deinit,
           CfbCall.ctrl CRYPT_CTRL_SET_FEEDBACKSIZE (some { bytes := [], word := 8 }) 4]
          ).cfbCtx.feedbackBits) = some 128 :=
  congrArg some
    ((C31_feedback_width_invariant demoPrimitives demoSizes CRYPT_CIPHER_SM4_CFB _
      [CfbCall.ctrl CRYPT_CTRL_SET_FEEDBACKSIZE (some { bytes := [], word := 8 }) 4,
       CfbCall.ctrl CRYPT_CTRL_SET_FEEDBACKSIZE (some { bytes := [], word := 1 }) 4,
       CfbCall.deinit,
       CfbCall.ctrl CRYPT_CTRL_SET_FEEDBACKSIZE (some { bytes := [], word := 8 }) 4]
      (Or.inr (Or.inr (Or.inr rfl))) rfl).2.2.2 rfl)

/-- `MODES_CFB_InitCtx` leaves the offset as it found it, whatever it returns. -/
theorem MODES_CFB_InitCtx_offset (c : MODES_CFB_Ctx) (key iv : List UInt8) (ivLen : Nat)
    (enc : Bool) :
    (MODES_CFB_InitCtx c key iv ivLen enc).2.cfbCtx.modeCtx.offset =
      c.cfbCtx.modeCtx.offset := by
  unfold MODES_CFB_InitCtx
  simp only []
  split_ifs <;> rfl

/-- `MODES_CipherInitCtx` leaves the offset as the key setup left it. -/
theorem MODES_CipherInitCtx_offset (ctx : MODES_CipherCtx)
    (setSymKey : MODES_CipherCommonCtx → List UInt8 → RetCode × MODES_CipherCommonCtx)
    (key : List UInt8) (iv : Option (List UInt8)) (ivLen : Nat) (enc : Bool)
    (hkey : (setSymKey ctx.commonCtx key).2.offset = ctx.commonCtx.offset) :
    (MODES_CipherInitCtx ctx setSymKey key iv ivLen enc).2.commonCtx.offset =
      ctx.commonCtx.offset := by
  unfold MODES_CipherInitCtx
  cases iv with
  | none => rfl
  | some v =>
    simp only []
    split_ifs <;> first | rfl | exact hkey

/-- C32 (evaluation at the failing input). A CFB context for AES-128 is created, initialised
with the IV `0, 1, ..., 15`, and used on five bytes, which leaves `offset = 5`. A second
`MODES_CFB_InitCtx` with the same key and the IV `0xA0, ..., 0xAF` returns `CRYPT_SUCCESS`
and leaves `offset = 5`; the following `MODES_CFB_Update` on `0x11, 0x22, 0x33` writes
`0xB4, 0x84, 0x94`, the message combined with the bytes 5..7 of the new IV itself, while a
freshly created context initialised with the same key and IV writes `0x82, 0xB0, 0xA2`. -/
theorem C32_reinit_keeps_stale_offset :
    demoReinitRun
        [0xA0, 0xA1, 0xA2, 0xA3, 0xA4, 0xA5, 0xA6, 0xA7, 0xA8, 0xA9, 0xAA, 0xAB, 0xAC, 0xAD,
          0xAE, 0xAF] [0x11, 0x22, 0x33] =
      some (CRYPT_SUCCESS, 5, CRYPT_SUCCESS, [0xB4, 0x84, 0x94]) ∧
    demoFreshRun
        [0xA0, 0xA1, 0xA2, 0xA3, 0xA4, 0xA5, 0xA6, 0xA7, 0xA8, 0xA9, 0xAA, 0xAB, 0xAC, 0xAD,
          0xAE, 0xAF] [0x11, 0x22, 0x33] =
      some (CRYPT_SUCCESS, [0x82, 0xB0, 0xA2]) := by
  constructor <;> decide

/-- On decrypt with padding NONE or ZEROS and a cache that is not empty, a successful
`MODES_CipherFinal` leaves in `*outLen` the capacity it was given. -/
theorem final_decrypt_keeps_capacity (T : BlockUpdate) (ctx : MODES_CipherCtx) (cap : Nat)
    (henc : ctx.enc = false)
    (hpad : ctx.pad = CRYPT_PADDING_NONE ∨ ctx.pad = CRYPT_PADDING_ZEROS)
    (hd : 0 < ctx.dataLen)
    (hcap : ¬ (ctx.pad ≠ CRYPT_PADDING_NONE ∧ cap < ctx.commonCtx.blockSize))
    (hs : (T ctx.commonCtx (ctx.data.take ctx.dataLen)).1 = CRYPT_SUCCESS) :
    (MODES_CipherFinal ctx T cap).1 = CRYPT_SUCCESS ∧
    (MODES_CipherFinal ctx T cap).2.2.1 = (T ctx.commonCtx (ctx.data.take ctx.dataLen)).2.2 ∧
    (MODES_CipherFinal ctx T cap).2.2.2 = cap := by
  rw [final_decrypt_eq T ctx cap henc hd hcap hs]
  rcases hpad with h | h <;> rw [h] <;> exact ⟨rfl, rfl, rfl⟩

/-- C38 (evaluation at the failing input). A decrypt context with ZEROS padding and block
size 16 is fed one ciphertext block: `MODES_CipherUpdate` holds the block back and writes
nothing. `MODES_CipherFinal` with the capacity 32 then returns `CRYPT_SUCCESS`, writes 16
bytes and leaves `*outLen = 32`; with the capacity 1000 it writes the same 16 bytes and
leaves `*outLen = 1000`. -/
theorem C38_final_outlen_keeps_capacity :
    (MODES_CipherUpdate (demoCtx CRYPT_PADDING_ZEROS false) (xorBlockUpdate 0x5A)
        (List.replicate 16 0x11) 16).1 = CRYPT_SUCCESS ∧
    (MODES_CipherUpdate (demoCtx CRYPT_PADDING_ZEROS false) (xorBlockUpdate 0x5A)
        (List.replicate 16 0x11) 16).2.1.dataLen = 16 ∧
    (MODES_CipherUpdate (demoCtx CRYPT_PADDING_ZEROS false) (xorBlockUpdate 0x5A)
        (List.replicate 16 0x11) 16).2.1.commonCtx.blockSize = 16 ∧
    (MODES_CipherFinal (MODES_CipherUpdate (demoCtx CRYPT_PADDING_ZEROS false)
        (xorBlockUpdate 0x5A) (List.replicate 16 0x11) 16).2.1 (xorBlockUpdate 0x5A) 32).1 =
      CRYPT_SUCCESS ∧
    (MODES_CipherFinal (MODES_CipherUpdate (demoCtx CRYPT_PADDING_ZEROS false)
        (xorBlockUpdate 0x5A) (List.replicate 16 0x11) 16).2.1 (xorBlockUpdate 0x5A)
        32).2.2 = (List.replicate 16 0x4B, 32) ∧
    (MODES_CipherFinal (MODES_CipherUpdate (demoCtx CRYPT_PADDING_ZEROS false)
        (xorBlockUpdate 0x5A) (List.replicate 16 0x11) 16).2.1 (xorBlockUpdate 0x5A) 1000).1 =
      CRYPT_SUCCESS ∧
    (MODES_CipherFinal (MODES_CipherUpdate (demoCtx CRYPT_PADDING_ZEROS false)
        (xorBlockUpdate 0x5A) (List.replicate 16 0x11) 16).2.1 (xorBlockUpdate 0x5A)
        1000).2.2 = (List.replicate 16 0x4B, 1000) := by
  refine ⟨?_, ?_, ?_, ?_, ?_, ?_, ?_⟩ <;> decide

/-- What `MODES_CipherNewCtx` hands back: an empty cache in a buffer of
`EAL_MAX_BLOCK_LENGTH` bytes and the block size of the method table, 1 or 16. -/
theorem MODES_CipherNewCtx_fresh (p : SymPrimitives) (sz : BufferSizes)
    (algId : CRYPT_CIPHER_AlgId) (c0 : MODES_CipherCtx)
    (hnew : MODES_CipherNewCtx p sz true true algId = some c0) :
    c0.dataLen = 0 ∧ c0.data.length = sz.EAL_MAX_BLOCK_LENGTH ∧
    (c0.commonCtx.blockSize = 1 ∨ c0.commonCtx.blockSize = 16) := by
  cases algId <;>
    first
    | (have hc := (Option.some.inj hnew).symm
       subst hc
       exact ⟨rfl, List.length_replicate _ _, by first | exact Or.inl rfl | exact Or.inr rfl⟩)
    | exact absurd hnew (by simp [ MODES_CipherNewCtx, MODES_GetSymMethod])

/-- `MODES_BlockPadding` on a cache of `n < bs` bytes in a buffer of at least `bs` bytes
writes inside the first `bs` bytes and behind the `n` cached bytes only. -/
theorem MODES_BlockPadding_frame (algId : CRYPT_CIPHER_AlgId) (padding : CRYPT_PaddingType)
    (bs n : Nat) (data : List UInt8) (hbs : bs < 256) (hn : n < bs)
    (hdata : bs ≤ data.length) :
    (MODES_BlockPadding algId padding bs data n).2.1.drop bs = data.drop bs ∧
    (MODES_BlockPadding algId padding bs data n).2.1.take n = data.take n ∧
    (MODES_BlockPadding algId padding bs data n).2.1.length = data.length := by
  by_cases h1 : padding = CRYPT_PADDING_NONE
  · subst h1
    unfold MODES_BlockPadding
    simp only []
    split_ifs <;> exact ⟨rfl, rfl, rfl⟩
  · by_cases h2 : padding = CRYPT_PADDING_MAX_COUNT
    · subst h2
      exact ⟨rfl, rfl, rfl⟩
    · rw [ MODES_BlockPadding_eq algId padding bs n data h1 h2 hbs hn hdata]
      have hp := specPadBytes_length padding (bs - n) (by omega) h1 h2
      have ht : (data.take n).length = n := by
        rw [List.length_take]; omega
      have hl : (data.take n ++ specPadBytes padding (bs - n)).length = bs := by
        rw [List.length_append, ht, hp]; omega
      refine ⟨?_, ?_, ?_⟩
      · show (data.take n ++ specPadBytes padding (bs - n) ++ data.drop bs).drop bs = _
        rw [List.drop_left' hl]
      · show (data.take n ++ specPadBytes padding (bs - n) ++ data.drop bs).take n = _
        rw [List.append_assoc, List.take_left' ht]
      · show (data.take n ++ specPadBytes padding (bs - n) ++ data.drop bs).length = _
        rw [List.length_append, hl, List.length_drop]
        omega

/-- C37 (cache bound maintained). Let `c0` be a context that `MODES_CipherNewCtx` creates,
with a cache buffer of at least one block, and `c1` a context that differs from `c0` in
anything but the cache, `dataLen` and the block size (the direction and the padding selector
have been set). After every run of successful `MODES_CipherUpdate` calls from `c1`, with a
block transform that succeeds, `dataLen <= blockSize`, and `dataLen < blockSize` whenever
`enc = true` or the padding is `CRYPT_PADDING_NONE`. Hence on encrypt the pad length
`blockSize - dataLen` that `MODES_BlockPadding` computes (in a `uint8_t`) is between 1 and
`blockSize`, and `MODES_BlockPadding` leaves the buffer length, the cached bytes and every
byte from index `blockSize` on as they were. -/
theorem C37_cache_bound_maintained (p : SymPrimitives) (sz : BufferSizes)
    (algId : CRYPT_CIPHER_AlgId) (c0 c1 : MODES_CipherCtx) (T : BlockUpdate)
    (chunks : List (List UInt8 × Nat))
    (hnew : MODES_CipherNewCtx p sz true true algId = some c0)
    (hsz : c0.commonCtx.blockSize ≤ sz.EAL_MAX_BLOCK_LENGTH)
    (hd : c1.data = c0.data) (hdl : c1.dataLen = c0.dataLen)
    (hb : c1.commonCtx.blockSize = c0.commonCtx.blockSize)
    (hT : BlockTransformSucceeds c0.commonCtx.blockSize T)
    (hin : ∀ ch ∈ chunks, ch.1.length < 2 ^ 32)
    (hs : (updateChunks T c1 chunks).1 = CRYPT_SUCCESS) :
    (updateChunks T c1 chunks).2.1.dataLen ≤
      (updateChunks T c1 chunks).2.1.commonCtx.blockSize ∧
    ((updateChunks T c1 chunks).2.1.enc = true ∨
        (updateChunks T c1 chunks).2.1.pad = CRYPT_PADDING_NONE →
      (updateChunks T c1 chunks).2.1.dataLen <
        (updateChunks T c1 chunks).2.1.commonCtx.blockSize) ∧
    ((updateChunks T c1 chunks).2.1.enc = true →
      1 ≤ sub8 (updateChunks T c1 chunks).2.1.commonCtx.blockSize
        (updateChunks T c1 chunks).2.1.dataLen ∧
      sub8 (updateChunks T c1 chunks).2.1.commonCtx.blockSize
          (updateChunks T c1 chunks).2.1.dataLen ≤
        (updateChunks T c1 chunks).2.1.commonCtx.blockSize ∧
      (updateChunks T c1 chunks).2.1.dataLen +
          sub8 (updateChunks T c1 chunks).2.1.commonCtx.blockSize
            (updateChunks T c1 chunks).2.1.dataLen =
        (updateChunks T c1 chunks).2.1.commonCtx.blockSize ∧
      (updateChunks T c1 chunks).2.1.commonCtx.blockSize ≤
        (updateChunks T c1 chunks).2.1.data.length ∧
      (MODES_BlockPadding (updateChunks T c1 chunks).2.1.algId
          (updateChunks T c1 chunks).2.1.pad
          (updateChunks T c1 chunks).2.1.commonCtx.blockSize
          (updateChunks T c1 chunks).2.1.data
          (updateChunks T c1 chunks).2.1.dataLen).2.1.drop
            (updateChunks T c1 chunks).2.1.commonCtx.blockSize =
        (updateChunks T c1 chunks).2.1.data.drop
          (updateChunks T c1 chunks).2.1.commonCtx.blockSize ∧
      (MODES_BlockPadding (updateChunks T c1 chunks).2.1.algId
          (updateChunks T c1 chunks).2.1.pad
          (updateChunks T c1 chunks).2.1.commonCtx.blockSize
          (updateChunks T c1 chunks).2.1.data
          (updateChunks T c1 chunks).2.1.dataLen).2.1.take
            (updateChunks T c1 chunks).2.1.dataLen =
        (updateChunks T c1 chunks).2.1.data.take (updateChunks T c1 chunks).2.1.dataLen ∧
      (MODES_BlockPadding (updateChunks T c1 chunks).2.1.algId
          (updateChunks T c1 chunks).2.1.pad
          (updateChunks T c1 chunks).2.1.commonCtx.blockSize
          (updateChunks T c1 chunks).2.1.data
          (updateChunks T c1 chunks).2.1.dataLen).2.1.length =
        (updateChunks T c1 chunks).2.1.data.length) := by
  obtain ⟨n1, n2, n3⟩ := MODES_CipherNewCtx_fresh p sz algId c0 hnew
  have hctx : CtxOK c1 :=
    ctxOK_of_fresh c1 (by rw [hb]; omega) (by rw [hb]; omega) (by rw [hb, hd, n2]; exact hsz)
      (by rw [hdl]; exact n1)
  obtain ⟨r1, r2, r3, r4⟩ :=
    updateChunks_ctxOK T chunks c1 (by rw [hb]; exact hT) hctx hin hs
  obtain ⟨k1, k2, k3, k4, k5⟩ := r1
  have hlt : (updateChunks T c1 chunks).2.1.enc = true ∨
        (updateChunks T c1 chunks).2.1.pad = CRYPT_PADDING_NONE →
      (updateChunks T c1 chunks).2.1.dataLen <
        (updateChunks T c1 chunks).2.1.commonCtx.blockSize := by
    intro h
    apply k5
    unfold defersLast
    rcases h with h | h
    · rw [h]; rfl
    · rw [h]; simp
  refine ⟨k4, hlt, ?_⟩
  intro he
  have hl := hlt (Or.inl he)
  have hsub := sub8_of_le (updateChunks T c1 chunks).2.1.commonCtx.blockSize
    (updateChunks T c1 chunks).2.1.dataLen (by omega) (by omega)
  obtain ⟨f1, f2, f3⟩ := MODES_BlockPadding_frame (updateChunks T c1 chunks).2.1.algId
    (updateChunks T c1 chunks).2.1.pad (updateChunks T c1 chunks).2.1.commonCtx.blockSize
    (updateChunks T c1 chunks).2.1.dataLen (updateChunks T c1 chunks).2.1.data k2 hl k3
  exact ⟨by omega, by omega, by omega, k3, f1, f2, f3⟩

/-- C37 at a concrete input: an AES-128-CBC context from `MODES_CipherNewCtx` with a 32-byte
cache buffer, set to encrypt with PKCS7, after the two chunks of `demoPlainChunks`. -/
theorem C37_witness :
    (MODES_CipherNewCtx demoPrimitives demoSizes true true CRYPT_CIPHER_AES128_CBC).map
        (fun c => decide ((updateChunks (xorBlockUpdate 0x5A)
          { c with pad := CRYPT_PADDING_PKCS7, enc := true } demoPlainChunks).2.1.dataLen <
          16)) = some true :=
  congrArg some
    (decide_eq_true
      ((C37_cache_bound_maintained demoPrimitives demoSizes CRYPT_CIPHER_AES128_CBC _
        { (Option.get (MODES_CipherNewCtx demoPrimitives demoSizes true true
            CRYPT_CIPHER_AES128_CBC) rfl) with pad := CRYPT_PADDING_PKCS7, enc := true }
        (xorBlockUpdate 0x5A) demoPlainChunks rfl (by decide) rfl rfl rfl
        (succeeds_of_ok 16 _ (xorBlockUpdate_ok 16 0x5A)) (by decide) (by decide)).2.1
        (Or.inl rfl)))

theorem cfb128BlockInput_length (S0 C : List UInt8) (hS0 : S0.length = 16) :
    (cfb128BlockInput S0 C).length = 16 := by
  unfold cfb128BlockInput
  split_ifs with h
  · exact hS0
  · rw [List.length_drop, List.length_take]
    omega

/-- A ciphertext byte that does not complete a block leaves the block input as it is. -/
theorem cfb128BlockInput_snoc (S0 C : List UInt8) (b : UInt8) (h : C.length % 16 ≠ 15) :
    cfb128BlockInput S0 (C ++ [b]) = cfb128BlockInput S0 C := by
  unfold cfb128BlockInput
  have hl : (C ++ [b]).length = C.length + 1 := by simp
  have hk : (C.length + 1) % 16 = C.length % 16 + 1 := by omega
  rw [hl, hk]
  by_cases h16 : C.length < 16
  · rw [if_pos h16, if_pos (by omega)]
  · rw [if_neg h16, if_neg (by omega)]
    have e : C.length + 1 - (C.length % 16 + 1) = C.length - C.length % 16 := by omega
    rw [e, List.take_append_of_le_length (by omega)]

/-- The register after the first ciphertext byte of a block. -/
theorem cfb128Register_snoc_start (E : List UInt8 → List UInt8) (S0 C : List UInt8)
    (b : UInt8) (hk : C.length % 16 = 0) :
    cfb128Register E S0 (C ++ [b]) = b :: (E (cfb128BlockInput S0 C)).drop 1 := by
  have hl : (C ++ [b]).length = C.length + 1 := by simp
  have hk1 : (C.length + 1) % 16 = 1 := by omega
  unfold cfb128Register
  rw [cfb128BlockInput_snoc S0 C b (by omega), hl, hk1, if_neg (by decide)]
  have e : C.length + 1 - 1 = C.length := by omega
  rw [e, List.drop_left' rfl]
  rfl

/-- The register after a further ciphertext byte of a block. -/
theorem cfb128Register_snoc_mid (E : List UInt8 → List UInt8) (S0 C : List UInt8)
    (b : UInt8) (hk : 0 < C.length % 16)
    (hE : (E (cfb128BlockInput S0 C)).length = 16) :
    cfb128Register E S0 (C ++ [b]) =
      C.drop (C.length - C.length % 16) ++
        b :: (E (cfb128BlockInput S0 C)).drop (C.length % 16 + 1) := by
  have hl : (C ++ [b]).length = C.length + 1 := by simp
  by_cases h15 : C.length % 16 = 15
  · have hk1 : (C.length + 1) % 16 = 0 := by omega
    have hd : (E (cfb128BlockInput S0 C)).drop (C.length % 16 + 1) = [] :=
      List.drop_eq_nil_of_le (by omega)
    unfold cfb128Register
    rw [hl, hk1, if_pos rfl, hd]
    unfold cfb128BlockInput
    rw [hl, hk1, if_neg (by omega)]
    have e1 : C.length + 1 - 0 = (C ++ [b]).length := by omega
    have e2 : (C ++ [b]).length - 16 = C.length - C.length % 16 := by omega
    rw [e1, List.take_length, e2, List.drop_append_of_le_length (by omega)]
  · have hk1 : (C.length + 1) % 16 = C.length % 16 + 1 := by omega
    unfold cfb128Register
    rw [cfb128BlockInput_snoc S0 C b h15, hl, hk1, if_neg (by omega)]
    have e : C.length + 1 - (C.length % 16 + 1) = C.length - C.length % 16 := by omega
    rw [e, List.drop_append_of_le_length (by omega), List.append_assoc]
    rfl

/-- One byte step keeps the state of a full-block CFB context in line with the ciphertext:
the offset moves on by one modulo 16 and the register is the reference register of the
ciphertext with the new ciphertext byte appended (the output byte on encrypt, the input
byte on decrypt). -/
theorem cfb128_step (E : List UInt8 → List UInt8) (S0 : List UInt8)
    (ctx0 c : MODES_CipherCFBCtx) (C : List UInt8) (enc : Bool) (x : UInt8)
    (hfb : ctx0.feedbackBits = 128) (hbs : ctx0.modeCtx.blockSize = 16)
    (hiv : 16 ≤ ctx0.modeCtx.iv.length) (hS0 : S0.length = 16)
    (hE : ∀ y, E y = (ctx0.modeCtx.ciphMeth.encryptBlock ctx0.modeCtx.ciphCtx y).2)
    (hEl : ∀ y : List UInt8, y.length = 16 → (E y).length = 16)
    (h : Cfb128State E S0 ctx0 c C) :
    Cfb128State E S0 ctx0 (cfbByteStep enc c x).1
      (C ++ [if enc then (cfbByteStep enc c x).2 else x]) := by
  obtain ⟨⟨s1, s2, s3, s4, s5⟩, hoff, hreg⟩ := h
  have hl : ∀ b : UInt8, (C ++ [b]).length = C.length + 1 := fun b => by simp
  have hbi := cfb128BlockInput_length S0 C hS0
  have hEbi := hEl _ hbi
  have hfb8 : c.feedbackBits >>> 3 = 16 := by rw [s1, hfb]; rfl
  have hcbs : c.modeCtx.blockSize = 16 := by rw [s2, hbs]
  by_cases hk : C.length % 16 = 0
  · -- a new block starts
    have ho : ¬ (c.modeCtx.offset > 0) := by omega
    have hreg0 : c.modeCtx.iv.take 16 = cfb128BlockInput S0 C := by
      rw [hreg]; unfold cfb128Register; rw [if_pos hk]
    have htmp : (cfbEncryptIv c).2 = E (cfb128BlockInput S0 C) := by
      unfold cfbEncryptIv
      rw [hcbs, hreg0, s3, s4, hE]
    have hstep : cfbByteStep enc c x =
        ({ c with modeCtx := { c.modeCtx with
            iv := cfbRegister c.modeCtx.iv (cfbEncryptIv c).2
              [if enc then x ^^^ (cfbEncryptIv c).2.getD 0 0 else x]
              c.modeCtx.blockSize (c.feedbackBits >>> 3),
            buf := memcpyAt c.modeCtx.buf 0 (cfbEncryptIv c).2,
            offset := (c.modeCtx.blockSize - (c.feedbackBits >>> 3) + 1) %
              c.modeCtx.blockSize } },
          x ^^^ (cfbEncryptIv c).2.getD 0 0) := by
      unfold cfbByteStep
      rw [if_neg ho]
    rw [hstep]
    have hcb : (if enc then x ^^^ (cfbEncryptIv c).2.getD 0 0 else x) =
        (if enc then
          ((({ c with modeCtx := { c.modeCtx with
            iv := cfbRegister c.modeCtx.iv (cfbEncryptIv c).2
              [if enc then x ^^^ (cfbEncryptIv c).2.getD 0 0 else x]
              c.modeCtx.blockSize (c.feedbackBits >>> 3),
            buf := memcpyAt c.modeCtx.buf 0 (cfbEncryptIv c).2,
            offset := (c.modeCtx.blockSize - (c.feedbackBits >>> 3) + 1) %
              c.modeCtx.blockSize } } : MODES_CipherCFBCtx),
          x ^^^ (cfbEncryptIv c).2.getD 0 0) : MODES_CipherCFBCtx × UInt8).2 else x) := rfl
    rw [← hcb]
    have hivlen : (cfbRegister c.modeCtx.iv (cfbEncryptIv c).2
        [if enc then x ^^^ (cfbEncryptIv c).2.getD 0 0 else x] 16 16).length =
        c.modeCtx.iv.length := by
      unfold cfbRegister
      simp only [List.length_append, List.length_take, List.length_drop, List.length_cons,
        List.length_nil, htmp, hEbi]
      omega
    refine ⟨⟨s1, s2, s3, s4, ?_⟩, ?_, ?_⟩
    · show (cfbRegister c.modeCtx.iv (cfbEncryptIv c).2 _ c.modeCtx.blockSize
        (c.feedbackBits >>> 3)).length = _
      rw [hcbs, hfb8, hivlen, s5]
    · show (c.modeCtx.blockSize - (c.feedbackBits >>> 3) + 1) % c.modeCtx.blockSize = _
      rw [hcbs, hfb8, hl]
      omega
    · show (cfbRegister c.modeCtx.iv (cfbEncryptIv c).2 _ c.modeCtx.blockSize
        (c.feedbackBits >>> 3)).take 16 = _
      rw [hcbs, hfb8, cfb128Register_snoc_start E S0 C _ hk, htmp]
      unfold cfbRegister
      have e1 : (List.drop 16 c.modeCtx.iv).take (16 - 16) = [] := by simp
      have e2 : ((E (cfb128BlockInput S0 C)).drop
          [if enc then x ^^^ (E (cfb128BlockInput S0 C)).getD 0 0 else x].length).take
          (16 - [if enc then x ^^^ (E (cfb128BlockInput S0 C)).getD 0 0 else x].length) =
          (E (cfb128BlockInput S0 C)).drop 1 := by
        show ((E (cfb128BlockInput S0 C)).drop 1).take 15 = _
        apply List.take_of_length_le
        rw [List.length_drop]; omega
      rw [e1, e2, List.nil_append]
      have e3 : ([if enc then x ^^^ (E (cfb128BlockInput S0 C)).getD 0 0 else x] ++
          (E (cfb128BlockInput S0 C)).drop 1).length = 16 := by
        rw [List.length_append, List.length_drop, hEbi]; rfl
      rw [List.take_left' e3]
      rfl
  · -- inside a block
    have ho : c.modeCtx.offset > 0 := by omega
    have hreg1 : c.modeCtx.iv.take 16 =
        C.drop (C.length - C.length % 16) ++
          (E (cfb128BlockInput S0 C)).drop (C.length % 16) := by
      rw [hreg]; unfold cfb128Register; rw [if_neg hk]
    have hstep : cfbByteStep enc c x =
        ({ c with modeCtx := { c.modeCtx with
            iv := c.modeCtx.iv.set c.modeCtx.offset
              (if enc then c.modeCtx.iv.getD c.modeCtx.offset 0 ^^^ x else x),
            offset := (c.modeCtx.offset + 1) % c.modeCtx.blockSize % 2 ^ 8 } },
          c.modeCtx.iv.getD c.modeCtx.offset 0 ^^^ x) := by
      unfold cfbByteStep
      rw [if_pos ho]
    rw [hstep]
    have hcb : (if enc then c.modeCtx.iv.getD c.modeCtx.offset 0 ^^^ x else x) =
        (if enc then
          ((({ c with modeCtx := { c.modeCtx with
            iv := c.modeCtx.iv.set c.modeCtx.offset
              (if enc then c.modeCtx.iv.getD c.modeCtx.offset 0 ^^^ x else x),
            offset := (c.modeCtx.offset + 1) % c.modeCtx.blockSize % 2 ^ 8 } } :
              MODES_CipherCFBCtx),
          c.modeCtx.iv.getD c.modeCtx.offset 0 ^^^ x) : MODES_CipherCFBCtx × UInt8).2
          else x) := rfl
    rw [← hcb]
    refine ⟨⟨s1, s2, s3, s4, ?_⟩, ?_, ?_⟩
    · show (c.modeCtx.iv.set _ _).length = _
      rw [List.length_set, s5]
    · show (c.modeCtx.offset + 1) % c.modeCtx.blockSize % 2 ^ 8 = _
      rw [hcbs, hl, hoff]
      omega
    · show (c.modeCtx.iv.set _ _).take 16 = _
      rw [List.set_take, cfb128Register_snoc_mid E S0 C _ (by omega) hEbi, hoff,
        List.set_eq_take_append_cons_drop]
      have hlen16 : (c.modeCtx.iv.take 16).length = 16 := by
        rw [List.length_take, s5]; omega
      rw [if_pos (by rw [hlen16]; omega), hreg1]
      have hCb : (C.drop (C.length - C.length % 16)).length = C.length % 16 := by
        rw [List.length_drop]; omega
      rw [List.take_left' hCb]
      have hd : (C.drop (C.length - C.length % 16) ++
          (E (cfb128BlockInput S0 C)).drop (C.length % 16)).drop (C.length % 16 + 1) =
          (E (cfb128BlockInput S0 C)).drop (C.length % 16 + 1) := by
        have d1 : (C.drop (C.length - C.length % 16)).drop (C.length % 16 + 1) = [] :=
          List.drop_eq_nil_of_le (by rw [hCb]; omega)
        have d2 : ((E (cfb128BlockInput S0 C)).drop (C.length % 16)).drop
            (C.length % 16 + 1 - C.length % 16) =
            (E (cfb128BlockInput S0 C)).drop (C.length % 16 + 1) := by
          have e : C.length % 16 + 1 - C.length % 16 = 1 := by omega
          rw [e, List.drop_drop]
        rw [List.drop_append_eq_append_drop, hCb, d1, d2, List.nil_append]
      rw [hd]

/-- A run of byte steps keeps the state in line with the ciphertext, and writes one byte
per input byte. -/
theorem cfb128_steps (E : List UInt8 → List UInt8) (S0 : List UInt8)
    (ctx0 : MODES_CipherCFBCtx) (enc : Bool)
    (hfb : ctx0.feedbackBits = 128) (hbs : ctx0.modeCtx.blockSize = 16)
    (hiv : 16 ≤ ctx0.modeCtx.iv.length) (hS0 : S0.length = 16)
    (hE : ∀ y, E y = (ctx0.modeCtx.ciphMeth.encryptBlock ctx0.modeCtx.ciphCtx y).2)
    (hEl : ∀ y : List UInt8, y.length = 16 → (E y).length = 16) (xs : List UInt8) :
    ∀ (c : MODES_CipherCFBCtx) (C : List UInt8), Cfb128State E S0 ctx0 c C →
      Cfb128State E S0 ctx0 (cfbSteps enc c xs).1
        (C ++ (if enc then (cfbSteps enc c xs).2 else xs)) ∧
      (cfbSteps enc c xs).2.length = xs.length := by
  induction xs with
  | nil =>
    intro c C h
    rw [cfbSteps_nil]
    have e : C ++ (if enc then ([] : List UInt8) else []) = C := by cases enc <;> simp
    exact ⟨by rw [e]; exact h, rfl⟩
  | cons x r ih =>
    intro c C h
    have h1 := cfb128_step E S0 ctx0 c C enc x hfb hbs hiv hS0 hE hEl h
    obtain ⟨h2, h3⟩ := ih _ _ h1
    rw [cfbSteps_cons]
    have e : C ++ (if enc then
          (cfbByteStep enc c x).2 :: (cfbSteps enc (cfbByteStep enc c x).1 r).2
        else x :: r) =
        (C ++ [if enc then (cfbByteStep enc c x).2 else x]) ++
          (if enc then (cfbSteps enc (cfbByteStep enc c x).1 r).2 else r) := by
      cases enc <;> simp
    refine ⟨?_, ?_⟩
    · show Cfb128State E S0 ctx0 (cfbSteps enc (cfbByteStep enc c x).1 r).1
        (C ++ (if enc then
          (cfbByteStep enc c x).2 :: (cfbSteps enc (cfbByteStep enc c x).1 r).2
        else x :: r))
      rw [e]
      exact h2
    · show ((cfbByteStep enc c x).2 :: (cfbSteps enc (cfbByteStep enc c x).1 r).2).length = _
      rw [List.length_cons, List.length_cons, h3]

/-- A context in a full-block CFB state is well formed for the byte functions. -/
theorem cfbOK_of_state (E : List UInt8 → List UInt8) (S0 : List UInt8)
    (ctx0 c : MODES_CipherCFBCtx) (C : List UInt8)
    (hfb : ctx0.feedbackBits = 128) (hbs : ctx0.modeCtx.blockSize = 16)
    (hiv : 16 ≤ ctx0.modeCtx.iv.length) (h : Cfb128State E S0 ctx0 c C) : CfbOK c := by
  obtain ⟨⟨s1, s2, s3, s4, s5⟩, hoff, -⟩ := h
  unfold CfbOK
  rw [s1, s2, s5, hfb, hbs, hoff]
  exact ⟨by decide, by decide, by decide, hiv, Nat.mod_lt _ (by decide)⟩

/-- Successive calls of the byte functions on a context in a full-block CFB state all return
`CRYPT_SUCCESS`, process every byte, and keep the state in line with the ciphertext. -/
theorem cfb128_calls (E : List UInt8 → List UInt8) (S0 : List UInt8)
    (ctx0 : MODES_CipherCFBCtx)
    (hfb : ctx0.feedbackBits = 128) (hbs : ctx0.modeCtx.blockSize = 16)
    (hiv : 16 ≤ ctx0.modeCtx.iv.length) (hS0 : S0.length = 16)
    (hE : ∀ y, E y = (ctx0.modeCtx.ciphMeth.encryptBlock ctx0.modeCtx.ciphCtx y).2)
    (hEl : ∀ y : List UInt8, y.length = 16 → (E y).length = 16) (hE0 : EncryptOK ctx0)
    (calls : List (Bool × List UInt8)) :
    ∀ (c : MODES_CipherCFBCtx) (C : List UInt8), Cfb128State E S0 ctx0 c C →
      ∃ c2 C2, cfbByteCalls c calls = some (CRYPT_SUCCESS, c2, C2) ∧
        C2.length = (calls.map (fun call => call.2.length)).sum ∧
        Cfb128State E S0 ctx0 c2 (C ++ C2) := by
  induction calls with
  | nil =>
    intro c C h
    exact ⟨c, [], rfl, rfl, by rw [List.append_nil]; exact h⟩
  | cons call rest ih =>
    intro c C h
    obtain ⟨enc, inp⟩ := call
    have hok := cfbOK_of_state E S0 ctx0 c C hfb hbs hiv h
    have hEc := encryptOK_of_same ctx0 c h.1 hE0
    obtain ⟨b1, -, -⟩ := CFB_Bytes_spec enc c inp hok hEc
    obtain ⟨t1, t2⟩ := cfb128_steps E S0 ctx0 enc hfb hbs hiv hS0 hE hEl inp c C h
    obtain ⟨c2, C2, r1, r2, r3⟩ := ih _ _ t1
    have hcall : (if enc then MODES_CFB_BytesEncrypt c inp else MODES_CFB_BytesDecrypt c inp) =
        some (CRYPT_SUCCESS, (cfbSteps enc c inp).1, (cfbSteps enc c inp).2) := by
      rw [← b1]
      cases enc <;> rfl
    refine ⟨c2, (if enc then (cfbSteps enc c inp).2 else inp) ++ C2, ?_, ?_, ?_⟩
    · rw [cfbByteCalls]
      simp only [hcall, ne_eq, not_true_eq_false, if_false, r1]
    · rw [List.map_cons, List.sum_cons, List.length_append, r2]
      congr 1
      cases enc
      · rfl
      · exact t2
    · rw [← List.append_assoc]
      exact r3

/-- C39 (CFB offset tracks the stream position). For feedback width 128 bits and block size
16, on a context with offset 0 whose block-encrypt function succeeds, every sequence of
`MODES_CFB_BytesEncrypt` and `MODES_CFB_BytesDecrypt` calls returns `CRYPT_SUCCESS`; with `C`
the ciphertext of the bytes processed (as many bytes as all the inputs together), the offset
is `C.length % 16` and the first 16 bytes of the IV register are the reference register
`cfb128Register`. When the offset is `k > 0`, the bytes `0 .. k-1` of the register are the
last `k` ciphertext bytes (those of the current block) and the bytes `k .. 15` are the bytes
`k .. 15` of the keystream block of the current block, the encryption of the register at
the start of the block. -/
theorem C39_cfb_offset_tracks_position (ctx : MODES_CipherCFBCtx)
    (calls : List (Bool × List UInt8))
    (hfb : ctx.feedbackBits = 128) (hbs : ctx.modeCtx.blockSize = 16)
    (hiv : 16 ≤ ctx.modeCtx.iv.length) (hoff : ctx.modeCtx.offset = 0)
    (hE : EncryptOK ctx) :
    ∃ c C, cfbByteCalls ctx calls = some (CRYPT_SUCCESS, c, C) ∧
      C.length = (calls.map (fun call => call.2.length)).sum ∧
      c.modeCtx.offset = C.length % 16 ∧
      c.modeCtx.iv.take 16 =
        cfb128Register
          (fun y => (ctx.modeCtx.ciphMeth.encryptBlock ctx.modeCtx.ciphCtx y).2)
          (ctx.modeCtx.iv.take 16) C ∧
      (0 < c.modeCtx.offset →
        c.modeCtx.iv.take c.modeCtx.offset = C.drop (C.length - c.modeCtx.offset) ∧
        (c.modeCtx.iv.take 16).drop c.modeCtx.offset =
          ((ctx.modeCtx.ciphMeth.encryptBlock ctx.modeCtx.ciphCtx
            (cfb128BlockInput (ctx.modeCtx.iv.take 16) C)).2).drop c.modeCtx.offset) := by
  have hS0 : (ctx.modeCtx.iv.take 16).length = 16 := by
    rw [List.length_take]; omega
  have hEl : ∀ y : List UInt8, y.length = 16 →
      ((fun y => (ctx.modeCtx.ciphMeth.encryptBlock ctx.modeCtx.ciphCtx y).2) y).length =
        16 := by
    intro y hy
    have := (hE y (by rw [hbs]; exact hy)).2
    rw [hbs] at this
    exact this
  have h0 : Cfb128State (fun y => (ctx.modeCtx.ciphMeth.encryptBlock ctx.modeCtx.ciphCtx y).2)
      (ctx.modeCtx.iv.take 16) ctx ctx [] :=
    ⟨⟨rfl, rfl, rfl, rfl, rfl⟩, hoff, rfl⟩
  obtain ⟨c, C, r1, r2, r3⟩ :=
    cfb128_calls _ _ ctx hfb hbs hiv hS0 (fun _ => rfl) hEl hE calls ctx [] h0
  rw [List.nil_append] at r3
  obtain ⟨-, o1, o2⟩ := r3
  refine ⟨c, C, r1, r2, o1, o2, ?_⟩
  intro hpos
  rw [o1] at hpos ⊢
  have hreg : c.modeCtx.iv.take 16 =
      C.drop (C.length - C.length % 16) ++
        ((ctx.modeCtx.ciphMeth.encryptBlock ctx.modeCtx.ciphCtx
          (cfb128BlockInput (ctx.modeCtx.iv.take 16) C)).2).drop (C.length % 16) := by
    rw [o2]
    unfold cfb128Register
    rw [if_neg (by omega)]
  have hCb : (C.drop (C.length - C.length % 16)).length = C.length % 16 := by
    rw [List.length_drop]; omega
  constructor
  · have e : c.modeCtx.iv.take (C.length % 16) =
        (c.modeCtx.iv.take 16).take (C.length % 16) := by
      rw [List.take_take, Nat.min_eq_left (by omega)]
    rw [e, hreg, List.take_left' hCb]
  · rw [hreg, List.drop_left' hCb]

/-- C39 at a concrete input: the toy CFB context with full-block feedback, an encrypt call on
five bytes followed by a decrypt call on fourteen bytes. -/
theorem C39_witness :
    ∃ c C, cfbByteCalls (demoCfbCtx 128)
        [(true, [1, 2, 3, 4, 5]),
          (false, [6, 7, 8, 9, 10, 11, 12, 13, 14, 15, 16, 17, 18, 19])] =
        some (CRYPT_SUCCESS, c, C) ∧
      C.length = 19 ∧ c.modeCtx.offset = C.length % 16 :=
  (C39_cfb_offset_tracks_position (demoCfbCtx 128)
    [(true, [1, 2, 3, 4, 5]), (false, [6, 7, 8, 9, 10, 11, 12, 13, 14, 15, 16, 17, 18, 19])]
    rfl rfl (by decide) rfl (demoCfbCtx_encryptOK 128)).elim
    (fun c h => h.elim (fun C hC => ⟨c, C, hC.1, hC.2.1, hC.2.2.1⟩))
